import Mathlib

/-!
# hmmcons_fast: k-mer HMM consensus engine

A shallow embedding of `src/hmmcons_fast.c` and the properties proved about it.

Conventions of the embedding.

* A C string / `std::string` is a `List Char`; reading the byte at the end of the
  string gives the terminator `NUL`.  Every string of the program is built from a
  C string, so it holds no `NUL` byte itself.
* `uint32_t` values are natural numbers; where the source relies on unsigned
  wrap-around (event indices, k-mer indices of the decoder) the reduction modulo
  `2^32` is written out (`u32`).  String sizes are below `2^32`, and `size() - K + 1`
  is the subtraction of natural numbers: it agrees with the source for strings of
  at least `K` bytes.  The segment driver hands composed alternates of any length to
  `kLCS`; there the function is `kLCS_checked`, with the 32-bit counts, the 32-bit
  cell index and the bounds of the allocation and of the strings.
* A `float` with an integer value is that integer; the conversion of an `int` to
  `float` and the sum of two `float`s round to the nearest `float`, ties to even
  (`f32_of_int`, `f32_add`).
* A `char` used as a table index is signed, as on x86-64: a byte below `0x80` indexes the table
  by its value, a byte of `0x80` or more is a negative index, outside the table (`char_index`,
  `base_rank_at`).  The rank functions of the engine (`base_rank`, `kmer_rank`, `rc_kmer_rank`,
  `get_rank`) are the source's on strings of bytes below `0x80`.
* A `double` is a value of a scalar type `R` with the operations of a `DoubleOps R`.
  What depends on the values of the numbers is stated over `realOps`: exact arithmetic on
  the reals with the two infinities and NaN (`XReal`), without rounding.
* A function that can abort (a failing `assert`, `exit`, an uncaught exception, an
  access to an element that does not exist) returns an `Option`; `none` is the abort.
* The diagnostic output (`printf`) is left out.
-/

namespace Hmmcons

/-! ## Constants -/

/-- The k-mer length `K`. -/
def K : Nat := 5

/-- The constant `KHMM_MAX_JUMP`. -/
def KHMM_MAX_JUMP : Nat := 5

/-- The string terminator. -/
def NUL : Char := Char.ofNat 0

/-- Reduction of an integer to a `uint32_t`. -/
def u32 (x : Int) : Nat := (x % 4294967296).toNat

/-- The byte `str[i]` of a C string: the terminator at the end of the string. -/
def charAt (str : List Char) (i : Nat) : Char := str.getD i NUL

/-! ## K-mer ranks -/

/-- The table `base_rank[256]`. -/
def base_rank_table : List Nat := [
    0,0,0,0,0,0,0,0,0,0,0,0,0,0,0,0,
    0,0,0,0,0,0,0,0,0,0,0,0,0,0,0,0,
    0,0,0,0,0,0,0,0,0,0,0,0,0,0,0,0,
    0,0,0,0,0,0,0,0,0,0,0,0,0,0,0,0,
    0,0,0,1,0,0,0,2,0,0,0,0,0,0,0,0,
    0,0,0,0,3,0,0,0,0,0,0,0,0,0,0,0,
    0,0,0,0,0,0,0,0,0,0,0,0,0,0,0,0,
    0,0,0,0,0,0,0,0,0,0,0,0,0,0,0,0,
    0,0,0,0,0,0,0,0,0,0,0,0,0,0,0,0,
    0,0,0,0,0,0,0,0,0,0,0,0,0,0,0,0,
    0,0,0,0,0,0,0,0,0,0,0,0,0,0,0,0,
    0,0,0,0,0,0,0,0,0,0,0,0,0,0,0,0,
    0,0,0,0,0,0,0,0,0,0,0,0,0,0,0,0,
    0,0,0,0,0,0,0,0,0,0,0,0,0,0,0,0,
    0,0,0,0,0,0,0,0,0,0,0,0,0,0,0,0,
    0,0,0,0,0,0,0,0,0,0,0,0,0,0,0,0]

/-- The lookup `base_rank[c]` for a byte `c` below `0x80`, where the index is the byte value and
lies in the table (`base_rank_at` is the lookup with the bounds of the table, for every byte). -/
def base_rank (c : Char) : Nat := base_rank_table.getD c.toNat 0

/-- The function `kmer_rank(str, K)` on bytes below `0x80`: the loop
`rank |= base_rank[str[i]] << 2 * (K - i - 1)` for `i = 0 .. K-1` (`kmer_rank_checked` is the
function on all bytes). -/
def kmer_rank (str : List Char) (K : Nat) : Nat :=
  (List.range K).foldl
    (fun rank i => (rank ||| (base_rank (charAt str i) <<< (2 * (K - i - 1)))) % 4294967296) 0

/-- The function `rc_kmer_rank(str, K)` on bytes below `0x80`: the loop
`rank |= (3 - base_rank[str[i]]) << 2 * i` for `i = K-1` down to `0` (`rc_kmer_rank_checked` is
the function on all bytes). -/
def rc_kmer_rank (str : List Char) (K : Nat) : Nat :=
  (List.range K).reverse.foldl
    (fun rank i => (rank ||| ((3 - base_rank (charAt str i)) <<< (2 * i))) % 4294967296) 0

/-- The core of `get_rank(state, s, ki)`, on the `rc` flag of the read-state:
`p = s + ki`, then `kmer_rank(p, K)` or `rc_kmer_rank(p, K)`. -/
def get_rank_rc (rc : Bool) (s : List Char) (ki : Nat) : Nat :=
  let p := s.drop ki
  if !rc then kmer_rank p K else rc_kmer_rank p K

/-- The index that the plain `char` `c` gives in `base_rank[str[i]]`.  The type `char` is signed
on x86-64, the platform the program is built for: a byte of `0x80` or more is a negative index. -/
def char_index (c : Char) : Int :=
  if c.toNat % 256 < 128 then ((c.toNat % 256 : Nat) : Int)
  else ((c.toNat % 256 : Nat) : Int) - 256

/-- The lookup `base_rank[str[i]]` within the bounds of the table: `none` when the index is
outside the table. -/
def base_rank_at (c : Char) : Option Nat :=
  if 0 ≤ char_index c then base_rank_table[(char_index c).toNat]? else none

/-- The function `kmer_rank(str, K)` with the lookups within the bounds of the table. -/
def kmer_rank_checked (str : List Char) (K : Nat) : Option Nat :=
  (List.range K).foldlM
    (fun rank i => (base_rank_at (charAt str i)).map fun b =>
      (rank ||| (b <<< (2 * (K - i - 1)))) % 4294967296) 0

/-- The function `rc_kmer_rank(str, K)` with the lookups within the bounds of the table. -/
def rc_kmer_rank_checked (str : List Char) (K : Nat) : Option Nat :=
  (List.range K).reverse.foldlM
    (fun rank i => (base_rank_at (charAt str i)).map fun b =>
      (rank ||| ((3 - b) <<< (2 * i))) % 4294967296) 0

/-- The core of `get_rank(state, s, ki)` with the lookups within the bounds of the table. -/
def get_rank_checked (rc : Bool) (s : List Char) (ki : Nat) : Option Nat :=
  let p := s.drop ki
  if !rc then kmer_rank_checked p K else rc_kmer_rank_checked p K

/-! ## Doubles -/

/-- The `double` arithmetic the engine uses, over a scalar type `R`.  No law is assumed of the
operations: what is proved for every `DoubleOps R` holds of IEEE doubles (with their infinities
and NaN) as well as of exact real arithmetic. -/
structure DoubleOps (R : Type) where
  /-- a numeric literal or the conversion of an integer -/
  lit : ℚ → R
  /-- the value `-INFINITY` -/
  neg_inf : R
  /-- the value `INFINITY` -/
  inf : R
  add : R → R → R
  sub : R → R → R
  mul : R → R → R
  div : R → R → R
  log : R → R
  exp : R → R
  fabs : R → R
  /-- the comparison `a < b` -/
  lt : R → R → Bool
  /-- the comparison `a <= b` -/
  le : R → R → Bool
  /-- the comparison `a == b` -/
  eq : R → R → Bool

/-! ## Data model -/

/-- Modelled from the spec: one k-mer state of the pore model (`hmmcons_poremodel.h` is not
part of the sources): `(level_mean, level_stdv, sd_mean, sd_stdv)`. -/
structure CPoreModelState (R : Type) where
  level_mean : R
  level_stdv : R
  sd_mean : R
  sd_stdv : R

/-- Modelled from the spec: the pore model of one strand (`hmmcons_poremodel.h` is not part of
the sources): the four scalars and the array `state[1024]`. -/
structure CPoreModel (R : Type) where
  scale : R
  shift : R
  drift : R
  var : R
  state : Nat → CPoreModelState R

/-- The struct `CEventSequence`; the three arrays are functions of the index. -/
structure CEventSequence (R : Type) where
  n_events : Nat
  level : Nat → R
  stdv : Nat → R
  time : Nat → R

/-- Modelled from the spec: the HMM parameters of one strand (`hmmcons_khmm_parameters.h` is
not part of the sources): `self_transition`, `fit_quality` and the skip-probability function
`get_skip_probability(parameters, level_i, level_j)`. -/
structure KHMMParameters (R : Type) where
  self_transition : R
  fit_quality : R
  get_skip_probability : R → R → R

/-- The struct `CSquiggleRead`; the two-element arrays are functions of the strand. -/
structure CSquiggleRead (R : Type) where
  read_id : Nat
  pore_model : Nat → CPoreModel R
  events : Nat → CEventSequence R
  parameters : Nat → KHMMParameters R

/-- The struct `HMMReadAnchor`; `event_idx` is an `int32_t`. -/
structure HMMReadAnchor where
  event_idx : Int
  rc : Bool
deriving DecidableEq, Repr

/-- The struct `HMMAnchoredColumn`. -/
structure HMMAnchoredColumn where
  anchors : List HMMReadAnchor
  base_sequence : List Char
  alt_sequences : List (List Char)
deriving DecidableEq, Repr

/-- The struct `HMMConsReadState`; `read` is the read pointed to. -/
structure HMMConsReadState (R : Type) where
  read : CSquiggleRead R
  anchor_index : Nat
  event_start_idx : Nat
  event_stop_idx : Nat
  strand : Nat
  stride : Int
  rc : Bool

/-- The struct `PosteriorState`. -/
structure PosteriorState (R : Type) where
  event_idx : Nat
  kmer_idx : Nat
  l_posterior : R
  l_fm : R
  log_transition_probability : R
  state : Char

/-- The struct `HmmConsData` together with the flag `g_initialized`. -/
structure HmmConsData (R : Type) where
  num_threads : Int
  reads : List (CSquiggleRead R)
  anchored_columns : List HMMAnchoredColumn
  consensus_result : List Char
  g_initialized : Bool

/-! ## Matrices -/

/-- The template struct `Matrix<T>`: a flat array of cells with its dimensions.  A matrix has
fewer than `2^32` cells, so the 32-bit cell index does not wrap. -/
structure Matrix (T : Type) where
  cells : Nat → T
  n_rows : Nat
  n_cols : Nat

/-- The function `allocate_matrix`: all cells zeroed. -/
def allocate_matrix {T : Type} (zero : T) (n_rows n_cols : Nat) : Matrix T :=
  { cells := fun _ => zero, n_rows := n_rows, n_cols := n_cols }

/-- The function `cell`. -/
def cell {T : Type} (matrix : Matrix T) (row col : Nat) : Nat := row * matrix.n_cols + col

/-- The function `set`. -/
def set {T : Type} (matrix : Matrix T) (row col : Nat) (v : T) : Matrix T :=
  { matrix with cells := fun c => if c = cell matrix row col then v else matrix.cells c }

/-- The function `get`. -/
def get {T : Type} (matrix : Matrix T) (row col : Nat) : T := matrix.cells (cell matrix row col)

/-! ## Emission model -/

section Engine

variable {R : Type} (D : DoubleOps R)

/-- The function `add_logs`. -/
def add_logs (a b : R) : R :=
  if D.eq a D.neg_inf && D.eq b D.neg_inf then D.neg_inf
  else if D.lt b a then
    let diff := D.sub b a
    D.add a (D.log (D.add (D.lit 1) (D.exp diff)))
  else
    let diff := D.sub a b
    D.add b (D.log (D.add (D.lit 1) (D.exp diff)))

/-- The function `get_drift_corrected_level`. -/
def get_drift_corrected_level (read : CSquiggleRead R) (event_idx strand : Nat) : R :=
  let level := (read.events strand).level event_idx
  let start := (read.events strand).time 0
  let time := D.sub ((read.events strand).time event_idx) start
  D.sub level (D.mul time (read.pore_model strand).drift)

/-- The function `log_normal_pdf`. -/
def log_normal_pdf (x m s : R) : R :=
  let log_inv_sqrt_2pi := D.log (D.lit (3989422804014327 / 10000000000000000))
  let a := D.div (D.sub x m) s
  D.add (D.sub log_inv_sqrt_2pi (D.log s)) (D.mul (D.mul (D.lit (-1 / 2)) a) a)

/-- The function `log_probability_match`. -/
def log_probability_match (read : CSquiggleRead R) (kmer_rank event_idx strand : Nat) : R :=
  let pm := read.pore_model strand
  let level := get_drift_corrected_level D read event_idx strand
  let m := D.add (D.mul (pm.state kmer_rank).level_mean pm.scale) pm.shift
  let s := D.mul (pm.state kmer_rank).level_stdv pm.var
  log_normal_pdf D level m s

/-- The function `get_rank`: the rank of the k-mer at `ki` on the strand of the read-state. -/
def get_rank (state : HMMConsReadState R) (s : List Char) (ki : Nat) : Nat :=
  get_rank_rc state.rc s ki

/-! ## Transition model -/

/-- The loop `for(sj = a; sj < b; ++sj)` as the list of its indices. -/
def loop_range (a b : Nat) : List Nat := List.range' a (b - a)

/-- One step of the inner loop of `fill_khmm_transitions` (state `si`, target `sj`): the state
is the running `sum` and the matrix; `none` when the assertion
`p_i_j >= 0.0f && p_i_j <= 1.0f` fails. -/
def fill_khmm_transitions_step (consensus : List Char) (state : HMMConsReadState R) (si : Nat)
    (acc : R × Matrix R) (sj : Nat) : Option (R × Matrix R) :=
  let pm := state.read.pore_model state.strand
  let parameters := state.read.parameters state.strand
  let sum := acc.1
  let matrix := acc.2
  let ki := si - 1
  let kj := sj - 1
  if ki = kj then
    let p_i_j := parameters.self_transition
    some (D.add sum p_i_j, set matrix si sj (D.log p_i_j))
  else
    let rank_i := get_rank state consensus ki
    let rank_j := get_rank state consensus kj
    let level_i := D.mul (D.add (pm.state rank_i).level_mean pm.shift) pm.scale
    let level_j := D.mul (D.add (pm.state rank_j).level_mean pm.shift) pm.scale
    let p_skip := parameters.get_skip_probability level_i level_j
    let p_i_j := D.mul (D.sub (D.lit 1) sum) (D.sub (D.lit 1) p_skip)
    if D.le (D.lit 0) p_i_j && D.le p_i_j (D.lit 1) then
      some (D.add sum p_i_j, set matrix si sj (D.log p_i_j))
    else none

/-- The body of the outer loop of `fill_khmm_transitions` for the state `si`. -/
def fill_khmm_transitions_row (consensus : List Char) (state : HMMConsReadState R)
    (terminal_state : Nat) (matrix : Matrix R) (si : Nat) : Option (Matrix R) :=
  let last_valid_state :=
    if si + KHMM_MAX_JUMP ≥ terminal_state then terminal_state - 1 else si + KHMM_MAX_JUMP
  ((loop_range si (last_valid_state + 1)).foldlM
    (fill_khmm_transitions_step D consensus state si) (D.lit 0, matrix)).map Prod.snd

/-- The function `fill_khmm_transitions`; `none` when one of its assertions fails.  The
sequence has at least `K` bytes, so `consensus.size() - K + 1` does not wrap. -/
def fill_khmm_transitions (matrix : Matrix R) (consensus : List Char)
    (state : HMMConsReadState R) : Option (Matrix R) :=
  let n_kmers := consensus.length - K + 1
  let n_states := n_kmers + 2
  let terminal_state := n_states - 1
  if matrix.n_rows = n_states ∧ matrix.n_cols = n_states then
    let m0 := (List.range n_states).foldl
      (fun m si => (List.range n_states).foldl (fun m sj => set m si sj D.neg_inf) m) matrix
    let m1 := set m0 0 1 (D.lit 0)
    ((loop_range 1 (n_states - 1)).foldlM
      (fill_khmm_transitions_row D consensus state terminal_state) m1).map
      (fun m => set m (n_states - 2) (n_states - 1) (D.lit 0))
  else none

/-! ## Forward, backward and posterior decoding -/

/-- The function `initialize_forward_khmm`. -/
def initialize_forward_khmm (fm : Matrix R) : Matrix R :=
  let fm1 := (List.range fm.n_cols).foldl (fun m si => set m 0 si D.neg_inf) fm
  let fm2 := (List.range fm.n_rows).foldl (fun m ri => set m ri 0 D.neg_inf) fm1
  set fm2 0 0 (D.lit 0)

/-- The function `forward_khmm_terminate`. -/
def forward_khmm_terminate (fm tm : Matrix R) (row : Nat) : R :=
  let tcol := fm.n_cols - 1
  (List.range (fm.n_cols - 1)).foldl
    (fun sum sk => add_logs D sum (D.add (get tm sk tcol) (get fm row sk))) D.neg_inf

/-- The event index `e_start + k * state.stride` in `uint32_t` arithmetic. -/
def event_at (state : HMMConsReadState R) (e_start k : Nat) : Nat :=
  u32 ((e_start : Int) + (k : Int) * state.stride)

/-- The body of the two loops of `fill_forward_khmm`: the cell `(row, sl)`. -/
def fill_forward_khmm_cell (tm : Matrix R) (sequence : List Char) (state : HMMConsReadState R)
    (e_start : Nat) (row : Nat) (fm : Matrix R) (sl : Nat) : Matrix R :=
  let first_possible_state := if sl ≥ KHMM_MAX_JUMP then sl - KHMM_MAX_JUMP else 0
  let sum := (loop_range first_possible_state (sl + 1)).foldl
    (fun sum sk => add_logs D sum (D.add (get tm sk sl) (get fm (row - 1) sk))) D.neg_inf
  let event_idx := event_at state e_start (row - 1)
  let kmer_idx := sl - 1
  let rank := get_rank state sequence kmer_idx
  let lp_e := log_probability_match D state.read rank event_idx state.strand
  set fm row sl (D.add lp_e sum)

/-- The function `fill_forward_khmm`: the filled matrix and the returned total. -/
def fill_forward_khmm (fm tm : Matrix R) (sequence : List Char) (state : HMMConsReadState R)
    (e_start : Nat) : Matrix R × R :=
  let fm1 := (loop_range 1 fm.n_rows).foldl
    (fun m row => (loop_range 1 (fm.n_cols - 1)).foldl
      (fill_forward_khmm_cell D tm sequence state e_start row) m) fm
  let tcol := fm.n_cols - 1
  let lrow := fm.n_rows - 1
  let sum := (List.range (fm.n_cols - 1)).foldl
    (fun sum sk => add_logs D sum (D.add (get tm sk tcol) (get fm1 lrow sk))) D.neg_inf
  (fm1, sum)

/-- The function `initialize_backward_khmm`. -/
def initialize_backward_khmm (bm tm : Matrix R) : Matrix R :=
  let tcol := tm.n_cols - 1
  let row := bm.n_rows - 1
  (List.range bm.n_cols).foldl (fun m si => set m row si (get tm si tcol)) bm

/-- The body of the two outer loops of `fill_backward_khmm`: the cell `(row, sk)`. -/
def fill_backward_khmm_cell (tm : Matrix R) (sequence : List Char) (state : HMMConsReadState R)
    (e_start : Nat) (row : Nat) (bm : Matrix R) (sk : Nat) : Matrix R :=
  let sum := (loop_range 1 (bm.n_cols - 1)).foldl
    (fun sum sl =>
      let t_kl := get tm sk sl
      let bm_l := get bm (row + 1) sl
      let event_idx := event_at state e_start row
      let kmer_idx := sl - 1
      let rank := get_rank state sequence kmer_idx
      let lp_e := log_probability_match D state.read rank event_idx state.strand
      add_logs D sum (D.add (D.add lp_e t_kl) bm_l)) D.neg_inf
  set bm row sk sum

/-- The function `fill_backward_khmm`: rows `n_rows - 2` down to `1`. -/
def fill_backward_khmm (bm tm : Matrix R) (sequence : List Char) (state : HMMConsReadState R)
    (e_start : Nat) : Matrix R :=
  (loop_range 1 (bm.n_rows - 1)).reverse.foldl
    (fun m row => (loop_range 1 (bm.n_cols - 1)).foldl
      (fill_backward_khmm_cell D tm sequence state e_start row) m) bm

/-- The two scoring policies. -/
inductive AlignmentPolicy where
  | AP_GLOBAL
  | AP_SEMI_KMER
deriving DecidableEq, Repr

/-- The number of events of a read-state, as `score_khmm_model` and `posterior_decode_khmm`
compute it. -/
def n_events_of (state : HMMConsReadState R) : Nat :=
  let e_start := state.event_start_idx
  let e_end := state.event_stop_idx
  if e_end > e_start then u32 ((e_end : Int) - e_start + 1) else u32 ((e_start : Int) - e_end + 1)

/-- The function `score_khmm_model`; `none` when an assertion of `fill_khmm_transitions`
fails. -/
def score_khmm_model (consensus : List Char) (state : HMMConsReadState R)
    (policy : AlignmentPolicy) : Option R :=
  let n_kmers := consensus.length - K + 1
  let n_states := n_kmers + 2
  (fill_khmm_transitions D (allocate_matrix (D.lit 0) n_states n_states) consensus state).map
    fun tm =>
      let e_start := state.event_start_idx
      let n_events := n_events_of state
      let n_rows := u32 (n_events + 1)
      let fm := (fill_forward_khmm D (initialize_forward_khmm D
        (allocate_matrix (D.lit 0) n_rows n_states)) tm consensus state e_start).1
      match policy with
      | .AP_GLOBAL => forward_khmm_terminate D fm tm (fm.n_rows - 1)
      | .AP_SEMI_KMER =>
        ((loop_range 1 (fm.n_rows - 1)).foldl
          (fun (best : R × Nat) row =>
            let s := forward_khmm_terminate D fm tm row
            if D.lt best.1 s then (s, row) else best) (D.neg_inf, 0)).1

/-- The scan of one row in `posterior_decode_khmm`: the best posterior and its column among the
columns `first_possible_col .. col`. -/
def posterior_scan (fm bm : Matrix R) (lf : R) (row col : Nat) : R × Nat :=
  let first_possible_col := if col ≥ KHMM_MAX_JUMP then col - KHMM_MAX_JUMP else 1
  (loop_range first_possible_col (col + 1)).foldl
    (fun (best : R × Nat) si =>
      let lp := D.sub (D.add (get fm row si) (get bm row si)) lf
      if D.lt best.1 lp then (lp, si) else best) (D.neg_inf, 0)

/-- The loop `while(row > 0)` of `posterior_decode_khmm`, from the row `row` and the column
`col`: the entries in the order they are pushed. -/
def posterior_decode_walk (fm bm : Matrix R) (lf : R) (state : HMMConsReadState R)
    (e_start : Nat) : Nat → Nat → List (PosteriorState R)
  | 0, _ => []
  | row + 1, col =>
    let best := posterior_scan D fm bm lf (row + 1) col
    let max_posterior := best.1
    let max_s := best.2
    let event_idx := event_at state e_start row
    let kmer_idx := u32 ((max_s : Int) - 1)
    let lpfm := get fm (row + 1) max_s
    { event_idx := event_idx, kmer_idx := kmer_idx, l_posterior := max_posterior, l_fm := lpfm,
      log_transition_probability := D.lit 0, state := 'N' }
      :: posterior_decode_walk fm bm lf state e_start row max_s

/-- The C library function `int abs(int)` applied to a `uint32_t` value (converted to `int`). -/
def abs_of_u32 (x : Nat) : Int :=
  if x < 2147483648 then (x : Int) else |(x : Int) - 4294967296|

/-- The loop `for(pi = 1; pi < output.size(); ++pi)` of `posterior_decode_khmm` over the
entries that follow the one with `prev_ei` and `prev_ki`; `none` when one of its two
assertions fails. -/
def posterior_label (tm : Matrix R) : Nat → Nat → List (PosteriorState R) →
    Option (List (PosteriorState R))
  | _, _, [] => some []
  | prev_ei, prev_ki, ps :: rest =>
    let ei := ps.event_idx
    let ki := ps.kmer_idx
    let ltp := get tm (u32 ((prev_ki : Int) + 1)) (u32 ((ki : Int) + 1))
    if abs_of_u32 (u32 ((ei : Int) - prev_ei)) = 1 then
      if ki = prev_ki then
        (posterior_label tm ei ki rest).map
          (fun l => { ps with log_transition_probability := ltp, state := 'E' } :: l)
      else if u32 ((ki : Int) - prev_ki) = 1 then
        (posterior_label tm ei ki rest).map
          (fun l => { ps with log_transition_probability := ltp, state := 'M' } :: l)
      else if u32 ((ki : Int) - prev_ki) > 1 then
        (posterior_label tm ei ki rest).map
          (fun l => { ps with log_transition_probability := ltp, state := 'K' } :: l)
      else none
    else none

/-- The last part of `posterior_decode_khmm`, from the comment `posterior decode` on: the walk
over the rows, the reversal and the labelling; `none` when an assertion of the labelling loop
fails or when `output[0]` does not exist. -/
def posterior_decode_output (tm fm bm : Matrix R) (lf : R) (state : HMMConsReadState R)
    (e_start : Nat) : Option (List (PosteriorState R)) :=
  let output :=
    (posterior_decode_walk D fm bm lf state e_start (fm.n_rows - 1) (fm.n_cols - 1)).reverse
  match output with
  | [] => none
  | first :: rest =>
    (posterior_label tm first.event_idx first.kmer_idx rest).map
      (fun l => { first with
                    state := 'M'
                    log_transition_probability :=
                      get tm 0 (u32 ((first.kmer_idx : Int) + 1)) } :: l)

/-- The transition matrix that `score_khmm_model` and `posterior_decode_khmm` allocate and
fill for a sequence and a read-state. -/
def khmm_transitions (sequence : List Char) (state : HMMConsReadState R) : Option (Matrix R) :=
  let n_kmers := sequence.length - K + 1
  let n_states := n_kmers + 2
  fill_khmm_transitions D (allocate_matrix (D.lit 0) n_states n_states) sequence state

/-- The forward matrix and the total that `posterior_decode_khmm` computes. -/
def khmm_forward (tm : Matrix R) (sequence : List Char) (state : HMMConsReadState R) :
    Matrix R × R :=
  let n_kmers := sequence.length - K + 1
  let n_states := n_kmers + 2
  let n_rows := u32 (n_events_of state + 1)
  fill_forward_khmm D (initialize_forward_khmm D (allocate_matrix (D.lit 0) n_rows n_states)) tm
    sequence state state.event_start_idx

/-- The backward matrix that `posterior_decode_khmm` computes. -/
def khmm_backward (tm : Matrix R) (sequence : List Char) (state : HMMConsReadState R) :
    Matrix R :=
  let n_kmers := sequence.length - K + 1
  let n_states := n_kmers + 2
  let n_rows := u32 (n_events_of state + 1)
  fill_backward_khmm D (initialize_backward_khmm (allocate_matrix (D.lit 0) n_rows n_states) tm)
    tm sequence state state.event_start_idx

/-- The function `posterior_decode_khmm`; `none` when an assertion fails (in
`fill_khmm_transitions` or in the labelling loop) or when `output[0]` does not exist. -/
def posterior_decode_khmm (sequence : List Char) (state : HMMConsReadState R) :
    Option (List (PosteriorState R)) :=
  (khmm_transitions D sequence state).bind fun tm =>
    let fwd := khmm_forward D tm sequence state
    let bm := khmm_backward D tm sequence state
    posterior_decode_output D tm fwd.1 bm fwd.2 state state.event_start_idx

/-- The function `score_sequence`: the scorer selected in the source. -/
def score_sequence (sequence : List Char) (state : HMMConsReadState R) : Option R :=
  score_khmm_model D sequence state .AP_GLOBAL

/-- The function `posterior_decode`. -/
def posterior_decode (sequence : List Char) (state : HMMConsReadState R) :
    Option (List (PosteriorState R)) :=
  posterior_decode_khmm D sequence state

/-! ## Training -/

/-- Modelled from the spec: one transition observation `(level_from, level_to, kind)`
(`hmmcons_khmm_parameters.h` is not part of the sources); the source builds it from
`{ ke1, ke2, s }`. -/
structure TransitionObservation (R : Type) where
  level_from : R
  level_to : R
  kind : Char

/-- Modelled from the spec: the accumulator `training_data` of the HMM parameters
(`hmmcons_khmm_parameters.h` is not part of the sources): the transition observations, the
normalised match emissions and the three counters. -/
structure TrainingData (R : Type) where
  transitions : List (TransitionObservation R)
  emissions_for_matches : List R
  n_matches : Nat
  n_merges : Nat
  n_skips : Nat

/-- The difference `a - b` of two `size_t` values (64 bits). -/
def size_t_sub (a b : Nat) : Nat := (((a : Int) - b) % 18446744073709551616).toNat

/-- The recording of a transition in `update_training_khmm` for the step `pi` (the block
`if(s != 'E')`); `none` when its assertion fails or `pstates[pi - 1]` does not exist. -/
def record_transition (consensus : List Char) (state : HMMConsReadState R)
    (pstates : List (PosteriorState R)) (ps : PosteriorState R)
    (training_data : TrainingData R) (pi : Nat) : Option (TrainingData R) :=
  let pm := state.read.pore_model state.strand
  let n_kmers := consensus.length - K + 1
  let s := ps.state
  if s ≠ 'E' then
    match pstates[pi - 1]? with
    | none => none
    | some prev =>
      let transition_kmer_from := prev.kmer_idx
      let transition_kmer_to :=
        if s = 'K' then u32 ((transition_kmer_from : Int) + 1) else ps.kmer_idx
      if transition_kmer_from < n_kmers ∧ transition_kmer_to < n_kmers then
        let rank1 := get_rank state consensus transition_kmer_from
        let rank2 := get_rank state consensus transition_kmer_to
        let ke1 := D.mul (D.add (pm.state rank1).level_mean pm.shift) pm.scale
        let ke2 := D.mul (D.add (pm.state rank2).level_mean pm.shift) pm.scale
        some { training_data with
          transitions := training_data.transitions ++
            [{ level_from := ke1, level_to := ke2, kind := s }] }
      else none
  else some training_data

/-- The recording of an emission in `update_training_khmm` for a step (the part after the
comment `emission`); `none` when the assertion `ki < n_kmers` fails. -/
def record_emission (consensus : List Char) (state : HMMConsReadState R)
    (ps : PosteriorState R) (training_data : TrainingData R) : Option (TrainingData R) :=
  let pm := state.read.pore_model state.strand
  let n_kmers := consensus.length - K + 1
  let ei := ps.event_idx
  let ki := ps.kmer_idx
  let s := ps.state
  let level := get_drift_corrected_level D state.read ei state.strand
  if ki < n_kmers then
    let rank := get_rank state consensus ki
    let model_m := D.mul (D.add (pm.state rank).level_mean pm.shift) pm.scale
    let model_s := D.mul (pm.state rank).level_stdv pm.scale
    let norm_level := D.div (D.sub level model_m) model_s
    if s = 'M' then
      some { training_data with
        emissions_for_matches := training_data.emissions_for_matches ++ [norm_level] }
    else some training_data
  else none

/-- The body of the loop of `update_training_khmm` for the step `pi` of the decoding
`pstates`; `none` when an assertion fails or an entry read does not exist. -/
def update_training_step (consensus : List Char) (state : HMMConsReadState R)
    (pstates : List (PosteriorState R)) (training_data : TrainingData R) (pi : Nat) :
    Option (TrainingData R) :=
  match pstates[pi]? with
  | none => none
  | some ps =>
    let s := ps.state
    let recorded :=
      if pi > 5 ∧ pi < size_t_sub pstates.length 5 then
        (record_transition D consensus state pstates ps training_data pi).bind
          (record_emission D consensus state ps)
      else some training_data
    recorded.map fun td =>
      { td with
        n_matches := td.n_matches + (if s = 'M' then 1 else 0)
        n_merges := td.n_merges + (if s = 'E' then 1 else 0)
        n_skips := td.n_skips + (if s = 'K' then 1 else 0) }

/-- The loop of `update_training_khmm` over the decoding `pstates`. -/
def update_training_loop (consensus : List Char) (state : HMMConsReadState R)
    (pstates : List (PosteriorState R)) (training_data : TrainingData R) :
    Option (TrainingData R) :=
  (List.range pstates.length).foldlM (update_training_step D consensus state pstates)
    training_data

/-- The function `update_training_khmm`; the accumulator
`state.read->parameters[state.strand].training_data` is passed in and returned; `none` when
an assertion fails. -/
def update_training_khmm (consensus : List Char) (state : HMMConsReadState R)
    (training_data : TrainingData R) : Option (TrainingData R) :=
  (posterior_decode_khmm D consensus state).bind fun pstates =>
    update_training_loop D consensus state pstates training_data

end Engine

/-! ## k-LCS splice alignment -/

/-- The test `strncmp(ka, kb, n) == 0`: the comparison stops at the first difference, at a
terminator, or after `n` bytes. -/
def strncmp_eq : Nat → List Char → List Char → Bool
  | 0, _, _ => true
  | n + 1, ka, kb =>
    if charAt ka 0 ≠ charAt kb 0 then false
    else if charAt ka 0 = NUL then true
    else strncmp_eq n ka.tail kb.tail

/-- The struct `kLCSPair`. -/
structure kLCSPair where
  i : Nat
  j : Nat
deriving DecidableEq, Repr

/-- The function `_kLCSBacktrack`.  Each call lowers `row + col`, so the recursion is written
on a bound `fuel` of `row + col`; `kLCS` passes exactly `row + col`. -/
def _kLCSBacktrack (m : Matrix Nat) (a b : List Char) :
    Nat → Nat → Nat → List kLCSPair → List kLCSPair
  | 0, _, _, result => result
  | fuel + 1, row, col, result =>
    if row = 0 ∨ col = 0 then result
    else
      let ka := a.drop (row - 1)
      let kb := b.drop (col - 1)
      if strncmp_eq K ka kb then
        _kLCSBacktrack m a b fuel (row - 1) (col - 1) (result ++ [{ i := row - 1, j := col - 1 }])
      else if get m (row - 1) col > get m row (col - 1) then
        _kLCSBacktrack m a b fuel (row - 1) col result
      else
        _kLCSBacktrack m a b fuel row (col - 1) result

/-- The body of the two fill loops of `kLCS`: the cell `(row, col)`. -/
def kLCS_cell (a b : List Char) (row : Nat) (m : Matrix Nat) (col : Nat) : Matrix Nat :=
  let ka := a.drop (row - 1)
  let kb := b.drop (col - 1)
  let score :=
    if strncmp_eq K ka kb then get m (row - 1) (col - 1) + 1
    else max (get m row (col - 1)) (get m (row - 1) col)
  set m row col score

/-- The DP table of `kLCS`, after initialisation and fill, for two strings of at least `K`
bytes (where the counts `size() - K + 1` do not wrap). -/
def kLCS_matrix (a b : List Char) : Matrix Nat :=
  let n_kmers_a := a.length - K + 1
  let n_kmers_b := b.length - K + 1
  let n_rows := n_kmers_a + 1
  let n_cols := n_kmers_b + 1
  let m := allocate_matrix 0 n_rows n_cols
  let m1 := (List.range m.n_rows).foldl (fun m row => set m row 0 0) m
  let m2 := (List.range m.n_cols).foldl (fun m col => set m 0 col 0) m1
  (loop_range 1 m.n_rows).foldl
    (fun m row => (loop_range 1 m.n_cols).foldl (kLCS_cell a b row) m) m2

/-- The function `kLCS` on two strings of at least `K` bytes, where `size() - K + 1` does
not wrap and every access lies in the matrix (`kLCS_checked` is the function on all strings). -/
def kLCS (a b : List Char) : List kLCSPair :=
  let m := kLCS_matrix a b
  (_kLCSBacktrack m a b ((m.n_rows - 1) + (m.n_cols - 1)) (m.n_rows - 1) (m.n_cols - 1)
    []).reverse

/-- The number of cells that `allocate_matrix` allocates: `n_rows * n_cols` in 32 bits. -/
def allocated_cells {T : Type} (matrix : Matrix T) : Nat :=
  (matrix.n_rows * matrix.n_cols) % 4294967296

/-- The function `cell` in 32-bit arithmetic. -/
def cell32 {T : Type} (matrix : Matrix T) (row col : Nat) : Nat :=
  (row * matrix.n_cols + col) % 4294967296

/-- The function `set` with the bounds of the allocation: `none` when the cell lies outside. -/
def set_checked {T : Type} (matrix : Matrix T) (row col : Nat) (v : T) : Option (Matrix T) :=
  if cell32 matrix row col < allocated_cells matrix then
    some { matrix with
      cells := fun c => if c = cell32 matrix row col then v else matrix.cells c }
  else none

/-- The function `get` with the bounds of the allocation: `none` when the cell lies outside. -/
def get_checked {T : Type} (matrix : Matrix T) (row col : Nat) : Option T :=
  if cell32 matrix row col < allocated_cells matrix then
    some (matrix.cells (cell32 matrix row col))
  else none

/-- The pointer `s.c_str() + offset` that `strncmp` reads: `none` when it points behind the
terminator of the string. -/
def c_str_at (s : List Char) (offset : Nat) : Option (List Char) :=
  if offset ≤ s.length then some (s.drop offset) else none

/-- The function `_kLCSBacktrack` with the bounds of the matrix and of the strings. -/
def _kLCSBacktrack_checked (m : Matrix Nat) (a b : List Char) :
    Nat → Nat → Nat → List kLCSPair → Option (List kLCSPair)
  | 0, _, _, result => some result
  | fuel + 1, row, col, result =>
    if row = 0 ∨ col = 0 then some result
    else
      (c_str_at a (row - 1)).bind fun ka =>
        (c_str_at b (col - 1)).bind fun kb =>
          if strncmp_eq K ka kb then
            _kLCSBacktrack_checked m a b fuel (row - 1) (col - 1)
              (result ++ [{ i := row - 1, j := col - 1 }])
          else
            (get_checked m (row - 1) col).bind fun up =>
              (get_checked m row (col - 1)).bind fun left =>
                if up > left then _kLCSBacktrack_checked m a b fuel (row - 1) col result
                else _kLCSBacktrack_checked m a b fuel row (col - 1) result

/-- The body of the two fill loops of `kLCS` with the bounds of the matrix and of the
strings. -/
def kLCS_cell_checked (a b : List Char) (row : Nat) (m : Matrix Nat) (col : Nat) :
    Option (Matrix Nat) :=
  (c_str_at a (row - 1)).bind fun ka =>
    (c_str_at b (col - 1)).bind fun kb =>
      (if strncmp_eq K ka kb then (get_checked m (row - 1) (col - 1)).map fun diag => diag + 1
        else
          (get_checked m row (col - 1)).bind fun left =>
            (get_checked m (row - 1) col).map fun up => max left up).bind fun score =>
        set_checked m row col score

/-- The function `kLCS` on all strings: the counts `size() - K + 1` and the dimensions are
32-bit values, and the result is `none` when an access falls outside the allocated cells or
behind the end of a string.  For a string of fewer than `K - 1` bytes the count wraps.  The
allocation itself is taken to succeed.  Each call of `_kLCSBacktrack` lowers `row + col`, which
is the bound of the recursion. -/
def kLCS_checked (a b : List Char) : Option (List kLCSPair) :=
  let n_kmers_a := u32 ((a.length : Int) - K + 1)
  let n_kmers_b := u32 ((b.length : Int) - K + 1)
  let n_rows := u32 ((n_kmers_a : Int) + 1)
  let n_cols := u32 ((n_kmers_b : Int) + 1)
  let m := allocate_matrix 0 n_rows n_cols
  ((List.range m.n_rows).foldlM (fun m row => set_checked m row 0 0) m).bind fun m1 =>
    ((List.range m.n_cols).foldlM (fun m col => set_checked m 0 col 0) m1).bind fun m2 =>
      ((loop_range 1 m.n_rows).foldlM
        (fun m row => (loop_range 1 m.n_cols).foldlM (kLCS_cell_checked a b row) m) m2).bind
        fun m3 =>
          (_kLCSBacktrack_checked m3 a b
            (u32 ((n_rows : Int) - 1) + u32 ((n_cols : Int) - 1))
            (u32 ((n_rows : Int) - 1)) (u32 ((n_cols : Int) - 1)) []).map List.reverse

/-! ## Candidate paths -/

/-- The struct `PathCons`.  Its constructor leaves `num_improved` and `num_scored`
uninitialised; `score_paths` resets them before any use, and they are `0` here. -/
structure PathCons (R : Type) where
  path : List Char
  score : R
  sum_rank : Nat
  num_improved : Nat
  num_scored : Nat
  mutdesc : List Char

/-- The method `std::string::substr(pos, n)` for `pos <= size()`. -/
def substr (s : List Char) (pos n : Nat) : List Char := (s.drop pos).take n

/-- The method `std::string::replace(pos, len, str)` for `pos <= size()`. -/
def str_replace (s : List Char) (pos len : Nat) (t : List Char) : List Char :=
  s.take pos ++ t ++ s.drop (pos + len)

/-- The inner loops of `generate_alt_paths` over the anchors of one alternate: every two
consecutive anchors that are not adjacent give one spliced path. -/
def alt_paths_of_anchors {R : Type} (mk : List Char → PathCons R) (base alt : List Char) :
    List kLCSPair → List (PathCons R)
  | [] => []
  | [_] => []
  | p :: q :: rest =>
    if p.i = u32 ((q.i : Int) - 1) ∧ p.j = u32 ((q.j : Int) - 1) then
      alt_paths_of_anchors mk base alt (q :: rest)
    else
      let bl := u32 ((q.i : Int) - p.i)
      let rl := u32 ((q.j : Int) - p.j)
      let alt_subseq := substr alt p.j rl
      mk (str_replace base p.i bl alt_subseq) :: alt_paths_of_anchors mk base alt (q :: rest)

section Paths

variable {R : Type} (D : DoubleOps R)

/-- The constructor `PathCons(s)`. -/
def PathCons.mk_path (s : List Char) : PathCons R :=
  { path := s, score := D.lit 0, sum_rank := 0, num_improved := 0, num_scored := 0, mutdesc := [] }

/-- The function `generate_alt_paths` on strings of at least `K` bytes: the paths after the
call. -/
def generate_alt_paths (paths : List (PathCons R)) (base : List Char)
    (alts : List (List Char)) : List (PathCons R) :=
  alts.foldl
    (fun paths alt => paths ++ alt_paths_of_anchors (PathCons.mk_path D) base alt (kLCS base alt))
    paths

/-- The function `generate_alt_paths` on all strings: `none` when a call of `kLCS` leaves its
matrix or its strings. -/
def generate_alt_paths_checked (paths : List (PathCons R)) (base : List Char)
    (alts : List (List Char)) : Option (List (PathCons R)) :=
  alts.foldlM
    (fun paths alt => (kLCS_checked base alt).map fun result =>
      paths ++ alt_paths_of_anchors (PathCons.mk_path D) base alt result)
    paths

/-- The text of an index as `operator<<` prints it. -/
def show_index (n : Nat) : List Char := (toString n).toList

/-- The body of the loop of `generate_mutations` for the position `si`. -/
def mutations_at (sequence : List Char) (si : Nat) : List (PathCons R) :=
  let subs := ("ACGT".toList.filter (fun b => ¬ (charAt sequence si = b))).map fun b =>
    { PathCons.mk_path D (sequence.set si b) with
        mutdesc := "sub-".toList ++ show_index si ++ "-".toList ++ [b] }
  let del : PathCons R :=
    { PathCons.mk_path D (sequence.eraseIdx si) with mutdesc := "del-".toList ++ show_index si }
  let ins := "ACGT".toList.map fun b =>
    { PathCons.mk_path D (sequence.take si ++ b :: sequence.drop si) with
        mutdesc := "ins-".toList ++ show_index si ++ "-".toList ++ [b] }
  subs ++ del :: ins

/-- The function `generate_mutations`.  The sequence has at least `K` bytes, so
`sequence.size() - K` does not wrap. -/
def generate_mutations (sequence : List Char) : List (PathCons R) :=
  PathCons.mk_path D sequence ::
    (loop_range K (sequence.length - K)).flatMap (mutations_at D sequence)

/-- The call `std::stable_sort(first, last, comp)`: insertion of each element behind the
elements that do not compare after it, which is the stable order. -/
def stable_sort {α : Type} (comp : α → α → Bool) : List α → List α
  | [] => []
  | x :: rest => List.orderedInsert (fun a b => comp b a = false) x (stable_sort comp rest)

/-- The deduplication loop of `score_paths`: the first path of every string, its aggregates
reset. -/
def dedup_paths : List (PathCons R) → List (List Char) → List (PathCons R)
  | [], _ => []
  | p :: rest, seen =>
    if p.path ∈ seen then dedup_paths rest seen
    else { p with score := D.lit 0, sum_rank := 0, num_improved := 0, num_scored := 0 }
      :: dedup_paths rest (p.path :: seen)

/-- The struct `IndexedPathScore`. -/
structure IndexedPathScore (R : Type) where
  score : R
  path_index : Nat

/-- The aggregation loop of `score_paths` over the sorted `result` (from position `pri`). -/
def aggregate_scores (first_path_score : R) :
    List (IndexedPathScore R) → Nat → List (PathCons R) → List (PathCons R)
  | [], _, paths => paths
  | r :: rest, pri, paths =>
    aggregate_scores first_path_score rest (pri + 1)
      (paths.modify
        (fun p => { p with
          score := D.add p.score (D.sub r.score first_path_score)
          sum_rank := p.sum_rank + pri
          num_improved := p.num_improved + (if D.lt first_path_score r.score then 1 else 0)
          num_scored := p.num_scored + 1 }) r.path_index)

/-- The cull step of `score_paths`. -/
def cull_paths (paths : List (PathCons R)) : List (PathCons R) :=
  (paths.enum.filter fun ip =>
    let f := D.div (D.lit ip.2.num_improved) (D.lit ip.2.num_scored)
    ip.1 = 0 || D.lt (D.lit (-30)) ip.2.score || D.le (D.lit (13421773 / 67108864)) f).map
    Prod.snd

/-- The body of the loop of `score_paths` over the reads, for the read `ri`; `none` when the
scoring of a path aborts. -/
def score_paths_read (score : List Char → HMMConsReadState R → Option R)
    (read_states : List (HMMConsReadState R)) (paths : List (PathCons R)) (ri : Nat) :
    Option (List (PathCons R)) :=
  match read_states[ri]? with
  | none => none
  | some read_state =>
    let parameters := read_state.read.parameters read_state.strand
    if D.lt D.inf (D.fabs parameters.fit_quality) then some paths
    else
      (paths.mapM fun p => score p.path read_state).bind fun scores =>
        match scores with
        | [] => none
        | first_path_score :: _ =>
          let result := stable_sort (fun (a b : IndexedPathScore R) => D.lt b.score a.score)
            (scores.enum.map fun is => { score := is.2, path_index := is.1 })
          let paths1 := aggregate_scores D first_path_score result 0 paths
          if ri > 0 ∧ ri % 5 = 0 then some (cull_paths D paths1) else some paths1

/-- The function `score_paths`, over the scorer `score` (`score_sequence` in the source);
`none` when a scoring aborts or `paths` is empty. -/
def score_paths (score : List Char → HMMConsReadState R → Option R)
    (paths : List (PathCons R)) (read_states : List (HMMConsReadState R)) :
    Option (List (PathCons R)) :=
  match paths with
  | [] => none
  | _ :: _ =>
    ((List.range read_states.length).foldlM (score_paths_read D score read_states)
      (dedup_paths D paths [])).map
      (stable_sort (fun (a b : PathCons R) => D.lt b.score a.score))

end Paths

/-! ## Segment driver -/

/-- Conversion of a `uint32_t` to `int32_t`. -/
def to_i32 (x : Nat) : Int := if x < 2147483648 then (x : Int) else (x : Int) - 4294967296

/-- The function `join_sequences_at_kmer`; `none` when `a` has fewer than `K` bytes (the
`substr` throws) or when the assertion `a_last_kmer == b_last_kmer` fails. -/
def join_sequences_at_kmer (a b : List Char) : Option (List Char) :=
  if a.length < K then none
  else
    let a_last_kmer := a.drop (a.length - K)
    let b_last_kmer := substr b 0 K
    if a_last_kmer = b_last_kmer then some (a ++ b.drop K) else none

/-- The number of low bits that a natural number loses when it is rounded to the 24-bit
significand of a `float`; the recursion is written on a bound of 128 halvings. -/
def f32_shift : Nat → Nat → Nat
  | 0, _ => 0
  | fuel + 1, n => if n < 16777216 then 0 else f32_shift fuel (n / 2) + 1

/-- The `float` nearest to the natural number `n`, ties to the even significand (the default
rounding), for `n` below the range where a `float` overflows: a number below `2^24` is a
`float`, a larger one keeps 24 significant bits. -/
def f32_of_nat (n : Nat) : Nat :=
  let e := f32_shift 128 n
  if e = 0 then n
  else
    let q := n / 2 ^ e
    let r := n % 2 ^ e
    let half := 2 ^ (e - 1)
    if r < half ∨ (r = half ∧ q % 2 = 0) then q * 2 ^ e else (q + 1) * 2 ^ e

/-- The conversion of an `int` to `float`. -/
def f32_of_int (x : Int) : Int :=
  if 0 ≤ x then (f32_of_nat x.toNat : Int) else -(f32_of_nat (-x).toNat : Int)

/-- The sum of two `float`s with integer values: the `float` nearest to the exact sum. -/
def f32_add (a b : Int) : Int := f32_of_int (a + b)

section Driver

variable {R : Type} (D : DoubleOps R)

/-- The body of the loop of `get_read_states_for_columns` for the anchor index `rsi`: the
read-state to append, if any; the outer `none` when an assertion fails. -/
def read_state_for_anchor (reads : List (CSquiggleRead R)) (rsi : Nat)
    (start_ra end_ra : HMMReadAnchor) : Option (Option (HMMConsReadState R)) :=
  if start_ra.event_idx = -1 ∨ end_ra.event_idx = -1 then some none
  else
    let read_idx := rsi / 2
    match reads[read_idx]? with
    | none => none
    | some read =>
      let event_start_idx := u32 start_ra.event_idx
      let event_stop_idx := u32 end_ra.event_idx
      let stride : Int := if event_start_idx < event_stop_idx then 1 else -1
      if start_ra.rc = end_ra.rc then
        some (some { read := read, anchor_index := rsi, event_start_idx := event_start_idx,
                     event_stop_idx := event_stop_idx, strand := rsi % 2, stride := stride,
                     rc := start_ra.rc })
      else none

/-- The loop of `get_read_states_for_columns` over the anchors from the index `rsi` on. -/
def read_states_from (reads : List (CSquiggleRead R)) :
    Nat → List HMMReadAnchor → List HMMReadAnchor → Option (List (HMMConsReadState R))
  | rsi, s :: srest, e :: erest =>
    (read_state_for_anchor reads rsi s e).bind fun o =>
      (read_states_from reads (rsi + 1) srest erest).map fun l =>
        match o with
        | none => l
        | some crs => crs :: l
  | _, _, _ => some []

/-- The function `get_read_states_for_columns`, over the reads of `g_data`; `none` when an
assertion fails. -/
def get_read_states_for_columns (reads : List (CSquiggleRead R))
    (start_column end_column : HMMAnchoredColumn) : Option (List (HMMConsReadState R)) :=
  if start_column.anchors.length = end_column.anchors.length then
    read_states_from reads 0 start_column.anchors end_column.anchors
  else none

/-- The function `filter_outlier_read_states`, over the scorer `score`; `none` when a
scoring aborts.  In `abs(start - stop) + 1.0f` the `int` is converted to `float` and the sum is
a `float`; this single-precision value is then widened to the `double` `n_events`. -/
def filter_outlier_read_states (score : List Char → HMMConsReadState R → Option R)
    (sequence : List Char) : List (HMMConsReadState R) → Option (List (HMMConsReadState R))
  | [] => some []
  | rs :: rest =>
    (score sequence rs).bind fun curr =>
      let n_events := D.lit (f32_add
        (f32_of_int (abs_of_u32 (u32 ((rs.event_start_idx : Int) - rs.event_stop_idx)))) 1)
      let lp_per_event := D.div curr n_events
      (filter_outlier_read_states score sequence rest).map fun l =>
        if D.lt (D.fabs lp_per_event) (D.lit (7 / 2)) then rs :: l else l

/-- The loop of `run_mutation` with `n` iterations left: the final `base` and `second_best`. -/
def run_mutation_loop (score : List Char → HMMConsReadState R → Option R)
    (read_states : List (HMMConsReadState R)) :
    Nat → List Char → List Char → Option (List Char × List Char)
  | 0, base, second_best => some (base, second_best)
  | n + 1, base, _ =>
    (score_paths D score (generate_mutations D base) read_states).bind fun paths =>
      match paths with
      | [] => none
      | p0 :: rest =>
        let second_best := match rest with
          | [] => []
          | p1 :: _ => p1.path
        if p0.path = base then some (base, second_best)
        else run_mutation_loop score read_states n p0.path second_best

/-- The function `run_mutation`: the final `base` and `second_best`. -/
def run_mutation (score : List Char → HMMConsReadState R → Option R) (base : List Char)
    (read_states : List (HMMConsReadState R)) (second_best : List Char) :
    Option (List Char × List Char) :=
  run_mutation_loop D score read_states 10 base second_best

/-- The refinement loop of `run_splice_segment` with `n` rounds left: the final `base`; `none`
when the engine aborts.  The alternates are composed strings of any length, so the call of
`generate_alt_paths` is the one on all strings. -/
def refine_loop (score : List Char → HMMConsReadState R → Option R)
    (alts : List (List Char)) (read_states : List (HMMConsReadState R)) :
    Nat → List Char → Option (List Char)
  | 0, base => some base
  | n + 1, base =>
    (generate_alt_paths_checked D [PathCons.mk_path D base] base alts).bind fun candidates =>
      (score_paths D score candidates read_states).bind fun paths =>
        match paths with
        | [] => none
        | p0 :: _ =>
          if p0.path = base then some base else refine_loop score alts read_states n p0.path

/-- The alternates that `run_splice_segment` collects from the start and the middle column. -/
def segment_alts (start_column middle_column : HMMAnchoredColumn) : List (List Char) :=
  let s_m_base := start_column.base_sequence
  let m_e_base := middle_column.base_sequence
  (start_column.alt_sequences.filterMap fun alt =>
    if m_e_base.length ≥ K then some (alt ++ m_e_base.drop K) else none) ++
  (middle_column.alt_sequences.filterMap fun alt =>
    if alt.length ≥ K then some (substr s_m_base 0 (s_m_base.length - K) ++ alt) else none)

/-- The first part of `run_splice_segment`, up to the line `RESULT`: the refined `base` and
the read-states kept by the outlier filter; `none` when the engine aborts. -/
def splice_refine (score : List Char → HMMConsReadState R → Option R)
    (reads : List (CSquiggleRead R)) (start_column middle_column end_column : HMMAnchoredColumn) :
    Option (List Char × List (HMMConsReadState R)) :=
  (join_sequences_at_kmer start_column.base_sequence middle_column.base_sequence).bind
    fun original =>
      let alts := segment_alts start_column middle_column
      (get_read_states_for_columns reads start_column end_column).bind fun all_states =>
        (filter_outlier_read_states D score original all_states).bind fun read_states =>
          match read_states with
          | [] => some (original, read_states)
          | _ :: _ =>
            (refine_loop D score alts read_states 6 original).bind fun base =>
              (run_mutation D score base read_states []).map fun r => (r.1, read_states)

/-- The middle part of `run_splice_segment`: the new `base_sequence` of the start and of the
middle column, cut from `base` at the midpoint k-mer; `none` when an assertion fails. -/
def splice_split (base : List Char) : Option (List Char × List Char) :=
  if base.length ≥ K then
    let midpoint_kmer := (base.length - K + 1) / 2
    let s_m_fixed := substr base 0 (midpoint_kmer + K)
    let m_e_fixed := base.drop midpoint_kmer
    if s_m_fixed.drop (s_m_fixed.length - K) = substr m_e_fixed 0 K then
      some (s_m_fixed, m_e_fixed)
    else none
  else none

/-- The search of `run_splice_segment` for the event aligned closest to the midpoint k-mer. -/
def closest_event (base_length midpoint_kmer : Nat) (decodes : List (PosteriorState R)) : Nat :=
  (decodes.foldl
    (fun (acc : Int × Nat) d =>
      let dist := abs_of_u32 (u32 ((d.kmer_idx : Int) - midpoint_kmer))
      if dist ≤ acc.1 then (dist, d.event_idx) else acc)
    (to_i32 (base_length % 4294967296), 0)).2

/-- The last part of `run_splice_segment`: the anchors of the middle column after the loop
over the read-states; `none` when a decoding aborts. -/
def splice_reanchor (decode : List Char → HMMConsReadState R → Option (List (PosteriorState R)))
    (base : List Char) (midpoint_kmer : Nat) :
    List (HMMConsReadState R) → List HMMReadAnchor → Option (List HMMReadAnchor)
  | [], anchors => some anchors
  | rs :: rest, anchors =>
    (decode base rs).bind fun decodes =>
      let event_idx := closest_event base.length midpoint_kmer decodes
      splice_reanchor decode base midpoint_kmer rest
        (anchors.modify (fun ra => { ra with event_idx := to_i32 event_idx }) rs.anchor_index)

/-- The function `run_splice_segment` over a scorer and a decoder: the engine data after the
call; `none` when the engine aborts. -/
def run_splice_segment_with (score : List Char → HMMConsReadState R → Option R)
    (decode : List Char → HMMConsReadState R → Option (List (PosteriorState R)))
    (g : HmmConsData R) (segment_id : Nat) : Option (HmmConsData R) :=
  if !g.g_initialized then none
  else
    match g.anchored_columns[segment_id]?, g.anchored_columns[segment_id + 1]?,
      g.anchored_columns[segment_id + 2]? with
    | some start_column, some middle_column, some end_column =>
      (splice_refine D score g.reads start_column middle_column end_column).bind fun r =>
        let base := r.1
        let read_states := r.2
        (splice_split base).bind fun fixed =>
          let midpoint_kmer := (base.length - K + 1) / 2
          (splice_reanchor decode base midpoint_kmer read_states middle_column.anchors).map
            fun anchors =>
              let new_start := { start_column with base_sequence := fixed.1 }
              let new_middle := { middle_column with base_sequence := fixed.2, anchors := anchors }
              { g with anchored_columns :=
                  (g.anchored_columns.set segment_id new_start).set (segment_id + 1) new_middle }
    | _, _, _ => none

/-- The function `run_splice_segment`, with the scorer and the decoder of the source. -/
def run_splice_segment (g : HmmConsData R) (segment_id : Nat) : Option (HmmConsData R) :=
  run_splice_segment_with D (score_sequence D) (posterior_decode D) g segment_id

end Driver

/-! ### Specification-side notions for k-mers -/

/-- A base: one of `A`, `C`, `G`, `T`. -/
def isBase (c : Char) : Prop := c = 'A' ∨ c = 'C' ∨ c = 'G' ∨ c = 'T'

instance (c : Char) : Decidable (isBase c) := by unfold isBase; infer_instance

/-- A 5-mer over `{A,C,G,T}`. -/
def is5mer (s : List Char) : Prop := s.length = 5 ∧ ∀ c ∈ s, isBase c

instance (s : List Char) : Decidable (is5mer s) := by unfold is5mer; infer_instance

/-- The complement of a base: `A <-> T`, `C <-> G`. -/
def complement (c : Char) : Char :=
  if c = 'A' then 'T' else if c = 'T' then 'A' else if c = 'C' then 'G'
  else if c = 'G' then 'C' else c

/-- The reverse complement of a sequence, as the specification words it: reverse, then swap
`A <-> T` and `C <-> G`. -/
def reverse_complement (s : List Char) : List Char := s.reverse.map complement

/-- The digit of a base in the specification's words: `A=0, C=1, G=2, T=3`. -/
def base_code (c : Char) : Nat :=
  if c = 'A' then 0 else if c = 'C' then 1 else if c = 'G' then 2 else if c = 'T' then 3 else 0

/-- The base-4 value of a 5-mer, `s[0]` the most significant digit. -/
def base4_value (s : List Char) : Nat :=
  ((List.range 5).map (fun i => base_code (charAt s i) * 4 ^ (4 - i))).sum

/-- A read-state as `get_read_states_for_columns` builds it from two anchors with event
indices in `[0, 2^31)`: the stride is the sign of `stop - start` (and `-1` when both are equal). -/
def ReadStateOk {R : Type} (rs : HMMConsReadState R) : Prop :=
  rs.event_start_idx < 2147483648 ∧ rs.event_stop_idx < 2147483648 ∧
    rs.stride = if rs.event_start_idx < rs.event_stop_idx then 1 else -1

instance {R : Type} (rs : HMMConsReadState R) : Decidable (ReadStateOk rs) := by
  unfold ReadStateOk; infer_instance

/-! ### Concrete data for evaluating the engine -/

/-- A small instance of the operations, for evaluating the engine on concrete inputs: integer
arithmetic, the infinities as two large numbers, `log` and `exp` as the identity. -/
def intOps : DoubleOps Int where
  lit := fun q => q.num / q.den
  neg_inf := -1000000
  inf := 1000000
  add := fun a b => a + b
  sub := fun a b => a - b
  mul := fun a b => a * b
  div := fun a b => a / b
  log := fun a => a
  exp := fun a => a
  fabs := fun a => |a|
  lt := fun a b => decide (a < b)
  le := fun a b => decide (a ≤ b)
  eq := fun a b => decide (a = b)

/-- A read over `intOps`: every model level is the rank of its k-mer, every event has level 0. -/
def example_read : CSquiggleRead Int where
  read_id := 0
  pore_model := fun _ =>
    { scale := 1, shift := 0, drift := 0, var := 1,
      state := fun r => { level_mean := r, level_stdv := 1, sd_mean := 0, sd_stdv := 1 } }
  events := fun _ => { n_events := 8, level := fun _ => 0, stdv := fun _ => 1, time := fun i => i }
  parameters := fun _ =>
    { self_transition := 0, fit_quality := 0, get_skip_probability := fun _ _ => 0 }

/-- A read-state of `example_read`: the events 2 to 4 of the first strand. -/
def example_state : HMMConsReadState Int where
  read := example_read
  anchor_index := 0
  event_start_idx := 2
  event_stop_idx := 4
  strand := 0
  stride := 1
  rc := false

/-- Three anchored columns that satisfy the join invariant, for one read whose two strands
have no event at any of the anchors. -/
def example_columns : List HMMAnchoredColumn :=
  [ { anchors := [⟨-1, false⟩, ⟨-1, false⟩], base_sequence := "ACGTACGT".toList,
      alt_sequences := [] },
    { anchors := [⟨-1, false⟩, ⟨-1, false⟩], base_sequence := "TACGTTTTTTTTTT".toList,
      alt_sequences := [] },
    { anchors := [⟨-1, false⟩, ⟨-1, false⟩], base_sequence := "TTTTTGG".toList,
      alt_sequences := [] } ]

/-- The engine data of the example: one read, three columns, `initialize` called. -/
def example_data : HmmConsData Int where
  num_threads := 1
  reads := [example_read]
  anchored_columns := example_columns
  consensus_result := []
  g_initialized := true

/-! ### Notions used in the proofs -/

/-- The five shifted digits or-ed into a `uint32_t`, in the order of both loops. -/
def lor5 (x0 x1 x2 x3 x4 : Nat) : Nat :=
  (((((((((0 ||| (x0 <<< 8)) % 4294967296) ||| (x1 <<< 6)) % 4294967296) ||| (x2 <<< 4))
    % 4294967296) ||| (x3 <<< 2)) % 4294967296) ||| (x4 <<< 0)) % 4294967296

/-- The dimensions of a matrix. -/
def HasDims {T : Type} (r c : Nat) (m : Matrix T) : Prop := m.n_rows = r ∧ m.n_cols = c

/-- The relation that the labelling loop of `posterior_decode_khmm` establishes between an
entry `p` and the next entry `q`. -/
def LabelStep {R : Type} (tm : Matrix R) (p q : PosteriorState R) : Prop :=
  abs_of_u32 (u32 ((q.event_idx : Int) - p.event_idx)) = 1 ∧
  (q.kmer_idx = p.kmer_idx → q.state = 'E') ∧
  (q.kmer_idx = p.kmer_idx + 1 → q.state = 'M') ∧
  (q.kmer_idx ≥ p.kmer_idx + 2 → q.state = 'K') ∧
  q.log_transition_probability
    = get tm (u32 ((p.kmer_idx : Int) + 1)) (u32 ((q.kmer_idx : Int) + 1))

/-- The test of `kLCS` and `_kLCSBacktrack` on the k-mers at `i` of `a` and `j` of `b`. -/
def kmer_match (a b : List Char) (i j : Nat) : Bool := strncmp_eq K (a.drop i) (b.drop j)

/-- One row of the LCS recurrence from the previous row `prev`. -/
def lcsRowNext (matchRow : Nat → Bool) (prev : Nat → Nat) : Nat → Nat
  | 0 => 0
  | c + 1 => if matchRow c then prev c + 1 else max (lcsRowNext matchRow prev c) (prev (c + 1))

/-- The LCS recurrence on the k-mers of `a` and `b`: `lcsTab a b r c` is the value for the first
`r` k-mers of `a` and the first `c` k-mers of `b`. -/
def lcsTab (a b : List Char) : Nat → Nat → Nat
  | 0 => fun _ => 0
  | r + 1 => lcsRowNext (kmer_match a b r) (lcsTab a b r)

/-- The table of `kLCS` while it is filled: a matrix with `N` columns whose cells before
`(r, c)` in row-major order hold the LCS recurrence, and whose first column holds zeros. -/
def TableUpTo (a b : List Char) (nr N r c : Nat) (m : Matrix Nat) : Prop :=
  HasDims nr N m ∧
  (∀ r' c', c' < N → (r' < r ∨ (r' = r ∧ c' < c)) → get m r' c' = lcsTab a b r' c') ∧
  (∀ r', get m r' 0 = 0)

/-- The order of the pairs as `_kLCSBacktrack` pushes them: later pairs are smaller in both
indices. -/
def Descends (p q : kLCSPair) : Prop := q.i < p.i ∧ q.j < p.j

/-! ### Specification-side notions for read-states -/

/-- The read-states that the specification lists for two columns of anchors: in increasing
anchor index `a`, one read-state for every index at which neither event index is `-1`, for
the read `a / 2` and the strand `a % 2`. -/
def expected_read_states {R : Type} (reads : List (CSquiggleRead R))
    (start_anchors end_anchors : List HMMReadAnchor) : List (HMMConsReadState R) :=
  ((start_anchors.zip end_anchors).enum).filterMap fun x =>
    let a := x.1
    let s := x.2.1
    let e := x.2.2
    if s.event_idx = -1 ∨ e.event_idx = -1 then none
    else
      (reads[a / 2]?).map fun read =>
        { read := read, anchor_index := a, event_start_idx := s.event_idx.toNat,
          event_stop_idx := e.event_idx.toNat, strand := a % 2,
          stride := if s.event_idx < e.event_idx then 1 else -1, rc := s.rc }

/-- The operations on rationals, exact: for evaluating the comparisons of the engine on concrete
inputs.  The infinities are two large numbers, `log` and `exp` the identity. -/
def ratOps : DoubleOps ℚ where
  lit := fun q => q
  neg_inf := -1000000
  inf := 1000000
  add := fun a b => a + b
  sub := fun a b => a - b
  mul := fun a b => a * b
  div := fun a b => a / b
  log := fun a => a
  exp := fun a => a
  fabs := fun a => |a|
  lt := fun a b => decide (a < b)
  le := fun a b => decide (a ≤ b)
  eq := fun a b => decide (a = b)

/-- A read over `ratOps`. -/
def example_read_q : CSquiggleRead ℚ where
  read_id := 0
  pore_model := fun _ =>
    { scale := 1, shift := 0, drift := 0, var := 1,
      state := fun r => { level_mean := r, level_stdv := 1, sd_mean := 0, sd_stdv := 1 } }
  events := fun _ => { n_events := 40, level := fun _ => 0, stdv := fun _ => 1, time := fun i => i }
  parameters := fun _ =>
    { self_transition := 1 / 2, fit_quality := 0, get_skip_probability := fun _ _ => 1 / 2 }

/-- The read-state number `k` of `example_read_q`: ten events, from 0 to 9. -/
def example_state_q (k : Nat) : HMMConsReadState ℚ where
  read := example_read_q
  anchor_index := k
  event_start_idx := 0
  event_stop_idx := 9
  strand := k % 2
  stride := 1
  rc := false

/-- The edits of a sequence at the position `si` in the specification's words: the substitutions
of `sequence[si]` by the other bases, the deletion of the position, and the insertions of
`A`, `C`, `G`, `T` before the position. -/
def expected_mutations_at (s : List Char) (si : Nat) : List (List Char) :=
  ("ACGT".toList.filter (fun b => b ≠ charAt s si)).map (fun b => s.take si ++ b :: s.drop (si + 1))
    ++ [s.take si ++ s.drop (si + 1)]
    ++ "ACGT".toList.map (fun b => s.take si ++ b :: s.drop si)

/-- The candidate strings of the mutation phase in the specification's words: the sequence
itself, then the edits at the positions `5 .. n - 6` in increasing order. -/
def expected_mutations (s : List Char) : List (List Char) :=
  s :: (List.range' 5 (s.length - 10)).flatMap (expected_mutations_at s)

/-- The substring `s[a .. b)`. -/
def slice (s : List Char) (a b : Nat) : List Char := (s.drop a).take (b - a)

/-- The pairs of consecutive anchors that are not strictly adjacent. -/
def divergent_pairs (l : List kLCSPair) : List (kLCSPair × kLCSPair) :=
  (l.zip l.tail).filter fun pq => ¬ (pq.2.i = pq.1.i + 1 ∧ pq.2.j = pq.1.j + 1)

/-- The candidate of the specification for two consecutive anchors `(i, j)` and `(i', j')`:
`base[0 .. i) ++ alt[j .. j') ++ base[i' ..)`. -/
def expected_splice (base alt : List Char) (pq : kLCSPair × kLCSPair) : List Char :=
  base.take pq.1.i ++ slice alt pq.1.j pq.2.j ++ base.drop pq.2.i

/-- The update of one path in the aggregation loop of `score_paths`, for the entry `r` of the
sorted `result` at position `pri`. -/
def aggregate_update {R : Type} (D : DoubleOps R) (first_path_score : R)
    (r : IndexedPathScore R) (pri : Nat) (p : PathCons R) : PathCons R :=
  { p with
    score := D.add p.score (D.sub r.score first_path_score)
    sum_rank := p.sum_rank + pri
    num_improved := p.num_improved + (if D.lt first_path_score r.score then 1 else 0)
    num_scored := p.num_scored + 1 }

/-- The first path of a list satisfies `P`, has the string `first`, and the strings of the list
are a sublist of `strings`. -/
def PathsInv {R : Type} (P : PathCons R → Prop) (first : List Char)
    (strings : List (List Char)) (paths : List (PathCons R)) : Prop :=
  ∃ h t, paths = h :: t ∧ h.path = first ∧ P h ∧
    List.Sublist (paths.map fun p => p.path) strings

/-- A scorer for the path scorer: the draft `AAAAAAAAAA` scores 0 on every read, the candidate
`AAAAACAAAA` scores 10 worse than the draft, every other candidate 1 better. -/
def example_path_score (path : List Char) (_rs : HMMConsReadState ℚ) : Option ℚ :=
  if path = "AAAAAAAAAA".toList then some 0
  else if path = "AAAAACAAAA".toList then some (-10)
  else some 1

/-- Four candidate paths: the draft, two candidates, and the draft once more. -/
def example_paths : List (PathCons ℚ) :=
  [PathCons.mk_path ratOps "AAAAAAAAAA".toList, PathCons.mk_path ratOps "AAAAACAAAA".toList,
   PathCons.mk_path ratOps "AAAAAGAAAA".toList, PathCons.mk_path ratOps "AAAAAAAAAA".toList]

/-- The first `n` read-states of `example_read_q`. -/
def example_states (n : Nat) : List (HMMConsReadState ℚ) := (List.range n).map example_state_q

/-- A scorer that depends on the read-state: on the read-state with anchor index `k` the draft
`AAAAAAAAAA` scores `-30 - (k mod 7)`, the candidate `AAAAACAAAA` scores 10 less than the draft
and every other candidate 1 more than the draft. -/
def example_read_score (path : List Char) (rs : HMMConsReadState ℚ) : Option ℚ :=
  let draft : ℚ := -30 - ((rs.anchor_index % 7 : Nat) : ℚ)
  if path = "AAAAAAAAAA".toList then some draft
  else if path = "AAAAACAAAA".toList then some (draft - 10)
  else some (draft + 1)

/-- The scoring and the aggregation of `score_paths` for one read (the loop body without the
gate and without the cull step): `none` when a scoring aborts or `paths` is empty. -/
def aggregate_read {R : Type} (D : DoubleOps R)
    (score : List Char → HMMConsReadState R → Option R) (read_state : HMMConsReadState R)
    (paths : List (PathCons R)) : Option (List (PathCons R)) :=
  (paths.mapM fun p => score p.path read_state).bind fun scores =>
    match scores with
    | [] => none
    | first_path_score :: _ =>
      let result := stable_sort (fun (a b : IndexedPathScore R) => D.lt b.score a.score)
        (scores.enum.map fun is => { score := is.2, path_index := is.1 })
      some (aggregate_scores D first_path_score result 0 paths)

/-- The paths of `score_paths` after the first `n` reads, before the final sort. -/
def paths_after_reads {R : Type} (D : DoubleOps R)
    (score : List Char → HMMConsReadState R → Option R) (paths : List (PathCons R))
    (read_states : List (HMMConsReadState R)) (n : Nat) : Option (List (PathCons R)) :=
  (List.range n).foldlM (score_paths_read D score read_states) (dedup_paths D paths [])

/-- The retention test of a cull step for the path `p` at index `i`. -/
def retained {R : Type} (D : DoubleOps R) (i : Nat) (p : PathCons R) : Prop :=
  i = 0 ∨ D.lt (D.lit (-30)) p.score = true ∨
    D.le (D.lit (13421773 / 67108864)) (D.div (D.lit p.num_improved) (D.lit p.num_scored)) = true

/-- Two paths at a cull step: the draft at index 0 and a candidate with running score `-40`
that improved 1 read of 5. -/
def example_cull_paths : List (PathCons ℚ) :=
  [ { path := "AAAAAAAAAA".toList, score := 0, sum_rank := 5, num_improved := 0, num_scored := 5,
      mutdesc := [] },
    { path := "AAAAACAAAA".toList, score := -40, sum_rank := 1, num_improved := 1,
      num_scored := 5, mutdesc := [] } ]

/-! ### Exact real arithmetic with infinities and NaN -/

/-- The values of a `double` under exact arithmetic: NaN, the two infinities, or a real number.
Rounding, overflow, underflow and the sign of zero are not modelled. -/
inductive XReal where
  | nan : XReal
  | ninf : XReal
  | pinf : XReal
  | fin : ℝ → XReal

namespace XReal

/-- The sum `a + b`: `inf + -inf` is NaN. -/
noncomputable def add : XReal → XReal → XReal
  | fin x, fin y => fin (x + y)
  | fin _, ninf => ninf
  | fin _, pinf => pinf
  | ninf, fin _ => ninf
  | ninf, ninf => ninf
  | pinf, fin _ => pinf
  | pinf, pinf => pinf
  | _, _ => nan

/-- The negation `-a`. -/
noncomputable def neg : XReal → XReal
  | fin x => fin (-x)
  | ninf => pinf
  | pinf => ninf
  | nan => nan

/-- The difference `a - b`. -/
noncomputable def sub (a b : XReal) : XReal := add a (neg b)

/-- The infinity with the sign of `x` times the sign of the infinity `pos`; NaN when `x = 0`. -/
noncomputable def signed_inf (x : ℝ) (pos : Bool) : XReal :=
  if x = 0 then nan else if (0 < x) = (pos = true) then pinf else ninf

/-- The product `a * b`: `0 * inf` is NaN. -/
noncomputable def mul : XReal → XReal → XReal
  | fin x, fin y => fin (x * y)
  | fin x, pinf => signed_inf x true
  | fin x, ninf => signed_inf x false
  | pinf, fin y => signed_inf y true
  | ninf, fin y => signed_inf y false
  | pinf, pinf => pinf
  | ninf, ninf => pinf
  | pinf, ninf => ninf
  | ninf, pinf => ninf
  | _, _ => nan

/-- The quotient `a / b`: `0 / 0` and `inf / inf` are NaN, a non-zero number over zero is an
infinity (the zero taken as positive). -/
noncomputable def div : XReal → XReal → XReal
  | fin x, fin y => if y = 0 then signed_inf x true else fin (x / y)
  | fin _, pinf => fin 0
  | fin _, ninf => fin 0
  | pinf, fin y => if 0 ≤ y then pinf else ninf
  | ninf, fin y => if 0 ≤ y then ninf else pinf
  | _, _ => nan

/-- The function `log`: `log(0)` is `-inf`, the logarithm of a negative number is NaN. -/
noncomputable def log : XReal → XReal
  | fin x => if x < 0 then nan else if x = 0 then ninf else fin (Real.log x)
  | pinf => pinf
  | _ => nan

/-- The function `exp`: `exp(-inf)` is `0`. -/
noncomputable def exp : XReal → XReal
  | fin x => fin (Real.exp x)
  | ninf => fin 0
  | pinf => pinf
  | nan => nan

/-- The function `fabs`. -/
noncomputable def fabs : XReal → XReal
  | fin x => fin |x|
  | ninf => pinf
  | pinf => pinf
  | nan => nan

/-- The comparison `a < b`: false when an operand is NaN. -/
noncomputable def lt : XReal → XReal → Bool
  | fin x, fin y => decide (x < y)
  | ninf, fin _ => true
  | ninf, pinf => true
  | fin _, pinf => true
  | _, _ => false

/-- The comparison `a <= b`: false when an operand is NaN. -/
noncomputable def le : XReal → XReal → Bool
  | fin x, fin y => decide (x ≤ y)
  | ninf, fin _ => true
  | ninf, pinf => true
  | fin _, pinf => true
  | ninf, ninf => true
  | pinf, pinf => true
  | _, _ => false

/-- The comparison `a == b`: false when an operand is NaN. -/
noncomputable def eq : XReal → XReal → Bool
  | fin x, fin y => decide (x = y)
  | ninf, ninf => true
  | pinf, pinf => true
  | _, _ => false

/-- The probability of a log-probability: `exp` as a real number (`0` for `-inf`). -/
noncomputable def prob : XReal → ℝ
  | fin x => Real.exp x
  | _ => 0

/-- The value is a real number or `-inf`: a log-probability. -/
def IsLog : XReal → Prop
  | fin _ => True
  | ninf => True
  | _ => False

end XReal

/-- The operations of `double` under exact arithmetic. -/
noncomputable def realOps : DoubleOps XReal where
  lit := fun q => XReal.fin (q : ℝ)
  neg_inf := XReal.ninf
  inf := XReal.pinf
  add := XReal.add
  sub := XReal.sub
  mul := XReal.mul
  div := XReal.div
  log := XReal.log
  exp := XReal.exp
  fabs := XReal.fabs
  lt := XReal.lt
  le := XReal.le
  eq := XReal.eq

/-! ### Notions for the forward matrix -/

/-- The right-hand side of the forward recurrence for the cell `(r, sl)` of the matrix `f`: the
emission of the event of row `r` in the k-mer `sl - 1`, added to the sum (by `add_logs`,
starting from `-INFINITY`, in increasing `sk`) of `T[sk, sl] + f[r - 1, sk]` over the states
`first <= sk <= sl`. -/
def forward_recurrence {R : Type} (D : DoubleOps R) (tm : Matrix R) (sequence : List Char)
    (state : HMMConsReadState R) (e_start : Nat) (f : Matrix R) (first r sl : Nat) : R :=
  D.add
    (log_probability_match D state.read (get_rank state sequence (sl - 1))
      (event_at state e_start (r - 1)) state.strand)
    ((loop_range first (sl + 1)).foldl
      (fun sum sk => add_logs D sum (D.add (get tm sk sl) (get f (r - 1) sk))) D.neg_inf)

/-! ### Concrete data under exact arithmetic -/

/-- A read under exact arithmetic: every model state has the mean 0 and the standard deviation
`1/10`, every event has the level 0, the scalings are the identity. -/
noncomputable def example_read_x : CSquiggleRead XReal where
  read_id := 0
  pore_model := fun _ =>
    { scale := XReal.fin 1, shift := XReal.fin 0, drift := XReal.fin 0, var := XReal.fin 1,
      state := fun _ =>
        { level_mean := XReal.fin 0, level_stdv := XReal.fin (1 / 10), sd_mean := XReal.fin 0,
          sd_stdv := XReal.fin 1 } }
  events := fun _ =>
    { n_events := 4, level := fun _ => XReal.fin 0, stdv := fun _ => XReal.fin 1,
      time := fun _ => XReal.fin 0 }
  parameters := fun _ =>
    { self_transition := XReal.fin (1 / 2), fit_quality := XReal.fin 0,
      get_skip_probability := fun _ _ => XReal.fin (1 / 2) }

/-- A read-state of `example_read_x` with the single event 0. -/
noncomputable def example_state_x : HMMConsReadState XReal where
  read := example_read_x
  anchor_index := 0
  event_start_idx := 0
  event_stop_idx := 0
  strand := 0
  stride := -1
  rc := false

/-! ### Concrete data for the training loop -/

/-- A read over `ratOps` whose scalings are not the identity: `scale = 2`, `shift = 1`,
`var = 3`; every model state has the mean 1 and the standard deviation 1, every event the
level 10. -/
def example_read_t : CSquiggleRead ℚ where
  read_id := 0
  pore_model := fun _ =>
    { scale := 2, shift := 1, drift := 0, var := 3,
      state := fun _ => { level_mean := 1, level_stdv := 1, sd_mean := 0, sd_stdv := 1 } }
  events := fun _ =>
    { n_events := 40, level := fun _ => 10, stdv := fun _ => 1, time := fun i => i }
  parameters := fun _ =>
    { self_transition := 1 / 2, fit_quality := 0, get_skip_probability := fun _ _ => 1 / 2 }

/-- A read-state of `example_read_t`: the events 0 to 11. -/
def example_state_t : HMMConsReadState ℚ where
  read := example_read_t
  anchor_index := 0
  event_start_idx := 0
  event_stop_idx := 11
  strand := 0
  stride := 1
  rc := false

/-- A decoding of 12 steps: the event `i` in the k-mer `i`, every step a match. -/
def example_decode : List (PosteriorState ℚ) :=
  (List.range 12).map fun i =>
    { event_idx := i, kmer_idx := i, l_posterior := 0, l_fm := 0,
      log_transition_probability := 0, state := 'M' }

/-- The empty accumulator. -/
def empty_training_data (R : Type) : TrainingData R :=
  { transitions := [], emissions_for_matches := [], n_matches := 0, n_merges := 0, n_skips := 0 }

/-! ### Notions for log-probabilities under exact arithmetic -/

/-- A log-probability that is at most 0: `-inf` or a real number `<= 0`. -/
def XReal.IsLogLe (x : XReal) : Prop := x = XReal.ninf ∨ ∃ v : ℝ, v ≤ 0 ∧ x = XReal.fin v

/-- The probability mass of the row `r` of a matrix of log-probabilities over the columns
`0 .. Nk`. -/
noncomputable def row_mass (m : Matrix XReal) (Nk r : Nat) : ℝ :=
  Finset.sum (Finset.range (Nk + 1)) (fun c => XReal.prob (get m r c))

/-- A well-formed input under exact arithmetic: the parameters of the pore model and the events
are real numbers, the model standard deviations are positive, `self_transition` and the skip
probabilities are numbers in `[0, 1]`. -/
def WellFormedInput (state : HMMConsReadState XReal) : Prop :=
  (∃ sc sh dr v : ℝ,
    (state.read.pore_model state.strand).scale = XReal.fin sc ∧
    (state.read.pore_model state.strand).shift = XReal.fin sh ∧
    (state.read.pore_model state.strand).drift = XReal.fin dr ∧
    (state.read.pore_model state.strand).var = XReal.fin v ∧ 0 < v) ∧
  (∀ r, ∃ mu sigma : ℝ,
    ((state.read.pore_model state.strand).state r).level_mean = XReal.fin mu ∧
    ((state.read.pore_model state.strand).state r).level_stdv = XReal.fin sigma ∧ 0 < sigma) ∧
  (∀ i, ∃ l t : ℝ,
    (state.read.events state.strand).level i = XReal.fin l ∧
    (state.read.events state.strand).time i = XReal.fin t) ∧
  (∃ p : ℝ, (state.read.parameters state.strand).self_transition = XReal.fin p ∧
    0 ≤ p ∧ p ≤ 1) ∧
  (∀ a b, ∃ q : ℝ,
    (state.read.parameters state.strand).get_skip_probability a b = XReal.fin q ∧
      0 ≤ q ∧ q ≤ 1)

/-- A scorer for a long run: the draft `AAAAAAAAAA` scores 0 on every read, every other
candidate scores 1 on the first 80530638 reads and -1 on the later ones. -/
def example_long_score (path : List Char) (rs : HMMConsReadState ℚ) : Option ℚ :=
  if path = "AAAAAAAAAA".toList then some 0
  else if rs.anchor_index < 80530638 then some 1
  else some (-1)

/-- The draft and one candidate. -/
def example_long_paths : List (PathCons ℚ) :=
  [PathCons.mk_path ratOps "AAAAAAAAAA".toList, PathCons.mk_path ratOps "AAAAACAAAA".toList]

/-- The paths of the long run after `n` reads: the draft, and the candidate with `n` reads
scored, `min n 80530638` of them improved, and the running score `2 * min n 80530638 - n`. -/
def LongRunPaths (n : Nat) (paths : List (PathCons ℚ)) : Prop :=
  ∃ (sa : ℚ) (ra ia na : Nat) (ma : List Char) (sb : ℚ) (rb : Nat) (mb : List Char),
    paths =
      [{ path := "AAAAAAAAAA".toList, score := sa, sum_rank := ra, num_improved := ia,
         num_scored := na, mutdesc := ma },
       { path := "AAAAACAAAA".toList, score := sb, sum_rank := rb,
         num_improved := min n 80530638, num_scored := n, mutdesc := mb }] ∧
    sb = 2 * ((min n 80530638 : Nat) : ℚ) - (n : ℚ)

/-! ### Specification-side notions for the ends of a sequence -/

/-- Two sequences with the same first `K` bases and the same last `K` bases. -/
def SameEnds (a b : List Char) : Prop :=
  a.take K = b.take K ∧ a.drop (a.length - K) = b.drop (b.length - K)

/-! ### An example segment with one kept read-state -/

/-- A scorer that gives every sequence the log-likelihood 0 on every read-state. -/
def example_flat_score (_sequence : List Char) (_rs : HMMConsReadState Int) : Option Int :=
  some 0

/-- A decoder that aligns the events 2, 3 and 4 to the k-mers 2, 3 and 3. -/
def example_flat_decode (_sequence : List Char) (_rs : HMMConsReadState Int) :
    Option (List (PosteriorState Int)) :=
  some
    [ { event_idx := 2, kmer_idx := 2, l_posterior := 0, l_fm := 0,
        log_transition_probability := 0, state := 'M' },
      { event_idx := 3, kmer_idx := 3, l_posterior := 0, l_fm := 0,
        log_transition_probability := 0, state := 'M' },
      { event_idx := 4, kmer_idx := 3, l_posterior := 0, l_fm := 0,
        log_transition_probability := 0, state := 'E' } ]

/-- Three anchored columns that satisfy the join invariant, for one read whose first strand has
the events 2, 3 and 4 at the anchors. -/
def example_columns_r : List HMMAnchoredColumn :=
  [ { anchors := [⟨2, false⟩, ⟨-1, false⟩], base_sequence := "AAAAAC".toList,
      alt_sequences := ["AAAAATC".toList] },
    { anchors := [⟨3, false⟩, ⟨-1, false⟩], base_sequence := "AAAACGGGG".toList,
      alt_sequences := [] },
    { anchors := [⟨4, false⟩, ⟨-1, false⟩], base_sequence := "CGGGGT".toList,
      alt_sequences := [] } ]

/-- The engine data of the example segment: one read, three columns, `initialize` called. -/
def example_data_r : HmmConsData Int where
  num_threads := 1
  reads := [example_read]
  anchored_columns := example_columns_r
  consensus_result := []
  g_initialized := true

/-! ## The driver loop -/

/-- The body of the loop of `run_splice` for the segment `segment_id`, on the engine data and
the strings `uncorrected` and `consensus`; `none` when a `substr` throws, when the call of
`run_splice_segment` aborts or when the assertion on the consensus fails. -/
def run_splice_step {R : Type} (D : DoubleOps R)
    (score : List Char → HMMConsReadState R → Option R)
    (decode : List Char → HMMConsReadState R → Option (List (PosteriorState R)))
    (st : HmmConsData R × List Char × List Char) (segment_id : Nat) :
    Option (HmmConsData R × List Char × List Char) :=
  let g := st.1
  let uncorrected := st.2.1
  let consensus := st.2.2
  match g.anchored_columns[segment_id]? with
  | none => none
  | some column =>
    let uncorrected1 :=
      if uncorrected = [] then some column.base_sequence
      else if column.base_sequence.length < K then none
      else some (uncorrected ++ column.base_sequence.drop K)
    uncorrected1.bind fun uncorrected2 =>
      (run_splice_segment_with D score decode g segment_id).bind fun g1 =>
        match g1.anchored_columns[segment_id]? with
        | none => none
        | some column1 =>
          let base := column1.base_sequence
          if consensus = [] then some (g1, uncorrected2, base)
          else if consensus.length < K then none
          else if consensus.drop (consensus.length - K) = substr base 0 K then
            if base.length < K then none else some (g1, uncorrected2, consensus ++ base.drop K)
          else none

/-- The function `run_splice` over a scorer and a decoder: the engine data after the call, with
`consensus_result` written; `none` when the engine aborts.  The data has at least two columns,
so `num_segments - 2` does not wrap. -/
def run_splice_with {R : Type} (D : DoubleOps R)
    (score : List Char → HMMConsReadState R → Option R)
    (decode : List Char → HMMConsReadState R → Option (List (PosteriorState R)))
    (g : HmmConsData R) : Option (HmmConsData R) :=
  if !g.g_initialized then none
  else
    let num_segments := g.anchored_columns.length
    ((loop_range 0 (num_segments - 2)).foldlM (run_splice_step D score decode) (g, [], [])).map
      fun st => { st.1 with consensus_result := st.2.2 }

/-- The function `run_splice`, with the scorer and the decoder of the source. -/
def run_splice {R : Type} (D : DoubleOps R) (g : HmmConsData R) : Option (HmmConsData R) :=
  run_splice_with D (score_sequence D) (posterior_decode D) g

/-! ### Specification-side notions for the driver loop -/

/-- The join invariant of the specification between a sequence and the next one: both have at
least `K` bases and the last `K` bases of the first are the first `K` bases of the second. -/
def Joins (a b : List Char) : Prop :=
  K ≤ a.length ∧ K ≤ b.length ∧ a.drop (a.length - K) = b.take K

instance (a b : List Char) : Decidable (Joins a b) := by unfold Joins; infer_instance

/-- The consensus of the specification for a list of columns: the base sequence of the first
column followed by the base sequences of the next columns without their first `K` bases. -/
def expected_consensus : List HMMAnchoredColumn → List Char
  | [] => []
  | c :: rest => c.base_sequence ++ rest.flatMap fun x => x.base_sequence.drop K

/-- The engine data of the example segment with a fourth column. -/
def example_data_r4 : HmmConsData Int :=
  { example_data_r with
    anchored_columns := example_columns_r ++
      [ { anchors := [⟨6, false⟩, ⟨-1, false⟩], base_sequence := "GGGGTAAAAA".toList,
          alt_sequences := [] } ] }

/-! ### Notions for the forward and backward matrices under exact arithmetic -/

/-- The value that `fill_backward_khmm` writes to the cell `(r, sk)` of a matrix with `nc`
columns, on the row `r + 1` of the matrix `b`: the sum (by `add_logs`, starting from
`-INFINITY`, in increasing `sl`) of `lp_e + T[sk, sl] + b[r + 1, sl]` over the interior states
`sl`, `lp_e` being the emission of the event of row `r + 1` in the k-mer `sl - 1`. -/
def backward_recurrence {R : Type} (D : DoubleOps R) (tm : Matrix R) (sequence : List Char)
    (state : HMMConsReadState R) (e_start nc : Nat) (b : Matrix R) (r sk : Nat) : R :=
  (loop_range 1 (nc - 1)).foldl
    (fun sum sl =>
      add_logs D sum
        (D.add
          (D.add
            (log_probability_match D state.read (get_rank state sequence (sl - 1))
              (event_at state e_start r) state.strand)
            (get tm sk sl))
          (get b (r + 1) sl))) D.neg_inf

/-- The real number of a finite value (`0` otherwise). -/
noncomputable def XReal.toReal : XReal → ℝ
  | XReal.fin x => x
  | _ => 0

/-- The emission log-density of the event of the row `r` in the state `sl`, as a real number. -/
noncomputable def emission (sequence : List Char) (state : HMMConsReadState XReal)
    (r sl : Nat) : ℝ :=
  XReal.toReal (log_probability_match realOps state.read (get_rank state sequence (sl - 1))
    (event_at state state.event_start_idx (r - 1)) state.strand)

/-- The tables of the HMM for `Nk` k-mers and `E` events under exact arithmetic: the transition
matrix `tm` holds log-probabilities and is `-inf` outside the band of forward jumps, except for
the start and the end transition; the forward matrix `f` and the backward matrix `b` hold their
initial cells and their recurrences, on the emission log-densities `em`. -/
structure HmmTables (Nk E : Nat) (tm f b : Matrix XReal) (em : Nat → Nat → ℝ) : Prop where
  hNk : 1 ≤ Nk
  hE : 1 ≤ E
  tm_log : ∀ r c, r < Nk + 2 → c < Nk + 2 → XReal.IsLog (get tm r c)
  tm_band : ∀ r c, r < Nk + 2 → c < Nk + 2 → ¬ (1 ≤ r ∧ r ≤ c ∧ c ≤ r + 5 ∧ c ≤ Nk) →
    get tm r c = if (r = Nk ∧ c = Nk + 1) ∨ (r = 0 ∧ c = 1) then XReal.fin 0 else XReal.ninf
  f_start : get f 0 0 = XReal.fin 0
  f_top : ∀ c, 1 ≤ c → c < Nk + 2 → get f 0 c = XReal.ninf
  f_left : ∀ r, 1 ≤ r → r ≤ E → get f r 0 = XReal.ninf
  f_right : ∀ r, 1 ≤ r → r ≤ E → get f r (Nk + 1) = XReal.fin 0
  f_rec : ∀ r sl, 1 ≤ r → r ≤ E → 1 ≤ sl → sl ≤ Nk →
    get f r sl = XReal.add (XReal.fin (em r sl))
      ((loop_range (sl - 5) (sl + 1)).foldl
        (fun sum sk => add_logs realOps sum (XReal.add (get tm sk sl) (get f (r - 1) sk)))
        XReal.ninf)
  b_last : ∀ c, c < Nk + 2 → get b E c = get tm c (Nk + 1)
  b_left : ∀ r, r < E → get b r 0 = XReal.fin 0
  b_right : ∀ r, r < E → get b r (Nk + 1) = XReal.fin 0
  b_rec : ∀ r sk, 1 ≤ r → r < E → 1 ≤ sk → sk ≤ Nk →
    get b r sk = (loop_range 1 (Nk + 1)).foldl
      (fun sum sl => add_logs realOps sum
        (XReal.add (XReal.add (XReal.fin (em (r + 1) sl)) (get tm sk sl)) (get b (r + 1) sl)))
      XReal.ninf

/-- A read-state of `example_read_x` with the two events 0 and 1. -/
noncomputable def example_state_x2 : HMMConsReadState XReal where
  read := example_read_x
  anchor_index := 0
  event_start_idx := 0
  event_stop_idx := 1
  strand := 0
  stride := 1
  rc := false

/-! ### The levels of the k-mers -/

/-- The scaled level of the k-mer `ki` in `fill_khmm_transitions`:
`(pm.state[rank].level_mean + pm.shift) * pm.scale`, with `rank` the rank of the k-mer. -/
def kmer_level {R : Type} (D : DoubleOps R) (consensus : List Char) (state : HMMConsReadState R)
    (ki : Nat) : R :=
  let pm := state.read.pore_model state.strand
  D.mul (D.add (pm.state (get_rank state consensus ki)).level_mean pm.shift) pm.scale

/-! ### Notions for the loop of `run_splice` -/

/-- The state of the loop of `run_splice` after its first `k` iterations: the data, `uncorrected`
and `consensus`; `none` when the engine has aborted. -/
def run_splice_steps {R : Type} (D : DoubleOps R)
    (score : List Char → HMMConsReadState R → Option R)
    (decode : List Char → HMMConsReadState R → Option (List (PosteriorState R)))
    (g : HmmConsData R) (k : Nat) : Option (HmmConsData R × List Char × List Char) :=
  (loop_range 0 k).foldlM (run_splice_step D score decode) (g, [], [])

/-- The join invariant of a list of columns: the last `K` bytes of every base sequence are the
first `K` bytes of the base sequence of the next column. -/
def ColumnsJoin (cols : List HMMAnchoredColumn) : Prop :=
  ∀ i S M, cols[i]? = some S → cols[i + 1]? = some M → Joins S.base_sequence M.base_sequence

/-- The strings of a column are C strings in the range of the 32-bit indices of the engine: the
base sequence has fewer than `2^27` bytes, every alternate fewer than `2^28` bytes, and none
holds a terminator. -/
def ColumnInRange (c : HMMAnchoredColumn) : Prop :=
  c.base_sequence.length < 134217728 ∧ (∀ x ∈ c.base_sequence, x ≠ NUL) ∧
    ∀ alt ∈ c.alt_sequences, alt.length < 268435456 ∧ ∀ x ∈ alt, x ≠ NUL

instance (c : HMMAnchoredColumn) : Decidable (ColumnInRange c) := by
  unfold ColumnInRange; infer_instance

/-- The engine data of the example segment with the start-column alternate `A` and the middle
base `AAAACGG`: the composed alternate is `AGG`, of 3 bytes. -/
def example_data_short : HmmConsData Int :=
  { example_data_r with
    anchored_columns :=
      [ { anchors := [⟨2, false⟩, ⟨-1, false⟩], base_sequence := "AAAAAC".toList,
          alt_sequences := ["A".toList] },
        { anchors := [⟨3, false⟩, ⟨-1, false⟩], base_sequence := "AAAACGG".toList,
          alt_sequences := [] },
        { anchors := [⟨4, false⟩, ⟨-1, false⟩], base_sequence := "AACGGT".toList,
          alt_sequences := [] } ] }

/-! ## Theorems: k-mer ranks -/

theorem is5mer_cases (s : List Char) (h : is5mer s) :
    ∃ a b c d e, s = [a, b, c, d, e] ∧ isBase a ∧ isBase b ∧ isBase c ∧ isBase d ∧ isBase e := by
  obtain ⟨hl, hb⟩ := h
  match s, hl with
  | [a, b, c, d, e], _ =>
    exact ⟨a, b, c, d, e, rfl, hb a (by simp), hb b (by simp), hb c (by simp), hb d (by simp),
      hb e (by simp)⟩

theorem kmer_rank_five (a b c d e : Char) :
    kmer_rank [a, b, c, d, e] 5
      = lor5 (base_rank a) (base_rank b) (base_rank c) (base_rank d) (base_rank e) := rfl

theorem rc_kmer_rank_five (a b c d e : Char) :
    rc_kmer_rank [a, b, c, d, e] 5
      = lor5 (3 - base_rank e) (3 - base_rank d) (3 - base_rank c) (3 - base_rank b)
          (3 - base_rank a) := rfl

theorem lor5_fin : ∀ x0 x1 x2 x3 x4 : Fin 4,
    lor5 x0 x1 x2 x3 x4 = 256 * x0 + 64 * x1 + 16 * x2 + 4 * x3 + x4 := by decide

theorem lor5_eq (x0 x1 x2 x3 x4 : Nat) (h0 : x0 < 4) (h1 : x1 < 4) (h2 : x2 < 4) (h3 : x3 < 4)
    (h4 : x4 < 4) : lor5 x0 x1 x2 x3 x4 = 256 * x0 + 64 * x1 + 16 * x2 + 4 * x3 + x4 :=
  lor5_fin ⟨x0, h0⟩ ⟨x1, h1⟩ ⟨x2, h2⟩ ⟨x3, h3⟩ ⟨x4, h4⟩

theorem base_rank_table_lt : ∀ x ∈ base_rank_table, x < 4 := by
  set_option maxRecDepth 8000 in decide

theorem base_rank_lt (c : Char) : base_rank c < 4 := by
  unfold base_rank
  have hall := base_rank_table_lt
  rw [List.getD_eq_getElem?_getD]
  cases hx : base_rank_table[c.toNat]? with
  | none => simp
  | some v => simpa using hall v (List.getElem?_mem hx)

theorem base_rank_complement (c : Char) (h : isBase c) :
    base_rank (complement c) = 3 - base_rank c := by
  rcases h with rfl | rfl | rfl | rfl <;> decide

theorem base_rank_eq_base_code (c : Char) (h : isBase c) : base_rank c = base_code c := by
  rcases h with rfl | rfl | rfl | rfl <;> decide

/-- C1: for every 5-mer `s` over `{A,C,G,T}`, `rc_kmer_rank(s, 5)` is
`kmer_rank(reverse_complement(s), 5)`. -/
theorem rc_kmer_rank_eq_kmer_rank_reverse_complement (s : List Char) (h : is5mer s) :
    rc_kmer_rank s 5 = kmer_rank (reverse_complement s) 5 := by
  obtain ⟨a, b, c, d, e, rfl, ha, hb, hc, hd, he⟩ := is5mer_cases s h
  have hr : reverse_complement [a, b, c, d, e]
      = [complement e, complement d, complement c, complement b, complement a] := rfl
  rw [hr, kmer_rank_five, rc_kmer_rank_five, base_rank_complement a ha, base_rank_complement b hb,
    base_rank_complement c hc, base_rank_complement d hd, base_rank_complement e he]

theorem rc_kmer_rank_eq_kmer_rank_reverse_complement_witness :
    is5mer ['A', 'C', 'G', 'T', 'T'] ∧
      rc_kmer_rank ['A', 'C', 'G', 'T', 'T'] 5
        = kmer_rank (reverse_complement ['A', 'C', 'G', 'T', 'T']) 5 :=
  ⟨by decide, rc_kmer_rank_eq_kmer_rank_reverse_complement _ (by decide)⟩

theorem kmer_rank_charAt (p : List Char) :
    kmer_rank p 5 = lor5 (base_rank (charAt p 0)) (base_rank (charAt p 1))
      (base_rank (charAt p 2)) (base_rank (charAt p 3)) (base_rank (charAt p 4)) := rfl

theorem rc_kmer_rank_charAt (p : List Char) :
    rc_kmer_rank p 5 = lor5 (3 - base_rank (charAt p 4)) (3 - base_rank (charAt p 3))
      (3 - base_rank (charAt p 2)) (3 - base_rank (charAt p 1)) (3 - base_rank (charAt p 0)) := rfl

theorem lor5_lt (x0 x1 x2 x3 x4 : Nat) (h0 : x0 < 4) (h1 : x1 < 4) (h2 : x2 < 4) (h3 : x3 < 4)
    (h4 : x4 < 4) : lor5 x0 x1 x2 x3 x4 < 1024 := by
  rw [lor5_eq x0 x1 x2 x3 x4 h0 h1 h2 h3 h4]; omega

theorem kmer_rank_lt (p : List Char) : kmer_rank p 5 < 1024 := by
  rw [kmer_rank_charAt]
  exact lor5_lt _ _ _ _ _ (base_rank_lt _) (base_rank_lt _) (base_rank_lt _) (base_rank_lt _)
    (base_rank_lt _)

theorem rc_kmer_rank_lt (p : List Char) : rc_kmer_rank p 5 < 1024 := by
  rw [rc_kmer_rank_charAt]
  exact lor5_lt _ _ _ _ _ (by omega) (by omega) (by omega) (by omega) (by omega)

theorem base_code_lt (c : Char) : base_code c < 4 := by
  unfold base_code; split_ifs <;> omega

theorem base_code_inj (a b : Char) (ha : isBase a) (hb : isBase b)
    (h : base_code a = base_code b) : a = b := by
  rcases ha with rfl | rfl | rfl | rfl <;> rcases hb with rfl | rfl | rfl | rfl <;>
    first | rfl | (exfalso; revert h; decide)

theorem base4_value_five (a b c d e : Char) :
    base4_value [a, b, c, d, e]
      = 256 * base_code a + 64 * base_code b + 16 * base_code c + 4 * base_code d
        + base_code e := by
  simp [base4_value, List.range_succ, charAt]
  ring

theorem kmer_rank_eq_base4_value (s : List Char) (h : is5mer s) :
    kmer_rank s 5 = base4_value s := by
  obtain ⟨a, b, c, d, e, rfl, ha, hb, hc, hd, he⟩ := is5mer_cases s h
  rw [kmer_rank_five, base4_value_five, base_rank_eq_base_code a ha, base_rank_eq_base_code b hb,
    base_rank_eq_base_code c hc, base_rank_eq_base_code d hd, base_rank_eq_base_code e he]
  exact lor5_eq _ _ _ _ _ (base_code_lt a) (base_code_lt b) (base_code_lt c) (base_code_lt d)
    (base_code_lt e)

theorem base4_value_inj (s t : List Char) (hs : is5mer s) (ht : is5mer t)
    (h : base4_value s = base4_value t) : s = t := by
  obtain ⟨a, b, c, d, e, rfl, ha, hb, hc, hd, he⟩ := is5mer_cases s hs
  obtain ⟨a', b', c', d', e', rfl, ha', hb', hc', hd', he'⟩ := is5mer_cases t ht
  rw [base4_value_five, base4_value_five] at h
  have h1 := base_code_lt a; have h2 := base_code_lt b; have h3 := base_code_lt c
  have h4 := base_code_lt d; have h5 := base_code_lt e
  have h1' := base_code_lt a'; have h2' := base_code_lt b'; have h3' := base_code_lt c'
  have h4' := base_code_lt d'; have h5' := base_code_lt e'
  have e1 : a = a' := base_code_inj a a' ha ha' (by omega)
  have e2 : b = b' := base_code_inj b b' hb hb' (by omega)
  have e3 : c = c' := base_code_inj c c' hc hc' (by omega)
  have e4 : d = d' := base_code_inj d d' hd hd' (by omega)
  have e5 : e = e' := base_code_inj e e' he he' (by omega)
  rw [e1, e2, e3, e4, e5]

/-- C2: on 5-mers over `{A,C,G,T}`, `kmer_rank(s, 5)` is the base-4 number with digits
`A=0, C=1, G=2, T=3` and `s[0]` most significant; `AAAAA` has rank 0, `TTTTT` has rank 1023,
and `kmer_rank` is injective on such 5-mers. -/
theorem kmer_rank_is_base4 :
    (∀ s : List Char, is5mer s → kmer_rank s 5 = base4_value s) ∧
    kmer_rank "AAAAA".toList 5 = 0 ∧ kmer_rank "TTTTT".toList 5 = 1023 ∧
    (∀ s t : List Char, is5mer s → is5mer t → kmer_rank s 5 = kmer_rank t 5 → s = t) := by
  refine ⟨kmer_rank_eq_base4_value, by decide, by decide, ?_⟩
  intro s t hs ht h
  rw [kmer_rank_eq_base4_value s hs, kmer_rank_eq_base4_value t ht] at h
  exact base4_value_inj s t hs ht h

theorem kmer_rank_is_base4_witness :
    is5mer "GATTC".toList ∧ kmer_rank "GATTC".toList 5 = base4_value "GATTC".toList ∧
      base4_value "GATTC".toList = 573 :=
  ⟨by decide, kmer_rank_is_base4.1 _ (by decide), by decide⟩

/-! ## Theorems: the segment driver -/

theorem splice_split_eq (base : List Char) (h : 5 ≤ base.length) :
    splice_split base
      = some (base.take ((base.length - 5 + 1) / 2 + 5), base.drop ((base.length - 5 + 1) / 2)) := by
  have hlen : (List.take ((base.length - 5 + 1) / 2 + 5) base).length
      = (base.length - 5 + 1) / 2 + 5 := by
    rw [List.length_take]; omega
  simp only [splice_split, K, substr, List.drop_zero, ge_iff_le, h, if_true, hlen]
  rw [if_pos]
  rw [List.drop_take]
  congr 1
  omega

theorem split_overlap (base : List Char) (h : 5 ≤ base.length) :
    (base.take ((base.length - 5 + 1) / 2 + 5)).drop
        ((base.take ((base.length - 5 + 1) / 2 + 5)).length - 5)
      = (base.drop ((base.length - 5 + 1) / 2)).take 5 := by
  have hlen : (List.take ((base.length - 5 + 1) / 2 + 5) base).length
      = (base.length - 5 + 1) / 2 + 5 := by
    rw [List.length_take]; omega
  rw [hlen, List.drop_take]
  congr 1
  omega

theorem join_split (base : List Char) (h : 5 ≤ base.length) :
    join_sequences_at_kmer (base.take ((base.length - 5 + 1) / 2 + 5))
      (base.drop ((base.length - 5 + 1) / 2)) = some base := by
  have hlen : (List.take ((base.length - 5 + 1) / 2 + 5) base).length
      = (base.length - 5 + 1) / 2 + 5 := by
    rw [List.length_take]; omega
  have hov := split_overlap base h
  unfold join_sequences_at_kmer
  rw [if_neg (by rw [hlen]; simp [K])]
  simp only [K, substr, List.drop_zero]
  rw [if_pos hov, List.drop_drop, List.take_append_drop]

theorem join_length (a b original : List Char)
    (h : join_sequences_at_kmer a b = some original) : 5 ≤ original.length := by
  unfold join_sequences_at_kmer at h
  split at h
  · exact absurd h (by simp)
  · rename_i h1
    simp only at h
    split at h
    · simp only [Option.some.injEq] at h
      rw [← h, List.length_append]
      simp only [K] at h1
      omega
    · exact absurd h (by simp)

theorem run_splice_segment_with_eq {R : Type} (D : DoubleOps R)
    (score : List Char → HMMConsReadState R → Option R)
    (decode : List Char → HMMConsReadState R → Option (List (PosteriorState R)))
    (g : HmmConsData R) (segment_id : Nat) (S M E : HMMAnchoredColumn) (base : List Char)
    (rs : List (HMMConsReadState R)) (hinit : g.g_initialized = true)
    (hS : g.anchored_columns[segment_id]? = some S)
    (hM : g.anchored_columns[segment_id + 1]? = some M)
    (hE : g.anchored_columns[segment_id + 2]? = some E)
    (href : splice_refine D score g.reads S M E = some (base, rs)) (hlen : 5 ≤ base.length) :
    run_splice_segment_with D score decode g segment_id
      = (splice_reanchor decode base ((base.length - 5 + 1) / 2) rs M.anchors).map fun anchors =>
          { g with anchored_columns :=
              ((g.anchored_columns.set segment_id
                { S with base_sequence := base.take ((base.length - 5 + 1) / 2 + 5) }).set
                (segment_id + 1)
                { M with base_sequence := base.drop ((base.length - 5 + 1) / 2),
                         anchors := anchors }) } := by
  unfold run_splice_segment_with
  simp only [hinit, hS, hM, hE, href, Option.some_bind, splice_split_eq base hlen, K,
    Bool.not_true, Bool.false_eq_true, if_false]

theorem base_sequences_after_set (cols : List HMMAnchoredColumn) (n : Nat)
    (S' M' : HMMAnchoredColumn) (hn : n + 1 < cols.length) :
    (((cols.set n S').set (n + 1) M')[n]?).map (fun c => c.base_sequence) = some S'.base_sequence ∧
    (((cols.set n S').set (n + 1) M')[n + 1]?).map (fun c => c.base_sequence)
      = some M'.base_sequence := by
  constructor
  · rw [List.getElem?_set_ne (by omega), List.getElem?_set]
    simp; omega
  · rw [List.getElem?_set]
    simp; omega

/-- C4: when the refined sequence `base` of a segment has at least 5 bases, the split assertion
of `run_splice_segment` holds, the call aborts only if a decoding of the re-anchoring loop
aborts, and it writes `S.base = base[0 .. mid+5)` and `M.base = base[mid ..)` with
`mid = (len(base) - 5 + 1) / 2`; the last 5 bases of `S.base` are the first 5 bases of
`M.base`, and `join_sequences_at_kmer(S.base, M.base)` gives back `base`. -/
theorem run_splice_segment_split {R : Type} (D : DoubleOps R)
    (score : List Char → HMMConsReadState R → Option R)
    (decode : List Char → HMMConsReadState R → Option (List (PosteriorState R)))
    (g : HmmConsData R) (segment_id : Nat) (S M E : HMMAnchoredColumn) (base : List Char)
    (rs : List (HMMConsReadState R)) (hinit : g.g_initialized = true)
    (hS : g.anchored_columns[segment_id]? = some S)
    (hM : g.anchored_columns[segment_id + 1]? = some M)
    (hE : g.anchored_columns[segment_id + 2]? = some E)
    (href : splice_refine D score g.reads S M E = some (base, rs)) (hlen : 5 ≤ base.length) :
    splice_split base
      = some (base.take ((base.length - 5 + 1) / 2 + 5), base.drop ((base.length - 5 + 1) / 2)) ∧
    (base.take ((base.length - 5 + 1) / 2 + 5)).drop
        ((base.take ((base.length - 5 + 1) / 2 + 5)).length - 5)
      = (base.drop ((base.length - 5 + 1) / 2)).take 5 ∧
    join_sequences_at_kmer (base.take ((base.length - 5 + 1) / 2 + 5))
      (base.drop ((base.length - 5 + 1) / 2)) = some base ∧
    (run_splice_segment_with D score decode g segment_id).isSome
      = (splice_reanchor decode base ((base.length - 5 + 1) / 2) rs M.anchors).isSome ∧
    ∀ g', run_splice_segment_with D score decode g segment_id = some g' →
      (g'.anchored_columns[segment_id]?).map (fun c => c.base_sequence)
        = some (base.take ((base.length - 5 + 1) / 2 + 5)) ∧
      (g'.anchored_columns[segment_id + 1]?).map (fun c => c.base_sequence)
        = some (base.drop ((base.length - 5 + 1) / 2)) := by
  have hrun := run_splice_segment_with_eq D score decode g segment_id S M E base rs hinit hS hM hE
    href hlen
  have hn : segment_id + 1 < g.anchored_columns.length := by
    have := List.getElem?_eq_some_iff.mp hM
    obtain ⟨h, _⟩ := this
    exact h
  refine ⟨splice_split_eq base hlen, split_overlap base hlen, join_split base hlen, ?_, ?_⟩
  · rw [hrun]; simp
  · intro g' hg'
    rw [hrun] at hg'
    cases hre : splice_reanchor decode base ((base.length - 5 + 1) / 2) rs M.anchors with
    | none => rw [hre] at hg'; simp at hg'
    | some anchors =>
      rw [hre] at hg'
      simp only [Option.map_some', Option.some.injEq] at hg'
      rw [← hg']
      exact base_sequences_after_set g.anchored_columns segment_id _ _ hn

theorem run_splice_segment_split_witness :
    5 ≤ "ACGTACGTTTTTTTTTT".toList.length ∧
    splice_split "ACGTACGTTTTTTTTTT".toList
      = some ("ACGTACGTTTTTTTTTT".toList.take (("ACGTACGTTTTTTTTTT".toList.length - 5 + 1) / 2 + 5),
          "ACGTACGTTTTTTTTTT".toList.drop (("ACGTACGTTTTTTTTTT".toList.length - 5 + 1) / 2)) :=
  ⟨by decide,
    (run_splice_segment_split intOps (score_sequence intOps) (posterior_decode intOps)
      example_data 0
      { anchors := [⟨-1, false⟩, ⟨-1, false⟩], base_sequence := "ACGTACGT".toList,
        alt_sequences := [] }
      { anchors := [⟨-1, false⟩, ⟨-1, false⟩], base_sequence := "TACGTTTTTTTTTT".toList,
        alt_sequences := [] }
      { anchors := [⟨-1, false⟩, ⟨-1, false⟩], base_sequence := "TTTTTGG".toList,
        alt_sequences := [] }
      "ACGTACGTTTTTTTTTT".toList [] rfl rfl rfl rfl rfl (by decide)).1⟩

theorem splice_refine_no_reads {R : Type} (D : DoubleOps R)
    (score : List Char → HMMConsReadState R → Option R) (reads : List (CSquiggleRead R))
    (S M E : HMMAnchoredColumn) (original : List Char)
    (hjoin : join_sequences_at_kmer S.base_sequence M.base_sequence = some original)
    (hrs : (get_read_states_for_columns reads S E).bind
      (filter_outlier_read_states D score original) = some []) :
    splice_refine D score reads S M E = some (original, []) := by
  unfold splice_refine
  rw [hjoin, Option.some_bind]
  cases hall : get_read_states_for_columns reads S E with
  | none => rw [hall] at hrs; simp at hrs
  | some all_states =>
    rw [hall, Option.some_bind] at hrs
    simp only [Option.some_bind, hrs]

/-- C5 (amended): a segment whose list of read-states is empty leaves the joined sequence and
every anchor of `M` unchanged, but re-cuts the two base sequences at the midpoint k-mer:
`S.base` becomes `original[0 .. mid+5)` and `M.base` becomes `original[mid ..)` for
`original = join_sequences_at_kmer(S.base, M.base)` and `mid = (len(original) - 5 + 1) / 2`, so
that joining the two new base sequences gives `original` again. -/
theorem run_splice_segment_no_reads {R : Type} (D : DoubleOps R)
    (score : List Char → HMMConsReadState R → Option R)
    (decode : List Char → HMMConsReadState R → Option (List (PosteriorState R)))
    (g : HmmConsData R) (segment_id : Nat) (S M E : HMMAnchoredColumn) (original : List Char)
    (hinit : g.g_initialized = true)
    (hS : g.anchored_columns[segment_id]? = some S)
    (hM : g.anchored_columns[segment_id + 1]? = some M)
    (hE : g.anchored_columns[segment_id + 2]? = some E)
    (hjoin : join_sequences_at_kmer S.base_sequence M.base_sequence = some original)
    (hrs : (get_read_states_for_columns g.reads S E).bind
      (filter_outlier_read_states D score original) = some []) :
    run_splice_segment_with D score decode g segment_id
      = some { g with anchored_columns :=
          ((g.anchored_columns.set segment_id
            { S with base_sequence := original.take ((original.length - 5 + 1) / 2 + 5) }).set
            (segment_id + 1)
            { M with base_sequence := original.drop ((original.length - 5 + 1) / 2) }) } ∧
    join_sequences_at_kmer (original.take ((original.length - 5 + 1) / 2 + 5))
      (original.drop ((original.length - 5 + 1) / 2)) = some original := by
  have hlen := join_length _ _ _ hjoin
  have href := splice_refine_no_reads D score g.reads S M E original hjoin hrs
  refine ⟨?_, join_split original hlen⟩
  rw [run_splice_segment_with_eq D score decode g segment_id S M E original [] hinit hS hM hE href
    hlen]
  rfl

theorem run_splice_segment_no_reads_witness :
    run_splice_segment_with intOps (score_sequence intOps) (posterior_decode intOps) example_data 0
      = some { example_data with anchored_columns :=
          [ { anchors := [⟨-1, false⟩, ⟨-1, false⟩], base_sequence := "ACGTACGTTTT".toList,
              alt_sequences := [] },
            { anchors := [⟨-1, false⟩, ⟨-1, false⟩], base_sequence := "GTTTTTTTTTT".toList,
              alt_sequences := [] },
            { anchors := [⟨-1, false⟩, ⟨-1, false⟩], base_sequence := "TTTTTGG".toList,
              alt_sequences := [] } ] } :=
  (run_splice_segment_no_reads intOps (score_sequence intOps) (posterior_decode intOps)
    example_data 0
    { anchors := [⟨-1, false⟩, ⟨-1, false⟩], base_sequence := "ACGTACGT".toList,
      alt_sequences := [] }
    { anchors := [⟨-1, false⟩, ⟨-1, false⟩], base_sequence := "TACGTTTTTTTTTT".toList,
      alt_sequences := [] }
    { anchors := [⟨-1, false⟩, ⟨-1, false⟩], base_sequence := "TTTTTGG".toList,
      alt_sequences := [] }
    "ACGTACGTTTTTTTTTT".toList rfl rfl rfl rfl rfl rfl).1

/-- C5 (counterexample): in the example the two strands of the only read have no event at the
anchors, so the list of read-states is empty; `run_splice_segment` still rewrites the base
sequence of the start column (`ACGTACGT`) and of the middle column (`TACGTTTTTTTTTT`). -/
theorem run_splice_segment_no_reads_rewrites_base :
    (get_read_states_for_columns example_data.reads
        { anchors := [⟨-1, false⟩, ⟨-1, false⟩], base_sequence := "ACGTACGT".toList,
          alt_sequences := [] }
        { anchors := [⟨-1, false⟩, ⟨-1, false⟩], base_sequence := "TTTTTGG".toList,
          alt_sequences := [] }).map List.length = some 0 ∧
    example_data.anchored_columns.map (fun c => c.base_sequence)
      = ["ACGTACGT".toList, "TACGTTTTTTTTTT".toList, "TTTTTGG".toList] ∧
    (run_splice_segment intOps example_data 0).map
        (fun g => g.anchored_columns.map (fun c => c.base_sequence))
      = some ["ACGTACGTTTT".toList, "GTTTTTTTTTT".toList, "TTTTTGG".toList] ∧
    ¬ ∀ g', run_splice_segment intOps example_data 0 = some g' →
        g'.anchored_columns.map (fun c => c.base_sequence)
          = example_data.anchored_columns.map (fun c => c.base_sequence) := by
  refine ⟨by decide, by decide, by decide, ?_⟩
  intro h
  have hrun : run_splice_segment intOps example_data 0
      = some { example_data with anchored_columns :=
          [ { anchors := [⟨-1, false⟩, ⟨-1, false⟩], base_sequence := "ACGTACGTTTT".toList,
              alt_sequences := [] },
            { anchors := [⟨-1, false⟩, ⟨-1, false⟩], base_sequence := "GTTTTTTTTTT".toList,
              alt_sequences := [] },
            { anchors := [⟨-1, false⟩, ⟨-1, false⟩], base_sequence := "TTTTTGG".toList,
              alt_sequences := [] } ] } := rfl
  have := h _ hrun
  revert this
  decide

/-! ## Theorems: posterior decoding -/

theorem foldl_invariant {α β : Type} (P : β → Prop) (f : β → α → β)
    (hf : ∀ b a, P b → P (f b a)) : ∀ (l : List α) (b : β), P b → P (l.foldl f b) := by
  intro l
  induction l with
  | nil => intro b hb; exact hb
  | cons a l ih => intro b hb; exact ih (f b a) (hf b a hb)

theorem set_dims {T : Type} (r c : Nat) (m : Matrix T) (row col : Nat) (v : T)
    (h : HasDims r c m) : HasDims r c (set m row col v) := h

theorem initialize_forward_khmm_dims {R : Type} (D : DoubleOps R) (r c : Nat) (fm : Matrix R)
    (h : HasDims r c fm) : HasDims r c (initialize_forward_khmm D fm) := by
  unfold initialize_forward_khmm
  apply set_dims
  apply foldl_invariant (HasDims r c) _ (fun b a hb => set_dims r c b _ _ _ hb)
  exact foldl_invariant (HasDims r c) _ (fun b a hb => set_dims r c b _ _ _ hb) _ _ h

theorem fill_forward_khmm_dims {R : Type} (D : DoubleOps R) (r c : Nat) (fm tm : Matrix R)
    (sequence : List Char) (state : HMMConsReadState R) (e_start : Nat) (h : HasDims r c fm) :
    HasDims r c (fill_forward_khmm D fm tm sequence state e_start).1 := by
  unfold fill_forward_khmm
  apply foldl_invariant (HasDims r c) _ _ _ _ h
  intro b a hb
  apply foldl_invariant (HasDims r c) _ _ _ _ hb
  intro b' a' hb'
  exact set_dims r c b' _ _ _ hb'

theorem khmm_forward_dims {R : Type} (D : DoubleOps R) (tm : Matrix R) (sequence : List Char)
    (state : HMMConsReadState R) :
    HasDims (u32 (n_events_of state + 1)) (sequence.length - K + 1 + 2)
      (khmm_forward D tm sequence state).1 := by
  unfold khmm_forward
  apply fill_forward_khmm_dims
  apply initialize_forward_khmm_dims
  exact ⟨rfl, rfl⟩

theorem u32_lt (x : Int) : u32 x < 4294967296 := by
  unfold u32; omega

theorem u32_of_nat (n : Nat) (h : n < 4294967296) : u32 (n : Int) = n := by
  unfold u32; omega

theorem walk_length {R : Type} (D : DoubleOps R) (fm bm : Matrix R) (lf : R)
    (state : HMMConsReadState R) (e_start : Nat) :
    ∀ row col, (posterior_decode_walk D fm bm lf state e_start row col).length = row := by
  intro row
  induction row with
  | zero => intro col; rfl
  | succ n ih => intro col; simp [posterior_decode_walk, ih]

theorem walk_event_idx {R : Type} (D : DoubleOps R) (fm bm : Matrix R) (lf : R)
    (state : HMMConsReadState R) (e_start : Nat) :
    ∀ row col, ((posterior_decode_walk D fm bm lf state e_start row col).reverse).map
        (fun p => p.event_idx) = (List.range row).map (event_at state e_start) := by
  intro row
  induction row with
  | zero => intro col; rfl
  | succ n ih =>
    intro col
    simp only [posterior_decode_walk, List.reverse_cons, List.map_append, List.map_cons,
      List.map_nil, List.range_succ, ih]

theorem walk_kmer_idx_lt {R : Type} (D : DoubleOps R) (fm bm : Matrix R) (lf : R)
    (state : HMMConsReadState R) (e_start : Nat) :
    ∀ row col, ∀ p ∈ posterior_decode_walk D fm bm lf state e_start row col,
      p.kmer_idx < 4294967296 := by
  intro row
  induction row with
  | zero => intro col p hp; simp [posterior_decode_walk] at hp
  | succ n ih =>
    intro col p hp
    simp only [posterior_decode_walk, List.mem_cons] at hp
    rcases hp with rfl | hp
    · exact u32_lt _
    · exact ih _ p hp

theorem posterior_label_spec {R : Type} (tm : Matrix R) :
    ∀ (rest : List (PosteriorState R)) (prev : PosteriorState R) (l : List (PosteriorState R)),
      (∀ q ∈ rest, q.kmer_idx < 4294967296) →
      posterior_label tm prev.event_idx prev.kmer_idx rest = some l →
      List.Chain (LabelStep tm) prev l ∧
      l.map (fun p => p.event_idx) = rest.map (fun p => p.event_idx) ∧
      l.map (fun p => p.kmer_idx) = rest.map (fun p => p.kmer_idx) := by
  intro rest
  induction rest with
  | nil =>
    intro prev l _ h
    simp only [posterior_label, Option.some.injEq] at h
    subst h
    exact ⟨List.Chain.nil, rfl, rfl⟩
  | cons ps rest ih =>
    intro prev l hlt h
    have hps : ps.kmer_idx < 4294967296 := hlt ps (List.mem_cons_self _ _)
    have hrest : ∀ q ∈ rest, q.kmer_idx < 4294967296 :=
      fun q hq => hlt q (List.mem_cons_of_mem _ hq)
    unfold posterior_label at h
    simp only at h
    split at h
    · rename_i habs
      split at h
      · rename_i hE
        obtain ⟨l', hl', rfl⟩ := Option.map_eq_some'.mp h
        obtain ⟨hc, he, hk⟩ := ih { ps with
          log_transition_probability :=
            get tm (u32 ((prev.kmer_idx : Int) + 1)) (u32 ((ps.kmer_idx : Int) + 1)),
          state := 'E' } l' hrest hl'
        refine ⟨List.Chain.cons ⟨habs, fun _ => rfl, ?_, ?_, rfl⟩ hc, ?_, ?_⟩
        · intro h1; simp only at h1; omega
        · intro h1; simp only at h1; omega
        · simp only [List.map_cons, he]
        · simp only [List.map_cons, hk]
      · rename_i hE
        split at h
        · rename_i hM
          obtain ⟨l', hl', rfl⟩ := Option.map_eq_some'.mp h
          obtain ⟨hc, he, hk⟩ := ih { ps with
            log_transition_probability :=
              get tm (u32 ((prev.kmer_idx : Int) + 1)) (u32 ((ps.kmer_idx : Int) + 1)),
            state := 'M' } l' hrest hl'
          refine ⟨List.Chain.cons ⟨habs, ?_, fun _ => rfl, ?_, rfl⟩ hc, ?_, ?_⟩
          · intro h1; exact absurd h1 hE
          · intro h1
            simp only at h1
            exfalso
            unfold u32 at hM
            omega
          · simp only [List.map_cons, he]
          · simp only [List.map_cons, hk]
        · rename_i hM
          split at h
          · obtain ⟨l', hl', rfl⟩ := Option.map_eq_some'.mp h
            obtain ⟨hc, he, hk⟩ := ih { ps with
              log_transition_probability :=
                get tm (u32 ((prev.kmer_idx : Int) + 1)) (u32 ((ps.kmer_idx : Int) + 1)),
              state := 'K' } l' hrest hl'
            refine ⟨List.Chain.cons ⟨habs, ?_, ?_, fun _ => rfl, rfl⟩ hc, ?_, ?_⟩
            · intro h1; exact absurd h1 hE
            · intro h1
              simp only at h1
              exfalso
              apply hM
              unfold u32
              omega
            · simp only [List.map_cons, he]
            · simp only [List.map_cons, hk]
          · exact absurd h (by simp)
    · exact absurd h (by simp)

theorem posterior_label_isSome {R : Type} (tm : Matrix R) :
    ∀ (rest : List (PosteriorState R)) (prev_ei prev_ki : Nat),
      List.Chain (fun a b : Nat => abs_of_u32 (u32 ((b : Int) - a)) = 1) prev_ei
        (rest.map (fun p => p.event_idx)) →
      prev_ki < 4294967296 → (∀ q ∈ rest, q.kmer_idx < 4294967296) →
      (posterior_label tm prev_ei prev_ki rest).isSome = true := by
  intro rest
  induction rest with
  | nil => intro _ _ _ _ _; rfl
  | cons ps rest ih =>
    intro prev_ei prev_ki hc hk hlt
    have hps : ps.kmer_idx < 4294967296 := hlt ps (List.mem_cons_self _ _)
    have hrest : ∀ q ∈ rest, q.kmer_idx < 4294967296 :=
      fun q hq => hlt q (List.mem_cons_of_mem _ hq)
    simp only [List.map_cons, List.chain_cons] at hc
    have hnext := ih ps.event_idx ps.kmer_idx hc.2 hps hrest
    unfold posterior_label
    simp only [hc.1, if_true]
    split
    · simpa using hnext
    · rename_i hne
      split
      · simpa using hnext
      · rename_i hne1
        have h2 : u32 ((ps.kmer_idx : Int) - prev_ki) > 1 := by
          unfold u32 at hne1 ⊢
          omega
        simp only [h2, if_true]
        simpa using hnext

theorem chain_getElem? {α : Type} (r : α → α → Prop) :
    ∀ (l : List α) (a : α), List.Chain r a l →
      ∀ (i : Nat) (p q : α), (a :: l)[i]? = some p → (a :: l)[i + 1]? = some q → r p q := by
  intro l
  induction l with
  | nil => intro a _ i p q _ hq; simp at hq
  | cons b l ih =>
    intro a hc i p q hp hq
    rw [List.chain_cons] at hc
    cases i with
    | zero =>
      simp only [List.getElem?_cons_zero, Option.some.injEq] at hp
      simp only [zero_add, List.getElem?_cons_succ, List.getElem?_cons_zero,
        Option.some.injEq] at hq
      subst hp; subst hq; exact hc.1
    | succ i =>
      rw [List.getElem?_cons_succ] at hp hq
      exact ih b hc.2 i p q hp hq

theorem n_events_of_ok {R : Type} (state : HMMConsReadState R) (hok : ReadStateOk state) :
    (n_events_of state : Int) = |(state.event_stop_idx : Int) - state.event_start_idx| + 1 ∧
    u32 ((n_events_of state : Int) + 1) = n_events_of state + 1 := by
  obtain ⟨h1, h2, _⟩ := hok
  unfold n_events_of u32
  simp only
  split
  · rw [abs_of_nonneg (by omega)]; omega
  · rw [abs_of_nonpos (by omega)]; omega

theorem event_at_ok {R : Type} (state : HMMConsReadState R) (hok : ReadStateOk state) (i : Nat)
    (hi : i < n_events_of state) :
    (event_at state state.event_start_idx i : Int) = state.event_start_idx + i * state.stride := by
  have hn := (n_events_of_ok state hok).1
  obtain ⟨h1, h2, h3⟩ := hok
  unfold event_at u32
  rw [h3]
  split
  · rename_i hlt
    rw [abs_of_nonneg (by omega)] at hn
    omega
  · rename_i hlt
    rw [abs_of_nonpos (by omega)] at hn
    omega

theorem stride_abs {R : Type} (state : HMMConsReadState R) (hok : ReadStateOk state) :
    |state.stride| = 1 ∧ abs_of_u32 (u32 state.stride) = 1 := by
  obtain ⟨_, _, h3⟩ := hok
  rw [h3]
  split <;> decide

theorem event_chain {R : Type} (state : HMMConsReadState R) (hok : ReadStateOk state) :
    ∀ (n k : Nat), k + n < n_events_of state →
      List.Chain (fun a b : Nat => abs_of_u32 (u32 ((b : Int) - a)) = 1)
        (event_at state state.event_start_idx k)
        ((List.range' (k + 1) n).map (event_at state state.event_start_idx)) := by
  intro n
  induction n with
  | zero => intro k _; exact List.Chain.nil
  | succ n ih =>
    intro k hk
    rw [List.range'_succ, List.map_cons]
    refine List.Chain.cons ?_ (ih (k + 1) (by omega))
    rw [event_at_ok state hok k (by omega), event_at_ok state hok (k + 1) (by omega)]
    have := (stride_abs state hok).2
    have e : ((state.event_start_idx : Int) + ((k + 1 : Nat) : Int) * state.stride
        - (state.event_start_idx + (k : Int) * state.stride)) = state.stride := by
      push_cast; ring
    rw [e]; exact this

/-- The entries of the walk of `posterior_decode_khmm`, in output order, for dimensions
`n + 1` rows: their event indices are `event(0), ..., event(n - 1)`. -/
theorem decode_output_spec {R : Type} (D : DoubleOps R) (tm fm bm : Matrix R) (lf : R)
    (state : HMMConsReadState R) (e_start : Nat) (out : List (PosteriorState R))
    (h : posterior_decode_output D tm fm bm lf state e_start = some out) :
    List.Chain' (LabelStep tm) out ∧
    out.map (fun p => p.event_idx)
      = (List.range (fm.n_rows - 1)).map (event_at state e_start) ∧
    ∃ first rest, out = first :: rest ∧ first.state = 'M' ∧
      first.log_transition_probability = get tm 0 (u32 ((first.kmer_idx : Int) + 1)) := by
  unfold posterior_decode_output at h
  simp only at h
  have hev := walk_event_idx D fm bm lf state e_start (fm.n_rows - 1) (fm.n_cols - 1)
  have hlt := walk_kmer_idx_lt D fm bm lf state e_start (fm.n_rows - 1) (fm.n_cols - 1)
  split at h
  · exact absurd h (by simp)
  · rename_i first rest hout
    obtain ⟨l, hl, rfl⟩ := Option.map_eq_some'.mp h
    have hrest : ∀ q ∈ rest, q.kmer_idx < 4294967296 := by
      intro q hq
      apply hlt q
      rw [← List.mem_reverse, hout]
      exact List.mem_cons_of_mem _ hq
    obtain ⟨hc, he, hk⟩ := posterior_label_spec tm rest
      { first with
          state := 'M'
          log_transition_probability := get tm 0 (u32 ((first.kmer_idx : Int) + 1)) } l hrest hl
    refine ⟨hc, ?_, _, _, rfl, rfl, rfl⟩
    rw [← hev, hout]
    simp only [List.map_cons, he]

theorem decode_output_isSome {R : Type} (D : DoubleOps R) (tm fm bm : Matrix R) (lf : R)
    (state : HMMConsReadState R) (hok : ReadStateOk state)
    (hrows : fm.n_rows = n_events_of state + 1) :
    (posterior_decode_output D tm fm bm lf state state.event_start_idx).isSome = true := by
  have hev := walk_event_idx D fm bm lf state state.event_start_idx (fm.n_rows - 1)
    (fm.n_cols - 1)
  have hlt := walk_kmer_idx_lt D fm bm lf state state.event_start_idx (fm.n_rows - 1)
    (fm.n_cols - 1)
  have hlen := walk_length D fm bm lf state state.event_start_idx (fm.n_rows - 1) (fm.n_cols - 1)
  have hn1 : 1 ≤ n_events_of state := by
    have := (n_events_of_ok state hok).1
    have := abs_nonneg ((state.event_stop_idx : Int) - state.event_start_idx)
    omega
  have hrow : fm.n_rows - 1 = (n_events_of state - 1) + 1 := by omega
  unfold posterior_decode_output
  simp only
  split
  · rename_i hnil
    have := congrArg List.length hnil
    rw [List.length_reverse, hlen] at this
    simp at this
    omega
  · rename_i first rest hout
    rw [hout, hrow, List.range_eq_range', List.range'_succ, List.map_cons, List.map_cons] at hev
    simp only [List.cons.injEq] at hev
    have hfirst : first.kmer_idx < 4294967296 := by
      apply hlt first
      rw [← List.mem_reverse, hout]
      exact List.mem_cons_self _ _
    have hrest : ∀ q ∈ rest, q.kmer_idx < 4294967296 := by
      intro q hq
      apply hlt q
      rw [← List.mem_reverse, hout]
      exact List.mem_cons_of_mem _ hq
    have hc := event_chain state hok (n_events_of state - 1) 0 (by omega)
    rw [← hev.1, zero_add, ← hev.2] at hc
    have := posterior_label_isSome tm rest first.event_idx first.kmer_idx hc hfirst hrest
    simpa using this

theorem posterior_decode_khmm_eq {R : Type} (D : DoubleOps R) (sequence : List Char)
    (state : HMMConsReadState R) (tm : Matrix R) (h : khmm_transitions D sequence state = some tm) :
    posterior_decode_khmm D sequence state
      = posterior_decode_output D tm (khmm_forward D tm sequence state).1
          (khmm_backward D tm sequence state) (khmm_forward D tm sequence state).2 state
          state.event_start_idx := by
  unfold posterior_decode_khmm
  rw [h, Option.some_bind]

theorem khmm_forward_n_rows {R : Type} (D : DoubleOps R) (tm : Matrix R) (sequence : List Char)
    (state : HMMConsReadState R) (hok : ReadStateOk state) :
    (khmm_forward D tm sequence state).1.n_rows = n_events_of state + 1 := by
  rw [(khmm_forward_dims D tm sequence state).1]
  have := (n_events_of_ok state hok).2
  push_cast at this ⊢
  exact this

theorem read_state_for_anchor_ok {R : Type} (reads : List (CSquiggleRead R)) (rsi : Nat)
    (s e : HMMReadAnchor) (crs : HMMConsReadState R)
    (hs : -1 ≤ s.event_idx ∧ s.event_idx < 2147483648)
    (he : -1 ≤ e.event_idx ∧ e.event_idx < 2147483648)
    (h : read_state_for_anchor reads rsi s e = some (some crs)) : ReadStateOk crs := by
  unfold read_state_for_anchor at h
  by_cases h1 : s.event_idx = -1 ∨ e.event_idx = -1
  · rw [if_pos h1] at h
    simp at h
  · rw [if_neg h1] at h
    simp only at h
    cases hr : reads[rsi / 2]? with
    | none => rw [hr] at h; simp at h
    | some read =>
      rw [hr] at h
      simp only at h
      by_cases h2 : s.rc = e.rc
      · rw [if_pos h2] at h
        simp only [Option.some.injEq] at h
        subst h
        unfold ReadStateOk u32
        simp only
        refine ⟨by omega, by omega, trivial⟩
      · rw [if_neg h2] at h
        simp at h

theorem read_states_from_ok {R : Type} (reads : List (CSquiggleRead R)) :
    ∀ (sa ea : List HMMReadAnchor) (rsi : Nat) (rs : List (HMMConsReadState R)),
      (∀ a ∈ sa, -1 ≤ a.event_idx ∧ a.event_idx < 2147483648) →
      (∀ a ∈ ea, -1 ≤ a.event_idx ∧ a.event_idx < 2147483648) →
      read_states_from reads rsi sa ea = some rs → ∀ r ∈ rs, ReadStateOk r := by
  intro sa
  induction sa with
  | nil =>
    intro ea rsi rs _ _ h
    unfold read_states_from at h
    simp only [Option.some.injEq] at h
    subst h
    intro r hr
    simp at hr
  | cons s srest ih =>
    intro ea rsi rs hS hE h
    cases ea with
    | nil =>
      unfold read_states_from at h
      simp only [Option.some.injEq] at h
      subst h
      intro r hr
      simp at hr
    | cons e erest =>
      unfold read_states_from at h
      obtain ⟨o, ho, h⟩ := Option.bind_eq_some.mp h
      obtain ⟨l, hl, rfl⟩ := Option.map_eq_some'.mp h
      have hrec := ih erest (rsi + 1) l (fun a ha => hS a (List.mem_cons_of_mem _ ha))
        (fun a ha => hE a (List.mem_cons_of_mem _ ha)) hl
      cases o with
      | none => exact hrec
      | some crs =>
        intro r hr
        rcases List.mem_cons.mp hr with rfl | hr
        · exact read_state_for_anchor_ok reads rsi s e r (hS s (List.mem_cons_self _ _))
            (hE e (List.mem_cons_self _ _)) ho
        · exact hrec r hr

/-- Every read-state that `get_read_states_for_columns` returns for anchors with event indices
in `[-1, 2^31)` is well formed. -/
theorem get_read_states_for_columns_ok {R : Type} (reads : List (CSquiggleRead R))
    (S E : HMMAnchoredColumn) (rs : List (HMMConsReadState R))
    (hS : ∀ a ∈ S.anchors, -1 ≤ a.event_idx ∧ a.event_idx < 2147483648)
    (hE : ∀ a ∈ E.anchors, -1 ≤ a.event_idx ∧ a.event_idx < 2147483648)
    (h : get_read_states_for_columns reads S E = some rs) : ∀ r ∈ rs, ReadStateOk r := by
  unfold get_read_states_for_columns at h
  by_cases hl : S.anchors.length = E.anchors.length
  · rw [if_pos hl] at h
    exact read_states_from_ok reads S.anchors E.anchors 0 rs hS hE h
  · rw [if_neg hl] at h
    simp at h

/-- C6: for a read-state as the engine builds it, the assertion `abs(ei - prev_ei) == 1` of
`posterior_decode_khmm` never fails (the decoding returns whenever the transition matrix is
built), and every two consecutive entries of the returned list have event indices that differ
by the stride of the read-state, hence by exactly 1 in absolute value. -/
theorem posterior_decode_event_steps {R : Type} (D : DoubleOps R) (sequence : List Char)
    (state : HMMConsReadState R) (hok : ReadStateOk state) :
    ((khmm_transitions D sequence state).isSome = true →
      (posterior_decode_khmm D sequence state).isSome = true) ∧
    ∀ out, posterior_decode_khmm D sequence state = some out →
      ∀ (i : Nat) (p q : PosteriorState R), out[i]? = some p → out[i + 1]? = some q →
        (q.event_idx : Int) - p.event_idx = state.stride ∧
        |(q.event_idx : Int) - p.event_idx| = 1 ∧
        abs_of_u32 (u32 ((q.event_idx : Int) - p.event_idx)) = 1 := by
  constructor
  · intro htm
    obtain ⟨tm, htm⟩ := Option.isSome_iff_exists.mp htm
    rw [posterior_decode_khmm_eq D sequence state tm htm]
    exact decode_output_isSome D tm _ _ _ state hok (khmm_forward_n_rows D tm sequence state hok)
  · intro out hout i p q hp hq
    cases htm : khmm_transitions D sequence state with
    | none => unfold posterior_decode_khmm at hout; rw [htm] at hout; simp at hout
    | some tm =>
      rw [posterior_decode_khmm_eq D sequence state tm htm] at hout
      obtain ⟨_, hev, _⟩ := decode_output_spec D tm _ _ _ state _ out hout
      rw [khmm_forward_n_rows D tm sequence state hok, Nat.add_sub_cancel] at hev
      have hpe := congrArg (fun l => l[i]?) hev
      have hqe := congrArg (fun l => l[i + 1]?) hev
      simp only [List.getElem?_map, hp, hq, Option.map_some'] at hpe hqe
      have hi : i + 1 < n_events_of state := by
        cases hr : (List.range (n_events_of state))[i + 1]? with
        | none => rw [hr] at hqe; simp at hqe
        | some v =>
          have := (List.getElem?_eq_some_iff.mp hr).1
          simpa using this
      rw [List.getElem?_range (by omega)] at hpe
      rw [List.getElem?_range hi] at hqe
      simp only [Option.map_some', Option.some.injEq] at hpe hqe
      have e1 := event_at_ok state hok i (by omega)
      have e2 := event_at_ok state hok (i + 1) hi
      rw [← hpe] at e1
      rw [← hqe] at e2
      have e : (q.event_idx : Int) - p.event_idx = state.stride := by
        rw [e1, e2]; push_cast; ring
      rw [e]
      exact ⟨rfl, (stride_abs state hok).1, (stride_abs state hok).2⟩

theorem posterior_decode_event_steps_witness :
    ReadStateOk example_state ∧
    (posterior_decode_khmm intOps "ACGTAC".toList example_state).isSome = true :=
  ⟨by decide,
    (posterior_decode_event_steps intOps "ACGTAC".toList example_state (by decide)).1
      (by with_unfolding_all decide)⟩

/-- C7: in every list returned by `posterior_decode_khmm` the first entry has state `M`; the
state of each later entry is `E` when its k-mer index equals the previous one, `M` when it is
the previous one plus 1, and `K` when it is at least the previous one plus 2; and its
`log_transition_probability` is the entry of the transition matrix at the row of the previous
k-mer index plus 1 and the column of its own k-mer index plus 1 (in `uint32_t` arithmetic). -/
theorem posterior_decode_states {R : Type} (D : DoubleOps R) (sequence : List Char)
    (state : HMMConsReadState R) (out : List (PosteriorState R))
    (h : posterior_decode_khmm D sequence state = some out) :
    ∃ tm, khmm_transitions D sequence state = some tm ∧
      (∃ first rest, out = first :: rest ∧ first.state = 'M') ∧
      ∀ (i : Nat) (p q : PosteriorState R), out[i]? = some p → out[i + 1]? = some q →
        (q.kmer_idx = p.kmer_idx → q.state = 'E') ∧
        (q.kmer_idx = p.kmer_idx + 1 → q.state = 'M') ∧
        (q.kmer_idx ≥ p.kmer_idx + 2 → q.state = 'K') ∧
        q.log_transition_probability
          = get tm (u32 ((p.kmer_idx : Int) + 1)) (u32 ((q.kmer_idx : Int) + 1)) ∧
        (p.kmer_idx + 1 < 4294967296 → q.kmer_idx + 1 < 4294967296 →
          q.log_transition_probability = get tm (p.kmer_idx + 1) (q.kmer_idx + 1)) := by
  cases htm : khmm_transitions D sequence state with
  | none => unfold posterior_decode_khmm at h; rw [htm] at h; simp at h
  | some tm =>
    rw [posterior_decode_khmm_eq D sequence state tm htm] at h
    obtain ⟨hc, _, first, rest, rfl, hM, _⟩ := decode_output_spec D tm _ _ _ state _ out h
    refine ⟨tm, rfl, ⟨first, rest, rfl, hM⟩, ?_⟩
    intro i p q hp hq
    obtain ⟨_, hE, hM', hK, hT⟩ := chain_getElem? (LabelStep tm) rest first hc i p q hp hq
    refine ⟨hE, hM', hK, hT, ?_⟩
    intro h1 h2
    rw [hT]
    have e1 : u32 ((p.kmer_idx : Int) + 1) = p.kmer_idx + 1 := by unfold u32; omega
    have e2 : u32 ((q.kmer_idx : Int) + 1) = q.kmer_idx + 1 := by unfold u32; omega
    rw [e1, e2]

theorem posterior_decode_states_witness :
    ∃ out, posterior_decode_khmm intOps "ACGTAC".toList example_state = some out ∧
      ∃ first rest, out = first :: rest ∧ first.state = 'M' := by
  have hs : (posterior_decode_khmm intOps "ACGTAC".toList example_state).isSome = true := by
    with_unfolding_all decide
  obtain ⟨out, hout⟩ := Option.isSome_iff_exists.mp hs
  obtain ⟨_, _, hfirst, _⟩ := posterior_decode_states intOps "ACGTAC".toList example_state out hout
  exact ⟨out, hout, hfirst⟩

/-! ## Theorems: k-LCS -/

theorem lcsTab_zero_left (a b : List Char) (c : Nat) : lcsTab a b 0 c = 0 := rfl

theorem lcsTab_zero_right (a b : List Char) (r : Nat) : lcsTab a b r 0 = 0 := by
  cases r <;> rfl

theorem lcsTab_succ (a b : List Char) (r c : Nat) :
    lcsTab a b (r + 1) (c + 1)
      = if kmer_match a b r c then lcsTab a b r c + 1
        else max (lcsTab a b (r + 1) c) (lcsTab a b r (c + 1)) := rfl

theorem foldl_range'_invariant {β : Type} (P : Nat → β → Prop) (f : β → Nat → β) :
    ∀ (n s : Nat) (b : β), (∀ i b, s ≤ i → i < s + n → P i b → P (i + 1) (f b i)) → P s b →
      P (s + n) ((List.range' s n).foldl f b) := by
  intro n
  induction n with
  | zero => intro s b _ hb; exact hb
  | succ n ih =>
    intro s b hstep hb
    rw [List.range'_succ, List.foldl_cons]
    have := ih (s + 1) (f b s) (fun i b hi hi' hP => hstep i b (by omega) (by omega) hP)
      (hstep s b (le_refl _) (by omega) hb)
    rw [show s + (n + 1) = s + 1 + n by omega]
    exact this

theorem cell_inj (N r c r' c' : Nat) (hc : c < N) (hc' : c' < N) (h : r * N + c = r' * N + c') :
    r = r' ∧ c = c' := by
  have hr : r = r' := by
    rcases Nat.lt_trichotomy r r' with hlt | heq | hgt
    · exfalso
      have : (r + 1) * N ≤ r' * N := Nat.mul_le_mul_right N hlt
      rw [Nat.add_mul] at this
      omega
    · exact heq
    · exfalso
      have : (r' + 1) * N ≤ r * N := Nat.mul_le_mul_right N hgt
      rw [Nat.add_mul] at this
      omega
  subst hr
  exact ⟨rfl, by omega⟩

theorem get_set_eq {T : Type} (m : Matrix T) (r c : Nat) (v : T) : get (set m r c v) r c = v := by
  simp [get, set, cell]

theorem get_set_ne {T : Type} (m : Matrix T) (r c r' c' : Nat) (v : T) (hc : c < m.n_cols)
    (hc' : c' < m.n_cols) (h : ¬ (r' = r ∧ c' = c)) : get (set m r c v) r' c' = get m r' c' := by
  unfold get set cell
  simp only
  rw [if_neg]
  intro e
  exact h (cell_inj m.n_cols r' c' r c hc' hc e)

theorem kLCS_cell_step (a b : List Char) (nr N r c : Nat) (m : Matrix Nat) (hr : 1 ≤ r)
    (hc : 1 ≤ c) (hcN : c < N) (h : TableUpTo a b nr N r c m) :
    TableUpTo a b nr N r (c + 1) (kLCS_cell a b r m c) := by
  obtain ⟨hd, hfill, hzero⟩ := h
  obtain ⟨r0, rfl⟩ : ∃ r0, r = r0 + 1 := ⟨r - 1, by omega⟩
  obtain ⟨c0, rfl⟩ : ∃ c0, c = c0 + 1 := ⟨c - 1, by omega⟩
  have hN : m.n_cols = N := hd.2
  have hscore : (if strncmp_eq K (a.drop (r0 + 1 - 1)) (b.drop (c0 + 1 - 1)) then
        get m (r0 + 1 - 1) (c0 + 1 - 1) + 1
      else max (get m (r0 + 1) (c0 + 1 - 1)) (get m (r0 + 1 - 1) (c0 + 1)))
      = lcsTab a b (r0 + 1) (c0 + 1) := by
    simp only [Nat.add_sub_cancel]
    rw [lcsTab_succ, hfill r0 c0 (by omega) (Or.inl (by omega)),
      hfill (r0 + 1) c0 (by omega) (Or.inr ⟨rfl, by omega⟩),
      hfill r0 (c0 + 1) hcN (Or.inl (by omega))]
    rfl
  unfold kLCS_cell
  simp only
  rw [hscore]
  refine ⟨set_dims nr N m _ _ _ hd, ?_, ?_⟩
  · intro r' c' hc' hreg
    by_cases he : r' = r0 + 1 ∧ c' = c0 + 1
    · rw [he.1, he.2, get_set_eq]
    · rw [get_set_ne m _ _ _ _ _ (by omega) (by omega) he]
      apply hfill r' c' hc'
      rcases hreg with h1 | ⟨h1, h2⟩
      · exact Or.inl h1
      · refine Or.inr ⟨h1, ?_⟩
        by_contra hge
        exact he ⟨h1, by omega⟩
  · intro r'
    rw [get_set_ne m _ _ _ _ _ (by omega) (by omega) (by omega)]
    exact hzero r'

theorem kLCS_row_step (a b : List Char) (nr N r : Nat) (m : Matrix Nat) (hr : 1 ≤ r) (hN : 1 ≤ N)
    (h : TableUpTo a b nr N r 1 m) :
    TableUpTo a b nr N (r + 1) 1 ((loop_range 1 m.n_cols).foldl (kLCS_cell a b r) m) := by
  have hcols : m.n_cols = N := h.1.2
  have hfold := foldl_range'_invariant (fun c m => TableUpTo a b nr N r c m) (kLCS_cell a b r)
    (N - 1) 1 m (fun i m' hi hi' hP => kLCS_cell_step a b nr N r i m' hr hi (by omega) hP) h
  simp only at hfold
  rw [show 1 + (N - 1) = N by omega] at hfold
  unfold loop_range
  rw [hcols]
  obtain ⟨hd, hfill, hzero⟩ := hfold
  refine ⟨hd, ?_, hzero⟩
  intro r' c' hc' hreg
  rcases hreg with h1 | ⟨h1, h2⟩
  · rcases Nat.lt_succ_iff_lt_or_eq.mp h1 with h3 | h3
    · exact hfill r' c' hc' (Or.inl h3)
    · exact hfill r' c' hc' (Or.inr ⟨h3, hc'⟩)
  · have : c' = 0 := by omega
    subst this
    rw [hzero r', lcsTab_zero_right]

theorem kLCS_matrix_spec (a b : List Char) :
    HasDims (a.length - K + 1 + 1) (b.length - K + 1 + 1) (kLCS_matrix a b) ∧
    ∀ r c, r ≤ a.length - K + 1 → c ≤ b.length - K + 1 →
      get (kLCS_matrix a b) r c = lcsTab a b r c := by
  have hinit : ∀ (m : Matrix Nat),
      (HasDims (a.length - K + 1 + 1) (b.length - K + 1 + 1) m ∧ ∀ i, m.cells i = 0) →
      TableUpTo a b (a.length - K + 1 + 1) (b.length - K + 1 + 1) 1 1 m := by
    intro m hm
    refine ⟨hm.1, ?_, fun r' => hm.2 _⟩
    intro r' c' _ hreg
    rw [show get m r' c' = 0 from hm.2 _]
    rcases hreg with h1 | ⟨_, h2⟩
    · have : r' = 0 := by omega
      subst this; rfl
    · have : c' = 0 := by omega
      subst this; rw [lcsTab_zero_right]
  have hzero_set : ∀ (m : Matrix Nat) (r c : Nat),
      (HasDims (a.length - K + 1 + 1) (b.length - K + 1 + 1) m ∧ ∀ i, m.cells i = 0) →
      (HasDims (a.length - K + 1 + 1) (b.length - K + 1 + 1) (set m r c 0) ∧
        ∀ i, (set m r c 0).cells i = 0) := by
    intro m r c hm
    refine ⟨hm.1, fun i => ?_⟩
    unfold set
    simp only
    split
    · rfl
    · exact hm.2 i
  have hfold := foldl_range'_invariant
    (fun r m => TableUpTo a b (a.length - K + 1 + 1) (b.length - K + 1 + 1) r 1 m)
    (fun m row => (loop_range 1 m.n_cols).foldl (kLCS_cell a b row) m)
    (a.length - K + 1) 1
    ((List.range (b.length - K + 1 + 1)).foldl (fun m col => set m 0 col 0)
      ((List.range (a.length - K + 1 + 1)).foldl (fun m row => set m row 0 0)
        (allocate_matrix 0 (a.length - K + 1 + 1) (b.length - K + 1 + 1))))
    (fun i m hi _ hP => kLCS_row_step a b _ _ i m hi (by omega) hP)
    (hinit _ (foldl_invariant _ _ (fun m col hm => hzero_set m 0 col hm) _ _
      (foldl_invariant _ _ (fun m row hm => hzero_set m row 0 hm) _ _
        ⟨⟨rfl, rfl⟩, fun _ => rfl⟩)))
  simp only at hfold
  have hm : kLCS_matrix a b = (List.range' 1 (a.length - K + 1)).foldl
      (fun m row => (loop_range 1 m.n_cols).foldl (kLCS_cell a b row) m)
      ((List.range (b.length - K + 1 + 1)).foldl (fun m col => set m 0 col 0)
        ((List.range (a.length - K + 1 + 1)).foldl (fun m row => set m row 0 0)
          (allocate_matrix 0 (a.length - K + 1 + 1) (b.length - K + 1 + 1)))) := rfl
  rw [← hm] at hfold
  obtain ⟨hd, hfill, _⟩ := hfold
  refine ⟨hd, ?_⟩
  intro r c hr hc
  exact hfill r c (by omega) (Or.inl (by omega))

theorem backtrack_spec (a b : List Char) (m : Matrix Nat) (na nb : Nat)
    (hm : ∀ r c, r ≤ na → c ≤ nb → get m r c = lcsTab a b r c) :
    ∀ (fuel row col : Nat) (result : List kLCSPair), row + col ≤ fuel → row ≤ na → col ≤ nb →
      ∃ l, _kLCSBacktrack m a b fuel row col result = result ++ l ∧
        l.length = lcsTab a b row col ∧
        (∀ p ∈ l, p.i < row ∧ p.j < col ∧ kmer_match a b p.i p.j = true) ∧
        List.Pairwise Descends l := by
  intro fuel
  induction fuel with
  | zero =>
    intro row col result hf _ _
    have h0 : row = 0 := by omega
    subst h0
    exact ⟨[], by simp [_kLCSBacktrack], by rw [lcsTab_zero_left]; rfl, by simp, List.Pairwise.nil⟩
  | succ fuel ih =>
    intro row col result hf hr hc
    unfold _kLCSBacktrack
    by_cases h0 : row = 0 ∨ col = 0
    · rw [if_pos h0]
      refine ⟨[], by simp, ?_, by simp, List.Pairwise.nil⟩
      rcases h0 with h0 | h0
      · subst h0; rw [lcsTab_zero_left]; rfl
      · subst h0; rw [lcsTab_zero_right]; rfl
    · rw [if_neg h0]
      obtain ⟨r0, rfl⟩ : ∃ r0, row = r0 + 1 := ⟨row - 1, by omega⟩
      obtain ⟨c0, rfl⟩ : ∃ c0, col = c0 + 1 := ⟨col - 1, by omega⟩
      simp only [Nat.add_sub_cancel]
      have hmatch : strncmp_eq K (a.drop r0) (b.drop c0) = kmer_match a b r0 c0 := rfl
      rw [hmatch]
      by_cases hk : kmer_match a b r0 c0 = true
      · rw [if_pos hk]
        obtain ⟨l, hl, hlen, hmem, hpw⟩ := ih r0 c0 (result ++ [{ i := r0, j := c0 }]) (by omega)
          (by omega) (by omega)
        refine ⟨{ i := r0, j := c0 } :: l, ?_, ?_, ?_, ?_⟩
        · rw [hl]; simp
        · rw [lcsTab_succ, if_pos hk, List.length_cons, hlen]
        · intro p hp
          rcases List.mem_cons.mp hp with rfl | hp
          · exact ⟨by simp, by simp, hk⟩
          · obtain ⟨h1, h2, h3⟩ := hmem p hp
            exact ⟨by omega, by omega, h3⟩
        · refine List.Pairwise.cons ?_ hpw
          intro q hq
          obtain ⟨h1, h2, _⟩ := hmem q hq
          exact ⟨h1, h2⟩
      · rw [if_neg hk, hm r0 (c0 + 1) (by omega) hc, hm (r0 + 1) c0 hr (by omega)]
        have hk' : kmer_match a b r0 c0 = false := by simpa using hk
        by_cases hup : lcsTab a b r0 (c0 + 1) > lcsTab a b (r0 + 1) c0
        · rw [if_pos hup]
          obtain ⟨l, hl, hlen, hmem, hpw⟩ := ih r0 (c0 + 1) result (by omega) (by omega) hc
          refine ⟨l, hl, ?_, ?_, hpw⟩
          · rw [lcsTab_succ, hk', hlen]
            simp only [Bool.false_eq_true, if_false]
            rw [max_eq_right (by omega)]
          · intro p hp
            obtain ⟨h1, h2, h3⟩ := hmem p hp
            exact ⟨by omega, h2, h3⟩
        · rw [if_neg hup]
          obtain ⟨l, hl, hlen, hmem, hpw⟩ := ih (r0 + 1) c0 result (by omega) hr (by omega)
          refine ⟨l, hl, ?_, ?_, hpw⟩
          · rw [lcsTab_succ, hk', hlen]
            simp only [Bool.false_eq_true, if_false]
            rw [max_eq_left (by omega)]
          · intro p hp
            obtain ⟨h1, h2, h3⟩ := hmem p hp
            exact ⟨h1, by omega, h3⟩

theorem kLCS_spec (a b : List Char) :
    ∃ l, kLCS a b = l.reverse ∧
      l.length = lcsTab a b (a.length - K + 1) (b.length - K + 1) ∧
      (∀ p ∈ l, p.i < a.length - K + 1 ∧ p.j < b.length - K + 1 ∧
        kmer_match a b p.i p.j = true) ∧
      List.Pairwise Descends l := by
  obtain ⟨hd, hm⟩ := kLCS_matrix_spec a b
  have hr : (kLCS_matrix a b).n_rows - 1 = a.length - K + 1 := by rw [hd.1]; omega
  have hc : (kLCS_matrix a b).n_cols - 1 = b.length - K + 1 := by rw [hd.2]; omega
  obtain ⟨l, hl, hlen, hmem, hpw⟩ := backtrack_spec a b (kLCS_matrix a b) _ _ hm
    ((a.length - K + 1) + (b.length - K + 1)) (a.length - K + 1) (b.length - K + 1) []
    (le_refl _) (le_refl _) (le_refl _)
  refine ⟨l, ?_, hlen, hmem, hpw⟩
  unfold kLCS
  simp only [hr, hc]
  rw [hl, List.nil_append]

theorem take_eq_of_strncmp_eq :
    ∀ (n : Nat) (s t : List Char), n ≤ s.length → (∀ c ∈ s, c ≠ NUL) →
      strncmp_eq n s t = true → s.take n = t.take n := by
  intro n
  induction n with
  | zero => intro s t _ _ _; rfl
  | succ n ih =>
    intro s t hlen hnul h
    cases s with
    | nil => simp at hlen
    | cons x s' =>
      have hx : x ≠ NUL := hnul x (List.mem_cons_self _ _)
      unfold strncmp_eq at h
      cases t with
      | nil =>
        simp only [charAt, List.getD_cons_zero, List.getD_nil, ne_eq, hx, not_false_eq_true,
          if_true] at h
        exact absurd h (by simp)
      | cons y t' =>
        simp only [charAt, List.getD_cons_zero, ne_eq, List.tail_cons, hx, if_false] at h
        by_cases hxy : x = y
        · subst hxy
          simp only [not_true_eq_false, if_false] at h
          rw [List.take_succ_cons, List.take_succ_cons,
            ih s' t' (by simpa using hlen) (fun c hc => hnul c (List.mem_cons_of_mem _ hc)) h]
        · simp only [hxy, not_false_eq_true, if_true] at h
          exact absurd h (by simp)

/-- C10 (amended): for `base = AAAAACCCCCGGGGG` and `alt = AAAAATTTTCGGGGG` the anchors returned
by `kLCS(base, alt)` are exactly `(0,0)`, `(9,9)` and `(10,10)`: they include `(0,0)` and
`(9,9)`. -/
theorem kLCS_scenario_anchors :
    kLCS "AAAAACCCCCGGGGG".toList "AAAAATTTTCGGGGG".toList
      = [{ i := 0, j := 0 }, { i := 9, j := 9 }, { i := 10, j := 10 }] := by
  set_option maxRecDepth 100000 in decide

/-- C10 (counterexample): the pair `(10,9)` is not among the anchors of the scenario; the
5-mers `base[10..15) = GGGGG` and `alt[9..14) = CGGGG` differ. -/
theorem kLCS_scenario_no_10_9 :
    ({ i := 10, j := 9 } : kLCSPair) ∉ kLCS "AAAAACCCCCGGGGG".toList "AAAAATTTTCGGGGG".toList ∧
    substr "AAAAACCCCCGGGGG".toList 10 5 = "GGGGG".toList ∧
    substr "AAAAATTTTCGGGGG".toList 9 5 = "CGGGG".toList := by
  set_option maxRecDepth 100000 in decide

/-! ## Theorems: read-states of two columns -/

theorem read_states_from_eq {R : Type} (reads : List (CSquiggleRead R)) :
    ∀ (sa ea : List HMMReadAnchor) (rsi : Nat),
      sa.length = ea.length →
      (∀ a ∈ sa, -1 ≤ a.event_idx ∧ a.event_idx < 2147483648) →
      (∀ a ∈ ea, -1 ≤ a.event_idx ∧ a.event_idx < 2147483648) →
      (∀ x ∈ sa.zip ea, x.1.rc = x.2.rc) →
      rsi + sa.length ≤ 2 * reads.length →
      read_states_from reads rsi sa ea
        = some (((sa.zip ea).enumFrom rsi).filterMap fun x =>
            if x.2.1.event_idx = -1 ∨ x.2.2.event_idx = -1 then none
            else
              (reads[x.1 / 2]?).map fun read =>
                { read := read, anchor_index := x.1, event_start_idx := x.2.1.event_idx.toNat,
                  event_stop_idx := x.2.2.event_idx.toNat, strand := x.1 % 2,
                  stride := if x.2.1.event_idx < x.2.2.event_idx then 1 else -1,
                  rc := x.2.1.rc }) := by
  intro sa
  induction sa with
  | nil => intro ea rsi _ _ _ _ _; rfl
  | cons s srest ih =>
    intro ea rsi hlen hS hE hrc hreads
    cases ea with
    | nil => simp at hlen
    | cons e erest =>
      have hs := hS s (List.mem_cons_self _ _)
      have he := hE e (List.mem_cons_self _ _)
      have hrc1 : s.rc = e.rc := hrc (s, e) (by simp)
      have hrec := ih erest (rsi + 1) (by simpa using hlen)
        (fun a ha => hS a (List.mem_cons_of_mem _ ha))
        (fun a ha => hE a (List.mem_cons_of_mem _ ha))
        (fun x hx => hrc x (by simp only [List.zip_cons_cons]; exact List.mem_cons_of_mem _ hx))
        (by simp only [List.length_cons] at hreads; omega)
      have hidx : rsi / 2 < reads.length := by
        simp only [List.length_cons] at hreads; omega
      unfold read_states_from
      rw [hrec]
      simp only [List.zip_cons_cons, List.enumFrom_cons, List.filterMap_cons]
      unfold read_state_for_anchor
      by_cases h1 : s.event_idx = -1 ∨ e.event_idx = -1
      · simp only [h1, if_true, Option.some_bind, Option.map_some']
      · have hget : reads[rsi / 2]? = some reads[rsi / 2] := List.getElem?_eq_getElem hidx
        have e1 : u32 s.event_idx = s.event_idx.toNat := by unfold u32; omega
        have e2 : u32 e.event_idx = e.event_idx.toNat := by unfold u32; omega
        have e3 : (s.event_idx.toNat < e.event_idx.toNat) ↔ (s.event_idx < e.event_idx) := by
          omega
        simp only [h1, if_false, hget, hrc1, if_true, Option.some_bind, Option.map_some', e1, e2,
          e3]

/-- C19: for two columns with the same number of anchors, at most two per read, event indices
in `[-1, 2^31)` and agreeing `rc` flags, `get_read_states_for_columns` returns, in increasing
anchor index, exactly one read-state for each anchor index `a` at which neither event index is
`-1`, with `anchor_index = a`, the read `a / 2`, `strand = a % 2`, the two event indices and the
`rc` flag of the start anchor copied, and `stride = +1` if start is below stop and `-1`
otherwise. -/
theorem get_read_states_for_columns_eq {R : Type} (reads : List (CSquiggleRead R))
    (S E : HMMAnchoredColumn) (hlen : S.anchors.length = E.anchors.length)
    (hS : ∀ a ∈ S.anchors, -1 ≤ a.event_idx ∧ a.event_idx < 2147483648)
    (hE : ∀ a ∈ E.anchors, -1 ≤ a.event_idx ∧ a.event_idx < 2147483648)
    (hrc : ∀ x ∈ S.anchors.zip E.anchors, x.1.rc = x.2.rc)
    (hreads : S.anchors.length ≤ 2 * reads.length) :
    get_read_states_for_columns reads S E
      = some (expected_read_states reads S.anchors E.anchors) := by
  unfold get_read_states_for_columns expected_read_states
  rw [if_pos hlen, read_states_from_eq reads S.anchors E.anchors 0 hlen hS hE hrc (by omega)]
  rfl

theorem get_read_states_for_columns_eq_witness :
    (get_read_states_for_columns [example_read]
        { anchors := [⟨3, false⟩, ⟨-1, true⟩], base_sequence := [], alt_sequences := [] }
        { anchors := [⟨9, false⟩, ⟨4, true⟩], base_sequence := [], alt_sequences := [] }).map
      (fun l => l.map fun rs =>
        (rs.anchor_index, rs.strand, rs.event_start_idx, rs.event_stop_idx, rs.stride, rs.rc))
      = some [(0, 0, 3, 9, 1, false)] := by
  rw [get_read_states_for_columns_eq [example_read] _ _ (by decide) (by decide) (by decide)
    (by decide) (by decide)]
  rfl

/-- C20 (amended): every read-state returned by `get_read_states_for_columns` (anchors with
event indices in `[-1, 2^31)`) has two event indices other than the mark `-1`, and spans
`|event_stop_idx - event_start_idx| + 1 >= 1` events; the two indices may be equal. -/
theorem get_read_states_for_columns_span {R : Type} (reads : List (CSquiggleRead R))
    (S E : HMMAnchoredColumn) (rs : List (HMMConsReadState R))
    (hS : ∀ a ∈ S.anchors, -1 ≤ a.event_idx ∧ a.event_idx < 2147483648)
    (hE : ∀ a ∈ E.anchors, -1 ≤ a.event_idx ∧ a.event_idx < 2147483648)
    (h : get_read_states_for_columns reads S E = some rs) :
    ∀ r ∈ rs, r.event_start_idx < 2147483648 ∧ r.event_stop_idx < 2147483648 ∧
      (n_events_of r : Int) = |(r.event_stop_idx : Int) - r.event_start_idx| + 1 ∧
      1 ≤ n_events_of r ∧ 0 ≤ |(r.event_stop_idx : Int) - r.event_start_idx| := by
  intro r hr
  have hok := get_read_states_for_columns_ok reads S E rs hS hE h r hr
  have hn := (n_events_of_ok r hok).1
  have habs := abs_nonneg ((r.event_stop_idx : Int) - r.event_start_idx)
  exact ⟨hok.1, hok.2.1, hn, by omega, habs⟩

theorem get_read_states_for_columns_span_witness :
    1 ≤ n_events_of
      ({ read := example_read, anchor_index := 0, event_start_idx := 7, event_stop_idx := 7,
         strand := 0, stride := -1, rc := false } : HMMConsReadState Int) :=
  (get_read_states_for_columns_span [example_read]
    { anchors := [⟨7, false⟩, ⟨-1, false⟩], base_sequence := [], alt_sequences := [] }
    { anchors := [⟨7, false⟩, ⟨-1, false⟩], base_sequence := [], alt_sequences := [] }
    (expected_read_states [example_read] [⟨7, false⟩, ⟨-1, false⟩] [⟨7, false⟩, ⟨-1, false⟩])
    (by decide) (by decide) rfl
    { read := example_read, anchor_index := 0, event_start_idx := 7, event_stop_idx := 7,
      strand := 0, stride := -1, rc := false }
    (List.mem_singleton.mpr rfl)).2.2.2.1

/-- C20 (counterexample): for a strand whose start anchor and end anchor are the same event 7,
`get_read_states_for_columns` returns a read-state with `event_start_idx = event_stop_idx = 7`
(and stride `-1`), for which `|event_stop_idx - event_start_idx| = 0`. -/
theorem get_read_states_for_columns_equal_anchors :
    (get_read_states_for_columns [example_read]
        { anchors := [⟨7, false⟩, ⟨-1, false⟩], base_sequence := [], alt_sequences := [] }
        { anchors := [⟨7, false⟩, ⟨-1, false⟩], base_sequence := [], alt_sequences := [] }).map
      (fun l => l.map fun rs => (rs.event_start_idx, rs.event_stop_idx, rs.stride))
      = some [(7, 7, -1)] ∧
    ¬ ∀ l, get_read_states_for_columns [example_read]
        { anchors := [⟨7, false⟩, ⟨-1, false⟩], base_sequence := [], alt_sequences := [] }
        { anchors := [⟨7, false⟩, ⟨-1, false⟩], base_sequence := [], alt_sequences := [] } = some l →
      ∀ rs ∈ l, |(rs.event_stop_idx : Int) - rs.event_start_idx| ≥ 1 := by
  refine ⟨rfl, ?_⟩
  intro h
  have h1 := h _ rfl
    { read := example_read, anchor_index := 0, event_start_idx := 7, event_stop_idx := 7,
      strand := 0, stride := -1, rc := false } (List.mem_cons_self _ _)
  simp at h1

/-! ## Theorems: the outlier filter -/

theorem mutations_at_paths {R : Type} (D : DoubleOps R) (s : List Char) (si : Nat)
    (hsi : si < s.length) :
    (mutations_at D s si).map (fun p => p.path) = expected_mutations_at s si := by
  unfold mutations_at expected_mutations_at
  simp only [List.map_append, List.map_cons, List.map_map, List.map_nil, PathCons.mk_path,
    List.append_assoc, List.singleton_append]
  have hset : ∀ b : Char, s.set si b = s.take si ++ b :: s.drop (si + 1) := by
    intro b
    rw [List.set_eq_take_append_cons_drop, if_pos hsi]
  have hfilter : List.filter (fun b => decide ¬charAt s si = b) "ACGT".toList
      = List.filter (fun b => decide (b ≠ charAt s si)) "ACGT".toList := by
    apply List.filter_congr
    intro b _
    simp only [ne_eq, decide_not, Bool.not_eq_eq_eq_not, Bool.not_not]
    by_cases h : charAt s si = b
    · simp [h]
    · have h' : ¬ b = charAt s si := fun e => h e.symm
      simp [h, h']
  rw [hfilter, List.eraseIdx_eq_take_drop_succ]
  congr 1
  · apply List.map_congr_left
    intro b _
    simp only [Function.comp, hset]

theorem other_bases_length (c : Char) (h : isBase c) :
    ("ACGT".toList.filter (fun b => b ≠ c)).length = 3 := by
  rcases h with rfl | rfl | rfl | rfl <;> decide

theorem expected_mutations_at_length (s : List Char) (si : Nat) (h : isBase (charAt s si)) :
    (expected_mutations_at s si).length = 8 := by
  unfold expected_mutations_at
  simp only [List.length_append, List.length_map, other_bases_length _ h, List.length_cons,
    List.length_nil]
  rfl

theorem length_flatMap_const {α β : Type} (f : α → List β) (k : Nat) :
    ∀ (l : List α), (∀ x ∈ l, (f x).length = k) → (l.flatMap f).length = k * l.length := by
  intro l
  induction l with
  | nil => intro _; simp
  | cons x rest ih =>
    intro h
    rw [List.flatMap_cons, List.length_append, h x (List.mem_cons_self _ _),
      ih (fun y hy => h y (List.mem_cons_of_mem _ hy)), List.length_cons]
    ring

/-- C12: for every sequence of length `n >= 10` over `{A,C,G,T}`, `generate_mutations` returns
exactly `1 + 8 * (n - 10)` paths: the unmodified sequence at index 0, then for each position
`si` in `[5, n - 5)` in increasing order the 3 substitutions of `sequence[si]` by the other
bases, the deletion of the position, and the 4 insertions of `A`, `C`, `G`, `T` before it. -/
theorem generate_mutations_spec {R : Type} (D : DoubleOps R) (s : List Char)
    (hlen : 10 ≤ s.length) (hbase : ∀ c ∈ s, isBase c) :
    (generate_mutations D s).map (fun p => p.path) = expected_mutations s ∧
    (generate_mutations D s).length = 1 + 8 * (s.length - 10) ∧
    (generate_mutations D s)[0]? = some (PathCons.mk_path D s) ∧
    (∀ si, 5 ≤ si → si < s.length - 5 →
      ((expected_mutations s).drop (1 + 8 * (si - 5))).take 8 = expected_mutations_at s si ∧
      ("ACGT".toList.filter (fun b => b ≠ charAt s si)).length = 3) := by
  have hrange : loop_range K (s.length - K) = List.range' 5 (s.length - 10) := by
    unfold loop_range K
    congr 1
  have hmem : ∀ si ∈ List.range' 5 (s.length - 10), si < s.length := by
    intro si hsi
    rw [List.mem_range'] at hsi
    obtain ⟨i, hi, rfl⟩ := hsi
    omega
  have hisb : ∀ si, si < s.length → isBase (charAt s si) := by
    intro si hsi
    unfold charAt
    rw [List.getD_eq_getElem _ _ hsi]
    exact hbase _ (List.getElem_mem _)
  have hpaths : (generate_mutations D s).map (fun p => p.path) = expected_mutations s := by
    unfold generate_mutations expected_mutations
    rw [List.map_cons, List.map_flatMap, hrange]
    congr 1
    exact List.flatMap_congr (fun si hsi => mutations_at_paths D s si (hmem si hsi))
  have hlen8 : ∀ (n k : Nat), k + n ≤ s.length →
      ((List.range' k n).flatMap (expected_mutations_at s)).length = 8 * n := by
    intro n k hk
    rw [length_flatMap_const (expected_mutations_at s) 8, List.length_range']
    intro si hsi
    rw [List.mem_range'] at hsi
    obtain ⟨i, hi, rfl⟩ := hsi
    exact expected_mutations_at_length s _ (hisb _ (by omega))
  refine ⟨hpaths, ?_, by unfold generate_mutations; exact List.getElem?_cons_zero, ?_⟩
  · have := congrArg List.length hpaths
    rw [List.length_map] at this
    rw [this]
    unfold expected_mutations
    rw [List.length_cons, hlen8 (s.length - 10) 5 (by omega)]
    omega
  · intro si h5 hsi
    refine ⟨?_, other_bases_length _ (hisb si (by omega))⟩
    unfold expected_mutations
    obtain ⟨b, hb⟩ : ∃ b, s.length - 10 = (b + 1) + (si - 5) :=
      ⟨s.length - 10 - (si - 5) - 1, by omega⟩
    have e5 : 5 + (si - 5) = si := by omega
    have hsplit : List.range' 5 (s.length - 10)
        = List.range' 5 (si - 5) ++ si :: List.range' (si + 1) b := by
      rw [hb, ← List.range'_append_1, e5, List.range'_succ]
    rw [hsplit, List.flatMap_append, List.flatMap_cons, show 1 + 8 * (si - 5) = (8 * (si - 5)) + 1
      by omega, List.drop_succ_cons]
    have hl := hlen8 (si - 5) 5 (by omega)
    rw [List.drop_append_of_le_length (by omega), List.drop_of_length_le (by omega),
      List.nil_append, List.take_append_of_le_length
        (by rw [expected_mutations_at_length s si (hisb si (by omega))]),
      List.take_of_length_le (by rw [expected_mutations_at_length s si (hisb si (by omega))])]

theorem generate_mutations_spec_witness :
    10 ≤ "AAAAACGAAAAA".toList.length ∧ (∀ c ∈ "AAAAACGAAAAA".toList, isBase c) ∧
    (generate_mutations intOps "AAAAACGAAAAA".toList).length = 1 + 8 * (12 - 10) ∧
    (generate_mutations intOps "AAAAACGAAAAA".toList).map (fun p => p.path)
      = expected_mutations "AAAAACGAAAAA".toList :=
  ⟨by decide, by decide,
    (generate_mutations_spec intOps "AAAAACGAAAAA".toList (by decide) (by decide)).2.1,
    (generate_mutations_spec intOps "AAAAACGAAAAA".toList (by decide) (by decide)).1⟩

theorem alt_paths_of_anchors_eq {R : Type} (mk : List Char → PathCons R) (base alt : List Char) :
    ∀ (l : List kLCSPair),
      List.Pairwise (fun p q : kLCSPair => p.i < q.i ∧ p.j < q.j) l →
      (∀ p ∈ l, p.i < 4294967296 ∧ p.j < 4294967296) →
      alt_paths_of_anchors mk base alt l
        = (divergent_pairs l).map (fun pq => mk (expected_splice base alt pq)) := by
  intro l
  induction l with
  | nil => intro _ _; rfl
  | cons p t ih =>
    intro hpw hlt
    cases t with
    | nil => rfl
    | cons q rest =>
      have hpq : p.i < q.i ∧ p.j < q.j := (List.pairwise_cons.mp hpw).1 q (List.mem_cons_self _ _)
      have hq := hlt q (List.mem_cons_of_mem _ (List.mem_cons_self _ _))
      have hrec := ih (List.pairwise_cons.mp hpw).2 (fun x hx => hlt x (List.mem_cons_of_mem _ hx))
      have e1 : u32 ((q.i : Int) - 1) = q.i - 1 := by unfold u32; omega
      have e2 : u32 ((q.j : Int) - 1) = q.j - 1 := by unfold u32; omega
      have e3 : u32 ((q.i : Int) - p.i) = q.i - p.i := by unfold u32; omega
      have e4 : u32 ((q.j : Int) - p.j) = q.j - p.j := by unfold u32; omega
      have hdiv : divergent_pairs (p :: q :: rest)
          = if ¬ (q.i = p.i + 1 ∧ q.j = p.j + 1) then (p, q) :: divergent_pairs (q :: rest)
            else divergent_pairs (q :: rest) := by
        unfold divergent_pairs
        simp only [List.tail_cons, List.zip_cons_cons, List.filter_cons]
        by_cases h : q.i = p.i + 1 ∧ q.j = p.j + 1
        · simp [h]
        · simp [h]
      unfold alt_paths_of_anchors
      rw [hdiv, e1, e2, e3, e4, hrec]
      by_cases h : q.i = p.i + 1 ∧ q.j = p.j + 1
      · rw [if_pos (show p.i = q.i - 1 ∧ p.j = q.j - 1 by omega), if_neg (not_not.mpr h)]
      · have hs : str_replace base p.i (q.i - p.i) (substr alt p.j (q.j - p.j))
            = expected_splice base alt (p, q) := by
          unfold expected_splice str_replace substr slice
          have e : p.i + (q.i - p.i) = q.i := by omega
          simp only [e]
        rw [if_neg (show ¬ (p.i = q.i - 1 ∧ p.j = q.j - 1) by omega), if_pos h, List.map_cons]
        simp only [hs]

theorem foldlM_option_invariant {α β : Type} (P : β → Prop) (f : β → α → Option β)
    (hf : ∀ b a b', P b → f b a = some b' → P b') :
    ∀ (l : List α) (b b' : β), P b → l.foldlM f b = some b' → P b' := by
  intro l
  induction l with
  | nil =>
    intro b b' hb h
    simp only [List.foldlM_nil, pure, Option.some.injEq] at h
    subst h; exact hb
  | cons a l ih =>
    intro b b' hb h
    rw [List.foldlM_cons] at h
    cases hfa : f b a with
    | none => rw [hfa] at h; simp [bind] at h
    | some b1 =>
      rw [hfa] at h
      exact ih b1 b' (hf b a b1 hb hfa) h

theorem dedup_paths_strings {R : Type} (D : DoubleOps R) :
    ∀ (paths : List (PathCons R)) (seen : List (List Char)),
      ((dedup_paths D paths seen).map fun p => p.path).Nodup ∧
      (∀ s ∈ (dedup_paths D paths seen).map fun p => p.path,
        s ∈ (paths.map fun p => p.path) ∧ s ∉ seen) ∧
      (∀ p ∈ dedup_paths D paths seen,
        p.score = D.lit 0 ∧ p.sum_rank = 0 ∧ p.num_improved = 0 ∧ p.num_scored = 0) := by
  intro paths
  induction paths with
  | nil => intro seen; simp [dedup_paths]
  | cons p rest ih =>
    intro seen
    unfold dedup_paths
    by_cases hp : p.path ∈ seen
    · rw [if_pos hp]
      obtain ⟨h1, h2, h3⟩ := ih seen
      refine ⟨h1, ?_, h3⟩
      intro s hs
      obtain ⟨h4, h5⟩ := h2 s hs
      exact ⟨by rw [List.map_cons]; exact List.mem_cons_of_mem _ h4, h5⟩
    · rw [if_neg hp]
      obtain ⟨h1, h2, h3⟩ := ih (p.path :: seen)
      refine ⟨?_, ?_, ?_⟩
      · rw [List.map_cons, List.nodup_cons]
        refine ⟨?_, h1⟩
        intro hmem
        exact (h2 _ hmem).2 (List.mem_cons_self _ _)
      · intro s hs
        rw [List.map_cons] at hs
        rcases List.mem_cons.mp hs with rfl | hs
        · exact ⟨by simp, hp⟩
        · obtain ⟨h4, h5⟩ := h2 s hs
          exact ⟨by rw [List.map_cons]; exact List.mem_cons_of_mem _ h4,
            fun h => h5 (List.mem_cons_of_mem _ h)⟩
      · intro q hq
        rcases List.mem_cons.mp hq with rfl | hq
        · exact ⟨rfl, rfl, rfl, rfl⟩
        · exact h3 q hq

theorem modify_map_path {R : Type} (f : PathCons R → PathCons R) (hf : ∀ p, (f p).path = p.path) :
    ∀ (l : List (PathCons R)) (n : Nat),
      (List.modify f n l).map (fun p => p.path) = l.map fun p => p.path := by
  intro l
  induction l with
  | nil => intro n; simp
  | cons a l ih =>
    intro n
    cases n with
    | zero => simp [hf]
    | succ n => simp [ih n]

theorem aggregate_scores_head {R : Type} (D : DoubleOps R) (first_path_score : R)
    (P : PathCons R → Prop) :
    ∀ (result : List (IndexedPathScore R)) (pri : Nat) (h : PathCons R) (t : List (PathCons R)),
      (∀ r ∈ result, r.path_index = 0 → ∀ (k : Nat) (x : PathCons R), P x →
        P (aggregate_update D first_path_score r k x)) →
      P h →
      ∃ h' t', aggregate_scores D first_path_score result pri (h :: t) = h' :: t' ∧
        h'.path = h.path ∧ P h' ∧ (t'.map fun p => p.path) = t.map fun p => p.path := by
  intro result
  induction result with
  | nil => intro pri h t _ hP; exact ⟨h, t, rfl, rfl, hP, rfl⟩
  | cons r rest ih =>
    intro pri h t hstep hP
    have hrest : ∀ r' ∈ rest, r'.path_index = 0 → ∀ (k : Nat) (x : PathCons R), P x →
        P (aggregate_update D first_path_score r' k x) :=
      fun r' hr' => hstep r' (List.mem_cons_of_mem _ hr')
    unfold aggregate_scores
    cases hidx : r.path_index with
    | zero =>
      rw [List.modify_zero_cons]
      obtain ⟨h', t', e, hp, hP', ht⟩ := ih (pri + 1)
        (aggregate_update D first_path_score r pri h) t hrest
        (hstep r (List.mem_cons_self _ _) hidx pri h hP)
      exact ⟨h', t', e, hp, hP', ht⟩
    | succ n =>
      rw [List.modify_succ_cons]
      obtain ⟨h', t', e, hp, hP', ht⟩ := ih (pri + 1) h
        (List.modify (aggregate_update D first_path_score r pri) n t) hrest hP
      refine ⟨h', t', e, hp, hP', ?_⟩
      rw [ht]
      exact modify_map_path (aggregate_update D first_path_score r pri) (fun _ => rfl) t n

theorem cull_paths_cons {R : Type} (D : DoubleOps R) (h : PathCons R) (t : List (PathCons R)) :
    ∃ t', cull_paths D (h :: t) = h :: t' ∧ List.Sublist t' t := by
  unfold cull_paths
  rw [List.enum_cons, List.filter_cons]
  simp only [decide_True, Bool.true_or, if_true, List.map_cons]
  refine ⟨_, rfl, ?_⟩
  have := (List.filter_sublist (p := fun ip : Nat × PathCons R =>
      decide (ip.1 = 0) || D.lt (D.lit (-30)) ip.2.score
        || D.le (D.lit (13421773 / 67108864))
            (D.div (D.lit ip.2.num_improved) (D.lit ip.2.num_scored)))
      (List.enumFrom 1 t)).map Prod.snd
  rw [List.enumFrom_map_snd] at this
  exact this

theorem stable_sort_perm {α : Type} (comp : α → α → Bool) :
    ∀ l : List α, List.Perm (stable_sort comp l) l := by
  intro l
  induction l with
  | nil => exact List.Perm.refl _
  | cons x rest ih =>
    unfold stable_sort
    exact (List.perm_orderedInsert _ x _).trans (List.Perm.cons x ih)

theorem mapM_option_cons {α β : Type} (f : α → Option β) (a : α) (l : List α) (ys : List β)
    (h : (a :: l).mapM f = some ys) :
    ∃ y ys', ys = y :: ys' ∧ f a = some y ∧ l.mapM f = some ys' := by
  rw [List.mapM_cons] at h
  cases hfa : f a with
  | none => rw [hfa] at h; simp [bind] at h
  | some y =>
    rw [hfa] at h
    cases hl : l.mapM f with
    | none => rw [hl] at h; simp [bind] at h
    | some ys' =>
      rw [hl] at h
      simp only [bind, Option.bind, pure, Option.some.injEq] at h
      exact ⟨y, ys', h.symm, rfl, rfl⟩

theorem score_paths_read_inv {R : Type} (D : DoubleOps R)
    (score : List Char → HMMConsReadState R → Option R)
    (read_states : List (HMMConsReadState R)) (P : PathCons R → Prop) (first : List Char)
    (strings : List (List Char))
    (hP : ∀ fps, (∃ rs ∈ read_states, score first rs = some fps) →
      ∀ (r : IndexedPathScore R) (k : Nat) (x : PathCons R), r.score = fps → P x →
        P (aggregate_update D fps r k x)) :
    ∀ (paths : List (PathCons R)) (ri : Nat) (paths' : List (PathCons R)),
      PathsInv P first strings paths →
      score_paths_read D score read_states paths ri = some paths' →
      PathsInv P first strings paths' := by
  intro paths ri paths' hinv hread
  obtain ⟨h, t, rfl, hfirst, hPh, hsub⟩ := hinv
  unfold score_paths_read at hread
  cases hrs : read_states[ri]? with
  | none => rw [hrs] at hread; simp at hread
  | some read_state =>
    rw [hrs] at hread
    simp only at hread
    split at hread
    · simp only [Option.some.injEq] at hread
      subst hread
      exact ⟨h, t, rfl, hfirst, hPh, hsub⟩
    · obtain ⟨scores, hscores, hread⟩ := Option.bind_eq_some.mp hread
      obtain ⟨s, ss, rfl, hs, _⟩ := mapM_option_cons _ h t scores hscores
      simp only at hread
      have hmem : ∀ r ∈ stable_sort (fun (a b : IndexedPathScore R) => D.lt b.score a.score)
          (((s :: ss).enum).map fun is => ({ score := is.2, path_index := is.1 } :
            IndexedPathScore R)),
          r.path_index = 0 → r.score = s := by
        intro r hr h0
        rw [(stable_sort_perm _ _).mem_iff, List.mem_map] at hr
        obtain ⟨⟨i, x⟩, hix, rfl⟩ := hr
        simp only at h0
        subst h0
        rw [List.mk_mem_enum_iff_getElem?] at hix
        simp only [List.getElem?_cons_zero, Option.some.injEq] at hix
        exact hix.symm
      rw [hfirst] at hs
      obtain ⟨h1, t1, hagg, hp1, hP1, ht1⟩ := aggregate_scores_head D s P _ 0 h t
        (fun r hr h0 k x hx =>
          hP s ⟨read_state, List.getElem?_mem hrs, hs⟩ r k x (hmem r hr h0) hx) hPh
      rw [hagg] at hread
      have hmap : ((h1 :: t1).map fun p => p.path) = (h :: t).map fun p => p.path := by
        rw [List.map_cons, List.map_cons, hp1, ht1]
      split at hread
      · obtain ⟨t2, hcull, hsub2⟩ := cull_paths_cons D h1 t1
        rw [hcull, Option.some.injEq] at hread
        subst hread
        refine ⟨h1, t2, rfl, hp1.trans hfirst, hP1, ?_⟩
        refine List.Sublist.trans ?_ hsub
        rw [← hmap]
        exact (List.Sublist.cons₂ h1 hsub2).map _
      · rw [Option.some.injEq] at hread
        subst hread
        refine ⟨h1, t1, rfl, hp1.trans hfirst, hP1, ?_⟩
        rw [hmap]
        exact hsub

theorem score_paths_inv {R : Type} (D : DoubleOps R)
    (score : List Char → HMMConsReadState R → Option R) (p : PathCons R)
    (rest : List (PathCons R)) (read_states : List (HMMConsReadState R))
    (out : List (PathCons R)) (P : PathCons R → Prop)
    (hP0 : ∀ x : PathCons R, x.score = D.lit 0 → x.num_improved = 0 → P x)
    (hP : ∀ fps, (∃ rs ∈ read_states, score p.path rs = some fps) →
      ∀ (r : IndexedPathScore R) (k : Nat) (x : PathCons R), r.score = fps → P x →
        P (aggregate_update D fps r k x))
    (h : score_paths D score (p :: rest) read_states = some out) :
    ∃ pre, (List.range read_states.length).foldlM (score_paths_read D score read_states)
        (dedup_paths D (p :: rest) []) = some pre ∧
      out = stable_sort (fun (a b : PathCons R) => D.lt b.score a.score) pre ∧
      PathsInv P p.path ((dedup_paths D (p :: rest) []).map fun q => q.path) pre := by
  unfold score_paths at h
  simp only at h
  obtain ⟨pre, hpre, rfl⟩ := Option.map_eq_some'.mp h
  refine ⟨pre, hpre, rfl, ?_⟩
  apply foldlM_option_invariant
    (PathsInv P p.path ((dedup_paths D (p :: rest) []).map fun q => q.path))
    (score_paths_read D score read_states)
    (fun b a b' hb hf => score_paths_read_inv D score read_states P p.path _ hP b a b' hb hf)
    _ _ _ ?_ hpre
  have hd : dedup_paths D (p :: rest) []
      = { p with score := D.lit 0, sum_rank := 0, num_improved := 0, num_scored := 0 }
        :: dedup_paths D rest [p.path] := by
    rw [dedup_paths]; simp
  rw [hd]
  exact ⟨_, _, rfl, rfl, hP0 _ rfl rfl, List.Sublist.refl _⟩

/-- C13: for every non-empty input list, after `score_paths` no two paths of the list have the
same string, every path string of the list was a string of the input list, and the string of
the first path of the input is still present. -/
theorem score_paths_strings {R : Type} (D : DoubleOps R)
    (score : List Char → HMMConsReadState R → Option R) (p : PathCons R)
    (rest : List (PathCons R)) (read_states : List (HMMConsReadState R))
    (out : List (PathCons R))
    (h : score_paths D score (p :: rest) read_states = some out) :
    (out.map fun q => q.path).Nodup ∧
    (∀ s ∈ out.map fun q => q.path, s ∈ (p :: rest).map fun q => q.path) ∧
    p.path ∈ out.map fun q => q.path := by
  obtain ⟨pre, _, rfl, h0, t0, rfl, hfirst, _, hsub⟩ :=
    score_paths_inv D score p rest read_states out (fun _ => True) (fun _ _ _ => trivial)
      (fun _ _ _ _ _ _ _ => trivial) h
  obtain ⟨hnd, hmem, _⟩ := dedup_paths_strings D (p :: rest) []
  have hperm := (stable_sort_perm (fun (a b : PathCons R) => D.lt b.score a.score)
    (h0 :: t0)).map (fun q => q.path)
  refine ⟨?_, ?_, ?_⟩
  · rw [hperm.nodup_iff]
    exact hnd.sublist hsub
  · intro s hs
    rw [hperm.mem_iff] at hs
    exact (hmem s (hsub.subset hs)).1
  · rw [hperm.mem_iff, List.map_cons, hfirst]
    exact List.mem_cons_self _ _

theorem score_paths_strings_witness :
    ∃ out, score_paths ratOps example_path_score example_paths (example_states 25) = some out ∧
      (out.map fun q => q.path).Nodup ∧ "AAAAAAAAAA".toList ∈ out.map fun q => q.path := by
  have hs : (score_paths ratOps example_path_score example_paths (example_states 25)).isSome
      = true := by with_unfolding_all decide
  obtain ⟨out, hout⟩ := Option.isSome_iff_exists.mp hs
  obtain ⟨h1, _, h3⟩ := score_paths_strings ratOps example_path_score
    (PathCons.mk_path ratOps "AAAAAAAAAA".toList)
    [PathCons.mk_path ratOps "AAAAACAAAA".toList, PathCons.mk_path ratOps "AAAAAGAAAA".toList,
     PathCons.mk_path ratOps "AAAAAAAAAA".toList] (example_states 25) out hout
  exact ⟨out, hout, h1, h3⟩

/-- The hypotheses on the scores hold in `realOps` for every score that is a real number. -/
theorem realOps_finite_score (v : ℝ) :
    realOps.add (realOps.lit 0) (realOps.lit 0) = realOps.lit 0 ∧
    realOps.sub (XReal.fin v) (XReal.fin v) = realOps.lit 0 ∧
    realOps.lt (XReal.fin v) (XReal.fin v) = false := by
  refine ⟨?_, ?_, ?_⟩
  · show XReal.add (XReal.fin ((0 : ℚ) : ℝ)) (XReal.fin ((0 : ℚ) : ℝ)) = XReal.fin ((0 : ℚ) : ℝ)
    simp only [XReal.add, Rat.cast_zero, add_zero]
  · show XReal.sub (XReal.fin v) (XReal.fin v) = XReal.fin ((0 : ℚ) : ℝ)
    simp only [XReal.sub, XReal.neg, XReal.add, Rat.cast_zero, add_neg_cancel]
  · show XReal.lt (XReal.fin v) (XReal.fin v) = false
    simp [XReal.lt]

/-- C14: for every non-empty path list and every list of read-states on which the scores of
the first path are finite (`x - x = 0` and not `x < x`), after `score_paths` the path that was
at index 0 of the input is still in the list, with cumulative score exactly 0 and
`num_improved` 0. -/
theorem score_paths_first_zero {R : Type} (D : DoubleOps R)
    (score : List Char → HMMConsReadState R → Option R) (p : PathCons R)
    (rest : List (PathCons R)) (read_states : List (HMMConsReadState R))
    (out : List (PathCons R))
    (hadd : D.add (D.lit 0) (D.lit 0) = D.lit 0)
    (hfin : ∀ rs ∈ read_states, ∀ x, score p.path rs = some x →
      D.sub x x = D.lit 0 ∧ D.lt x x = false)
    (h : score_paths D score (p :: rest) read_states = some out) :
    (∃ q ∈ out, q.path = p.path) ∧
    ∀ q ∈ out, q.path = p.path → q.score = D.lit 0 ∧ q.num_improved = 0 := by
  obtain ⟨pre, _, rfl, h0, t0, rfl, hfirst, hP0, hsub⟩ :=
    score_paths_inv D score p rest read_states out
      (fun x => x.score = D.lit 0 ∧ x.num_improved = 0) (fun _ h1 h2 => ⟨h1, h2⟩)
      (fun fps hfps r k x hr hx => by
        obtain ⟨rs, hmem, hrs⟩ := hfps
        obtain ⟨hsub, hlt⟩ := hfin rs hmem fps hrs
        unfold aggregate_update
        simp only [hx.1, hx.2, hr, hsub, hadd, hlt, Bool.false_eq_true, if_false, and_self])
      h
  obtain ⟨hnd, _, _⟩ := dedup_paths_strings D (p :: rest) []
  have hperm := stable_sort_perm (fun (a b : PathCons R) => D.lt b.score a.score) (h0 :: t0)
  have hnd' : ((h0 :: t0).map fun q => q.path).Nodup := hnd.sublist hsub
  refine ⟨⟨h0, hperm.mem_iff.mpr (List.mem_cons_self _ _), hfirst⟩, ?_⟩
  intro q hq hqp
  rw [hperm.mem_iff] at hq
  rcases List.mem_cons.mp hq with rfl | hq
  · exact hP0
  · exfalso
    rw [List.map_cons, List.nodup_cons] at hnd'
    apply hnd'.1
    rw [hfirst, ← hqp]
    exact List.mem_map_of_mem _ hq

theorem score_paths_first_zero_witness :
    ∃ out, score_paths ratOps example_read_score example_paths (example_states 25) = some out ∧
      ∀ q ∈ out, q.path = "AAAAAAAAAA".toList → q.score = 0 ∧ q.num_improved = 0 := by
  have hs : (score_paths ratOps example_read_score example_paths (example_states 25)).isSome
      = true := by with_unfolding_all decide
  obtain ⟨out, hout⟩ := Option.isSome_iff_exists.mp hs
  have h := score_paths_first_zero ratOps example_read_score
    (PathCons.mk_path ratOps "AAAAAAAAAA".toList)
    [PathCons.mk_path ratOps "AAAAACAAAA".toList, PathCons.mk_path ratOps "AAAAAGAAAA".toList,
     PathCons.mk_path ratOps "AAAAAAAAAA".toList] (example_states 25) out
    (by with_unfolding_all decide)
    (fun rs _ x _ => ⟨by simp [ratOps], by simp [ratOps]⟩)
    hout
  exact ⟨out, hout, h.2⟩

theorem stable_sort_eq_insertionSort {α : Type} (comp : α → α → Bool) :
    ∀ l : List α, stable_sort comp l = List.insertionSort (fun a b => comp b a = false) l := by
  intro l
  induction l with
  | nil => rfl
  | cons x rest ih =>
    unfold stable_sort
    rw [ih]
    rfl

theorem orderedInsert_pairwise {α : Type} (r : α → α → Prop) [DecidableRel r] (x : α) :
    ∀ l : List α, (∀ b ∈ l, ¬ r x b → r b x) → (∀ b ∈ l, ∀ c ∈ l, r x b → r b c → r x c) →
      List.Pairwise r l → List.Pairwise r (List.orderedInsert r x l) := by
  intro l
  induction l with
  | nil => intro _ _ _; simp
  | cons b l ih =>
    intro htot htr hs
    rw [List.pairwise_cons] at hs
    unfold List.orderedInsert
    by_cases hxb : r x b
    · rw [if_pos hxb]
      refine List.Pairwise.cons ?_ (List.pairwise_cons.mpr hs)
      intro c hc
      rcases List.mem_cons.mp hc with rfl | hc'
      · exact hxb
      · exact htr b (List.mem_cons_self _ _) c hc (hxb) (hs.1 c hc')
    · rw [if_neg hxb]
      refine List.Pairwise.cons ?_ (ih (fun c hc => htot c (List.mem_cons_of_mem _ hc))
        (fun c hc d hd => htr c (List.mem_cons_of_mem _ hc) d (List.mem_cons_of_mem _ hd)) hs.2)
      intro c hc
      rcases (List.mem_orderedInsert r).mp hc with rfl | hc'
      · exact htot b (List.mem_cons_self _ _) hxb
      · exact hs.1 c hc'

theorem stable_sort_pairwise {α : Type} (comp : α → α → Bool) :
    ∀ l : List α,
      (∀ a ∈ l, ∀ b ∈ l, comp a b = true → comp b a = false) →
      (∀ a ∈ l, ∀ b ∈ l, ∀ c ∈ l, comp b a = false → comp c b = false → comp c a = false) →
      List.Pairwise (fun a b => comp b a = false) (stable_sort comp l) := by
  intro l
  induction l with
  | nil => intro _ _; exact List.Pairwise.nil
  | cons x rest ih =>
    intro hasym htr
    unfold stable_sort
    have hmem : ∀ y, y ∈ stable_sort comp rest → y ∈ x :: rest :=
      fun y hy => List.mem_cons_of_mem _ ((stable_sort_perm comp rest).mem_iff.mp hy)
    apply orderedInsert_pairwise (fun a b => comp b a = false) x
    · intro b hb hnot
      have hbx : comp b x = true := by simpa using hnot
      exact hasym b (hmem b hb) x (List.mem_cons_self _ _) hbx
    · intro b hb c hc hxb hbc
      exact htr x (List.mem_cons_self _ _) b (hmem b hb) c (hmem c hc) hxb hbc
    · exact ih (fun a ha b hb => hasym a (List.mem_cons_of_mem _ ha) b (List.mem_cons_of_mem _ hb))
        (fun a ha b hb c hc => htr a (List.mem_cons_of_mem _ ha) b (List.mem_cons_of_mem _ hb) c
          (List.mem_cons_of_mem _ hc))

/-- C17: after `score_paths`, when the comparison of the cumulative scores is a strict weak
order on the paths of the result (no NaN), the paths are ordered by non-increasing cumulative
score (no path is followed by one with a greater score), the result is a permutation of the
list before the final sort, and two paths `a` before `b` of which `b` does not score more than
`a` (in particular two paths with equal score) keep their relative order. -/
theorem score_paths_sorted {R : Type} (D : DoubleOps R)
    (score : List Char → HMMConsReadState R → Option R) (paths : List (PathCons R))
    (read_states : List (HMMConsReadState R)) (out : List (PathCons R))
    (h : score_paths D score paths read_states = some out)
    (hasym : ∀ a ∈ out, ∀ b ∈ out, D.lt a.score b.score = true → D.lt b.score a.score = false)
    (hntr : ∀ a ∈ out, ∀ b ∈ out, ∀ c ∈ out, D.lt a.score b.score = false →
      D.lt b.score c.score = false → D.lt a.score c.score = false) :
    List.Pairwise (fun a b : PathCons R => D.lt a.score b.score = false) out ∧
    ∃ pre, paths_after_reads D score paths read_states read_states.length = some pre ∧
      List.Perm out pre ∧
      (∀ a b : PathCons R, List.Sublist [a, b] pre → D.lt a.score b.score = false →
        List.Sublist [a, b] out) ∧
      (∀ a b : PathCons R, List.Sublist [a, b] pre → a.score = b.score →
        List.Sublist [a, b] out) := by
  unfold score_paths at h
  cases paths with
  | nil => simp at h
  | cons p rest =>
    simp only at h
    obtain ⟨pre, hpre, rfl⟩ := Option.map_eq_some'.mp h
    have hperm := stable_sort_perm (fun (a b : PathCons R) => D.lt b.score a.score) pre
    have hstab : ∀ a b : PathCons R, List.Sublist [a, b] pre → D.lt a.score b.score = false →
        List.Sublist [a, b]
          (stable_sort (fun (a b : PathCons R) => D.lt b.score a.score) pre) := by
      intro a b hab hlt
      rw [stable_sort_eq_insertionSort]
      exact List.pair_sublist_insertionSort hlt hab
    refine ⟨?_, pre, hpre, hperm, hstab, ?_⟩
    · apply stable_sort_pairwise (fun (a b : PathCons R) => D.lt b.score a.score) pre
      · intro a ha b hb hab
        by_contra hne
        have hba : D.lt a.score b.score = true := by simpa using hne
        have := hasym a (hperm.mem_iff.mpr ha) b (hperm.mem_iff.mpr hb) hba
        rw [this] at hab
        exact absurd hab (by simp)
      · intro a ha b hb c hc hab hbc
        exact hntr a (hperm.mem_iff.mpr ha) b (hperm.mem_iff.mpr hb) c (hperm.mem_iff.mpr hc) hab
          hbc
    · intro a b hab heq
      apply hstab a b hab
      have ha : a ∈ pre := hab.subset (List.mem_cons_self _ _)
      by_contra hne
      have hlt : D.lt a.score a.score = true := by rw [← heq] at hne; simpa using hne
      have := hasym a (hperm.mem_iff.mpr ha) a (hperm.mem_iff.mpr ha) hlt
      rw [this] at hlt
      exact absurd hlt (by simp)

theorem score_paths_sorted_witness :
    ∃ out, score_paths ratOps example_path_score example_paths (example_states 25) = some out ∧
      List.Pairwise (fun a b : PathCons ℚ => ratOps.lt a.score b.score = false) out := by
  have hs : (score_paths ratOps example_path_score example_paths (example_states 25)).isSome
      = true := by with_unfolding_all decide
  obtain ⟨out, hout⟩ := Option.isSome_iff_exists.mp hs
  have h := score_paths_sorted ratOps example_path_score example_paths (example_states 25) out
    hout
    (fun a _ b _ hab => by
      simp only [ratOps, decide_eq_true_eq, decide_eq_false_iff_not, not_lt] at hab ⊢
      exact le_of_lt hab)
    (fun a _ b _ c _ hab hbc => by
      simp only [ratOps, decide_eq_false_iff_not, not_lt] at hab hbc ⊢
      exact le_trans hbc hab)
  exact ⟨out, hout, h.1⟩

/-! ## Theorems: cull steps of the path scorer -/

theorem retained_iff {R : Type} (D : DoubleOps R) (i : Nat) (p : PathCons R) :
    retained D i p ↔ (decide (i = 0) || D.lt (D.lit (-30)) p.score ||
      D.le (D.lit (13421773 / 67108864)) (D.div (D.lit p.num_improved) (D.lit p.num_scored)))
        = true := by
  unfold retained
  simp [or_assoc]

/-- C15 (amended): at a cull step a path is retained if and only if it is at index 0, or its
running score is greater than `-30`, or `num_improved / num_scored` is at least the float
constant `0.2f` (13421773 / 67108864, slightly above one fifth); retained paths keep their
relative order; a path other than index 0 that scores 10 worse than path 0 on every one of 25
reads is removed and path 0 remains. -/
theorem cull_paths_spec {R : Type} (D : DoubleOps R) (paths : List (PathCons R)) :
    List.Sublist (cull_paths D paths) paths ∧
    (∀ p, p ∈ cull_paths D paths ↔ ∃ i, paths[i]? = some p ∧ retained D i p) ∧
    (score_paths ratOps example_path_score example_paths (example_states 25)).map
      (List.map PathCons.path) = some ["AAAAAGAAAA".toList, "AAAAAAAAAA".toList] := by
  refine ⟨?_, ?_, by set_option maxRecDepth 100000 in with_unfolding_all decide⟩
  · unfold cull_paths
    have h1 : List.Sublist
        ((paths.enum.filter fun ip =>
          let f := D.div (D.lit ip.2.num_improved) (D.lit ip.2.num_scored)
          ip.1 = 0 || D.lt (D.lit (-30)) ip.2.score ||
            D.le (D.lit (13421773 / 67108864)) f).map Prod.snd)
        (paths.enum.map Prod.snd) := (List.filter_sublist _).map _
    rw [List.enum_map_snd] at h1
    exact h1
  · intro p
    unfold cull_paths
    simp only [List.mem_map, List.mem_filter, Prod.exists]
    constructor
    · rintro ⟨i, q, ⟨hmem, hkeep⟩, rfl⟩
      refine ⟨i, (List.mem_enum_iff_getElem?.mp hmem), ?_⟩
      exact (retained_iff D i q).mpr hkeep
    · rintro ⟨i, hi, hret⟩
      exact ⟨i, p, ⟨List.mem_enum_iff_getElem?.mpr hi, (retained_iff D i p).mp hret⟩, rfl⟩

/-- The cull step on a path at index 1 with running score `-40` that improved exactly 1 of 5
reads: `num_improved / num_scored = 1/5` is below the float constant and the path is
removed. -/
theorem cull_paths_one_fifth_removed :
    (cull_paths ratOps example_cull_paths).map PathCons.path = ["AAAAAAAAAA".toList] ∧
    (example_cull_paths.map fun p =>
      ((p.num_improved : ℚ) / (p.num_scored : ℚ), decide ((2 : ℚ) / 10 ≤
        (p.num_improved : ℚ) / (p.num_scored : ℚ)))) = [(0, false), (1 / 5, true)] := by
  constructor
  · with_unfolding_all decide
  · with_unfolding_all decide

/-- C16 (amended): counting the reads 1, 2, 3, ... in order, the read number `ri + 1` that
passes the fit-quality test is scored and aggregated, and a cull step follows exactly when
`ri + 1` is one of 6, 11, 16, ... (the 0-based index `ri` is a positive multiple of 5). -/
theorem score_paths_read_cull {R : Type} (D : DoubleOps R)
    (score : List Char → HMMConsReadState R → Option R)
    (read_states : List (HMMConsReadState R)) (paths : List (PathCons R)) (ri : Nat)
    (read_state : HMMConsReadState R) (h : read_states[ri]? = some read_state)
    (hfit : D.lt D.inf (D.fabs (read_state.read.parameters read_state.strand).fit_quality)
      = false) :
    score_paths_read D score read_states paths ri =
      (aggregate_read D score read_state paths).map fun paths1 =>
        if 6 ≤ ri + 1 ∧ (ri + 1) % 5 = 1 then cull_paths D paths1 else paths1 := by
  unfold score_paths_read aggregate_read
  rw [h]
  simp only [hfit, Bool.false_eq_true, if_false]
  cases hs : (paths.mapM fun p => score p.path read_state) with
  | none => rfl
  | some scores =>
    cases scores with
    | nil => rfl
    | cons s rest =>
      simp only [Option.some_bind, Option.map_some']
      by_cases hc : ri > 0 ∧ ri % 5 = 0
      · have hc2 : 6 ≤ ri + 1 ∧ (ri + 1) % 5 = 1 := by omega
        rw [if_pos hc, if_pos hc2]
      · have hc2 : ¬ (6 ≤ ri + 1 ∧ (ri + 1) % 5 = 1) := by omega
        rw [if_neg hc, if_neg hc2]

theorem score_paths_read_cull_witness :
    score_paths_read ratOps example_path_score (example_states 6)
        [PathCons.mk_path ratOps "AAAAAAAAAA".toList] 5 =
      (aggregate_read ratOps example_path_score (example_state_q 5)
        [PathCons.mk_path ratOps "AAAAAAAAAA".toList]).map fun paths1 =>
        if 6 ≤ 5 + 1 ∧ (5 + 1) % 5 = 1 then cull_paths ratOps paths1 else paths1 :=
  score_paths_read_cull ratOps example_path_score (example_states 6)
    [PathCons.mk_path ratOps "AAAAAAAAAA".toList] 5 (example_state_q 5) (by rfl)
    (by with_unfolding_all decide)

/-- C16 (as stated): no cull step follows the 5th read.  After 5 reads the candidate that lost
10 on every read is still among the paths although a cull step would remove it; it is removed
after the 6th read. -/
theorem score_paths_no_cull_after_fifth :
    (paths_after_reads ratOps example_path_score example_paths (example_states 5) 5).map
      (List.map PathCons.path)
      = some ["AAAAAAAAAA".toList, "AAAAACAAAA".toList, "AAAAAGAAAA".toList] ∧
    (paths_after_reads ratOps example_path_score example_paths (example_states 5) 5).map
      (fun l => (cull_paths ratOps l).map PathCons.path)
      = some ["AAAAAAAAAA".toList, "AAAAAGAAAA".toList] ∧
    (paths_after_reads ratOps example_path_score example_paths (example_states 6) 6).map
      (List.map PathCons.path) = some ["AAAAAAAAAA".toList, "AAAAAGAAAA".toList] := by
  refine ⟨?_, ?_, ?_⟩ <;> set_option maxRecDepth 100000 in with_unfolding_all decide

/-! ## Theorems: the transition matrix -/

theorem foldl_invariant_mem {α β : Type} (P : β → Prop) (f : β → α → β) :
    ∀ (l : List α) (b : β), (∀ b a, a ∈ l → P b → P (f b a)) → P b → P (l.foldl f b) := by
  intro l
  induction l with
  | nil => intro b _ hb; exact hb
  | cons a l ih =>
    intro b hf hb
    exact ih (f b a) (fun b' a' ha' => hf b' a' (List.mem_cons_of_mem _ ha'))
      (hf b a (List.mem_cons_self _ _) hb)

theorem foldlM_option_invariant_mem {α β : Type} (P : β → Prop) (f : β → α → Option β) :
    ∀ (l : List α) (b b' : β), (∀ b a b', a ∈ l → P b → f b a = some b' → P b') → P b →
      l.foldlM f b = some b' → P b' := by
  intro l
  induction l with
  | nil =>
    intro b b' _ hb h
    simp only [List.foldlM_nil, pure, Option.some.injEq] at h
    subst h; exact hb
  | cons a l ih =>
    intro b b' hf hb h
    rw [List.foldlM_cons] at h
    cases hfa : f b a with
    | none => rw [hfa] at h; simp [bind] at h
    | some b1 =>
      rw [hfa] at h
      exact ih b1 b' (fun b2 a2 b3 ha2 => hf b2 a2 b3 (List.mem_cons_of_mem _ ha2))
        (hf b a b1 (List.mem_cons_self _ _) hb hfa) h

theorem mem_loop_range (a b i : Nat) : i ∈ loop_range a b ↔ a ≤ i ∧ i < b := by
  unfold loop_range
  rw [List.mem_range'_1]
  omega

/-- The cells that a list of `set` calls leaves alone keep their value. -/
theorem foldl_set_frame {α T : Type} (n : Nat) (row col : α → Nat) (v : Matrix T → α → T)
    (l : List α) (m : Matrix T) (hm : m.n_cols = n) (hcol : ∀ a ∈ l, col a < n) :
    ((l.foldl (fun m a => set m (row a) (col a) (v m a)) m).n_rows = m.n_rows ∧
      (l.foldl (fun m a => set m (row a) (col a) (v m a)) m).n_cols = n) ∧
    ∀ r c, c < n → (∀ a ∈ l, ¬ (r = row a ∧ c = col a)) →
      get (l.foldl (fun m a => set m (row a) (col a) (v m a)) m) r c = get m r c := by
  apply foldl_invariant_mem
    (fun m' => (m'.n_rows = m.n_rows ∧ m'.n_cols = n) ∧
      ∀ r c, c < n → (∀ a ∈ l, ¬ (r = row a ∧ c = col a)) → get m' r c = get m r c)
  · intro b a ha hb
    refine ⟨hb.1, ?_⟩
    intro r c hc hne
    rw [get_set_ne b (row a) (col a) r c _ (by rw [hb.1.2]; exact hcol a ha)
      (by rw [hb.1.2]; exact hc) (hne a ha)]
    exact hb.2 r c hc hne
  · exact ⟨⟨rfl, hm⟩, fun _ _ _ _ => rfl⟩

theorem fill_neg_inf {R : Type} (D : DoubleOps R) (n : Nat) (matrix : Matrix R)
    (hc : matrix.n_cols = n) :
    ((((List.range n).foldl
        (fun m si => (List.range n).foldl (fun m sj => set m si sj D.neg_inf) m) matrix).n_rows
          = matrix.n_rows) ∧
      ((List.range n).foldl
        (fun m si => (List.range n).foldl (fun m sj => set m si sj D.neg_inf) m) matrix).n_cols
          = n) ∧
    ∀ r c, r < n → c < n →
      get ((List.range n).foldl
        (fun m si => (List.range n).foldl (fun m sj => set m si sj D.neg_inf) m) matrix) r c
        = D.neg_inf := by
  have hinner : ∀ (i : Nat) (m : Matrix R), m.n_cols = n →
      (((List.range n).foldl (fun m sj => set m i sj D.neg_inf) m).n_rows = m.n_rows ∧
        ((List.range n).foldl (fun m sj => set m i sj D.neg_inf) m).n_cols = n) ∧
      (∀ c, c < n → get ((List.range n).foldl (fun m sj => set m i sj D.neg_inf) m) i c
        = D.neg_inf) ∧
      ∀ r c, c < n → r ≠ i →
        get ((List.range n).foldl (fun m sj => set m i sj D.neg_inf) m) r c = get m r c := by
    intro i m hm
    have h := foldl_range'_invariant
      (fun j (m' : Matrix R) => (m'.n_rows = m.n_rows ∧ m'.n_cols = n) ∧
        (∀ c, c < j → get m' i c = D.neg_inf) ∧
        ∀ r c, c < n → r ≠ i → get m' r c = get m r c)
      (fun m sj => set m i sj D.neg_inf) n 0 m
      (by
        intro j b _ hj hb
        refine ⟨hb.1, ?_, ?_⟩
        · intro c hcj
          by_cases e : c = j
          · subst e; exact get_set_eq b i c _
          · rw [get_set_ne b i j i c _ (by rw [hb.1.2]; omega) (by rw [hb.1.2]; omega)
              (fun h => e h.2)]
            exact hb.2.1 c (by omega)
        · intro r c hcn hr
          rw [get_set_ne b i j r c _ (by rw [hb.1.2]; omega) (by rw [hb.1.2]; omega)
            (fun h => hr h.1)]
          exact hb.2.2 r c hcn hr)
      ⟨⟨rfl, hm⟩, fun c hc0 => absurd hc0 (Nat.not_lt_zero c), fun _ _ _ _ => rfl⟩
    rw [← List.range_eq_range', Nat.zero_add] at h
    exact ⟨h.1, h.2.1, h.2.2⟩
  have h := foldl_range'_invariant
    (fun i (m' : Matrix R) => (m'.n_rows = matrix.n_rows ∧ m'.n_cols = n) ∧
      ∀ r c, r < i → c < n → get m' r c = D.neg_inf)
    (fun m si => (List.range n).foldl (fun m sj => set m si sj D.neg_inf) m) n 0 matrix
    (by
      intro i b _ _ hb
      obtain ⟨hd, hrow, hother⟩ := hinner i b hb.1.2
      refine ⟨⟨hd.1.trans hb.1.1, hd.2⟩, ?_⟩
      intro r c hr hcn
      by_cases e : r = i
      · subst e; exact hrow c hcn
      · rw [hother r c hcn e]
        exact hb.2 r c (by omega) hcn)
    ⟨⟨rfl, hc⟩, fun r c hr0 => absurd hr0 (Nat.not_lt_zero r)⟩
  rw [← List.range_eq_range', Nat.zero_add] at h
  exact ⟨h.1, h.2⟩

theorem fill_khmm_transitions_step_set {R : Type} (D : DoubleOps R) (consensus : List Char)
    (state : HMMConsReadState R) (si : Nat) (acc acc1 : R × Matrix R) (sj : Nat)
    (h : fill_khmm_transitions_step D consensus state si acc sj = some acc1) :
    ∃ v, acc1.2 = set acc.2 si sj v := by
  unfold fill_khmm_transitions_step at h
  simp only at h
  split at h
  · simp only [Option.some.injEq] at h
    subst h
    exact ⟨_, rfl⟩
  · split at h
    · simp only [Option.some.injEq] at h
      subst h
      exact ⟨_, rfl⟩
    · simp at h

/-- The row `si` of the loop of `fill_khmm_transitions` writes only cells `(si, sj)` with
`si <= sj <= si + 5` and `sj < terminal_state`. -/
theorem fill_khmm_transitions_row_frame {R : Type} (D : DoubleOps R) (consensus : List Char)
    (state : HMMConsReadState R) (n terminal_state : Nat) (m m1 : Matrix R) (si : Nat)
    (hm : m.n_cols = n) (ht : terminal_state < n) (ht0 : 1 ≤ terminal_state)
    (h : fill_khmm_transitions_row D consensus state terminal_state m si = some m1) :
    (m1.n_rows = m.n_rows ∧ m1.n_cols = n) ∧
    ∀ r c, c < n → ¬ (r = si ∧ si ≤ c ∧ c ≤ si + 5 ∧ c < terminal_state) →
      get m1 r c = get m r c := by
  unfold fill_khmm_transitions_row at h
  simp only at h
  obtain ⟨acc1, hacc, rfl⟩ := Option.map_eq_some'.mp h
  refine foldlM_option_invariant_mem
    (fun (acc : R × Matrix R) => (acc.2.n_rows = m.n_rows ∧ acc.2.n_cols = n) ∧
      ∀ r c, c < n → ¬ (r = si ∧ si ≤ c ∧ c ≤ si + 5 ∧ c < terminal_state) →
        get acc.2 r c = get m r c)
    (fill_khmm_transitions_step D consensus state si) _ (D.lit 0, m) acc1 ?_
    ⟨⟨rfl, hm⟩, fun _ _ _ _ => rfl⟩ hacc
  intro b sj b1 hsj hb hstep
  obtain ⟨v, hv⟩ := fill_khmm_transitions_step_set D consensus state si b b1 sj hstep
  rw [mem_loop_range] at hsj
  have hsj2 : sj ≤ si + 5 ∧ sj < terminal_state := by
    unfold KHMM_MAX_JUMP at hsj
    by_cases hcond : si + 5 ≥ terminal_state
    · rw [if_pos hcond] at hsj; omega
    · rw [if_neg hcond] at hsj; omega
  rw [hv]
  refine ⟨hb.1, ?_⟩
  intro r c hc hne
  have hsj1 : si ≤ sj := hsj.1
  have hsjn : sj < b.2.n_cols := by rw [hb.1.2]; omega
  have hcn : c < b.2.n_cols := by rw [hb.1.2]; exact hc
  rw [get_set_ne b.2 si sj r c v hsjn hcn
    (fun e => hne ⟨e.1, by rw [e.2]; exact hsj1, by rw [e.2]; exact hsj2.1,
      by rw [e.2]; exact hsj2.2⟩)]
  exact hb.2 r c hc hne

/-- The cells of the matrix built by `fill_khmm_transitions` outside the band of the interior
rows: the two entries `0` and `-INFINITY` everywhere else. -/
theorem fill_khmm_transitions_frame {R : Type} (D : DoubleOps R) (matrix tm : Matrix R)
    (consensus : List Char) (state : HMMConsReadState R)
    (h : fill_khmm_transitions D matrix consensus state = some tm) :
    (tm.n_rows = consensus.length - K + 1 + 2 ∧ tm.n_cols = consensus.length - K + 1 + 2) ∧
    ∀ r c, r < consensus.length - K + 1 + 2 → c < consensus.length - K + 1 + 2 →
      ¬ (1 ≤ r ∧ r ≤ c ∧ c ≤ r + 5 ∧ c ≤ consensus.length - K + 1) →
      get tm r c =
        if (r = consensus.length - K + 1 ∧ c = consensus.length - K + 1 + 1) ∨ (r = 0 ∧ c = 1)
        then D.lit 0 else D.neg_inf := by
  unfold fill_khmm_transitions at h
  simp only at h
  split at h
  swap
  · simp at h
  rename_i hd
  obtain ⟨mr, hmr, rfl⟩ := Option.map_eq_some'.mp h
  generalize hn : consensus.length - K + 1 = Nk at *
  obtain ⟨⟨hr0, hc0⟩, hinf⟩ := fill_neg_inf D (Nk + 2) matrix hd.2
  have hrows := foldlM_option_invariant_mem
    (fun (m : Matrix R) => (m.n_rows = Nk + 2 ∧ m.n_cols = Nk + 2) ∧
      ∀ r c, r < Nk + 2 → c < Nk + 2 → ¬ (1 ≤ r ∧ r ≤ c ∧ c ≤ r + 5 ∧ c ≤ Nk) →
        get m r c = if r = 0 ∧ c = 1 then D.lit 0 else D.neg_inf)
    (fill_khmm_transitions_row D consensus state (Nk + 2 - 1)) _ _ mr
    (by
      intro b si b1 hsi hb hrow
      obtain ⟨hd1, hfr⟩ := fill_khmm_transitions_row_frame D consensus state (Nk + 2)
        (Nk + 2 - 1) b b1 si hb.1.2 (by omega) (by omega) hrow
      rw [mem_loop_range] at hsi
      refine ⟨⟨hd1.1.trans hb.1.1, hd1.2⟩, ?_⟩
      intro r c hr hc hne
      rw [hfr r c hc (fun e => hne ⟨by omega, by omega, by omega, by omega⟩)]
      exact hb.2 r c hr hc hne)
    (by
      refine ⟨⟨hr0.trans hd.1, hc0⟩, ?_⟩
      intro r c hr hc _
      by_cases e : r = 0 ∧ c = 1
      · rw [if_pos e, e.1, e.2]
        exact get_set_eq _ 0 1 _
      · rw [if_neg e, get_set_ne _ 0 1 r c _ (by rw [hc0]; omega) (by rw [hc0]; exact hc) e]
        exact hinf r c hr hc)
    hmr
  refine ⟨hrows.1, ?_⟩
  intro r c hr hc hne
  by_cases e : r = Nk ∧ c = Nk + 1
  · rw [if_pos (Or.inl e), e.1, e.2]
    exact get_set_eq _ _ _ _
  · rw [get_set_ne _ _ _ r c _ (by rw [hrows.1.2]; omega) (by rw [hrows.1.2]; exact hc)
      (fun e1 => e ⟨by omega, by omega⟩), hrows.2 r c hr hc hne]
    by_cases e0 : r = 0 ∧ c = 1
    · rw [if_pos e0, if_pos (Or.inr e0)]
    · rw [if_neg e0, if_neg (fun e1 => e1.elim e e0)]

/-- C24: for every sequence of length at least 5, in the matrix built by
`fill_khmm_transitions` (`Nk = length - K + 1` k-mer states, terminal state `Nk + 1`) the row 0
holds `0` at the column 1 and `-INFINITY` in every other column, the state `Nk` has the entry
`0` to the terminal state, every other state has the entry `-INFINITY` to the terminal
state, and the terminal row holds `-INFINITY` everywhere. -/
theorem fill_khmm_transitions_ends {R : Type} (D : DoubleOps R) (matrix tm : Matrix R)
    (consensus : List Char) (state : HMMConsReadState R) (_hlen : 5 ≤ consensus.length)
    (h : fill_khmm_transitions D matrix consensus state = some tm) :
    get tm 0 1 = D.lit 0 ∧
    (∀ c, c ≤ consensus.length - K + 1 + 1 → c ≠ 1 → get tm 0 c = D.neg_inf) ∧
    get tm (consensus.length - K + 1) (consensus.length - K + 1 + 1) = D.lit 0 ∧
    (∀ si, si ≤ consensus.length - K + 1 + 1 → si ≠ consensus.length - K + 1 →
      get tm si (consensus.length - K + 1 + 1) = D.neg_inf) ∧
    (∀ c, c ≤ consensus.length - K + 1 + 1 →
      get tm (consensus.length - K + 1 + 1) c = D.neg_inf) := by
  obtain ⟨_, hfr⟩ := fill_khmm_transitions_frame D matrix tm consensus state h
  have hK : K = 5 := rfl
  generalize hn : consensus.length - K + 1 = Nk at *
  have hNk : 1 ≤ Nk := by omega
  refine ⟨?_, ?_, ?_, ?_, ?_⟩
  · rw [hfr 0 1 (by omega) (by omega) (by omega), if_pos (Or.inr ⟨rfl, rfl⟩)]
  · intro c hc hc1
    rw [hfr 0 c (by omega) (by omega) (by omega), if_neg (by omega)]
  · rw [hfr Nk (Nk + 1) (by omega) (by omega) (by omega), if_pos (Or.inl ⟨rfl, rfl⟩)]
  · intro si hsi hne
    rw [hfr si (Nk + 1) (by omega) (by omega) (by omega), if_neg (by omega)]
  · intro c hc
    rw [hfr (Nk + 1) c (by omega) (by omega) (by omega), if_neg (by omega)]

theorem fill_khmm_transitions_ends_witness :
    ∃ tm, khmm_transitions intOps "ACGTAC".toList example_state = some tm ∧
      get tm 0 1 = 0 ∧ get tm 2 3 = 0 ∧ get tm 1 3 = -1000000 := by
  have hs : (khmm_transitions intOps "ACGTAC".toList example_state).isSome = true := by
    with_unfolding_all decide
  obtain ⟨tm, htm⟩ := Option.isSome_iff_exists.mp hs
  have htm2 := htm
  unfold khmm_transitions at htm2
  have h := fill_khmm_transitions_ends intOps _ tm "ACGTAC".toList example_state (by decide) htm2
  exact ⟨tm, htm, h.1, h.2.2.1, h.2.2.2.1 1 (by decide) (by decide)⟩

/-- C25: for every interior state `si` (`1 <= si <= Nk`) of the matrix built by
`fill_khmm_transitions`, the entry `T[si, sj]` is `-INFINITY` for every interior `sj` outside
`[si, min(si + 5, Nk)]`: no backward transition and no forward jump longer than
`KHMM_MAX_JUMP = 5` k-mers. -/
theorem fill_khmm_transitions_band {R : Type} (D : DoubleOps R) (matrix tm : Matrix R)
    (consensus : List Char) (state : HMMConsReadState R)
    (h : fill_khmm_transitions D matrix consensus state = some tm) (si sj : Nat)
    (hsi : 1 ≤ si ∧ si ≤ consensus.length - K + 1)
    (hsj : 1 ≤ sj ∧ sj ≤ consensus.length - K + 1)
    (hout : sj < si ∨ min (si + KHMM_MAX_JUMP) (consensus.length - K + 1) < sj) :
    get tm si sj = D.neg_inf := by
  obtain ⟨_, hfr⟩ := fill_khmm_transitions_frame D matrix tm consensus state h
  have hJ : KHMM_MAX_JUMP = 5 := rfl
  generalize hn : consensus.length - K + 1 = Nk at *
  rw [hfr si sj (by omega) (by omega) (by omega), if_neg (by omega)]

theorem fill_khmm_transitions_band_witness :
    ∃ tm, khmm_transitions intOps "ACGTAC".toList example_state = some tm ∧
      get tm 2 1 = -1000000 := by
  have hs : (khmm_transitions intOps "ACGTAC".toList example_state).isSome = true := by
    with_unfolding_all decide
  obtain ⟨tm, htm⟩ := Option.isSome_iff_exists.mp hs
  have htm2 := htm
  unfold khmm_transitions at htm2
  exact ⟨tm, htm, fill_khmm_transitions_band intOps _ tm "ACGTAC".toList example_state htm2 2 1
    (by decide) (by decide) (by decide)⟩

/-! ## Theorems: the sum of two log-scaled values -/

theorem log_one_add_exp (x y : ℝ) :
    x + Real.log (1 + Real.exp (y - x)) = Real.log (Real.exp x + Real.exp y) := by
  have hx : (0 : ℝ) < Real.exp x := Real.exp_pos x
  have h1 : (0 : ℝ) < 1 + Real.exp (y - x) := by positivity
  have e : Real.exp x + Real.exp y = Real.exp x * (1 + Real.exp (y - x)) := by
    rw [mul_add, mul_one, ← Real.exp_add]
    congr 2
    ring
  rw [e, Real.log_mul (ne_of_gt hx) (ne_of_gt h1), Real.log_exp]

theorem xlog_fin_pos (x : ℝ) (h : 0 < x) : XReal.log (XReal.fin x) = XReal.fin (Real.log x) := by
  show (if x < 0 then XReal.nan else if x = 0 then XReal.ninf else XReal.fin (Real.log x)) = _
  rw [if_neg (not_lt.mpr (le_of_lt h)), if_neg (ne_of_gt h)]

theorem xlog_fin_zero : XReal.log (XReal.fin 0) = XReal.ninf := by
  show (if (0 : ℝ) < 0 then XReal.nan
    else if (0 : ℝ) = 0 then XReal.ninf else XReal.fin (Real.log 0)) = _
  rw [if_neg (lt_irrefl 0), if_pos rfl]

theorem add_logs_fin_fin (x y : ℝ) :
    add_logs realOps (XReal.fin x) (XReal.fin y)
      = XReal.fin (Real.log (Real.exp x + Real.exp y)) := by
  have hlog : ∀ d : ℝ, XReal.log (XReal.fin ((1 : ℚ) + Real.exp d))
      = XReal.fin (Real.log (1 + Real.exp d)) := by
    intro d
    have h1 : (0 : ℝ) < ((1 : ℚ) : ℝ) + Real.exp d := by
      have := Real.exp_pos d
      push_cast
      linarith
    rw [xlog_fin_pos _ h1]
    push_cast
    rfl
  unfold add_logs
  simp only [realOps, XReal.eq, Bool.and_false, Bool.false_eq_true, if_false, XReal.lt,
    XReal.sub, XReal.neg, XReal.add, XReal.exp, decide_eq_true_eq]
  by_cases h : y < x
  · rw [if_pos h, ← sub_eq_add_neg, hlog]
    simp only [XReal.add]
    rw [log_one_add_exp]
  · rw [if_neg h, ← sub_eq_add_neg, hlog]
    simp only [XReal.add]
    rw [log_one_add_exp, add_comm]

theorem add_logs_fin_ninf (x : ℝ) :
    add_logs realOps (XReal.fin x) XReal.ninf = XReal.fin x := by
  unfold add_logs
  simp only [realOps, XReal.eq, Bool.false_and, Bool.false_eq_true, if_false, XReal.lt,
    if_true, XReal.sub, XReal.neg, XReal.add, XReal.exp]
  have e : (((1 : ℚ) : ℝ) + 0) = 1 := by push_cast; ring
  rw [e, xlog_fin_pos 1 one_pos, Real.log_one]
  simp only [XReal.add, add_zero]

theorem add_logs_ninf_fin (x : ℝ) :
    add_logs realOps XReal.ninf (XReal.fin x) = XReal.fin x := by
  unfold add_logs
  simp only [realOps, XReal.eq, Bool.and_false, Bool.false_eq_true, if_false, XReal.lt,
    XReal.sub, XReal.neg, XReal.add, XReal.exp]
  have e : (((1 : ℚ) : ℝ) + 0) = 1 := by push_cast; ring
  rw [e, xlog_fin_pos 1 one_pos, Real.log_one]
  simp only [XReal.add, add_zero]

theorem add_logs_ninf_ninf : add_logs realOps XReal.ninf XReal.ninf = XReal.ninf := by
  unfold add_logs
  simp only [realOps, XReal.eq, Bool.and_self, if_true]

/-- C27: under exact arithmetic, for every `a` that is a real number or `-inf`,
`add_logs(a, -inf) = a` and `add_logs(-inf, a) = a`; `add_logs(-inf, -inf) = -inf` (not NaN);
and `add_logs(a, b) = add_logs(b, a)` for all such `a` and `b`. -/
theorem add_logs_neg_inf_comm :
    (∀ a : XReal, a ≠ XReal.nan → a ≠ XReal.pinf →
      add_logs realOps a XReal.ninf = a ∧ add_logs realOps XReal.ninf a = a) ∧
    add_logs realOps XReal.ninf XReal.ninf = XReal.ninf ∧
    (∀ a b : XReal, a ≠ XReal.nan → a ≠ XReal.pinf → b ≠ XReal.nan → b ≠ XReal.pinf →
      add_logs realOps a b = add_logs realOps b a) := by
  refine ⟨?_, add_logs_ninf_ninf, ?_⟩
  · intro a h1 h2
    cases a with
    | nan => exact absurd rfl h1
    | pinf => exact absurd rfl h2
    | ninf => exact ⟨add_logs_ninf_ninf, add_logs_ninf_ninf⟩
    | fin x => exact ⟨add_logs_fin_ninf x, add_logs_ninf_fin x⟩
  · intro a b ha1 ha2 hb1 hb2
    cases a with
    | nan => exact absurd rfl ha1
    | pinf => exact absurd rfl ha2
    | ninf =>
      cases b with
      | nan => exact absurd rfl hb1
      | pinf => exact absurd rfl hb2
      | ninf => rfl
      | fin y => rw [add_logs_ninf_fin, add_logs_fin_ninf]
    | fin x =>
      cases b with
      | nan => exact absurd rfl hb1
      | pinf => exact absurd rfl hb2
      | ninf => rw [add_logs_ninf_fin, add_logs_fin_ninf]
      | fin y => rw [add_logs_fin_fin, add_logs_fin_fin, add_comm]

theorem add_logs_neg_inf_comm_witness :
    add_logs realOps (XReal.fin 1) XReal.ninf = XReal.fin 1 ∧
    add_logs realOps XReal.ninf (XReal.fin 1) = XReal.fin 1 :=
  add_logs_neg_inf_comm.1 (XReal.fin 1) (fun h => XReal.noConfusion h)
    (fun h => XReal.noConfusion h)

/-- C28: under exact arithmetic, for all real `x > 0` and `y > 0`,
`add_logs(log x, log y) = log(x + y)`. -/
theorem add_logs_log (x y : ℝ) (hx : 0 < x) (hy : 0 < y) :
    add_logs realOps (realOps.log (XReal.fin x)) (realOps.log (XReal.fin y))
      = realOps.log (realOps.add (XReal.fin x) (XReal.fin y)) ∧
    add_logs realOps (XReal.fin (Real.log x)) (XReal.fin (Real.log y))
      = XReal.fin (Real.log (x + y)) := by
  have h : add_logs realOps (XReal.fin (Real.log x)) (XReal.fin (Real.log y))
      = XReal.fin (Real.log (x + y)) := by
    rw [add_logs_fin_fin, Real.exp_log hx, Real.exp_log hy]
  refine ⟨?_, h⟩
  show add_logs realOps (XReal.log (XReal.fin x)) (XReal.log (XReal.fin y))
      = XReal.log (XReal.add (XReal.fin x) (XReal.fin y))
  rw [xlog_fin_pos x hx, xlog_fin_pos y hy, h]
  simp only [XReal.add]
  rw [xlog_fin_pos (x + y) (by linarith)]

theorem add_logs_log_witness :
    add_logs realOps (XReal.fin (Real.log 2)) (XReal.fin (Real.log 3))
      = XReal.fin (Real.log (2 + 3)) :=
  (add_logs_log 2 3 (by norm_num) (by norm_num)).2

/-! ## Theorems: the forward matrix -/

/-- A list of `set` calls with one value: the written cells hold the value. -/
theorem foldl_set_const {α T : Type} (n : Nat) (row col : α → Nat) (x : T) :
    ∀ (l : List α) (m : Matrix T), m.n_cols = n → (∀ a ∈ l, col a < n) →
      ∀ r c, c < n → (∃ a ∈ l, r = row a ∧ c = col a) →
        get (l.foldl (fun m a => set m (row a) (col a) x) m) r c = x := by
  intro l
  induction l with
  | nil => intro m _ _ r c _ h; obtain ⟨a, ha, _⟩ := h; simp at ha
  | cons a l ih =>
    intro m hm hcol r c hc h
    rw [List.foldl_cons]
    have hcol1 : ∀ a1 ∈ l, col a1 < n := fun a1 h1 => hcol a1 (List.mem_cons_of_mem _ h1)
    by_cases hl : ∃ a1 ∈ l, r = row a1 ∧ c = col a1
    · exact ih (set m (row a) (col a) x) hm hcol1 r c hc hl
    · have hfr := (foldl_set_frame n row col (fun _ _ => x) l (set m (row a) (col a) x) hm
        hcol1).2 r c hc (fun a1 h1 e => hl ⟨a1, h1, e⟩)
      rw [hfr]
      obtain ⟨a2, ha2, e2⟩ := h
      rcases List.mem_cons.mp ha2 with rfl | h2
      · rw [e2.1, e2.2]; exact get_set_eq m _ _ x
      · exact absurd ⟨a2, h2, e2⟩ hl

theorem initialize_forward_khmm_cells {R : Type} (D : DoubleOps R) (nr nc : Nat) (fm : Matrix R)
    (hd : HasDims nr nc fm) (r c : Nat) (hr : r < nr) (hc : c < nc) :
    get (initialize_forward_khmm D fm) r c =
      if r = 0 ∧ c = 0 then D.lit 0 else if r = 0 ∨ c = 0 then D.neg_inf else get fm r c := by
  unfold initialize_forward_khmm
  simp only [hd.1, hd.2]
  have h1 := foldl_set_frame nc (fun _ => 0) (fun si => si) (fun _ _ => D.neg_inf)
    (List.range nc) fm hd.2 (fun a ha => List.mem_range.mp ha)
  have h1c := foldl_set_const nc (fun _ => 0) (fun si => si) D.neg_inf (List.range nc) fm hd.2
    (fun a ha => List.mem_range.mp ha)
  generalize (List.range nc).foldl (fun m si => set m 0 si D.neg_inf) fm = fm1 at h1 h1c
  have hnc : 0 < nc := by omega
  have h2 := foldl_set_frame nc (fun ri => ri) (fun _ => 0) (fun _ _ => D.neg_inf)
    (List.range nr) fm1 h1.1.2 (fun a _ => hnc)
  have h2c := foldl_set_const nc (fun ri => ri) (fun _ => 0) D.neg_inf (List.range nr) fm1
    h1.1.2 (fun a _ => hnc)
  generalize (List.range nr).foldl (fun m ri => set m ri 0 D.neg_inf) fm1 = fm2 at h2 h2c
  by_cases e : r = 0 ∧ c = 0
  · rw [if_pos e, e.1, e.2]; exact get_set_eq fm2 0 0 _
  · rw [if_neg e, get_set_ne fm2 0 0 r c _ (by rw [h2.1.2]; exact hnc) (by rw [h2.1.2]; exact hc)
      e]
    by_cases e2 : c = 0
    · rw [if_pos (Or.inr e2)]
      exact h2c r c hc ⟨r, List.mem_range.mpr hr, rfl, e2⟩
    · rw [h2.2 r c hc (fun a _ h => e2 h.2)]
      by_cases e3 : r = 0
      · rw [if_pos (Or.inl e3)]
        exact h1c r c hc ⟨c, List.mem_range.mpr hc, e3, rfl⟩
      · rw [if_neg (fun h => h.elim e3 e2)]
        exact h1.2 r c hc (fun a _ h => e3 h.1)

theorem forward_recurrence_congr {R : Type} (D : DoubleOps R) (tm : Matrix R)
    (sequence : List Char) (state : HMMConsReadState R) (e_start : Nat) (f g : Matrix R)
    (first r sl : Nat) (h : ∀ sk, sk ≤ sl → get f (r - 1) sk = get g (r - 1) sk) :
    forward_recurrence D tm sequence state e_start f first r sl
      = forward_recurrence D tm sequence state e_start g first r sl := by
  unfold forward_recurrence
  congr 1
  apply List.foldl_ext
  intro a sk hsk
  rw [mem_loop_range] at hsk
  rw [h sk (by omega)]

theorem fill_forward_khmm_cell_eq {R : Type} (D : DoubleOps R) (tm : Matrix R)
    (sequence : List Char) (state : HMMConsReadState R) (e_start row : Nat) (fm : Matrix R)
    (sl : Nat) :
    fill_forward_khmm_cell D tm sequence state e_start row fm sl
      = set fm row sl (forward_recurrence D tm sequence state e_start fm (sl - 5) row sl) := by
  unfold fill_forward_khmm_cell forward_recurrence
  have e : (if sl ≥ KHMM_MAX_JUMP then sl - KHMM_MAX_JUMP else 0) = sl - 5 := by
    unfold KHMM_MAX_JUMP; split <;> omega
  simp only [e]

/-- The forward matrix after `fill_forward_khmm`: the cells of the row 0, of the column 0 and
of the last column are left as they were, every other cell holds the recurrence on the row
above. -/
theorem fill_forward_khmm_spec {R : Type} (D : DoubleOps R) (nr nc : Nat) (fm tm : Matrix R)
    (sequence : List Char) (state : HMMConsReadState R) (e_start : Nat) (hd : HasDims nr nc fm) :
    (∀ r c, c < nc → (r = 0 ∨ c = 0 ∨ nc - 1 ≤ c) →
      get (fill_forward_khmm D fm tm sequence state e_start).1 r c = get fm r c) ∧
    ∀ r sl, 1 ≤ r → r < nr → 1 ≤ sl → sl < nc - 1 →
      get (fill_forward_khmm D fm tm sequence state e_start).1 r sl
        = forward_recurrence D tm sequence state e_start
            (fill_forward_khmm D fm tm sequence state e_start).1 (sl - 5) r sl := by
  have hinner : ∀ (i : Nat) (m : Matrix R), 1 ≤ i →
      (HasDims nr nc m ∧
        (∀ r c, c < nc → ¬ (1 ≤ c ∧ c < nc - 1 ∧ 1 ≤ r ∧ r < i) → get m r c = get fm r c) ∧
        ∀ r c, 1 ≤ c → c < nc - 1 → 1 ≤ r → r < i →
          get m r c = forward_recurrence D tm sequence state e_start m (c - 5) r c) →
      (HasDims nr nc ((loop_range 1 (nc - 1)).foldl
          (fill_forward_khmm_cell D tm sequence state e_start i) m) ∧
        (∀ r c, c < nc → ¬ (1 ≤ c ∧ c < nc - 1 ∧ 1 ≤ r ∧ r < i + 1) →
          get ((loop_range 1 (nc - 1)).foldl
            (fill_forward_khmm_cell D tm sequence state e_start i) m) r c = get fm r c) ∧
        ∀ r c, 1 ≤ c → c < nc - 1 → 1 ≤ r → r < i + 1 →
          get ((loop_range 1 (nc - 1)).foldl
            (fill_forward_khmm_cell D tm sequence state e_start i) m) r c
            = forward_recurrence D tm sequence state e_start
                ((loop_range 1 (nc - 1)).foldl
                  (fill_forward_khmm_cell D tm sequence state e_start i) m) (c - 5) r c) := by
    intro i m hi hm
    have h := foldl_range'_invariant
      (fun j (m1 : Matrix R) => HasDims nr nc m1 ∧
        (∀ r c, c < nc → ¬ (1 ≤ c ∧ c < nc - 1 ∧ 1 ≤ r ∧ (r < i ∨ (r = i ∧ c < j))) →
          get m1 r c = get fm r c) ∧
        ∀ r c, 1 ≤ c → c < nc - 1 → 1 ≤ r → (r < i ∨ (r = i ∧ c < j)) →
          get m1 r c = forward_recurrence D tm sequence state e_start m1 (c - 5) r c)
      (fill_forward_khmm_cell D tm sequence state e_start i) (nc - 1 - 1) 1 m
      (by
        intro j b hj1 hj2 hb
        rw [fill_forward_khmm_cell_eq]
        obtain ⟨hbd, hbf, hbr⟩ := hb
        have hjn : j < b.n_cols := by rw [hbd.2]; omega
        refine ⟨set_dims nr nc b _ _ _ hbd, ?_, ?_⟩
        · intro r c hc hne
          rw [get_set_ne b i j r c _ hjn (by rw [hbd.2]; exact hc)
            (fun e => hne ⟨by omega, by omega, by omega, by omega⟩)]
          exact hbf r c hc (fun e => hne ⟨e.1, e.2.1, e.2.2.1, by omega⟩)
        · intro r c hc1 hc2 hr1 hrc
          have hcong : forward_recurrence D tm sequence state e_start
                (set b i j (forward_recurrence D tm sequence state e_start b (j - 5) i j))
                (c - 5) r c
              = forward_recurrence D tm sequence state e_start b (c - 5) r c := by
            apply forward_recurrence_congr
            intro sk hsk
            exact get_set_ne b i j (r - 1) sk _ hjn (by rw [hbd.2]; omega) (by omega)
          rw [hcong]
          by_cases e : r = i ∧ c = j
          · rw [e.1, e.2]; exact get_set_eq b i j _
          · rw [get_set_ne b i j r c _ hjn (by rw [hbd.2]; omega) e]
            exact hbr r c hc1 hc2 hr1 (by omega))
      ⟨hm.1, fun r c hc hne => hm.2.1 r c hc (fun e => hne ⟨e.1, e.2.1, e.2.2.1, Or.inl e.2.2.2⟩),
        fun r c hc1 hc2 hr1 hrc => hm.2.2 r c hc1 hc2 hr1 (by omega)⟩
    have hl : loop_range 1 (nc - 1) = List.range' 1 (nc - 1 - 1) := rfl
    rw [hl]
    refine ⟨h.1, ?_, ?_⟩
    · intro r c hc hne
      exact h.2.1 r c hc (fun e => hne ⟨e.1, e.2.1, e.2.2.1, by omega⟩)
    · intro r c hc1 hc2 hr1 hr2
      exact h.2.2 r c hc1 hc2 hr1 (by omega)
  have h := foldl_range'_invariant
    (fun i (m : Matrix R) => HasDims nr nc m ∧
      (∀ r c, c < nc → ¬ (1 ≤ c ∧ c < nc - 1 ∧ 1 ≤ r ∧ r < i) → get m r c = get fm r c) ∧
      ∀ r c, 1 ≤ c → c < nc - 1 → 1 ≤ r → r < i →
        get m r c = forward_recurrence D tm sequence state e_start m (c - 5) r c)
    (fun m row => (loop_range 1 (fm.n_cols - 1)).foldl
      (fill_forward_khmm_cell D tm sequence state e_start row) m) (nr - 1) 1 fm
    (by
      intro i b hi1 _ hb
      rw [hd.2]
      exact hinner i b hi1 hb)
    ⟨hd, fun _ _ _ _ => rfl, fun r c _ _ hr1 hr2 => by omega⟩
  have hf : (fill_forward_khmm D fm tm sequence state e_start).1
      = (List.range' 1 (nr - 1)).foldl
          (fun m row => (loop_range 1 (fm.n_cols - 1)).foldl
            (fill_forward_khmm_cell D tm sequence state e_start row) m) fm := by
    unfold fill_forward_khmm loop_range
    rw [hd.1]
  rw [hf]
  constructor
  · intro r c hc hrc
    exact h.2.1 r c hc (fun e => by omega)
  · intro r sl hr1 hr2 hs1 hs2
    exact h.2.2 r sl hs1 hs2 hr1 (by omega)

/-- C22 (amended): for every event row `r >= 1` and every interior state `sl`
(`1 <= sl <= Nk`), the forward cell computed by `fill_forward_khmm` after
`initialize_forward_khmm` is the emission `log_probability_match` of the event
`event_start + (r - 1) * stride` in the k-mer `sl - 1`, added to the `add_logs` sum over
`sk` in `[max(0, sl - 5), sl]` (the start state 0 included when `sl <= 5`) of
`T[sk, sl] + f[r - 1, sk]`, starting from `f[0, 0] = 0` and `-INFINITY` elsewhere in the row 0
and the column 0. -/
theorem fill_forward_khmm_recurrence {R : Type} (D : DoubleOps R) (fm tm : Matrix R)
    (sequence : List Char) (state : HMMConsReadState R) (e_start : Nat) :
    (0 < fm.n_rows → 0 < fm.n_cols →
      get (fill_forward_khmm D (initialize_forward_khmm D fm) tm sequence state e_start).1 0 0
        = D.lit 0) ∧
    (∀ c, 1 ≤ c → c < fm.n_cols → 0 < fm.n_rows →
      get (fill_forward_khmm D (initialize_forward_khmm D fm) tm sequence state e_start).1 0 c
        = D.neg_inf) ∧
    (∀ r, 1 ≤ r → r < fm.n_rows → 0 < fm.n_cols →
      get (fill_forward_khmm D (initialize_forward_khmm D fm) tm sequence state e_start).1 r 0
        = D.neg_inf) ∧
    ∀ r sl, 1 ≤ r → r < fm.n_rows → 1 ≤ sl → sl < fm.n_cols - 1 →
      get (fill_forward_khmm D (initialize_forward_khmm D fm) tm sequence state e_start).1 r sl
        = D.add
            (log_probability_match D state.read (get_rank state sequence (sl - 1))
              (u32 ((e_start : Int) + ((r - 1 : Nat) : Int) * state.stride)) state.strand)
            ((List.range' (sl - 5) (sl + 1 - (sl - 5))).foldl
              (fun sum sk => add_logs D sum (D.add (get tm sk sl)
                (get (fill_forward_khmm D (initialize_forward_khmm D fm) tm sequence state
                  e_start).1 (r - 1) sk))) D.neg_inf) := by
  have hd := initialize_forward_khmm_dims D fm.n_rows fm.n_cols fm ⟨rfl, rfl⟩
  obtain ⟨hkeep, hrec⟩ := fill_forward_khmm_spec D fm.n_rows fm.n_cols
    (initialize_forward_khmm D fm) tm sequence state e_start hd
  refine ⟨?_, ?_, ?_, ?_⟩
  · intro hr hc
    rw [hkeep 0 0 hc (Or.inl rfl),
      initialize_forward_khmm_cells D fm.n_rows fm.n_cols fm ⟨rfl, rfl⟩ 0 0 hr hc,
      if_pos ⟨rfl, rfl⟩]
  · intro c hc1 hc2 hr
    rw [hkeep 0 c hc2 (Or.inl rfl),
      initialize_forward_khmm_cells D fm.n_rows fm.n_cols fm ⟨rfl, rfl⟩ 0 c hr hc2,
      if_neg (by omega), if_pos (Or.inl rfl)]
  · intro r hr1 hr2 hc
    rw [hkeep r 0 hc (Or.inr (Or.inl rfl)),
      initialize_forward_khmm_cells D fm.n_rows fm.n_cols fm ⟨rfl, rfl⟩ r 0 hr2 hc,
      if_neg (by omega), if_pos (Or.inr rfl)]
  · intro r sl hr1 hr2 hs1 hs2
    rw [hrec r sl hr1 hr2 hs1 hs2]
    rfl

theorem fill_forward_khmm_recurrence_witness :
    get (fill_forward_khmm intOps (initialize_forward_khmm intOps (allocate_matrix 0 4 4))
      (allocate_matrix 0 4 4) "ACGTAC".toList example_state 2).1 0 0 = 0 :=
  (fill_forward_khmm_recurrence intOps (allocate_matrix 0 4 4) (allocate_matrix 0 4 4)
    "ACGTAC".toList example_state 2).1 (by decide) (by decide)

/-! ## Theorems: the engine on a read-state of one event -/

theorem realOps_lit_zero : realOps.lit 0 = XReal.fin 0 := by
  show XReal.fin ((0 : ℚ) : ℝ) = XReal.fin 0
  rw [Rat.cast_zero]

theorem example_lp_x :
    log_probability_match realOps example_read_x 0 0 0
      = XReal.fin (Real.log (3989422804014327 / 10000000000000000) - Real.log (1 / 10)) := by
  have hs : XReal.log (XReal.fin (1 / 10 * 1)) = XReal.fin (Real.log (1 / 10)) := by
    rw [xlog_fin_pos _ (by norm_num)]
    norm_num
  have hc : XReal.log (XReal.fin ((3989422804014327 / 10000000000000000 : ℚ) : ℝ))
      = XReal.fin (Real.log (3989422804014327 / 10000000000000000)) := by
    rw [xlog_fin_pos _ (by norm_num)]
    norm_num
  have hne : ((1 : ℝ) / 10 * 1 = 0) = False := by norm_num
  simp only [log_probability_match, log_normal_pdf, get_drift_corrected_level, example_read_x,
    realOps, XReal.sub, XReal.neg, XReal.add, XReal.mul, XReal.div, hs, hc, hne, if_false]
  congr 1
  push_cast
  ring

theorem example_cell_x :
    (khmm_transitions realOps "AAAAA".toList example_state_x).map
        (fun tm => get (khmm_forward realOps tm "AAAAA".toList example_state_x).1 1 1)
      = some (XReal.fin
          (Real.log (3989422804014327 / 10000000000000000) - Real.log (1 / 10))) := by
  have h : (khmm_transitions realOps "AAAAA".toList example_state_x).map
        (fun tm => get (khmm_forward realOps tm "AAAAA".toList example_state_x).1 1 1)
      = some (XReal.add (log_probability_match realOps example_read_x 0 0 0)
          (add_logs realOps
            (add_logs realOps XReal.ninf (XReal.add (realOps.lit 0) (realOps.lit 0)))
            (XReal.add (XReal.log (XReal.fin (1 / 2))) XReal.ninf))) := rfl
  rw [h, example_lp_x, realOps_lit_zero, xlog_fin_pos _ (by norm_num)]
  simp only [XReal.add]
  rw [add_logs_ninf_fin, add_logs_fin_ninf]
  simp only [XReal.add, add_zero]

theorem example_score_x_global :
    score_khmm_model realOps "AAAAA".toList example_state_x .AP_GLOBAL
      = some (XReal.fin
          (Real.log (3989422804014327 / 10000000000000000) - Real.log (1 / 10))) := by
  have h : score_khmm_model realOps "AAAAA".toList example_state_x .AP_GLOBAL
      = some (add_logs realOps
          (add_logs realOps XReal.ninf (XReal.add XReal.ninf XReal.ninf))
          (XReal.add (realOps.lit 0)
            (XReal.add (log_probability_match realOps example_read_x 0 0 0)
              (add_logs realOps
                (add_logs realOps XReal.ninf (XReal.add (realOps.lit 0) (realOps.lit 0)))
                (XReal.add (XReal.log (XReal.fin (1 / 2))) XReal.ninf))))) := rfl
  rw [h, example_lp_x, realOps_lit_zero, xlog_fin_pos _ (by norm_num)]
  simp only [XReal.add]
  rw [add_logs_ninf_fin, add_logs_fin_ninf, add_logs_ninf_ninf]
  simp only [XReal.add]
  rw [add_logs_ninf_fin]
  simp only [add_zero, zero_add]

theorem example_score_x_semi :
    score_khmm_model realOps "AAAAA".toList example_state_x .AP_SEMI_KMER
      = some XReal.ninf := rfl

/-- C22 (as stated): on a sequence of one k-mer and a read-state of one event the cell
`f[1, 1]` is a real number, while the recurrence over `sk` in `[max(1, sl - 5), sl]`, which
leaves out the start state 0, gives `-inf`. -/
theorem forward_cell_not_from_one :
    (khmm_transitions realOps "AAAAA".toList example_state_x).map
        (fun tm => get (khmm_forward realOps tm "AAAAA".toList example_state_x).1 1 1)
      = some (XReal.fin
          (Real.log (3989422804014327 / 10000000000000000) - Real.log (1 / 10))) ∧
    (khmm_transitions realOps "AAAAA".toList example_state_x).map
        (fun tm => forward_recurrence realOps tm "AAAAA".toList example_state_x 0
          (khmm_forward realOps tm "AAAAA".toList example_state_x).1 (max 1 (1 - 5)) 1 1)
      = some XReal.ninf := by
  refine ⟨example_cell_x, ?_⟩
  have h : (khmm_transitions realOps "AAAAA".toList example_state_x).map
        (fun tm => forward_recurrence realOps tm "AAAAA".toList example_state_x 0
          (khmm_forward realOps tm "AAAAA".toList example_state_x).1 (max 1 (1 - 5)) 1 1)
      = some (XReal.add (log_probability_match realOps example_read_x 0 0 0)
          (add_logs realOps XReal.ninf
            (XReal.add (XReal.log (XReal.fin (1 / 2))) XReal.ninf))) := rfl
  rw [h, example_lp_x, xlog_fin_pos _ (by norm_num)]
  simp only [XReal.add]
  rw [add_logs_ninf_ninf]

/-- C23 (the code on a read-state of one event): the loop of `AP_SEMI_KMER`,
`for(row = 1; row < fm.n_rows - 1; ++row)`, stops before the last row, against its comment
`score by the best cell in the last column`: here it visits no row and the score is `-inf`,
below the termination score of the last row 1, which is what `AP_GLOBAL` returns for the same
sequence and read-state. -/
theorem semi_kmer_below_global :
    score_khmm_model realOps "AAAAA".toList example_state_x .AP_SEMI_KMER = some XReal.ninf ∧
    score_khmm_model realOps "AAAAA".toList example_state_x .AP_GLOBAL
      = some (XReal.fin
          (Real.log (3989422804014327 / 10000000000000000) - Real.log (1 / 10))) ∧
    (khmm_transitions realOps "AAAAA".toList example_state_x).map
        (fun tm => forward_khmm_terminate realOps
          (khmm_forward realOps tm "AAAAA".toList example_state_x).1 tm 1)
      = score_khmm_model realOps "AAAAA".toList example_state_x .AP_GLOBAL ∧
    realOps.lt XReal.ninf (XReal.fin
      (Real.log (3989422804014327 / 10000000000000000) - Real.log (1 / 10))) = true :=
  ⟨example_score_x_semi, example_score_x_global, rfl, rfl⟩

/-! ## Theorems: the scoring policies -/

theorem best_fold_mono {R : Type} (D : DoubleOps R)
    (htr : ∀ a b c, D.lt a b = true → D.lt b c = true → D.lt a c = true) (t : Nat → R) :
    ∀ (l : List Nat) (b : R × Nat) (x : R), D.lt b.1 x = false →
      D.lt (l.foldl (fun (best : R × Nat) row =>
        if D.lt best.1 (t row) then (t row, row) else best) b).1 x = false := by
  intro l
  induction l with
  | nil => intro b x h; exact h
  | cons r l ih =>
    intro b x h
    rw [List.foldl_cons]
    apply ih
    by_cases hb : D.lt b.1 (t r) = true
    · rw [if_pos hb]
      by_contra hx
      have hx1 : D.lt (t r) x = true := by simpa using hx
      rw [htr b.1 (t r) x hb hx1] at h
      exact absurd h (by simp)
    · rw [if_neg hb]; exact h

theorem best_fold_spec {R : Type} (D : DoubleOps R) (hirr : ∀ a, D.lt a a = false)
    (htr : ∀ a b c, D.lt a b = true → D.lt b c = true → D.lt a c = true) (t : Nat → R) :
    ∀ (l : List Nat) (b : R × Nat),
      ((l.foldl (fun (best : R × Nat) row =>
          if D.lt best.1 (t row) then (t row, row) else best) b).1 = b.1 ∨
        ∃ r ∈ l, (l.foldl (fun (best : R × Nat) row =>
          if D.lt best.1 (t row) then (t row, row) else best) b).1 = t r) ∧
      ∀ r ∈ l, D.lt (l.foldl (fun (best : R × Nat) row =>
          if D.lt best.1 (t row) then (t row, row) else best) b).1 (t r) = false := by
  intro l
  induction l with
  | nil => intro b; exact ⟨Or.inl rfl, fun r hr => by simp at hr⟩
  | cons r l ih =>
    intro b
    rw [List.foldl_cons]
    obtain ⟨h1, h2⟩ := ih (if D.lt b.1 (t r) then (t r, r) else b)
    constructor
    · rcases h1 with h1 | ⟨r1, hr1, h1⟩
      · by_cases hb : D.lt b.1 (t r) = true
        · rw [if_pos hb] at h1
          exact Or.inr ⟨r, List.mem_cons_self _ _, by rw [if_pos hb]; exact h1⟩
        · rw [if_neg hb] at h1
          exact Or.inl (by rw [if_neg hb]; exact h1)
      · exact Or.inr ⟨r1, List.mem_cons_of_mem _ hr1, h1⟩
    · intro r1 hr1
      rcases List.mem_cons.mp hr1 with rfl | hr1
      · apply best_fold_mono D htr t
        by_cases hb : D.lt b.1 (t r1) = true
        · rw [if_pos hb]; exact hirr _
        · rw [if_neg hb]; simpa using hb
      · exact h2 r1 hr1

/-- What the loop of the `AP_SEMI_KMER` policy computes: whenever the transition matrix is
built, `score_khmm_model` returns the maximum of the termination scores
`forward_khmm_terminate(fm, tm, r)` over the event rows `1 <= r <= E - 1` only (the loop bound
`row < fm.n_rows - 1` leaves the last row `E` out), and `-INFINITY` when no row gives more; the
comparison `<` of the scores is taken irreflexive and transitive, as it is for doubles. -/
theorem score_khmm_model_semi_kmer {R : Type} (D : DoubleOps R) (consensus : List Char)
    (state : HMMConsReadState R) (tm : Matrix R) (hirr : ∀ a, D.lt a a = false)
    (htr : ∀ a b c, D.lt a b = true → D.lt b c = true → D.lt a c = true)
    (htm : khmm_transitions D consensus state = some tm) :
    ∃ s, score_khmm_model D consensus state .AP_SEMI_KMER = some s ∧
      (s = D.neg_inf ∨ ∃ r, 1 ≤ r ∧ r + 1 < (khmm_forward D tm consensus state).1.n_rows ∧
        s = forward_khmm_terminate D (khmm_forward D tm consensus state).1 tm r) ∧
      ∀ r, 1 ≤ r → r + 1 < (khmm_forward D tm consensus state).1.n_rows →
        D.lt s (forward_khmm_terminate D (khmm_forward D tm consensus state).1 tm r) = false := by
  have hs : score_khmm_model D consensus state .AP_SEMI_KMER
      = some ((loop_range 1 ((khmm_forward D tm consensus state).1.n_rows - 1)).foldl
          (fun (best : R × Nat) row =>
            if D.lt best.1 (forward_khmm_terminate D (khmm_forward D tm consensus state).1 tm row)
            then (forward_khmm_terminate D (khmm_forward D tm consensus state).1 tm row, row)
            else best) (D.neg_inf, 0)).1 := by
    unfold khmm_transitions at htm
    unfold score_khmm_model
    simp only [htm, Option.map_some']
    rfl
  obtain ⟨h1, h2⟩ := best_fold_spec D hirr htr
    (fun row => forward_khmm_terminate D (khmm_forward D tm consensus state).1 tm row)
    (loop_range 1 ((khmm_forward D tm consensus state).1.n_rows - 1)) (D.neg_inf, 0)
  refine ⟨_, hs, ?_, ?_⟩
  · rcases h1 with h1 | ⟨r, hr, h1⟩
    · exact Or.inl h1
    · rw [mem_loop_range] at hr
      exact Or.inr ⟨r, hr.1, by omega, h1⟩
  · intro r hr1 hr2
    exact h2 r ((mem_loop_range _ _ _).mpr ⟨hr1, by omega⟩)

theorem score_khmm_model_semi_kmer_witness :
    ∃ tm, khmm_transitions ratOps "AAAAAA".toList (example_state_q 0) = some tm ∧
      ∃ s, score_khmm_model ratOps "AAAAAA".toList (example_state_q 0) .AP_SEMI_KMER = some s ∧
        ∀ r, 1 ≤ r → r + 1 < (khmm_forward ratOps tm "AAAAAA".toList (example_state_q 0)).1.n_rows →
          ratOps.lt s (forward_khmm_terminate ratOps
            (khmm_forward ratOps tm "AAAAAA".toList (example_state_q 0)).1 tm r) = false := by
  have hs : (khmm_transitions ratOps "AAAAAA".toList (example_state_q 0)).isSome = true := by
    with_unfolding_all decide
  obtain ⟨tm, htm⟩ := Option.isSome_iff_exists.mp hs
  obtain ⟨s, h1, _, h3⟩ := score_khmm_model_semi_kmer ratOps "AAAAAA".toList (example_state_q 0)
    tm (fun a => by simp [ratOps])
    (fun a b c hab hbc => by
      simp only [ratOps, decide_eq_true_eq] at hab hbc ⊢
      exact lt_trans hab hbc) htm
  exact ⟨tm, htm, s, h1, h3⟩

/-! ## Theorems: training -/

theorem in_training_range (n pi : Nat) (hn : n < 18446744073709551616) (hpi : pi < n) :
    (pi > 5 ∧ pi < size_t_sub n 5) ↔ (6 ≤ pi ∧ pi + 5 < n) := by
  unfold size_t_sub
  omega

theorem record_transition_spec {R : Type} (D : DoubleOps R) (consensus : List Char)
    (state : HMMConsReadState R) (pstates : List (PosteriorState R)) (ps : PosteriorState R)
    (td td1 : TrainingData R) (pi : Nat)
    (h : record_transition D consensus state pstates ps td pi = some td1) :
    td1.emissions_for_matches = td.emissions_for_matches ∧
    td1.n_matches = td.n_matches ∧ td1.n_merges = td.n_merges ∧ td1.n_skips = td.n_skips ∧
    (ps.state = 'E' → td1.transitions = td.transitions) ∧
    (ps.state ≠ 'E' → ∃ o : TransitionObservation R, o.kind = ps.state ∧
      td1.transitions = td.transitions ++ [o]) := by
  unfold record_transition at h
  simp only at h
  by_cases hE : ps.state = 'E'
  · rw [if_neg (not_not.mpr hE)] at h
    simp only [Option.some.injEq] at h
    subst h
    exact ⟨rfl, rfl, rfl, rfl, fun _ => rfl, fun hne => absurd hE hne⟩
  · rw [if_pos hE] at h
    cases hprev : pstates[pi - 1]? with
    | none => rw [hprev] at h; simp at h
    | some prev =>
      rw [hprev] at h
      simp only at h
      split_ifs at h
      all_goals
        simp only [Option.some.injEq] at h
        subst h
        exact ⟨rfl, rfl, rfl, rfl, fun he => absurd he hE, fun _ => ⟨_, rfl, rfl⟩⟩

theorem record_emission_spec {R : Type} (D : DoubleOps R) (consensus : List Char)
    (state : HMMConsReadState R) (ps : PosteriorState R) (td1 td2 : TrainingData R)
    (h : record_emission D consensus state ps td1 = some td2) :
    td2.transitions = td1.transitions ∧
    td2.n_matches = td1.n_matches ∧ td2.n_merges = td1.n_merges ∧ td2.n_skips = td1.n_skips ∧
    (ps.state ≠ 'M' → td2.emissions_for_matches = td1.emissions_for_matches) ∧
    (ps.state = 'M' → td2.emissions_for_matches = td1.emissions_for_matches ++
      [D.div
        (D.sub (get_drift_corrected_level D state.read ps.event_idx state.strand)
          (D.mul
            (D.add ((state.read.pore_model state.strand).state
              (get_rank state consensus ps.kmer_idx)).level_mean
              (state.read.pore_model state.strand).shift)
            (state.read.pore_model state.strand).scale))
        (D.mul ((state.read.pore_model state.strand).state
            (get_rank state consensus ps.kmer_idx)).level_stdv
          (state.read.pore_model state.strand).scale)]) := by
  unfold record_emission at h
  simp only at h
  split at h
  · by_cases hM : ps.state = 'M'
    · rw [if_pos hM] at h
      simp only [Option.some.injEq] at h
      subst h
      exact ⟨rfl, rfl, rfl, rfl, fun hne => absurd hM hne, fun _ => rfl⟩
    · rw [if_neg hM] at h
      simp only [Option.some.injEq] at h
      subst h
      exact ⟨rfl, rfl, rfl, rfl, fun _ => rfl, fun he => absurd he hM⟩
  · simp at h

theorem update_training_step_out {R : Type} (D : DoubleOps R) (consensus : List Char)
    (state : HMMConsReadState R) (pstates : List (PosteriorState R)) (td : TrainingData R)
    (pi : Nat) (ps : PosteriorState R) (hn : pstates.length < 18446744073709551616)
    (hps : pstates[pi]? = some ps) (hout : ¬ (6 ≤ pi ∧ pi + 5 < pstates.length)) :
    update_training_step D consensus state pstates td pi =
      some { td with
        n_matches := td.n_matches + (if ps.state = 'M' then 1 else 0)
        n_merges := td.n_merges + (if ps.state = 'E' then 1 else 0)
        n_skips := td.n_skips + (if ps.state = 'K' then 1 else 0) } := by
  have hpi : pi < pstates.length := (List.getElem?_eq_some_iff.mp hps).1
  unfold update_training_step
  rw [hps]
  simp only
  rw [if_neg (fun h => hout ((in_training_range _ _ hn hpi).mp h))]
  rfl

theorem update_training_step_in {R : Type} (D : DoubleOps R) (consensus : List Char)
    (state : HMMConsReadState R) (pstates : List (PosteriorState R)) (td td2 : TrainingData R)
    (pi : Nat) (ps : PosteriorState R) (hn : pstates.length < 18446744073709551616)
    (hps : pstates[pi]? = some ps) (hin : 6 ≤ pi ∧ pi + 5 < pstates.length)
    (h : update_training_step D consensus state pstates td pi = some td2) :
    ∃ td1 td3, record_transition D consensus state pstates ps td pi = some td1 ∧
      record_emission D consensus state ps td1 = some td3 ∧
      td2.transitions = td3.transitions ∧
      td2.emissions_for_matches = td3.emissions_for_matches := by
  have hpi : pi < pstates.length := (List.getElem?_eq_some_iff.mp hps).1
  unfold update_training_step at h
  rw [hps] at h
  simp only at h
  rw [if_pos ((in_training_range _ _ hn hpi).mpr hin)] at h
  obtain ⟨td3, h3, rfl⟩ := Option.map_eq_some'.mp h
  obtain ⟨td1, h1, h13⟩ := Option.bind_eq_some.mp h3
  exact ⟨td1, td3, h1, h13, rfl, rfl⟩

theorem update_training_step_isSome {R : Type} (D : DoubleOps R) (consensus : List Char)
    (state : HMMConsReadState R) (pstates : List (PosteriorState R)) (td : TrainingData R)
    (pi : Nat) (ps : PosteriorState R) (hn : pstates.length < 18446744073709551616)
    (hps : pstates[pi]? = some ps) (hin : 6 ≤ pi ∧ pi + 5 < pstates.length)
    (hk : ps.kmer_idx < consensus.length - K + 1)
    (hprev : ∀ prev, pstates[pi - 1]? = some prev → prev.kmer_idx + 1 < consensus.length - K + 1) :
    (update_training_step D consensus state pstates td pi).isSome = true := by
  have hpi : pi < pstates.length := (List.getElem?_eq_some_iff.mp hps).1
  have h1 : ∃ td1, record_transition D consensus state pstates ps td pi = some td1 := by
    unfold record_transition
    simp only
    by_cases hE : ps.state = 'E'
    · rw [if_neg (not_not.mpr hE)]; exact ⟨_, rfl⟩
    · rw [if_pos hE]
      have hlt : pi - 1 < pstates.length := by omega
      rw [List.getElem?_eq_getElem hlt]
      have hp := hprev _ (List.getElem?_eq_getElem hlt)
      simp only
      have hu : u32 ((pstates[pi - 1].kmer_idx : Int) + 1) ≤ pstates[pi - 1].kmer_idx + 1 := by
        unfold u32; omega
      rw [if_pos]
      · exact ⟨_, rfl⟩
      · refine ⟨by omega, ?_⟩
        split
        · omega
        · exact hk
  obtain ⟨td1, h1⟩ := h1
  unfold update_training_step
  rw [hps]
  simp only
  rw [if_pos ((in_training_range _ _ hn hpi).mpr hin), h1]
  simp only [Option.some_bind, Option.isSome_map']
  unfold record_emission
  simp only
  rw [if_pos hk]
  split <;> rfl

/-- C29 (amended): `update_training_khmm` records observations for the decode step at index
`pi` (0-based, decode of length `n`) if and only if `6 <= pi < n - 5`: outside this range the
step returns and changes the three counters only; inside it the step returns when the k-mer
indices it reads are below the number of k-mers, and then one transition observation is
appended when the state is not `E` and one emission when the state is `M`. -/
theorem update_training_step_records {R : Type} (D : DoubleOps R) (consensus : List Char)
    (state : HMMConsReadState R) (pstates : List (PosteriorState R)) (td : TrainingData R)
    (pi : Nat) (ps : PosteriorState R) (hn : pstates.length < 18446744073709551616)
    (hps : pstates[pi]? = some ps) :
    (¬ (6 ≤ pi ∧ pi + 5 < pstates.length) →
      ∃ td2, update_training_step D consensus state pstates td pi = some td2 ∧
        td2.transitions = td.transitions ∧
        td2.emissions_for_matches = td.emissions_for_matches) ∧
    (6 ≤ pi ∧ pi + 5 < pstates.length →
      ∀ td2, update_training_step D consensus state pstates td pi = some td2 →
        (ps.state ≠ 'E' → td2.transitions.length = td.transitions.length + 1) ∧
        (ps.state = 'E' → td2.transitions = td.transitions) ∧
        (ps.state = 'M' →
          td2.emissions_for_matches.length = td.emissions_for_matches.length + 1) ∧
        (ps.state ≠ 'M' → td2.emissions_for_matches = td.emissions_for_matches)) ∧
    (6 ≤ pi ∧ pi + 5 < pstates.length → ps.kmer_idx < consensus.length - K + 1 →
      (∀ prev, pstates[pi - 1]? = some prev →
        prev.kmer_idx + 1 < consensus.length - K + 1) →
      (update_training_step D consensus state pstates td pi).isSome = true) := by
  refine ⟨?_, ?_, ?_⟩
  · intro hout
    exact ⟨_, update_training_step_out D consensus state pstates td pi ps hn hps hout, rfl, rfl⟩
  swap
  · intro hin hk hprev
    exact update_training_step_isSome D consensus state pstates td pi ps hn hps hin hk hprev
  · intro hin td2 h
    obtain ⟨td1, td3, h1, h3, ht, he⟩ :=
      update_training_step_in D consensus state pstates td td2 pi ps hn hps hin h
    obtain ⟨a1, _, _, _, a5, a6⟩ := record_transition_spec D consensus state pstates ps td td1 pi h1
    obtain ⟨b1, _, _, _, b5, b6⟩ := record_emission_spec D consensus state ps td1 td3 h3
    refine ⟨?_, ?_, ?_, ?_⟩
    · intro hE
      obtain ⟨o, _, ho⟩ := a6 hE
      rw [ht, b1, ho, List.length_append]
      rfl
    · intro hE
      rw [ht, b1, a5 hE]
    · intro hM
      rw [he, b6 hM, a1, List.length_append]
      rfl
    · intro hM
      rw [he, b5 hM, a1]

theorem update_training_step_records_witness :
    ∃ td2, update_training_step ratOps "ACGTACGTACGTACGT".toList example_state_t example_decode
        (empty_training_data ℚ) 7 = some td2 ∧
      td2.transitions = [] ∧ td2.emissions_for_matches = [] :=
  (update_training_step_records ratOps "ACGTACGTACGTACGT".toList example_state_t example_decode
    (empty_training_data ℚ) 7 _ (by decide) (by rfl)).1 (by decide)

/-- C29 (as stated): in a decode of 12 matches the step 5 satisfies `5 <= pi < n - 5`, yet it
records nothing; of the steps 5 and 6 only the step 6 leaves a transition and an emission. -/
theorem update_training_skips_step_five :
    (update_training_step ratOps "ACGTACGTACGTACGT".toList example_state_t example_decode
        (empty_training_data ℚ) 5).map
      (fun td => (td.transitions.length, td.emissions_for_matches.length)) = some (0, 0) ∧
    (update_training_step ratOps "ACGTACGTACGTACGT".toList example_state_t example_decode
        (empty_training_data ℚ) 6).map
      (fun td => (td.transitions.length, td.emissions_for_matches.length)) = some (1, 1) ∧
    (update_training_loop ratOps "ACGTACGTACGTACGT".toList example_state_t example_decode
        (empty_training_data ℚ)).map
      (fun td => (td.transitions.length, td.emissions_for_matches.length)) = some (1, 1) ∧
    example_decode.length = 12 ∧ (example_decode.map fun p => p.state).all (fun c => c = 'M')
      = true := by
  refine ⟨?_, ?_, ?_, ?_, ?_⟩ <;> with_unfolding_all decide

/-- C30 (amended): for every recorded decode step with state `M` (an index
`6 <= pi < n - 5` whose step returns), the value `update_training_khmm` appends to
`emissions_for_matches` is `(level - m) / s`, where `level` is the drift-corrected event
level, `m = (level_mean + shift) * scale` and `s = level_stdv * scale` for the k-mer rank of
the step. -/
theorem update_training_step_emission {R : Type} (D : DoubleOps R) (consensus : List Char)
    (state : HMMConsReadState R) (pstates : List (PosteriorState R)) (td td2 : TrainingData R)
    (pi : Nat) (ps : PosteriorState R) (hn : pstates.length < 18446744073709551616)
    (hps : pstates[pi]? = some ps) (hin : 6 ≤ pi ∧ pi + 5 < pstates.length)
    (hM : ps.state = 'M')
    (h : update_training_step D consensus state pstates td pi = some td2) :
    td2.emissions_for_matches = td.emissions_for_matches ++
      [D.div
        (D.sub (get_drift_corrected_level D state.read ps.event_idx state.strand)
          (D.mul
            (D.add ((state.read.pore_model state.strand).state
              (get_rank state consensus ps.kmer_idx)).level_mean
              (state.read.pore_model state.strand).shift)
            (state.read.pore_model state.strand).scale))
        (D.mul ((state.read.pore_model state.strand).state
            (get_rank state consensus ps.kmer_idx)).level_stdv
          (state.read.pore_model state.strand).scale)] := by
  obtain ⟨td1, td3, h1, h3, _, he⟩ :=
    update_training_step_in D consensus state pstates td td2 pi ps hn hps hin h
  obtain ⟨a1, _⟩ := record_transition_spec D consensus state pstates ps td td1 pi h1
  obtain ⟨_, _, _, _, _, b6⟩ := record_emission_spec D consensus state ps td1 td3 h3
  rw [he, b6 hM, a1]

theorem update_training_step_emission_witness :
    ∃ td2, update_training_step ratOps "ACGTACGTACGTACGT".toList example_state_t example_decode
        (empty_training_data ℚ) 6 = some td2 ∧
      td2.emissions_for_matches = [] ++ [ratOps.div (ratOps.sub 10 (ratOps.mul (ratOps.add 1 1) 2))
        (ratOps.mul 1 2)] := by
  have hs : (update_training_step ratOps "ACGTACGTACGTACGT".toList example_state_t
      example_decode (empty_training_data ℚ) 6).isSome = true := by with_unfolding_all decide
  obtain ⟨td2, h2⟩ := Option.isSome_iff_exists.mp hs
  have h := update_training_step_emission ratOps "ACGTACGTACGTACGT".toList example_state_t
    example_decode (empty_training_data ℚ) td2 6 _ (by decide) (by rfl) (by decide) rfl h2
  refine ⟨td2, h2, ?_⟩
  rw [h]
  with_unfolding_all decide

/-- C30 (as stated): with `scale = 2`, `shift = 1`, `var = 3`, a model mean and deviation of 1
and an event level of 10, the value appended for a match is `(10 - 4) / 2 = 3`, while
`(level - m) / s` with `m = level_mean * scale + shift = 3` and `s = level_stdv * var = 3`
is `7 / 3`. -/
theorem update_training_emission_not_model :
    (update_training_step ratOps "ACGTACGTACGTACGT".toList example_state_t example_decode
        (empty_training_data ℚ) 6).map (fun td => td.emissions_for_matches) = some [3] ∧
    ratOps.div
      (ratOps.sub (get_drift_corrected_level ratOps example_state_t.read 6 example_state_t.strand)
        (ratOps.add
          (ratOps.mul ((example_state_t.read.pore_model example_state_t.strand).state
            (get_rank example_state_t "ACGTACGTACGTACGT".toList 6)).level_mean
            (example_state_t.read.pore_model example_state_t.strand).scale)
          (example_state_t.read.pore_model example_state_t.strand).shift))
      (ratOps.mul ((example_state_t.read.pore_model example_state_t.strand).state
          (get_rank example_state_t "ACGTACGTACGTACGT".toList 6)).level_stdv
        (example_state_t.read.pore_model example_state_t.strand).var) = 7 / 3 := by
  refine ⟨?_, ?_⟩ <;> with_unfolding_all decide

/-! ## Theorems: the transition probabilities under exact arithmetic -/

theorem jump_probability_bounds (s q : ℝ) (hs0 : 0 ≤ s) (hs1 : s ≤ 1) (hq0 : 0 ≤ q)
    (hq1 : q ≤ 1) :
    0 ≤ (1 - s) * (1 - q) ∧ (1 - s) * (1 - q) ≤ 1 ∧ 0 ≤ s + (1 - s) * (1 - q) ∧
      s + (1 - s) * (1 - q) ≤ 1 := by
  have h1 : 0 ≤ 1 - s := by linarith
  have h2 : 0 ≤ 1 - q := by linarith
  have h3 : 0 ≤ (1 - s) * (1 - q) := mul_nonneg h1 h2
  have h4 : (1 - s) * (1 - q) ≤ (1 - s) * 1 := mul_le_mul_of_nonneg_left (by linarith) h1
  refine ⟨h3, by linarith, by linarith, by linarith⟩

/-- A forward jump of `fill_khmm_transitions` under exact arithmetic, from a running sum in
`[0, 1]` and a skip probability in `[0, 1]`: the assertion holds. -/
theorem fill_khmm_transitions_step_jump (consensus : List Char) (state : HMMConsReadState XReal)
    (hq : ∀ a b, ∃ q : ℝ,
      (state.read.parameters state.strand).get_skip_probability a b = XReal.fin q ∧
        0 ≤ q ∧ q ≤ 1)
    (si sj : Nat) (hne : si - 1 ≠ sj - 1) (s : ℝ) (m : Matrix XReal) (hs0 : 0 ≤ s)
    (hs1 : s ≤ 1) :
    ∃ q : ℝ, 0 ≤ q ∧ q ≤ 1 ∧
      (state.read.parameters state.strand).get_skip_probability
        (realOps.mul (realOps.add ((state.read.pore_model state.strand).state
            (get_rank state consensus (si - 1))).level_mean
          (state.read.pore_model state.strand).shift) (state.read.pore_model state.strand).scale)
        (realOps.mul (realOps.add ((state.read.pore_model state.strand).state
            (get_rank state consensus (sj - 1))).level_mean
          (state.read.pore_model state.strand).shift) (state.read.pore_model state.strand).scale)
        = XReal.fin q ∧
      fill_khmm_transitions_step realOps consensus state si (XReal.fin s, m) sj
        = some (XReal.fin (s + (1 - s) * (1 - q)),
            set m si sj (XReal.log (XReal.fin ((1 - s) * (1 - q))))) := by
  obtain ⟨q, hqe, hq0, hq1⟩ := hq
    (realOps.mul (realOps.add ((state.read.pore_model state.strand).state
        (get_rank state consensus (si - 1))).level_mean
      (state.read.pore_model state.strand).shift) (state.read.pore_model state.strand).scale)
    (realOps.mul (realOps.add ((state.read.pore_model state.strand).state
        (get_rank state consensus (sj - 1))).level_mean
      (state.read.pore_model state.strand).shift) (state.read.pore_model state.strand).scale)
  refine ⟨q, hq0, hq1, hqe, ?_⟩
  obtain ⟨hb1, hb2, _, _⟩ := jump_probability_bounds s q hs0 hs1 hq0 hq1
  unfold fill_khmm_transitions_step
  simp only [if_neg hne]
  have e : realOps.mul (realOps.sub (realOps.lit 1) (XReal.fin s))
      (realOps.sub (realOps.lit 1)
        ((state.read.parameters state.strand).get_skip_probability
          (realOps.mul (realOps.add ((state.read.pore_model state.strand).state
              (get_rank state consensus (si - 1))).level_mean
            (state.read.pore_model state.strand).shift)
            (state.read.pore_model state.strand).scale)
          (realOps.mul (realOps.add ((state.read.pore_model state.strand).state
              (get_rank state consensus (sj - 1))).level_mean
            (state.read.pore_model state.strand).shift)
            (state.read.pore_model state.strand).scale)))
      = XReal.fin ((1 - s) * (1 - q)) := by
    show XReal.mul (XReal.sub (XReal.fin ((1 : ℚ) : ℝ)) (XReal.fin s))
      (XReal.sub (XReal.fin ((1 : ℚ) : ℝ)) _) = _
    rw [hqe]
    simp only [XReal.sub, XReal.neg, XReal.add, XReal.mul, Rat.cast_one, ← sub_eq_add_neg]
  rw [e]
  have hle : (realOps.le (realOps.lit 0) (XReal.fin ((1 - s) * (1 - q))) &&
      realOps.le (XReal.fin ((1 - s) * (1 - q))) (realOps.lit 1)) = true := by
    show (decide (((0 : ℚ) : ℝ) ≤ (1 - s) * (1 - q)) &&
      decide ((1 - s) * (1 - q) ≤ ((1 : ℚ) : ℝ))) = true
    rw [Rat.cast_zero, Rat.cast_one, decide_eq_true hb1, decide_eq_true hb2]
    rfl
  rw [if_pos hle]
  rfl

theorem fill_khmm_transitions_jumps (consensus : List Char) (state : HMMConsReadState XReal)
    (hq : ∀ a b, ∃ q : ℝ,
      (state.read.parameters state.strand).get_skip_probability a b = XReal.fin q ∧
        0 ≤ q ∧ q ≤ 1)
    (si : Nat) :
    ∀ (l : List Nat), (∀ sj ∈ l, si - 1 ≠ sj - 1) → ∀ (s : ℝ) (m : Matrix XReal), 0 ≤ s → s ≤ 1 →
      ∃ (s1 : ℝ) (m1 : Matrix XReal),
        l.foldlM (fill_khmm_transitions_step realOps consensus state si) (XReal.fin s, m)
          = some (XReal.fin s1, m1) ∧ 0 ≤ s1 ∧ s1 ≤ 1 := by
  intro l
  induction l with
  | nil => intro _ s m hs0 hs1; exact ⟨s, m, rfl, hs0, hs1⟩
  | cons sj l ih =>
    intro hl s m hs0 hs1
    obtain ⟨q, hq0, hq1, _, hstep⟩ := fill_khmm_transitions_step_jump consensus state hq si sj
      (hl sj (List.mem_cons_self _ _)) s m hs0 hs1
    obtain ⟨_, _, hb3, hb4⟩ := jump_probability_bounds s q hs0 hs1 hq0 hq1
    rw [List.foldlM_cons, hstep]
    exact ih (fun sj1 h1 => hl sj1 (List.mem_cons_of_mem _ h1)) _ _ hb3 hb4

/-- The running sum of a row of `fill_khmm_transitions` under exact arithmetic stays in
`[0, 1]` after any number of steps of the inner loop. -/
theorem fill_khmm_transitions_running_sum (consensus : List Char)
    (state : HMMConsReadState XReal) (p : ℝ)
    (hp : (state.read.parameters state.strand).self_transition = XReal.fin p) (hp0 : 0 ≤ p)
    (hp1 : p ≤ 1)
    (hq : ∀ a b, ∃ q : ℝ,
      (state.read.parameters state.strand).get_skip_probability a b = XReal.fin q ∧
        0 ≤ q ∧ q ≤ 1)
    (si b : Nat) (hsi : 1 ≤ si) (m : Matrix XReal) (k : Nat) :
    ∃ (s1 : ℝ) (m1 : Matrix XReal),
      ((loop_range si b).take k).foldlM (fill_khmm_transitions_step realOps consensus state si)
          (realOps.lit 0, m) = some (XReal.fin s1, m1) ∧ 0 ≤ s1 ∧ s1 ≤ 1 := by
  have h0 : realOps.lit 0 = XReal.fin 0 := by
    show XReal.fin ((0 : ℚ) : ℝ) = XReal.fin 0
    rw [Rat.cast_zero]
  rw [h0]
  cases k with
  | zero => exact ⟨0, m, rfl, le_refl 0, zero_le_one⟩
  | succ k =>
    unfold loop_range
    cases hb : b - si with
    | zero => exact ⟨0, m, rfl, le_refl 0, zero_le_one⟩
    | succ n =>
      rw [List.range'_succ, List.take_succ_cons, List.foldlM_cons]
      have hstep : fill_khmm_transitions_step realOps consensus state si (XReal.fin 0, m) si
          = some (XReal.fin (0 + p), set m si si (XReal.log (XReal.fin p))) := by
        unfold fill_khmm_transitions_step
        simp only [if_true, hp]
        rfl
      rw [hstep]
      apply fill_khmm_transitions_jumps consensus state hq si
      · intro sj hsj
        have := List.mem_of_mem_take hsj
        rw [List.mem_range'_1] at this
        omega
      · linarith
      · linarith

theorem foldlM_option_isSome {α β : Type} (f : β → α → Option β)
    (hf : ∀ b a, (f b a).isSome = true) : ∀ (l : List α) (b : β), (l.foldlM f b).isSome = true := by
  intro l
  induction l with
  | nil => intro b; rfl
  | cons a l ih =>
    intro b
    rw [List.foldlM_cons]
    obtain ⟨b1, hb1⟩ := Option.isSome_iff_exists.mp (hf b a)
    rw [hb1]
    exact ih b1

/-- C26: under exact arithmetic, if `self_transition` is a number in `[0, 1]` and
`get_skip_probability` returns numbers in `[0, 1]`, then in every interior row `si` of
`fill_khmm_transitions` the running sum is a number in `[0, 1]` after any number of steps of
the inner loop (the self-loop first); every forward jump `si -> sj` from a running sum `s` is
assigned `p_ij = (1 - s) * (1 - p_skip)` with `p_skip` the value of `get_skip_probability` on the
scaled levels of the two k-mers, `p_ij` lies in `[0, 1]`, the sum `s + p_ij` stays at most 1 and
the assertion holds; and `fill_khmm_transitions` returns on every matrix of the right
dimensions. -/
theorem fill_khmm_transitions_probabilities (consensus : List Char)
    (state : HMMConsReadState XReal) (p : ℝ)
    (hp : (state.read.parameters state.strand).self_transition = XReal.fin p) (hp0 : 0 ≤ p)
    (hp1 : p ≤ 1)
    (hq : ∀ a b, ∃ q : ℝ,
      (state.read.parameters state.strand).get_skip_probability a b = XReal.fin q ∧
        0 ≤ q ∧ q ≤ 1) :
    (∀ (si b : Nat) (m : Matrix XReal) (k : Nat), 1 ≤ si →
      ∃ (s1 : ℝ) (m1 : Matrix XReal),
        ((loop_range si b).take k).foldlM
          (fill_khmm_transitions_step realOps consensus state si) (realOps.lit 0, m)
          = some (XReal.fin s1, m1) ∧ 0 ≤ s1 ∧ s1 ≤ 1) ∧
    (∀ (si : Nat) (m : Matrix XReal), 1 ≤ si →
      fill_khmm_transitions_step realOps consensus state si (realOps.lit 0, m) si
        = some (XReal.fin p, set m si si (XReal.log (XReal.fin p)))) ∧
    (∀ (si sj : Nat) (s : ℝ) (m : Matrix XReal), 1 ≤ si → si < sj → 0 ≤ s → s ≤ 1 →
      ∃ q : ℝ,
        (state.read.parameters state.strand).get_skip_probability
          (kmer_level realOps consensus state (si - 1))
          (kmer_level realOps consensus state (sj - 1)) = XReal.fin q ∧
        0 ≤ q ∧ q ≤ 1 ∧ 0 ≤ (1 - s) * (1 - q) ∧ (1 - s) * (1 - q) ≤ 1 ∧
        s + (1 - s) * (1 - q) ≤ 1 ∧
        fill_khmm_transitions_step realOps consensus state si (XReal.fin s, m) sj
          = some (XReal.fin (s + (1 - s) * (1 - q)),
              set m si sj (XReal.log (XReal.fin ((1 - s) * (1 - q)))))) ∧
    (∀ matrix : Matrix XReal,
      matrix.n_rows = consensus.length - K + 1 + 2 →
      matrix.n_cols = consensus.length - K + 1 + 2 →
      (fill_khmm_transitions realOps matrix consensus state).isSome = true) := by
  refine ⟨?_, ?_, ?_, ?_⟩
  · intro si b m k hsi
    exact fill_khmm_transitions_running_sum consensus state p hp hp0 hp1 hq si b hsi m k
  · intro si m _
    unfold fill_khmm_transitions_step
    simp only [if_true, hp]
    show some (XReal.add (XReal.fin ((0 : ℚ) : ℝ)) (XReal.fin p), _) = _
    simp only [XReal.add, Rat.cast_zero, zero_add]
    rfl
  · intro si sj s m hsi hlt hs0 hs1
    obtain ⟨q, hq0, hq1, hqe, hstep⟩ := fill_khmm_transitions_step_jump consensus state hq si sj
      (by omega) s m hs0 hs1
    obtain ⟨hb1, hb2, _, hb4⟩ := jump_probability_bounds s q hs0 hs1 hq0 hq1
    exact ⟨q, hqe, hq0, hq1, hb1, hb2, hb4, hstep⟩
  · intro matrix hr hc
    unfold fill_khmm_transitions
    simp only
    rw [if_pos ⟨hr, hc⟩, Option.isSome_map']
    have hrows : ∀ (l : List Nat), (∀ si ∈ l, 1 ≤ si) → ∀ m : Matrix XReal,
        (l.foldlM (fill_khmm_transitions_row realOps consensus state
          (consensus.length - K + 1 + 2 - 1)) m).isSome = true := by
      intro l
      induction l with
      | nil => intro _ m; rfl
      | cons si l ih =>
        intro hl m
        rw [List.foldlM_cons]
        have hrow : ∃ m1, fill_khmm_transitions_row realOps consensus state
            (consensus.length - K + 1 + 2 - 1) m si = some m1 := by
          unfold fill_khmm_transitions_row
          simp only
          obtain ⟨s1, m1, h1, _⟩ := fill_khmm_transitions_running_sum consensus state p hp hp0
            hp1 hq si
            ((if si + KHMM_MAX_JUMP ≥ consensus.length - K + 1 + 2 - 1
              then consensus.length - K + 1 + 2 - 1 - 1 else si + KHMM_MAX_JUMP) + 1)
            (hl si (List.mem_cons_self _ _)) m
            (loop_range si ((if si + KHMM_MAX_JUMP ≥ consensus.length - K + 1 + 2 - 1
              then consensus.length - K + 1 + 2 - 1 - 1 else si + KHMM_MAX_JUMP) + 1)).length
          rw [List.take_length] at h1
          rw [h1]
          exact ⟨m1, rfl⟩
        obtain ⟨m1, hm1⟩ := hrow
        rw [hm1]
        exact ih (fun si1 h1 => hl si1 (List.mem_cons_of_mem _ h1)) m1
    exact hrows _ (fun si hsi => ((mem_loop_range _ _ _).mp hsi).1) _

theorem fill_khmm_transitions_probabilities_witness :
    (fill_khmm_transitions realOps (allocate_matrix (realOps.lit 0) 4 4) "AAAAAC".toList
      example_state_x).isSome = true ∧
    fill_khmm_transitions_step realOps "AAAAAC".toList example_state_x 1
        (realOps.lit 0, allocate_matrix (realOps.lit 0) 4 4) 1
      = some (XReal.fin (1 / 2),
          set (allocate_matrix (realOps.lit 0) 4 4) 1 1 (XReal.log (XReal.fin (1 / 2)))) ∧
    ∃ q : ℝ,
      (example_state_x.read.parameters example_state_x.strand).get_skip_probability
        (kmer_level realOps "AAAAAC".toList example_state_x 0)
        (kmer_level realOps "AAAAAC".toList example_state_x 1) = XReal.fin q ∧
      fill_khmm_transitions_step realOps "AAAAAC".toList example_state_x 1
          (XReal.fin (1 / 2), allocate_matrix (realOps.lit 0) 4 4) 2
        = some (XReal.fin (1 / 2 + (1 - 1 / 2) * (1 - q)),
            set (allocate_matrix (realOps.lit 0) 4 4) 1 2
              (XReal.log (XReal.fin ((1 - 1 / 2) * (1 - q))))) := by
  have h := fill_khmm_transitions_probabilities "AAAAAC".toList example_state_x (1 / 2) rfl
    (by norm_num) (by norm_num)
    (fun _ _ => ⟨1 / 2, rfl, by norm_num, by norm_num⟩)
  obtain ⟨q, hq, _, _, _, _, _, hstep⟩ := h.2.2.1 1 2 (1 / 2)
    (allocate_matrix (realOps.lit 0) 4 4) (le_refl 1) (by norm_num) (by norm_num) (by norm_num)
  exact ⟨h.2.2.2 _ rfl rfl, h.2.1 1 _ (le_refl 1), q, hq, hstep⟩

/-! ## Theorems: log-probabilities under exact arithmetic -/

theorem prob_nonneg (x : XReal) : 0 ≤ XReal.prob x := by
  cases x with
  | fin v => exact le_of_lt (Real.exp_pos v)
  | nan => exact le_refl 0
  | ninf => exact le_refl 0
  | pinf => exact le_refl 0

theorem isLog_cases (x : XReal) (h : XReal.IsLog x) : x = XReal.ninf ∨ ∃ v : ℝ, x = XReal.fin v := by
  cases x with
  | fin v => exact Or.inr ⟨v, rfl⟩
  | ninf => exact Or.inl rfl
  | nan => exact absurd h (by simp [XReal.IsLog])
  | pinf => exact absurd h (by simp [XReal.IsLog])

theorem isLogLe_isLog (x : XReal) (h : XReal.IsLogLe x) : XReal.IsLog x ∧ XReal.prob x ≤ 1 := by
  rcases h with rfl | ⟨v, hv, rfl⟩
  · exact ⟨trivial, zero_le_one⟩
  · exact ⟨trivial, Real.exp_le_one_iff.mpr hv⟩

theorem add_isLog (a b : XReal) (ha : XReal.IsLog a) (hb : XReal.IsLog b) :
    XReal.IsLog (XReal.add a b) ∧ XReal.prob (XReal.add a b) = XReal.prob a * XReal.prob b := by
  rcases isLog_cases a ha with rfl | ⟨x, rfl⟩ <;> rcases isLog_cases b hb with rfl | ⟨y, rfl⟩
  · exact ⟨trivial, by simp [XReal.add, XReal.prob]⟩
  · exact ⟨trivial, by simp [XReal.add, XReal.prob]⟩
  · exact ⟨trivial, by simp [XReal.add, XReal.prob]⟩
  · exact ⟨trivial, by simp [XReal.add, XReal.prob, Real.exp_add]⟩

theorem add_logs_isLog (a b : XReal) (ha : XReal.IsLog a) (hb : XReal.IsLog b) :
    XReal.IsLog (add_logs realOps a b) ∧
      XReal.prob (add_logs realOps a b) = XReal.prob a + XReal.prob b := by
  rcases isLog_cases a ha with rfl | ⟨x, rfl⟩ <;> rcases isLog_cases b hb with rfl | ⟨y, rfl⟩
  · rw [add_logs_ninf_ninf]; exact ⟨trivial, by simp [XReal.prob]⟩
  · rw [add_logs_ninf_fin]; exact ⟨trivial, by simp [XReal.prob]⟩
  · rw [add_logs_fin_ninf]; exact ⟨trivial, by simp [XReal.prob]⟩
  · rw [add_logs_fin_fin]
    refine ⟨trivial, ?_⟩
    show Real.exp (Real.log (Real.exp x + Real.exp y)) = Real.exp x + Real.exp y
    exact Real.exp_log (by positivity)

theorem add_logs_fold_isLog (g : Nat → XReal) :
    ∀ (l : List Nat), (∀ sk ∈ l, XReal.IsLog (g sk)) → ∀ a : XReal, XReal.IsLog a →
      XReal.IsLog (l.foldl (fun sum sk => add_logs realOps sum (g sk)) a) ∧
      XReal.prob (l.foldl (fun sum sk => add_logs realOps sum (g sk)) a)
        = XReal.prob a + (l.map fun sk => XReal.prob (g sk)).sum := by
  intro l
  induction l with
  | nil => intro _ a ha; exact ⟨ha, by simp⟩
  | cons sk l ih =>
    intro hl a ha
    rw [List.foldl_cons]
    obtain ⟨h1, h2⟩ := add_logs_isLog a (g sk) ha (hl sk (List.mem_cons_self _ _))
    obtain ⟨h3, h4⟩ := ih (fun sk1 h => hl sk1 (List.mem_cons_of_mem _ h)) _ h1
    refine ⟨h3, ?_⟩
    rw [h4, h2, List.map_cons, List.sum_cons]
    ring

theorem prob_log (p : ℝ) (hp : 0 ≤ p) : XReal.prob (XReal.log (XReal.fin p)) = p := by
  rcases eq_or_lt_of_le hp with h | h
  · rw [← h, xlog_fin_zero]; rfl
  · rw [xlog_fin_pos p h]
    exact Real.exp_log h

theorem isLogLe_log (p : ℝ) (hp0 : 0 ≤ p) (hp1 : p ≤ 1) :
    XReal.IsLogLe (XReal.log (XReal.fin p)) := by
  rcases eq_or_lt_of_le hp0 with h | h
  · rw [← h, xlog_fin_zero]; exact Or.inl rfl
  · rw [xlog_fin_pos p h]
    exact Or.inr ⟨_, Real.log_nonpos hp0 hp1, rfl⟩

theorem foldlM_range'_exists {β : Type} (P : Nat → β → Prop) (f : β → Nat → Option β) :
    ∀ (n s : Nat) (b : β),
      (∀ i b, s ≤ i → i < s + n → P i b → ∃ b1, f b i = some b1 ∧ P (i + 1) b1) → P s b →
      ∃ b1, (List.range' s n).foldlM f b = some b1 ∧ P (s + n) b1 := by
  intro n
  induction n with
  | zero => intro s b _ hb; exact ⟨b, rfl, hb⟩
  | succ n ih =>
    intro s b hstep hb
    obtain ⟨b1, hb1, hP1⟩ := hstep s b (le_refl _) (by omega) hb
    obtain ⟨b2, hb2, hP2⟩ := ih (s + 1) b1
      (fun i b hi hi' hP => hstep i b (by omega) (by omega) hP) hP1
    refine ⟨b2, ?_, ?_⟩
    · rw [List.range'_succ, List.foldlM_cons, hb1]
      exact hb2
    · rw [show s + (n + 1) = s + 1 + n by omega]
      exact hP2

/-- The forward jumps of one row under exact arithmetic: the written cells are
log-probabilities whose probabilities add up to the increase of the running sum. -/
theorem fill_khmm_transitions_jumps_mass (consensus : List Char)
    (state : HMMConsReadState XReal)
    (hq : ∀ a b, ∃ q : ℝ,
      (state.read.parameters state.strand).get_skip_probability a b = XReal.fin q ∧
        0 ≤ q ∧ q ≤ 1)
    (n si : Nat) :
    ∀ (l : List Nat), l.Nodup → (∀ sj ∈ l, si - 1 ≠ sj - 1 ∧ sj < n) →
      ∀ (s : ℝ) (m : Matrix XReal), 0 ≤ s → s ≤ 1 → m.n_cols = n →
      ∃ (s1 : ℝ) (m1 : Matrix XReal),
        l.foldlM (fill_khmm_transitions_step realOps consensus state si) (XReal.fin s, m)
          = some (XReal.fin s1, m1) ∧ 0 ≤ s1 ∧ s1 ≤ 1 ∧
        (m1.n_rows = m.n_rows ∧ m1.n_cols = n) ∧
        (∀ r c, c < n → ¬ (r = si ∧ c ∈ l) → get m1 r c = get m r c) ∧
        (∀ c ∈ l, XReal.IsLogLe (get m1 si c)) ∧
        (l.map fun c => XReal.prob (get m1 si c)).sum = s1 - s := by
  intro l
  induction l with
  | nil =>
    intro _ _ s m hs0 hs1 hm
    exact ⟨s, m, rfl, hs0, hs1, ⟨rfl, hm⟩, fun _ _ _ _ => rfl, fun c hc => by simp at hc,
      by simp⟩
  | cons sj l ih =>
    intro hnd hl s m hs0 hs1 hm
    obtain ⟨hsjl, hndl⟩ := List.nodup_cons.mp hnd
    obtain ⟨hne, hsjn⟩ := hl sj (List.mem_cons_self _ _)
    obtain ⟨q, hq0, hq1, _, hstep⟩ :=
      fill_khmm_transitions_step_jump consensus state hq si sj hne s m hs0 hs1
    obtain ⟨hb1, hb2, hb3, hb4⟩ := jump_probability_bounds s q hs0 hs1 hq0 hq1
    obtain ⟨s1, m1, hfold, h0, h1, hd, hfr, hlog, hsum⟩ :=
      ih hndl (fun c hc => hl c (List.mem_cons_of_mem _ hc)) (s + (1 - s) * (1 - q))
        (set m si sj (XReal.log (XReal.fin ((1 - s) * (1 - q))))) hb3 hb4 hm
    have hcell : get m1 si sj = XReal.log (XReal.fin ((1 - s) * (1 - q))) := by
      rw [hfr si sj hsjn (fun e => hsjl e.2)]
      exact get_set_eq m si sj _
    refine ⟨s1, m1, ?_, h0, h1, hd, ?_, ?_, ?_⟩
    · rw [List.foldlM_cons, hstep]
      exact hfold
    · intro r c hc hne1
      rw [hfr r c hc (fun e => hne1 ⟨e.1, List.mem_cons_of_mem _ e.2⟩)]
      exact get_set_ne m si sj r c _ (by rw [hm]; exact hsjn) (by rw [hm]; exact hc)
        (fun e => hne1 ⟨e.1, by rw [e.2]; exact List.mem_cons_self _ _⟩)
    · intro c hc
      rcases List.mem_cons.mp hc with rfl | hc1
      · rw [hcell]; exact isLogLe_log _ hb1 hb2
      · exact hlog c hc1
    · rw [List.map_cons, List.sum_cons, hsum, hcell, prob_log _ hb1]
      ring

/-- One row of `fill_khmm_transitions` under exact arithmetic, on a row that holds `-inf`: the
row becomes a row of log-probabilities of total mass at most 1. -/
theorem fill_khmm_transitions_row_mass (consensus : List Char)
    (state : HMMConsReadState XReal) (p : ℝ)
    (hp : (state.read.parameters state.strand).self_transition = XReal.fin p) (hp0 : 0 ≤ p)
    (hp1 : p ≤ 1)
    (hq : ∀ a b, ∃ q : ℝ,
      (state.read.parameters state.strand).get_skip_probability a b = XReal.fin q ∧
        0 ≤ q ∧ q ≤ 1)
    (Nk si : Nat) (hsi : 1 ≤ si) (hsk : si ≤ Nk) (m : Matrix XReal) (hm : m.n_cols = Nk + 2)
    (hrow : ∀ c, c < Nk + 2 → get m si c = XReal.ninf) :
    ∃ m1, fill_khmm_transitions_row realOps consensus state (Nk + 1) m si = some m1 ∧
      (m1.n_rows = m.n_rows ∧ m1.n_cols = Nk + 2) ∧
      (∀ r c, c < Nk + 2 → r ≠ si → get m1 r c = get m r c) ∧
      (∀ c, c < Nk + 2 → XReal.IsLogLe (get m1 si c)) ∧
      row_mass m1 Nk si ≤ 1 := by
  have hk : si + ((if si + KHMM_MAX_JUMP ≥ Nk + 1 then Nk + 1 - 1 else si + KHMM_MAX_JUMP) + 1 - si)
      ≤ Nk + 1 := by
    unfold KHMM_MAX_JUMP
    by_cases hcond : si + 5 ≥ Nk + 1
    · rw [if_pos hcond]; omega
    · rw [if_neg hcond]; omega
  unfold fill_khmm_transitions_row loop_range
  simp only
  generalize (if si + KHMM_MAX_JUMP ≥ Nk + 1 then Nk + 1 - 1 else si + KHMM_MAX_JUMP) + 1 - si
    = k at hk
  have hrange : ∀ c, c ∈ List.range' si k → si ≤ c ∧ c ≤ Nk := by
    intro c hc
    rw [List.mem_range'_1] at hc
    omega
  have hnd : (List.range' si k).Nodup := List.nodup_range' _ _
  have hmain : ∃ (s1 : ℝ) (m1 : Matrix XReal),
      (List.range' si k).foldlM (fill_khmm_transitions_step realOps consensus state si)
        (realOps.lit 0, m) = some (XReal.fin s1, m1) ∧ 0 ≤ s1 ∧ s1 ≤ 1 ∧
      (m1.n_rows = m.n_rows ∧ m1.n_cols = Nk + 2) ∧
      (∀ r c, c < Nk + 2 → ¬ (r = si ∧ c ∈ List.range' si k) → get m1 r c = get m r c) ∧
      (∀ c ∈ List.range' si k, XReal.IsLogLe (get m1 si c)) ∧
      ((List.range' si k).map fun c => XReal.prob (get m1 si c)).sum = s1 := by
    rw [realOps_lit_zero]
    cases k with
    | zero =>
      exact ⟨0, m, rfl, le_refl 0, zero_le_one, ⟨rfl, hm⟩, fun _ _ _ _ => rfl,
        fun c hc => by simp at hc, by simp⟩
    | succ k =>
      rw [List.range'_succ] at hrange hnd ⊢
      obtain ⟨hsjr, hndr⟩ := List.nodup_cons.mp hnd
      have hstep : fill_khmm_transitions_step realOps consensus state si (XReal.fin 0, m) si
          = some (XReal.fin (0 + p), set m si si (XReal.log (XReal.fin p))) := by
        unfold fill_khmm_transitions_step
        simp only [if_true, hp]
        rfl
      obtain ⟨s1, m1, hfold, h0, h1, hd, hfr, hlog, hsum⟩ :=
        fill_khmm_transitions_jumps_mass consensus state hq (Nk + 2) si
          (List.range' (si + 1) k) hndr
          (fun c hc => by
            have h1 := hrange c (List.mem_cons_of_mem _ hc)
            have h2 : c ≠ si := fun e => hsjr (e ▸ hc)
            omega)
          (0 + p) (set m si si (XReal.log (XReal.fin p))) (by linarith) (by linarith) hm
      have hcell : get m1 si si = XReal.log (XReal.fin p) := by
        rw [hfr si si (by omega) (fun e => hsjr e.2)]
        exact get_set_eq m si si _
      refine ⟨s1, m1, ?_, h0, h1, hd, ?_, ?_, ?_⟩
      · rw [List.foldlM_cons, hstep]
        exact hfold
      · intro r c hc hne1
        rw [hfr r c hc (fun e => hne1 ⟨e.1, List.mem_cons_of_mem _ e.2⟩)]
        exact get_set_ne m si si r c _ (by rw [hm]; omega) (by rw [hm]; exact hc)
          (fun e => hne1 ⟨e.1, by rw [e.2]; exact List.mem_cons_self _ _⟩)
      · intro c hc
        rcases List.mem_cons.mp hc with rfl | hc1
        · rw [hcell]; exact isLogLe_log _ hp0 hp1
        · exact hlog c hc1
      · rw [List.map_cons, List.sum_cons, hsum, hcell, prob_log _ hp0]
        ring
  obtain ⟨s1, m1, hfold, h0, h1, hd, hfr, hlog, hsum⟩ := hmain
  refine ⟨m1, ?_, hd, ?_, ?_, ?_⟩
  · rw [hfold]
    rfl
  · intro r c hc hr
    exact hfr r c hc (fun e => hr e.1)
  · intro c hc
    by_cases hcL : c ∈ List.range' si k
    · exact hlog c hcL
    · rw [hfr si c hc (fun e => hcL e.2), hrow c hc]
      exact Or.inl rfl
  · unfold row_mass
    have hsub : (List.range' si k).toFinset ⊆ Finset.range (Nk + 1) := by
      intro c hc
      rw [List.mem_toFinset] at hc
      rw [Finset.mem_range]
      have := hrange c hc
      omega
    rw [← Finset.sum_subset hsub (by
      intro c hc hcL
      rw [List.mem_toFinset] at hcL
      rw [Finset.mem_range] at hc
      rw [hfr si c (by omega) (fun e => hcL e.2), hrow c (by omega)]
      rfl), List.sum_toFinset _ hnd, hsum]
    exact h1

/-- Under exact arithmetic, with `self_transition` and the skip probabilities in `[0, 1]`,
`fill_khmm_transitions` returns a matrix whose entries in the rows `0 .. Nk` are
log-probabilities `<= 0`, every row having a mass of at most 1 over the columns `0 .. Nk`. -/
theorem fill_khmm_transitions_mass (consensus : List Char) (state : HMMConsReadState XReal)
    (p : ℝ) (hp : (state.read.parameters state.strand).self_transition = XReal.fin p)
    (hp0 : 0 ≤ p) (hp1 : p ≤ 1)
    (hq : ∀ a b, ∃ q : ℝ,
      (state.read.parameters state.strand).get_skip_probability a b = XReal.fin q ∧
        0 ≤ q ∧ q ≤ 1)
    (matrix : Matrix XReal) (hr : matrix.n_rows = consensus.length - K + 1 + 2)
    (hc : matrix.n_cols = consensus.length - K + 1 + 2) :
    ∃ tm, fill_khmm_transitions realOps matrix consensus state = some tm ∧
      (tm.n_rows = consensus.length - K + 1 + 2 ∧ tm.n_cols = consensus.length - K + 1 + 2) ∧
      ∀ r, r ≤ consensus.length - K + 1 →
        (∀ c, c < consensus.length - K + 1 + 2 → XReal.IsLogLe (get tm r c)) ∧
        row_mass tm (consensus.length - K + 1) r ≤ 1 := by
  have hNk : 1 ≤ consensus.length - K + 1 := by omega
  unfold fill_khmm_transitions loop_range
  simp only
  rw [if_pos ⟨hr, hc⟩]
  generalize consensus.length - K + 1 = Nk at *
  obtain ⟨⟨hr0, hc0⟩, hinf⟩ := fill_neg_inf realOps (Nk + 2) matrix hc
  have hrows := foldlM_range'_exists
    (fun i (m : Matrix XReal) => (m.n_rows = Nk + 2 ∧ m.n_cols = Nk + 2) ∧
      (∀ r c, i ≤ r → r < Nk + 2 → c < Nk + 2 → get m r c = XReal.ninf) ∧
      (∀ c, c < Nk + 2 → get m 0 c = if c = 1 then realOps.lit 0 else XReal.ninf) ∧
      (∀ r, 1 ≤ r → r < i →
        (∀ c, c < Nk + 2 → XReal.IsLogLe (get m r c)) ∧ row_mass m Nk r ≤ 1))
    (fill_khmm_transitions_row realOps consensus state (Nk + 2 - 1)) (Nk + 2 - 1 - 1) 1
    (set ((List.range (Nk + 2)).foldl
      (fun m si => (List.range (Nk + 2)).foldl (fun m sj => set m si sj realOps.neg_inf) m)
      matrix) 0 1 (realOps.lit 0))
    (by
      intro i b hi1 hi2 hb
      obtain ⟨hbd, hbn, hb0, hbg⟩ := hb
      obtain ⟨m1, hm1, hd1, hfr1, hlog1, hmass1⟩ :=
        fill_khmm_transitions_row_mass consensus state p hp hp0 hp1 hq Nk i hi1 (by omega) b
          hbd.2 (fun c hc => hbn i c (le_refl _) (by omega) hc)
      refine ⟨m1, hm1, ⟨hd1.1.trans hbd.1, hd1.2⟩, ?_, ?_, ?_⟩
      · intro r c hr1 hr2 hc1
        rw [hfr1 r c hc1 (by omega)]
        exact hbn r c (by omega) hr2 hc1
      · intro c hc1
        rw [hfr1 0 c hc1 (by omega)]
        exact hb0 c hc1
      · intro r hr1 hr2
        by_cases e : r = i
        · subst e; exact ⟨hlog1, hmass1⟩
        · obtain ⟨hg1, hg2⟩ := hbg r hr1 (by omega)
          constructor
          · intro c hc1
            rw [hfr1 r c hc1 e]
            exact hg1 c hc1
          · have e2 : row_mass m1 Nk r = row_mass b Nk r := by
              unfold row_mass
              exact Finset.sum_congr rfl (fun c hc1 => by
                rw [Finset.mem_range] at hc1
                rw [hfr1 r c (by omega) e])
            rw [e2]
            exact hg2)
    (by
      refine ⟨⟨hr0.trans hr, hc0⟩, ?_, ?_, ?_⟩
      · intro r c hr1 hr2 hc1
        rw [get_set_ne _ 0 1 r c _ (by rw [hc0]; omega) (by rw [hc0]; exact hc1) (by omega)]
        exact hinf r c hr2 hc1
      · intro c hc1
        by_cases e : c = 1
        · rw [if_pos e, e]; exact get_set_eq _ 0 1 _
        · rw [if_neg e, get_set_ne _ 0 1 0 c _ (by rw [hc0]; omega) (by rw [hc0]; exact hc1)
            (fun h => e h.2)]
          exact hinf 0 c (by omega) hc1
      · intro r hr1 hr2
        omega)
  obtain ⟨mr, hmr, hdr, _, hm0, hmg⟩ := hrows
  refine ⟨set mr (Nk + 2 - 2) (Nk + 2 - 1) (realOps.lit 0), ?_, hdr, ?_⟩
  · rw [hmr]
    rfl
  · intro r hrk
    have hcell : ∀ c, c < Nk + 2 →
        get (set mr (Nk + 2 - 2) (Nk + 2 - 1) (realOps.lit 0)) r c
          = if r = Nk ∧ c = Nk + 1 then realOps.lit 0 else get mr r c := by
      intro c hc1
      by_cases e : r = Nk ∧ c = Nk + 1
      · rw [if_pos e, e.1, e.2]
        exact get_set_eq mr _ _ _
      · rw [if_neg e]
        exact get_set_ne mr _ _ r c _ (by rw [hdr.2]; omega) (by rw [hdr.2]; exact hc1)
          (fun h => e ⟨by omega, by omega⟩)
    have hmass : row_mass (set mr (Nk + 2 - 2) (Nk + 2 - 1) (realOps.lit 0)) Nk r
        = row_mass mr Nk r := by
      unfold row_mass
      apply Finset.sum_congr rfl
      intro c hc1
      rw [Finset.mem_range] at hc1
      rw [hcell c (by omega), if_neg (by omega)]
    have hzero : XReal.IsLogLe (realOps.lit 0) := by
      rw [realOps_lit_zero]; exact Or.inr ⟨0, le_refl 0, rfl⟩
    rw [hmass]
    by_cases e0 : r = 0
    · subst e0
      constructor
      · intro c hc1
        rw [hcell c hc1]
        split
        · exact hzero
        · rw [hm0 c hc1]
          split
          · exact hzero
          · exact Or.inl rfl
      · unfold row_mass
        rw [Finset.sum_eq_single 1]
        · rw [hm0 1 (by omega), if_pos rfl, realOps_lit_zero]
          show Real.exp 0 ≤ 1
          rw [Real.exp_zero]
        · intro c hc1 hne
          rw [Finset.mem_range] at hc1
          rw [hm0 c (by omega), if_neg hne]
          rfl
        · intro h
          exact absurd (Finset.mem_range.mpr (by omega)) h
    · obtain ⟨hg1, hg2⟩ := hmg r (by omega) (by omega)
      refine ⟨?_, hg2⟩
      intro c hc1
      rw [hcell c hc1]
      split
      · exact hzero
      · exact hg1 c hc1

/-! ## Theorems: the forward matrix as a matrix of probabilities -/

theorem fill_forward_khmm_snd {R : Type} (D : DoubleOps R) (fm tm : Matrix R)
    (sequence : List Char) (state : HMMConsReadState R) (e_start : Nat) :
    (fill_forward_khmm D fm tm sequence state e_start).2
      = (List.range (fm.n_cols - 1)).foldl
          (fun sum sk => add_logs D sum (D.add (get tm sk (fm.n_cols - 1))
            (get (fill_forward_khmm D fm tm sequence state e_start).1 (fm.n_rows - 1) sk)))
          D.neg_inf := rfl

theorem long_aggregate (sa : ℚ) (ra ia na : Nat) (ma : List Char) (sb : ℚ) (rb ib nb : Nat)
    (mb : List Char) (rs : HMMConsReadState ℚ) :
    aggregate_read ratOps example_long_score rs
      [{ path := "AAAAAAAAAA".toList, score := sa, sum_rank := ra, num_improved := ia,
         num_scored := na, mutdesc := ma },
       { path := "AAAAACAAAA".toList, score := sb, sum_rank := rb, num_improved := ib,
         num_scored := nb, mutdesc := mb }]
      = if rs.anchor_index < 80530638 then
          some [{ path := "AAAAAAAAAA".toList, score := sa + (0 - 0), sum_rank := ra + 1,
                  num_improved := ia + 0, num_scored := na + 1, mutdesc := ma },
                { path := "AAAAACAAAA".toList, score := sb + (1 - 0), sum_rank := rb + 0,
                  num_improved := ib + 1, num_scored := nb + 1, mutdesc := mb }]
        else
          some [{ path := "AAAAAAAAAA".toList, score := sa + (0 - 0), sum_rank := ra + 0,
                  num_improved := ia + 0, num_scored := na + 1, mutdesc := ma },
                { path := "AAAAACAAAA".toList, score := sb + (-1 - 0), sum_rank := rb + 1,
                  num_improved := ib + 0, num_scored := nb + 1, mutdesc := mb }] := by
  by_cases hw : rs.anchor_index < 80530638
  · rw [if_pos hw]
    unfold aggregate_read example_long_score
    simp only [if_pos hw]
    with_unfolding_all rfl
  · rw [if_neg hw]
    unfold aggregate_read example_long_score
    simp only [if_neg hw]
    with_unfolding_all rfl

theorem long_aggregate_inv (n : Nat) (paths : List (PathCons ℚ)) (h : LongRunPaths n paths) :
    ∃ agg, aggregate_read ratOps example_long_score (example_state_q n) paths = some agg ∧
      LongRunPaths (n + 1) agg := by
  obtain ⟨sa, ra, ia, na, ma, sb, rb, mb, rfl, hsb⟩ := h
  rw [long_aggregate]
  have hidx : (example_state_q n).anchor_index = n := rfl
  rw [hidx]
  by_cases hw : n < 80530638
  · rw [if_pos hw]
    refine ⟨_, rfl, sa + (0 - 0), ra + 1, ia + 0, na + 1, ma, sb + (1 - 0), rb + 0, mb, ?_, ?_⟩
    · have e : min n 80530638 + 1 = min (n + 1) 80530638 := by omega
      rw [e]
    · have e1 : min n 80530638 = n := by omega
      have e2 : min (n + 1) 80530638 = n + 1 := by omega
      rw [hsb, e1, e2]
      push_cast
      ring
  · rw [if_neg hw]
    refine ⟨_, rfl, sa + (0 - 0), ra + 0, ia + 0, na + 1, ma, sb + (-1 - 0), rb + 1, mb, ?_, ?_⟩
    · have e : min n 80530638 + 0 = min (n + 1) 80530638 := by omega
      rw [e]
    · have e1 : min n 80530638 = 80530638 := by omega
      have e2 : min (n + 1) 80530638 = 80530638 := by omega
      rw [hsb, e1, e2]
      push_cast
      ring

theorem cull_paths_two (a b : PathCons ℚ) :
    cull_paths ratOps [a, b] =
      if (ratOps.lt (ratOps.lit (-30)) b.score ||
          ratOps.le (ratOps.lit (13421773 / 67108864))
            (ratOps.div (ratOps.lit b.num_improved) (ratOps.lit b.num_scored))) = true
      then [a, b] else [a] := by
  unfold cull_paths
  simp only [List.enum_cons, List.enumFrom_cons, List.enumFrom_nil, List.filter_cons,
    List.filter_nil, decide_True, Bool.true_or, if_true]
  by_cases h : (ratOps.lt (ratOps.lit (-30)) b.score ||
      ratOps.le (ratOps.lit (13421773 / 67108864))
        (ratOps.div (ratOps.lit b.num_improved) (ratOps.lit b.num_scored))) = true
  · rw [if_pos h]
    have h2 : (decide ((0 : Nat) + 1 = 0) || ratOps.lt (ratOps.lit (-30)) b.score ||
      ratOps.le (ratOps.lit (13421773 / 67108864))
        (ratOps.div (ratOps.lit b.num_improved) (ratOps.lit b.num_scored))) = true := by
      simpa using h
    rw [if_pos h2]
    rfl
  · rw [if_neg h]
    have h2 : ¬ (decide ((0 : Nat) + 1 = 0) || ratOps.lt (ratOps.lit (-30)) b.score ||
      ratOps.le (ratOps.lit (13421773 / 67108864))
        (ratOps.div (ratOps.lit b.num_improved) (ratOps.lit b.num_scored))) = true := by
      simpa using h
    rw [if_neg h2]
    rfl

theorem long_cull_keeps (m : Nat) (hm1 : 1 ≤ m) (hm : m ≤ 402653184)
    (paths : List (PathCons ℚ)) (h : LongRunPaths m paths) :
    cull_paths ratOps paths = paths := by
  obtain ⟨sa, ra, ia, na, ma, sb, rb, mb, rfl, _⟩ := h
  rw [cull_paths_two, if_pos]
  have hnat : 13421773 * m ≤ 67108864 * min m 80530638 := by omega
  have hq : (13421773 : ℚ) * (m : ℚ) ≤ 67108864 * ((min m 80530638 : Nat) : ℚ) := by
    exact_mod_cast hnat
  have hpos : (0 : ℚ) < (m : ℚ) := by exact_mod_cast hm1
  have hle : (13421773 / 67108864 : ℚ) ≤ ((min m 80530638 : Nat) : ℚ) / (m : ℚ) := by
    rw [le_div_iff₀ hpos]
    linarith
  have hdec : ratOps.le (ratOps.lit (13421773 / 67108864))
      (ratOps.div (ratOps.lit ((min m 80530638 : Nat) : ℚ)) (ratOps.lit (m : ℚ))) = true :=
    decide_eq_true hle
  simp only [hdec, Bool.or_true]

theorem long_states_get (N n : Nat) (h : n < N) :
    (example_states N)[n]? = some (example_state_q n) := by
  unfold example_states
  rw [List.getElem?_map, List.getElem?_range h]
  rfl

theorem score_paths_read_eq (N n : Nat) (h : n < N) (paths : List (PathCons ℚ)) :
    score_paths_read ratOps example_long_score (example_states N) paths n =
      (aggregate_read ratOps example_long_score (example_state_q n) paths).map fun paths1 =>
        if n > 0 ∧ n % 5 = 0 then cull_paths ratOps paths1 else paths1 := by
  unfold score_paths_read aggregate_read
  rw [long_states_get N n h]
  have hfit : ratOps.lt ratOps.inf (ratOps.fabs
      ((example_state_q n).read.parameters (example_state_q n).strand).fit_quality) = false := by
    show decide ((1000000 : ℚ) < |(0 : ℚ)|) = false
    norm_num
  simp only [hfit, Bool.false_eq_true, if_false]
  cases hs : (paths.mapM fun p => example_long_score p.path (example_state_q n)) with
  | none => rfl
  | some scores =>
    cases scores with
    | nil => rfl
    | cons s rest =>
      simp only [Option.some_bind, Option.map_some']
      split <;> rfl

theorem paths_after_reads_succ (N n : Nat) (pre : List (PathCons ℚ))
    (h : paths_after_reads ratOps example_long_score example_long_paths (example_states N) n
      = some pre) :
    paths_after_reads ratOps example_long_score example_long_paths (example_states N) (n + 1)
      = score_paths_read ratOps example_long_score (example_states N) pre n := by
  unfold paths_after_reads at h ⊢
  rw [List.range_succ, List.foldlM_append, h]
  show ((score_paths_read ratOps example_long_score (example_states N) pre n).bind
    fun init => some init) = _
  cases score_paths_read ratOps example_long_score (example_states N) pre n <;> rfl

theorem long_run_step (N n : Nat) (hN : n < N) (hn : n < 402653185)
    (paths : List (PathCons ℚ)) (h : LongRunPaths n paths) :
    ∃ paths1, score_paths_read ratOps example_long_score (example_states N) paths n
        = some paths1 ∧ LongRunPaths (n + 1) paths1 := by
  obtain ⟨agg, hagg, hinv⟩ := long_aggregate_inv n paths h
  rw [score_paths_read_eq N n hN, hagg, Option.map_some']
  by_cases hc : n > 0 ∧ n % 5 = 0
  · rw [if_pos hc, long_cull_keeps (n + 1) (by omega) (by omega) agg hinv]
    exact ⟨agg, rfl, hinv⟩
  · rw [if_neg hc]
    exact ⟨agg, rfl, hinv⟩

theorem long_run_paths (N : Nat) :
    ∀ n, n ≤ N → n ≤ 402653185 →
      ∃ paths, paths_after_reads ratOps example_long_score example_long_paths
          (example_states N) n = some paths ∧ LongRunPaths n paths := by
  intro n
  induction n with
  | zero =>
    intro _ _
    refine ⟨_, rfl, 0, 0, 0, 0, [], 0, 0, [], rfl, ?_⟩
    norm_num
  | succ n ih =>
    intro h1 h2
    obtain ⟨paths, hp, hinv⟩ := ih (by omega) (by omega)
    obtain ⟨paths1, hstep, hinv1⟩ := long_run_step N n (by omega) (by omega) paths hinv
    refine ⟨paths1, ?_, hinv1⟩
    rw [paths_after_reads_succ N n paths hp, hstep]

/-- C15 (as stated): a run of `score_paths` on 402653186 reads in which the candidate improves
the first 80530638 reads and loses the others.  At the cull step that follows the last read
the candidate (not at index 0, running score below `-30`) has
`num_improved / num_scored = 80530638 / 402653186 >= 0.2`, yet it is removed: the ratio is
below the float constant `0.2f`. -/
theorem score_paths_culls_above_one_fifth :
    ∃ pre a b,
      paths_after_reads ratOps example_long_score example_long_paths
        (example_states 402653186) 402653185 = some pre ∧
      aggregate_read ratOps example_long_score (example_state_q 402653185) pre
        = some [a, b] ∧
      b.num_improved = 80530638 ∧ b.num_scored = 402653186 ∧
      (1 / 5 : ℚ) ≤ (b.num_improved : ℚ) / (b.num_scored : ℚ) ∧
      cull_paths ratOps [a, b] = [a] ∧
      paths_after_reads ratOps example_long_score example_long_paths
        (example_states 402653186) 402653186 = some [a] := by
  obtain ⟨pre, hpre, hinv⟩ := long_run_paths 402653186 402653185 (by omega) (le_refl _)
  obtain ⟨agg, hagg, hinv1⟩ := long_aggregate_inv 402653185 pre hinv
  obtain ⟨sa, ra, ia, na, ma, sb, rb, mb, rfl, hsb⟩ := hinv1
  have hmin : min (402653185 + 1) 80530638 = 80530638 := by omega
  have hcull : cull_paths ratOps
      [{ path := "AAAAAAAAAA".toList, score := sa, sum_rank := ra, num_improved := ia,
         num_scored := na, mutdesc := ma },
       { path := "AAAAACAAAA".toList, score := sb, sum_rank := rb,
         num_improved := min (402653185 + 1) 80530638, num_scored := 402653185 + 1,
         mutdesc := mb }]
      = [{ path := "AAAAAAAAAA".toList, score := sa, sum_rank := ra, num_improved := ia,
           num_scored := na, mutdesc := ma }] := by
    rw [cull_paths_two, if_neg]
    show ¬ ((decide ((-30 : ℚ) < sb) ||
      decide ((13421773 / 67108864 : ℚ) ≤ ((min (402653185 + 1) 80530638 : Nat) : ℚ)
        / ((402653185 + 1 : Nat) : ℚ))) = true)
    rw [hsb, hmin]
    norm_num
  refine ⟨pre, _, _, hpre, hagg, hmin, rfl, ?_, hcull, ?_⟩
  · show (1 / 5 : ℚ) ≤ ((min (402653185 + 1) 80530638 : Nat) : ℚ) / ((402653185 + 1 : Nat) : ℚ)
    rw [hmin]
    norm_num
  · have h1 := paths_after_reads_succ 402653186 402653185 pre hpre
    rw [score_paths_read_eq 402653186 402653185 (by omega), hagg, Option.map_some',
      if_pos ⟨by omega, by omega⟩, hcull] at h1
    exact h1

/-! ## Theorems: k-mer ranks of strings with other bytes -/

theorem base_rank_table_zero :
    ∀ n : Fin 256, n.val ≠ 67 → n.val ≠ 71 → n.val ≠ 84 → base_rank_table.getD n.val 0 = 0 := by
  set_option maxRecDepth 100000 in decide

theorem char_eq_of_toNat (c d : Char) (h : c.toNat = d.toNat) : c = d := by
  apply Char.ext
  apply UInt32.ext
  exact h

theorem base_rank_table_length : base_rank_table.length = 256 := by
  set_option maxRecDepth 100000 in decide

theorem base_rank_non_base (c : Char) (h : ¬ isBase c) : base_rank c = 0 := by
  unfold base_rank
  by_cases hlt : c.toNat < 256
  · apply base_rank_table_zero ⟨c.toNat, hlt⟩
    · intro h67
      exact h (Or.inr (Or.inl (char_eq_of_toNat c 'C' h67)))
    · intro h71
      exact h (Or.inr (Or.inr (Or.inl (char_eq_of_toNat c 'G' h71))))
    · intro h84
      exact h (Or.inr (Or.inr (Or.inr (char_eq_of_toNat c 'T' h84))))
  · rw [List.getD_eq_default]
    have := base_rank_table_length
    omega

theorem base_rank_charAt_map (s : List Char) (i : Nat) :
    base_rank (charAt (s.map fun c => if isBase c then c else 'A') i)
      = base_rank (charAt s i) := by
  unfold charAt
  by_cases hi : i < s.length
  · rw [List.getD_eq_getElem _ _ (by simpa using hi), List.getD_eq_getElem _ _ hi,
      List.getElem_map]
    by_cases hb : isBase s[i]
    · rw [if_pos hb]
    · rw [if_neg hb, base_rank_non_base _ hb]
      rfl
  · rw [List.getD_eq_default _ _ (by simpa using hi), List.getD_eq_default _ _ (by omega)]

theorem base_rank_at_eq (c : Char) (h : c.toNat < 128) : base_rank_at c = some (base_rank c) := by
  have hm : c.toNat % 256 = c.toNat := Nat.mod_eq_of_lt (by omega)
  have hi : char_index c = (c.toNat : Int) := by
    unfold char_index
    rw [hm, if_pos h]
  unfold base_rank_at base_rank
  rw [hi, if_pos (by omega), Int.toNat_ofNat, List.getD_eq_getElem?_getD]
  have hlen := base_rank_table_length
  rw [List.getElem?_eq_getElem (by omega)]
  rfl

theorem base_rank_at_none (c : Char) (h1 : 128 ≤ c.toNat) (h2 : c.toNat < 256) :
    char_index c < 0 ∧ base_rank_at c = none := by
  have hm : c.toNat % 256 = c.toNat := Nat.mod_eq_of_lt h2
  have hi : char_index c = (c.toNat : Int) - 256 := by
    unfold char_index
    rw [hm, if_neg (by omega)]
  refine ⟨by omega, ?_⟩
  unfold base_rank_at
  rw [if_neg (by omega)]

theorem kmer_rank_checked_five (p : List Char) :
    kmer_rank_checked p 5 =
      (base_rank_at (charAt p 0)).bind fun b0 =>
      (base_rank_at (charAt p 1)).bind fun b1 =>
      (base_rank_at (charAt p 2)).bind fun b2 =>
      (base_rank_at (charAt p 3)).bind fun b3 =>
      (base_rank_at (charAt p 4)).bind fun b4 => some (lor5 b0 b1 b2 b3 b4) := by
  show [0, 1, 2, 3, 4].foldlM _ 0 = _
  simp only [List.foldlM_cons, List.foldlM_nil]
  cases base_rank_at (charAt p 0) <;> cases base_rank_at (charAt p 1) <;>
    cases base_rank_at (charAt p 2) <;> cases base_rank_at (charAt p 3) <;>
    cases base_rank_at (charAt p 4) <;> rfl

theorem rc_kmer_rank_checked_five (p : List Char) :
    rc_kmer_rank_checked p 5 =
      (base_rank_at (charAt p 4)).bind fun b4 =>
      (base_rank_at (charAt p 3)).bind fun b3 =>
      (base_rank_at (charAt p 2)).bind fun b2 =>
      (base_rank_at (charAt p 1)).bind fun b1 =>
      (base_rank_at (charAt p 0)).bind fun b0 =>
        some (lor5 (3 - b4) (3 - b3) (3 - b2) (3 - b1) (3 - b0)) := by
  show [4, 3, 2, 1, 0].foldlM _ 0 = _
  simp only [List.foldlM_cons, List.foldlM_nil]
  cases base_rank_at (charAt p 0) <;> cases base_rank_at (charAt p 1) <;>
    cases base_rank_at (charAt p 2) <;> cases base_rank_at (charAt p 3) <;>
    cases base_rank_at (charAt p 4) <;> rfl

/-- On a k-mer of bytes below `0x80` every lookup is inside the table, and the rank functions of
the engine are the source's: the rank is below 1024, the number of states of the pore model. -/
theorem get_rank_checked_lt (rc : Bool) (s : List Char) (ki : Nat)
    (h : ∀ i, i < 5 → (charAt (s.drop ki) i).toNat < 128) :
    get_rank_checked rc s ki = some (get_rank_rc rc s ki) ∧ get_rank_rc rc s ki < 1024 := by
  have e0 := base_rank_at_eq _ (h 0 (by omega))
  have e1 := base_rank_at_eq _ (h 1 (by omega))
  have e2 := base_rank_at_eq _ (h 2 (by omega))
  have e3 := base_rank_at_eq _ (h 3 (by omega))
  have e4 := base_rank_at_eq _ (h 4 (by omega))
  unfold get_rank_checked get_rank_rc
  cases rc
  · refine ⟨?_, kmer_rank_lt _⟩
    simp only [K, Bool.not_false, if_true]
    rw [kmer_rank_checked_five, e0, e1, e2, e3, e4, kmer_rank_charAt]
    rfl
  · refine ⟨?_, rc_kmer_rank_lt _⟩
    simp only [K, Bool.not_true, Bool.false_eq_true, if_false]
    rw [rc_kmer_rank_checked_five, e0, e1, e2, e3, e4, rc_kmer_rank_charAt]
    rfl

/-- On a 5-byte string of bytes below `0x80`, `kmer_rank` reads each byte other than `A`, `C`,
`G`, `T` as the digit `0`: every lookup is inside the table and the rank is the rank of the
string in which every such byte is replaced by `A`. -/
theorem kmer_rank_checked_other_bytes (s : List Char) (h5 : s.length = 5)
    (h : ∀ c ∈ s, c.toNat < 128) :
    kmer_rank_checked s 5 = some (kmer_rank (s.map fun c => if isBase c then c else 'A') 5) := by
  have hc : ∀ i, i < 5 → (charAt (s.drop 0) i).toNat < 128 := by
    intro i hi
    rw [List.drop_zero]
    unfold charAt
    rw [List.getD_eq_getElem _ _ (by omega)]
    exact h _ (List.getElem_mem _)
  have := (get_rank_checked_lt false s 0 hc).1
  simp only [get_rank_checked, get_rank_rc, K, Bool.not_false, if_true, List.drop_zero] at this
  rw [this]
  unfold kmer_rank
  simp only [base_rank_charAt_map]

/-- C3 (the code on a byte of `0x80` or more): the index `str[i]` of `base_rank[str[i]]` is the
plain `char`, `-128` for the byte `0x80`, so the lookup of `get_rank` falls before the table for
either value of the `rc` flag: the rank is not built from entries of the table, where the same
string with `A` for this byte has the rank 0. -/
theorem get_rank_outside_table :
    char_index (Char.ofNat 128) = -128 ∧
    get_rank_checked false (Char.ofNat 128 :: "AAAA".toList) 0 = none ∧
    get_rank_checked true (Char.ofNat 128 :: "AAAA".toList) 0 = none ∧
    get_rank_checked false "AAAAA".toList 0 = some 0 := by
  set_option maxRecDepth 100000 in
  exact ⟨by decide, by decide, by decide, by decide⟩

/-- C32 (the code on a byte of `0x80` or more): in `CG` + byte `0xC8` + `xT` the lookup
`base_rank[str[2]]` has the index `-56` and falls before the table, so `kmer_rank` does not read
the byte as the digit 0, where the string with `A` for every byte outside `ACGT` has the rank
`0b0110000011 = 387`. -/
theorem kmer_rank_outside_table :
    char_index (Char.ofNat 200) = -56 ∧ base_rank_at (Char.ofNat 200) = none ∧
    kmer_rank_checked ['C', 'G', Char.ofNat 200, 'x', 'T'] 5 = none ∧
    (['C', 'G', Char.ofNat 200, 'x', 'T'].map fun c => if isBase c then c else 'A')
      = "CGAAT".toList ∧
    kmer_rank_checked "CGAAT".toList 5 = some 387 := by
  set_option maxRecDepth 100000 in
  exact ⟨by decide, by decide, by decide, by decide, by decide⟩

/-! ## Theorems: the ends of the candidates -/

theorem sameEnds_refl (a : List Char) : SameEnds a a := ⟨rfl, rfl⟩

theorem sameEnds_trans {a b c : List Char} (h1 : SameEnds a b) (h2 : SameEnds b c) :
    SameEnds a c := ⟨h1.1.trans h2.1, h1.2.trans h2.2⟩

theorem sameEnds_symm {a b : List Char} (h : SameEnds a b) : SameEnds b a := ⟨h.1.symm, h.2.symm⟩

theorem sameEnds_length {a b : List Char} (h : SameEnds a b) (hb : K ≤ b.length) :
    K ≤ a.length := by
  have := congrArg List.length h.1
  rw [List.length_take, List.length_take] at this
  omega

theorem take_of_long_prefix (s pre rest : List Char) (hpre : pre <+: s) (h : K ≤ pre.length) :
    (pre ++ rest).take K = s.take K := by
  obtain ⟨t, rfl⟩ := hpre
  rw [List.take_append_of_le_length h, List.take_append_of_le_length h]

theorem drop_of_long_suffix (s front suf : List Char) (hsuf : suf <:+ s) (h : K ≤ suf.length) :
    (front ++ suf).drop ((front ++ suf).length - K) = s.drop (s.length - K) := by
  obtain ⟨t, rfl⟩ := hsuf
  have e1 : (front ++ suf).length - K = front.length + (suf.length - K) := by
    rw [List.length_append]; omega
  have e2 : (t ++ suf).length - K = t.length + (suf.length - K) := by
    rw [List.length_append]; omega
  rw [e1, e2, List.drop_append, List.drop_append]

theorem sameEnds_splice (s pre mid suf : List Char) (hpre : pre <+: s) (hsuf : suf <:+ s)
    (h1 : K ≤ pre.length) (h2 : K ≤ suf.length) : SameEnds (pre ++ mid ++ suf) s := by
  constructor
  · rw [List.append_assoc]
    exact take_of_long_prefix s pre _ hpre h1
  · exact drop_of_long_suffix s _ suf hsuf h2

theorem expected_mutations_at_mem (s : List Char) (si : Nat) (t : List Char)
    (ht : t ∈ expected_mutations_at s si) :
    ∃ mid k, t = s.take si ++ mid ++ s.drop k ∧ k ≤ si + 1 := by
  unfold expected_mutations_at at ht
  simp only [List.mem_append, List.mem_map, List.mem_singleton] at ht
  rcases ht with (⟨b, _, rfl⟩ | rfl) | ⟨b, _, rfl⟩
  · exact ⟨[b], si + 1, by simp, le_refl _⟩
  · exact ⟨[], si + 1, by simp, le_refl _⟩
  · exact ⟨[b], si, by simp, by omega⟩

theorem generate_mutations_mem (R : Type) (D : DoubleOps R) (s : List Char) (p : PathCons R)
    (hp : p ∈ generate_mutations D s) :
    p.path = s ∨ ∃ si mid k, K ≤ si ∧ si + K < s.length ∧ k ≤ si + 1 ∧
      p.path = s.take si ++ mid ++ s.drop k := by
  unfold generate_mutations at hp
  rw [List.mem_cons, List.mem_flatMap] at hp
  rcases hp with rfl | ⟨si, hsi, hp⟩
  · exact Or.inl rfl
  · right
    rw [mem_loop_range] at hsi
    have hlt : si < s.length := by omega
    have hmem : p.path ∈ expected_mutations_at s si := by
      rw [← mutations_at_paths D s si hlt]
      exact List.mem_map_of_mem _ hp
    obtain ⟨mid, k, hk, hle⟩ := expected_mutations_at_mem s si _ hmem
    exact ⟨si, mid, k, hsi.1, by omega, hle, hk⟩

theorem generate_mutations_sameEnds (R : Type) (D : DoubleOps R) (s : List Char)
    (p : PathCons R) (hp : p ∈ generate_mutations D s) : SameEnds p.path s := by
  rcases generate_mutations_mem R D s p hp with h | ⟨si, mid, k, h1, h2, h3, h⟩
  · rw [h]; exact sameEnds_refl s
  · rw [h]
    apply sameEnds_splice s _ mid _ (List.take_prefix _ _) (List.drop_suffix _ _)
    · rw [List.length_take]; omega
    · rw [List.length_drop]; omega

/-- C33: for every sequence of length at least 10, every path that `generate_mutations` returns
has the same first 5 bases and the same last 5 bases as the sequence. -/
theorem generate_mutations_keeps_ends {R : Type} (D : DoubleOps R) (s : List Char)
    (_hlen : 10 ≤ s.length) :
    ∀ p ∈ generate_mutations D s,
      p.path.take 5 = s.take 5 ∧ p.path.drop (p.path.length - 5) = s.drop (s.length - 5) :=
  fun p hp => generate_mutations_sameEnds R D s p hp

theorem generate_mutations_keeps_ends_witness :
    10 ≤ "AAAAACGTTTTT".toList.length ∧
    ∀ p ∈ generate_mutations intOps "AAAAACGTTTTT".toList,
      p.path.take 5 = "AAAAA".toList ∧ p.path.drop (p.path.length - 5) = "TTTTT".toList :=
  ⟨by decide, generate_mutations_keeps_ends intOps "AAAAACGTTTTT".toList (by decide)⟩

theorem kmer_match_getElem? (a b : List Char) (i j : Nat) (hnul : ∀ c ∈ a, c ≠ NUL)
    (hi : i + K ≤ a.length) (h : kmer_match a b i j = true) :
    ∀ u, u < K → a[i + u]? = b[j + u]? := by
  intro u hu
  have ht := take_eq_of_strncmp_eq K (a.drop i) (b.drop j) (by rw [List.length_drop]; omega)
    (fun c hc => hnul c (List.mem_of_mem_drop hc)) h
  have := congrArg (fun l => l[u]?) ht
  simp only [List.getElem?_take_of_lt hu, List.getElem?_drop] at this
  exact this

theorem expected_splice_take (base alt : List Char) (p q : kLCSPair)
    (hnul : ∀ c ∈ base, c ≠ NUL)
    (hp : p.i + K ≤ base.length) (hq : q.i + K ≤ base.length) (hqj : q.j + K ≤ alt.length)
    (hj : p.j < q.j)
    (mp : kmer_match base alt p.i p.j = true) (mq : kmer_match base alt q.i q.j = true) :
    (expected_splice base alt (p, q)).take K = base.take K := by
  have ep := kmer_match_getElem? base alt p.i p.j hnul hp mp
  have eq := kmer_match_getElem? base alt q.i q.j hnul hq mq
  have l1 : (base.take p.i).length = p.i := by rw [List.length_take]; omega
  have l2 : (slice alt p.j q.j).length = q.j - p.j := by
    unfold slice; rw [List.length_take, List.length_drop]; omega
  apply List.ext_getElem?
  intro k
  by_cases hk : k < K
  · rw [List.getElem?_take_of_lt hk, List.getElem?_take_of_lt hk]
    unfold expected_splice
    simp only
    by_cases h1 : k < p.i
    · rw [List.append_assoc, List.getElem?_append_left (by omega), List.getElem?_take_of_lt h1]
    · by_cases h2 : k < p.i + (q.j - p.j)
      · rw [List.getElem?_append_left (by rw [List.length_append]; omega),
          List.getElem?_append_right (by omega), l1]
        unfold slice
        rw [List.getElem?_take_of_lt (by omega), List.getElem?_drop, ← ep (k - p.i) (by omega)]
        congr 1
        omega
      · rw [List.getElem?_append_right (by rw [List.length_append]; omega), List.length_append,
          l1, l2, List.getElem?_drop, eq _ (by omega)]
        have e : q.j + (k - (p.i + (q.j - p.j))) = p.j + (k - p.i) := by omega
        rw [e, ← ep (k - p.i) (by omega)]
        congr 1
        omega
  · have hk2 : K ≤ k := by omega
    rw [List.getElem?_eq_none (by rw [List.length_take]; omega),
      List.getElem?_eq_none (by rw [List.length_take]; omega)]

theorem expected_splice_sameEnds (base alt : List Char) (p q : kLCSPair)
    (hnul : ∀ c ∈ base, c ≠ NUL)
    (hp : p.i + K ≤ base.length) (hq : q.i + K ≤ base.length) (hqj : q.j + K ≤ alt.length)
    (_hi : p.i < q.i) (hj : p.j < q.j)
    (mp : kmer_match base alt p.i p.j = true) (mq : kmer_match base alt q.i q.j = true) :
    SameEnds (expected_splice base alt (p, q)) base := by
  refine ⟨expected_splice_take base alt p q hnul hp hq hqj hj mp mq, ?_⟩
  unfold expected_splice
  exact drop_of_long_suffix base _ _ (List.drop_suffix _ _)
    (by rw [List.length_drop]; simp only; omega)

theorem zip_tail_of_pairwise {α : Type} (r : α → α → Prop) :
    ∀ (l : List α), List.Pairwise r l →
      ∀ pq ∈ l.zip l.tail, r pq.1 pq.2 ∧ pq.1 ∈ l ∧ pq.2 ∈ l := by
  intro l
  induction l with
  | nil => intro _ pq h; simp at h
  | cons x t ih =>
    intro hpw pq h
    cases t with
    | nil => simp at h
    | cons y t2 =>
      rw [List.pairwise_cons] at hpw
      simp only [List.tail_cons, List.zip_cons_cons, List.mem_cons] at h
      rcases h with rfl | h
      · exact ⟨hpw.1 y (List.mem_cons_self _ _), List.mem_cons_self _ _,
          List.mem_cons_of_mem _ (List.mem_cons_self _ _)⟩
      · obtain ⟨h1, h2, h3⟩ := ih hpw.2 pq (by simpa using h)
        exact ⟨h1, List.mem_cons_of_mem _ h2, List.mem_cons_of_mem _ h3⟩

theorem kLCS_matches (a b : List Char) :
    List.Pairwise (fun p q : kLCSPair => p.i < q.i ∧ p.j < q.j) (kLCS a b) ∧
    ∀ p ∈ kLCS a b, p.i < a.length - K + 1 ∧ p.j < b.length - K + 1 ∧
      kmer_match a b p.i p.j = true := by
  obtain ⟨l, hl, _, hmem, hpw⟩ := kLCS_spec a b
  constructor
  · rw [hl, List.pairwise_reverse]
    exact hpw
  · intro p hp
    rw [hl, List.mem_reverse] at hp
    exact hmem p hp

theorem alt_paths_sameEnds {R : Type} (D : DoubleOps R) (base alt : List Char)
    (hbase : K ≤ base.length) (hbase2 : base.length < 4294967296)
    (hnul : ∀ c ∈ base, c ≠ NUL) (halt : K ≤ alt.length) (halt2 : alt.length < 4294967296) :
    ∀ x ∈ alt_paths_of_anchors (PathCons.mk_path D) base alt (kLCS base alt),
      SameEnds x.path base := by
  obtain ⟨hpw, hmem⟩ := kLCS_matches base alt
  intro x hx
  rw [alt_paths_of_anchors_eq (PathCons.mk_path D) base alt (kLCS base alt) hpw] at hx
  · rw [List.mem_map] at hx
    obtain ⟨pq, hpq, rfl⟩ := hx
    unfold divergent_pairs at hpq
    obtain ⟨⟨hi, hj⟩, hp, hq⟩ := zip_tail_of_pairwise _ _ hpw pq (List.mem_of_mem_filter hpq)
    obtain ⟨p1, p2, p3⟩ := hmem _ hp
    obtain ⟨q1, q2, q3⟩ := hmem _ hq
    exact expected_splice_sameEnds base alt pq.1 pq.2 hnul (by omega) (by omega) (by omega)
      hi hj p3 q3
  · intro p hp
    obtain ⟨h1, h2, _⟩ := hmem p hp
    omega

/-- C36: for every non-empty path list and scores that are finite on the read-states of the
list (`x - x = 0` and not `x < x` for the scores of the first path on these read-states,
`0 + 0 = 0`, and the comparison of the cumulative scores a strict weak order on the result, as it
is for finite doubles), `score_paths` returns a
list whose path at index 0 is the first path of the input whenever no path of the result has a
strictly positive cumulative score; when some path of the result has a strictly positive
cumulative score, the path at index 0 has a strictly positive score and is not the first path of
the input. -/
theorem score_paths_head {R : Type} (D : DoubleOps R)
    (score : List Char → HMMConsReadState R → Option R) (p : PathCons R)
    (rest : List (PathCons R)) (read_states : List (HMMConsReadState R))
    (out : List (PathCons R))
    (hadd : D.add (D.lit 0) (D.lit 0) = D.lit 0)
    (hfin : ∀ rs ∈ read_states, ∀ x, score p.path rs = some x →
      D.sub x x = D.lit 0 ∧ D.lt x x = false)
    (h : score_paths D score (p :: rest) read_states = some out)
    (hasym : ∀ a ∈ out, ∀ b ∈ out, D.lt a.score b.score = true → D.lt b.score a.score = false)
    (hntr : ∀ a ∈ out, ∀ b ∈ out, ∀ c ∈ out, D.lt a.score b.score = false →
      D.lt b.score c.score = false → D.lt a.score c.score = false) :
    ∃ q0, out[0]? = some q0 ∧
      ((∀ q ∈ out, D.lt (D.lit 0) q.score = false) → q0.path = p.path) ∧
      ((∃ q ∈ out, D.lt (D.lit 0) q.score = true) →
        D.lt (D.lit 0) q0.score = true ∧ q0.path ≠ p.path) := by
  obtain ⟨pre, _, hout, h0, t0, rfl, hfirst, hP0, hsub⟩ :=
    score_paths_inv D score p rest read_states out
      (fun x => x.score = D.lit 0 ∧ x.num_improved = 0) (fun _ h1 h2 => ⟨h1, h2⟩)
      (fun fps hfps r k x hr hx => by
        obtain ⟨rs, hmem, hrs⟩ := hfps
        obtain ⟨hsub, hlt⟩ := hfin rs hmem fps hrs
        unfold aggregate_update
        simp only [hx.1, hx.2, hr, hsub, hadd, hlt, Bool.false_eq_true, if_false, and_self])
      h
  obtain ⟨hnd, _, _⟩ := dedup_paths_strings D (p :: rest) []
  have hnd' : ((h0 :: t0).map fun q => q.path).Nodup := hnd.sublist hsub
  have hperm := stable_sort_perm (fun (a b : PathCons R) => D.lt b.score a.score) (h0 :: t0)
  have hpermt := stable_sort_perm (fun (a b : PathCons R) => D.lt b.score a.score) t0
  have hsorted : List.Pairwise (fun a b : PathCons R => D.lt a.score b.score = false) out := by
    rw [hout]
    apply stable_sort_pairwise (fun (a b : PathCons R) => D.lt b.score a.score) (h0 :: t0)
    · intro a ha b hb hab
      by_contra hne
      have hba : D.lt a.score b.score = true := by simpa using hne
      have := hasym a (by rw [hout]; exact hperm.mem_iff.mpr ha) b
        (by rw [hout]; exact hperm.mem_iff.mpr hb) hba
      rw [this] at hab
      exact absurd hab (by simp)
    · intro a ha b hb c hc hab hbc
      exact hntr a (by rw [hout]; exact hperm.mem_iff.mpr ha) b
        (by rw [hout]; exact hperm.mem_iff.mpr hb) c (by rw [hout]; exact hperm.mem_iff.mpr hc)
        hab hbc
  have hh0 : h0 ∈ out := by rw [hout]; exact hperm.mem_iff.mpr (List.mem_cons_self _ _)
  have hirr : D.lt (D.lit 0) (D.lit 0) = false := by
    by_contra hne
    have ht : D.lt h0.score h0.score = true := by rw [hP0.1]; simpa using hne
    have := hasym h0 hh0 h0 hh0 ht
    rw [this] at ht
    exact absurd ht (by simp)
  have hstep : out = List.orderedInsert
      (fun a b : PathCons R => D.lt a.score b.score = false) h0
      (stable_sort (fun (a b : PathCons R) => D.lt b.score a.score) t0) := by
    rw [hout]; rfl
  cases hm : stable_sort (fun (a b : PathCons R) => D.lt b.score a.score) t0 with
  | nil =>
    rw [hm] at hstep
    simp only [List.orderedInsert] at hstep
    refine ⟨h0, by rw [hstep]; rfl, fun _ => hfirst, ?_⟩
    rintro ⟨q, hq, hpos⟩
    rw [hstep, List.mem_singleton] at hq
    rw [hq, hP0.1, hirr] at hpos
    exact absurd hpos (by simp)
  | cons b m =>
    rw [hm] at hstep
    have hb : b ∈ t0 := hpermt.mem_iff.mp (by rw [hm]; exact List.mem_cons_self _ _)
    by_cases hr : D.lt h0.score b.score = false
    · rw [List.orderedInsert, if_pos hr] at hstep
      refine ⟨h0, by rw [hstep]; rfl, fun _ => hfirst, ?_⟩
      rintro ⟨q, hq, hpos⟩
      exfalso
      rw [hstep] at hq hsorted
      rw [List.pairwise_cons] at hsorted
      rcases List.mem_cons.mp hq with rfl | hq
      · rw [hP0.1, hirr] at hpos
        exact absurd hpos (by simp)
      · have := hsorted.1 q hq
        rw [hP0.1, hpos] at this
        exact absurd this (by simp)
    · rw [List.orderedInsert, if_neg hr] at hstep
      have hpos : D.lt (D.lit 0) b.score = true := by
        rw [hP0.1] at hr
        simpa using hr
      refine ⟨b, by rw [hstep]; exact List.getElem?_cons_zero, ?_, fun _ => ⟨hpos, ?_⟩⟩
      · intro hall
        have := hall b (by rw [hstep]; exact List.mem_cons_self _ _)
        rw [this] at hpos
        exact absurd hpos (by simp)
      · intro hbp
        rw [List.map_cons, List.nodup_cons] at hnd'
        apply hnd'.1
        rw [hfirst, ← hbp]
        exact List.mem_map_of_mem _ hb

theorem score_paths_head_witness :
    ∃ out q0, score_paths ratOps example_read_score example_paths (example_states 25) = some out ∧
      out[0]? = some q0 ∧
      ((∃ q ∈ out, ratOps.lt (ratOps.lit 0) q.score = true) →
        ratOps.lt (ratOps.lit 0) q0.score = true ∧ q0.path ≠ "AAAAAAAAAA".toList) := by
  have hs : (score_paths ratOps example_read_score example_paths (example_states 25)).isSome
      = true := by with_unfolding_all decide
  obtain ⟨out, hout⟩ := Option.isSome_iff_exists.mp hs
  obtain ⟨q0, hq0, _, h2⟩ := score_paths_head ratOps example_read_score
    (PathCons.mk_path ratOps "AAAAAAAAAA".toList)
    [PathCons.mk_path ratOps "AAAAACAAAA".toList, PathCons.mk_path ratOps "AAAAAGAAAA".toList,
     PathCons.mk_path ratOps "AAAAAAAAAA".toList] (example_states 25) out
    (by with_unfolding_all decide)
    (fun rs _ x _ => ⟨by simp [ratOps], by simp [ratOps]⟩)
    hout
    (fun a _ b _ hab => by
      simp only [ratOps, decide_eq_true_eq, decide_eq_false_iff_not, not_lt] at hab ⊢
      exact le_of_lt hab)
    (fun a _ b _ c _ hab hbc => by
      simp only [ratOps, decide_eq_false_iff_not, not_lt] at hab hbc ⊢
      exact le_trans hbc hab)
  exact ⟨out, q0, hout, hq0, h2⟩

/-! ## Theorems: the re-anchoring of the middle column -/

theorem closest_event_fold {R : Type} (mid : Nat) :
    ∀ (l : List (PosteriorState R)) (m : Int) (e : Nat),
      let res := l.foldl
        (fun (acc : Int × Nat) d =>
          let dist := abs_of_u32 (u32 ((d.kmer_idx : Int) - mid))
          if dist ≤ acc.1 then (dist, d.event_idx) else acc) (m, e)
      res.1 ≤ m ∧ (∀ d ∈ l, res.1 ≤ abs_of_u32 (u32 ((d.kmer_idx : Int) - mid))) ∧
      ((res = (m, e) ∧ ∀ d ∈ l, m < abs_of_u32 (u32 ((d.kmer_idx : Int) - mid))) ∨
       ∃ (di : Nat) (d : PosteriorState R), l[di]? = some d ∧
         res = (abs_of_u32 (u32 ((d.kmer_idx : Int) - mid)), d.event_idx) ∧
         ∀ (j : Nat) (x : PosteriorState R), di < j → l[j]? = some x →
           abs_of_u32 (u32 ((d.kmer_idx : Int) - mid))
             < abs_of_u32 (u32 ((x.kmer_idx : Int) - mid))) := by
  intro l
  induction l with
  | nil =>
    intro m e
    exact ⟨le_refl _, by simp, Or.inl ⟨rfl, by simp⟩⟩
  | cons x t ih =>
    intro m e
    simp only [List.foldl_cons]
    by_cases hx : abs_of_u32 (u32 ((x.kmer_idx : Int) - mid)) ≤ m
    · rw [if_pos hx]
      obtain ⟨h1, h2, h3⟩ := ih (abs_of_u32 (u32 ((x.kmer_idx : Int) - mid))) x.event_idx
      refine ⟨le_trans h1 hx, ?_, Or.inr ?_⟩
      · intro d hd
        rcases List.mem_cons.mp hd with rfl | hd
        · exact h1
        · exact h2 d hd
      · rcases h3 with ⟨hres, hall⟩ | ⟨di, d, hd, hres, hlater⟩
        · refine ⟨0, x, List.getElem?_cons_zero, hres, ?_⟩
          intro j y hj hy
          obtain ⟨j', rfl⟩ : ∃ j', j = j' + 1 := ⟨j - 1, by omega⟩
          rw [List.getElem?_cons_succ] at hy
          exact hall y (List.getElem?_mem hy)
        · refine ⟨di + 1, d, by rw [List.getElem?_cons_succ]; exact hd, hres, ?_⟩
          intro j y hj hy
          obtain ⟨j', rfl⟩ : ∃ j', j = j' + 1 := ⟨j - 1, by omega⟩
          rw [List.getElem?_cons_succ] at hy
          exact hlater j' y (by omega) hy
    · rw [if_neg hx]
      obtain ⟨h1, h2, h3⟩ := ih m e
      refine ⟨h1, ?_, ?_⟩
      · intro d hd
        rcases List.mem_cons.mp hd with rfl | hd
        · exact le_trans h1 (le_of_lt (not_le.mp hx))
        · exact h2 d hd
      · rcases h3 with ⟨hres, hall⟩ | ⟨di, d, hd, hres, hlater⟩
        · left
          refine ⟨hres, ?_⟩
          intro d hd
          rcases List.mem_cons.mp hd with rfl | hd
          · exact not_le.mp hx
          · exact hall d hd
        · right
          refine ⟨di + 1, d, by rw [List.getElem?_cons_succ]; exact hd, hres, ?_⟩
          intro j y hj hy
          obtain ⟨j', rfl⟩ : ∃ j', j = j' + 1 := ⟨j - 1, by omega⟩
          rw [List.getElem?_cons_succ] at hy
          exact hlater j' y (by omega) hy

theorem abs_of_u32_diff (k mid : Nat) (hk : k < 2147483648) (hm : mid < 2147483648) :
    abs_of_u32 (u32 ((k : Int) - mid)) = |(k : Int) - mid| := by
  unfold abs_of_u32 u32
  by_cases h : mid ≤ k
  · have e : (((k : Int) - mid) % 4294967296).toNat = k - mid := by omega
    rw [e, if_pos (by omega), abs_of_nonneg (by omega)]
    omega
  · have e : (((k : Int) - mid) % 4294967296).toNat = 4294967296 - (mid - k) := by omega
    rw [e, if_neg (by omega), abs_of_neg (by omega), abs_of_neg (by omega)]
    omega

theorem closest_event_spec {R : Type} (L mid : Nat) (decodes : List (PosteriorState R))
    (hL : L < 2147483648) (hmid : mid ≤ L) (hne : decodes ≠ [])
    (hk : ∀ d ∈ decodes, d.kmer_idx ≤ L) :
    ∃ (di : Nat) (d : PosteriorState R), decodes[di]? = some d ∧
      closest_event L mid decodes = d.event_idx ∧
      (∀ x ∈ decodes, |(d.kmer_idx : Int) - mid| ≤ |(x.kmer_idx : Int) - mid|) ∧
      ∀ (j : Nat) (x : PosteriorState R), di < j → decodes[j]? = some x →
        |(d.kmer_idx : Int) - mid| < |(x.kmer_idx : Int) - mid| := by
  have hdist : ∀ d ∈ decodes,
      abs_of_u32 (u32 ((d.kmer_idx : Int) - mid)) = |(d.kmer_idx : Int) - mid| :=
    fun d hd => abs_of_u32_diff _ _ (by have := hk d hd; omega) (by omega)
  have hinit : to_i32 (L % 4294967296) = (L : Int) := by
    unfold to_i32
    rw [Nat.mod_eq_of_lt (by omega), if_pos hL]
  obtain ⟨_, h2, h3⟩ := closest_event_fold (R := R) mid decodes (to_i32 (L % 4294967296)) 0
  simp only at h2 h3
  rcases h3 with ⟨_, hall⟩ | ⟨di, d, hd, hres, hlater⟩
  · exfalso
    cases decodes with
    | nil => exact hne rfl
    | cons x t =>
      have h := hall x (List.mem_cons_self _ _)
      rw [hdist x (List.mem_cons_self _ _), hinit] at h
      have := hk x (List.mem_cons_self _ _)
      rw [lt_abs] at h
      omega
  · have hdm := List.getElem?_mem hd
    refine ⟨di, d, hd, ?_, ?_, ?_⟩
    · unfold closest_event
      rw [hres]
    · intro x hx
      have := h2 x hx
      rw [hres] at this
      simp only at this
      rw [hdist d hdm, hdist x hx] at this
      exact this
    · intro j x hj hx
      have := hlater j x hj hx
      rw [hdist d hdm, hdist x (List.getElem?_mem hx)] at this
      exact this

theorem splice_reanchor_spec {R : Type}
    (decode : List Char → HMMConsReadState R → Option (List (PosteriorState R)))
    (base : List Char) (mid : Nat) :
    ∀ (rs : List (HMMConsReadState R)) (anchors anchors' : List HMMReadAnchor),
      splice_reanchor decode base mid rs anchors = some anchors' →
      anchors'.length = anchors.length ∧
      anchors'.map (fun ra => ra.rc) = anchors.map (fun ra => ra.rc) ∧
      (∀ a, (∀ r ∈ rs, r.anchor_index ≠ a) → anchors'[a]? = anchors[a]?) ∧
      ((rs.map fun r => r.anchor_index).Nodup → ∀ r ∈ rs, ∃ decodes,
        decode base r = some decodes ∧
        anchors'[r.anchor_index]? = (anchors[r.anchor_index]?).map fun ra =>
          { ra with event_idx := to_i32 (closest_event base.length mid decodes) }) := by
  intro rs
  induction rs with
  | nil =>
    intro anchors anchors' h
    simp only [splice_reanchor, Option.some.injEq] at h
    subst h
    exact ⟨rfl, rfl, fun _ _ => rfl, fun _ r hr => absurd hr (List.not_mem_nil _)⟩
  | cons r0 rest ih =>
    intro anchors anchors' h
    unfold splice_reanchor at h
    cases hd : decode base r0 with
    | none => rw [hd] at h; simp at h
    | some decodes =>
      rw [hd] at h
      simp only [Option.some_bind] at h
      obtain ⟨h1, h2, h3, h4⟩ := ih _ _ h
      refine ⟨?_, ?_, ?_, ?_⟩
      · rw [h1, List.length_modify]
      · rw [h2]
        apply List.ext_getElem?
        intro n
        rw [List.getElem?_map, List.getElem?_map, List.getElem?_modify]
        cases anchors[n]? with
        | none => rfl
        | some ra =>
          simp only [Option.map_some', Option.some.injEq]
          split <;> rfl
      · intro a ha
        rw [h3 a (fun r hr => ha r (List.mem_cons_of_mem _ hr)), List.getElem?_modify]
        have hne : r0.anchor_index ≠ a := ha r0 (List.mem_cons_self _ _)
        cases anchors[a]? with
        | none => rfl
        | some ra => simp [hne]
      · intro hnd r hr
        rw [List.map_cons, List.nodup_cons] at hnd
        rcases List.mem_cons.mp hr with rfl | hr
        · refine ⟨decodes, hd, ?_⟩
          rw [h3 r.anchor_index (fun x hx hxa => hnd.1 (by
            rw [← hxa]; exact List.mem_map_of_mem _ hx)), List.getElem?_modify]
          cases anchors[r.anchor_index]? with
          | none => rfl
          | some ra => simp
        · obtain ⟨dec, hdec, hget⟩ := h4 hnd.2 r hr
          refine ⟨dec, hdec, ?_⟩
          rw [hget, List.getElem?_modify]
          have hne : r0.anchor_index ≠ r.anchor_index := fun he => hnd.1 (by
            rw [he]; exact List.mem_map_of_mem _ hr)
          cases anchors[r.anchor_index]? with
          | none => rfl
          | some ra => simp [hne]

theorem read_states_from_increasing {R : Type} (reads : List (CSquiggleRead R)) :
    ∀ (sa ea : List HMMReadAnchor) (rsi : Nat) (l : List (HMMConsReadState R)),
      read_states_from reads rsi sa ea = some l →
      (∀ r ∈ l, rsi ≤ r.anchor_index) ∧
      List.Pairwise (fun a b : HMMConsReadState R => a.anchor_index < b.anchor_index) l := by
  intro sa
  induction sa with
  | nil =>
    intro ea rsi l h
    simp only [read_states_from, Option.some.injEq] at h
    subst h
    exact ⟨by simp, List.Pairwise.nil⟩
  | cons s srest ih =>
    intro ea rsi l h
    cases ea with
    | nil =>
      simp only [read_states_from, Option.some.injEq] at h
      subst h
      exact ⟨by simp, List.Pairwise.nil⟩
    | cons e erest =>
      simp only [read_states_from] at h
      cases ho : read_state_for_anchor reads rsi s e with
      | none => rw [ho] at h; simp at h
      | some o =>
        rw [ho] at h
        simp only [Option.some_bind] at h
        obtain ⟨l', hl', rfl⟩ := Option.map_eq_some'.mp h
        obtain ⟨hge, hpw⟩ := ih erest (rsi + 1) l' hl'
        cases o with
        | none =>
          exact ⟨fun r hr => by have := hge r hr; omega, hpw⟩
        | some crs =>
          have hidx : crs.anchor_index = rsi := by
            unfold read_state_for_anchor at ho
            split at ho
            · simp at ho
            · simp only at ho
              cases hread : reads[rsi / 2]? with
              | none => rw [hread] at ho; simp at ho
              | some read =>
                rw [hread] at ho
                simp only at ho
                split at ho
                · simp only [Option.some.injEq] at ho
                  rw [← ho]
                · simp at ho
          refine ⟨?_, ?_⟩
          · intro r hr
            rcases List.mem_cons.mp hr with rfl | hr
            · omega
            · have := hge r hr; omega
          · rw [List.pairwise_cons]
            exact ⟨fun r hr => by have := hge r hr; omega, hpw⟩

theorem filter_outlier_sublist {R : Type} (D : DoubleOps R)
    (score : List Char → HMMConsReadState R → Option R) (sequence : List Char) :
    ∀ (l out : List (HMMConsReadState R)),
      filter_outlier_read_states D score sequence l = some out → List.Sublist out l := by
  intro l
  induction l with
  | nil =>
    intro out h
    simp only [filter_outlier_read_states, Option.some.injEq] at h
    subst h
    exact List.Sublist.refl _
  | cons r rest ih =>
    intro out h
    unfold filter_outlier_read_states at h
    cases hs : score sequence r with
    | none => rw [hs] at h; simp at h
    | some curr =>
      rw [hs] at h
      simp only [Option.some_bind] at h
      obtain ⟨l', hl', rfl⟩ := Option.map_eq_some'.mp h
      have := ih l' hl'
      split
      · exact this.cons₂ _
      · exact this.cons _

theorem splice_refine_states {R : Type} (D : DoubleOps R)
    (score : List Char → HMMConsReadState R → Option R) (reads : List (CSquiggleRead R))
    (S M E : HMMAnchoredColumn) (base : List Char) (rs : List (HMMConsReadState R))
    (h : splice_refine D score reads S M E = some (base, rs)) :
    (rs.map fun r => r.anchor_index).Nodup := by
  unfold splice_refine at h
  cases hj : join_sequences_at_kmer S.base_sequence M.base_sequence with
  | none => rw [hj] at h; simp at h
  | some original =>
    rw [hj] at h
    simp only [Option.some_bind] at h
    cases hg : get_read_states_for_columns reads S E with
    | none => rw [hg] at h; simp at h
    | some all =>
      rw [hg] at h
      simp only [Option.some_bind] at h
      cases hf : filter_outlier_read_states D score original all with
      | none => rw [hf] at h; simp at h
      | some kept =>
        rw [hf] at h
        simp only [Option.some_bind] at h
        have hkept : rs = kept := by
          cases kept with
          | nil =>
            simp only [Option.some.injEq, Prod.mk.injEq] at h
            exact h.2.symm
          | cons k ks =>
            simp only at h
            obtain ⟨b, _, hb⟩ := Option.bind_eq_some.mp h
            obtain ⟨r, _, hr⟩ := Option.map_eq_some'.mp hb
            simp only [Prod.mk.injEq] at hr
            exact hr.2.symm
        subst hkept
        have hsub := filter_outlier_sublist D score original all rs hf
        unfold get_read_states_for_columns at hg
        split at hg
        · obtain ⟨_, hpw⟩ := read_states_from_increasing reads _ _ 0 all hg
          have hpw2 := List.Pairwise.sublist hsub hpw
          have : List.Pairwise (fun a b : Nat => a < b) (rs.map fun r => r.anchor_index) := by
            rw [List.pairwise_map]
            exact hpw2
          exact this.imp (fun hab => Nat.ne_of_lt hab)
        · simp at hg

/-- C31: for every read-state kept by the outlier filter whose decoding is not empty (k-mer indices
at most the length of the refined `base`, which is shorter than `2^31`), the event index that
`run_splice_segment` writes to the anchor of that read-state in the middle column is the
`event_idx` of the decode step whose `kmer_idx` minimises `|kmer_idx - mid|`, the later step on
ties; the anchors of the middle column that belong to no kept read-state, and all `rc` flags,
are unchanged. -/
theorem run_splice_segment_reanchor {R : Type} (D : DoubleOps R)
    (score : List Char → HMMConsReadState R → Option R)
    (decode : List Char → HMMConsReadState R → Option (List (PosteriorState R)))
    (g : HmmConsData R) (segment_id : Nat) (S M E : HMMAnchoredColumn) (base : List Char)
    (rs : List (HMMConsReadState R)) (hinit : g.g_initialized = true)
    (hS : g.anchored_columns[segment_id]? = some S)
    (hM : g.anchored_columns[segment_id + 1]? = some M)
    (hE : g.anchored_columns[segment_id + 2]? = some E)
    (href : splice_refine D score g.reads S M E = some (base, rs)) (hlen : 5 ≤ base.length)
    (hL : base.length < 2147483648)
    (hk : ∀ r ∈ rs, ∀ decodes, decode base r = some decodes →
      ∀ d ∈ decodes, d.kmer_idx ≤ base.length)
    (g' : HmmConsData R) (hg' : run_splice_segment_with D score decode g segment_id = some g') :
    ∃ M', g'.anchored_columns[segment_id + 1]? = some M' ∧
      M'.anchors.map (fun ra => ra.rc) = M.anchors.map (fun ra => ra.rc) ∧
      (∀ a, (∀ r ∈ rs, r.anchor_index ≠ a) → M'.anchors[a]? = M.anchors[a]?) ∧
      ∀ r ∈ rs, ∃ decodes, decode base r = some decodes ∧
        (decodes ≠ [] → ∀ ra, M'.anchors[r.anchor_index]? = some ra →
          ∃ (di : Nat) (d : PosteriorState R), decodes[di]? = some d ∧
            ra.event_idx = to_i32 d.event_idx ∧
            (∀ x ∈ decodes,
              |(d.kmer_idx : Int) - ((base.length - 5 + 1) / 2 : Nat)|
                ≤ |(x.kmer_idx : Int) - ((base.length - 5 + 1) / 2 : Nat)|) ∧
            ∀ (j : Nat) (x : PosteriorState R), di < j → decodes[j]? = some x →
              |(d.kmer_idx : Int) - ((base.length - 5 + 1) / 2 : Nat)|
                < |(x.kmer_idx : Int) - ((base.length - 5 + 1) / 2 : Nat)|) := by
  rw [run_splice_segment_with_eq D score decode g segment_id S M E base rs hinit hS hM hE href
    hlen] at hg'
  obtain ⟨anchors, hre, hg⟩ := Option.map_eq_some'.mp hg'
  obtain ⟨_, hrc, hframe, hkept⟩ := splice_reanchor_spec decode base _ rs M.anchors anchors hre
  have hnd := splice_refine_states D score g.reads S M E base rs href
  have hlt : segment_id + 1 < g.anchored_columns.length := by
    by_contra hge
    rw [List.getElem?_eq_none (by omega)] at hM
    exact absurd hM (by simp)
  refine ⟨{ M with base_sequence := base.drop ((base.length - 5 + 1) / 2), anchors := anchors },
    ?_, hrc, hframe, ?_⟩
  · rw [← hg]
    simp only
    rw [List.getElem?_set, if_pos rfl, if_pos (by rw [List.length_set]; exact hlt)]
  · intro r hr
    obtain ⟨decodes, hdec, hget⟩ := hkept hnd r hr
    refine ⟨decodes, hdec, ?_⟩
    intro hne ra hra
    simp only at hra
    rw [hget] at hra
    obtain ⟨ra0, _, rfl⟩ := Option.map_eq_some'.mp hra
    obtain ⟨di, d, hd, hev, hmin, hlater⟩ := closest_event_spec base.length
      ((base.length - 5 + 1) / 2) decodes hL (by omega) hne (hk r hr decodes hdec)
    exact ⟨di, d, hd, by simp only [hev], hmin, hlater⟩

theorem run_splice_segment_reanchor_witness :
    (run_splice_segment_with intOps example_flat_score example_flat_decode example_data_r 0).map
        (fun g' => g'.anchored_columns.map fun c => c.anchors)
      = some [[⟨2, false⟩, ⟨-1, false⟩], [⟨4, false⟩, ⟨-1, false⟩], [⟨4, false⟩, ⟨-1, false⟩]] ∧
    ∃ g' M', run_splice_segment_with intOps example_flat_score example_flat_decode
        example_data_r 0 = some g' ∧
      g'.anchored_columns[1]? = some M' ∧
      M'.anchors.map (fun ra => ra.rc) = [false, false] ∧
      M'.anchors[1]? = some ⟨-1, false⟩ := by
  have hs : (run_splice_segment_with intOps example_flat_score example_flat_decode
      example_data_r 0).isSome = true := by with_unfolding_all rfl
  obtain ⟨g', hg'⟩ := Option.isSome_iff_exists.mp hs
  obtain ⟨M', hM', hrc, hframe, _⟩ := run_splice_segment_reanchor intOps example_flat_score
    example_flat_decode example_data_r 0
    { anchors := [⟨2, false⟩, ⟨-1, false⟩], base_sequence := "AAAAAC".toList,
      alt_sequences := ["AAAAATC".toList] }
    { anchors := [⟨3, false⟩, ⟨-1, false⟩], base_sequence := "AAAACGGGG".toList,
      alt_sequences := [] }
    { anchors := [⟨4, false⟩, ⟨-1, false⟩], base_sequence := "CGGGGT".toList,
      alt_sequences := [] }
    "AAAAACGGGG".toList
    [{ read := example_read, anchor_index := 0, event_start_idx := 2, event_stop_idx := 4,
       strand := 0, stride := 1, rc := false }]
    rfl rfl rfl rfl (by with_unfolding_all rfl) (by decide) (by decide)
    (fun r _ decodes hdec d hd => by
      simp only [example_flat_decode, Option.some.injEq] at hdec
      subst hdec
      simp only [List.mem_cons, List.mem_singleton, List.not_mem_nil, or_false] at hd
      rcases hd with rfl | rfl | rfl <;> decide)
    g' hg'
  refine ⟨by with_unfolding_all rfl, g', M', hg', hM', hrc, ?_⟩
  rw [hframe 1 (fun r hr => by
    simp only [List.mem_singleton] at hr
    subst hr
    decide)]
  rfl

/-! ## Theorems: k-LCS on all strings -/

theorem foldlM_eq_some_foldl {α β : Type} (P : β → Prop) (f : β → α → Option β)
    (g : β → α → β) :
    ∀ (l : List α) (b : β), (∀ s x, x ∈ l → P s → f s x = some (g s x) ∧ P (g s x)) → P b →
      l.foldlM f b = some (l.foldl g b) ∧ P (l.foldl g b) := by
  intro l
  induction l with
  | nil => intro b _ hb; exact ⟨rfl, hb⟩
  | cons x l ih =>
    intro b h hb
    obtain ⟨h1, h2⟩ := h b x (List.mem_cons_self _ _) hb
    rw [List.foldlM_cons, h1, List.foldl_cons]
    exact ih (g b x) (fun s y hy hs => h s y (List.mem_cons_of_mem _ hy) hs) h2

theorem foldlM_none_of_mem {α β : Type} (P : β → Prop) (f : β → α → Option β) (x0 : α) :
    ∀ (l : List α) (b : β), x0 ∈ l → (∀ s x s', P s → f s x = some s' → P s') →
      (∀ s, P s → f s x0 = none) → P b → l.foldlM f b = none := by
  intro l
  induction l with
  | nil => intro b h; simp at h
  | cons x l ih =>
    intro b hmem hP hnone hb
    rw [List.foldlM_cons]
    cases hf : f b x with
    | none => rfl
    | some s' =>
      rcases List.mem_cons.mp hmem with rfl | hm
      · rw [hnone b hb] at hf
        exact absurd hf (by simp)
      · exact ih s' hm hP hnone (hP b x s' hb hf)

theorem bind_none_of_forall {α β : Type} (o : Option α) (f : α → Option β)
    (h : ∀ v, f v = none) : o.bind f = none := by
  cases o with
  | none => rfl
  | some v => exact h v

theorem cell32_eq {T : Type} (m : Matrix T) (nr nc row col : Nat) (hd : HasDims nr nc m)
    (hr : row < nr) (hc : col < nc) (hN : nr * nc < 4294967296) :
    cell32 m row col = cell m row col ∧ cell32 m row col < allocated_cells m := by
  have h1 : row * nc + col < nr * nc := by
    have : (row + 1) * nc ≤ nr * nc := Nat.mul_le_mul_right nc hr
    rw [Nat.add_mul] at this
    omega
  unfold cell32 allocated_cells cell
  rw [hd.1, hd.2, Nat.mod_eq_of_lt (by omega), Nat.mod_eq_of_lt hN]
  exact ⟨rfl, h1⟩

theorem set_checked_eq {T : Type} (m : Matrix T) (nr nc row col : Nat) (v : T)
    (hd : HasDims nr nc m) (hr : row < nr) (hc : col < nc) (hN : nr * nc < 4294967296) :
    set_checked m row col v = some (set m row col v) := by
  obtain ⟨e, hlt⟩ := cell32_eq m nr nc row col hd hr hc hN
  unfold set_checked set
  rw [if_pos hlt, e]

theorem get_checked_eq {T : Type} (m : Matrix T) (nr nc row col : Nat)
    (hd : HasDims nr nc m) (hr : row < nr) (hc : col < nc) (hN : nr * nc < 4294967296) :
    get_checked m row col = some (get m row col) := by
  obtain ⟨e, hlt⟩ := cell32_eq m nr nc row col hd hr hc hN
  unfold get_checked get
  rw [if_pos hlt, e]

theorem set_checked_dims {T : Type} (m m' : Matrix T) (nr nc row col : Nat) (v : T)
    (hd : HasDims nr nc m) (h : set_checked m row col v = some m') : HasDims nr nc m' := by
  unfold set_checked at h
  split at h
  · rw [Option.some.injEq] at h
    rw [← h]
    exact hd
  · exact absurd h (by simp)

theorem kLCS_cell_checked_dims (a b : List Char) (nr nc row col : Nat) (m m' : Matrix Nat)
    (hd : HasDims nr nc m) (h : kLCS_cell_checked a b row m col = some m') :
    HasDims nr nc m' := by
  unfold kLCS_cell_checked at h
  obtain ⟨ka, _, h⟩ := Option.bind_eq_some.mp h
  obtain ⟨kb, _, h⟩ := Option.bind_eq_some.mp h
  obtain ⟨score, _, h⟩ := Option.bind_eq_some.mp h
  exact set_checked_dims m m' nr nc row col score hd h

theorem kLCS_row_checked_dims (a b : List Char) (nr nc row : Nat) (m m' : Matrix Nat)
    (hd : HasDims nr nc m)
    (h : (loop_range 1 m.n_cols).foldlM (kLCS_cell_checked a b row) m = some m') :
    HasDims nr nc m' :=
  foldlM_option_invariant (HasDims nr nc) (kLCS_cell_checked a b row)
    (fun s col s' hs hf => kLCS_cell_checked_dims a b nr nc row col s s' hs hf) _ _ _ hd h

theorem kLCS_cell_checked_eq (a b : List Char) (nr nc row col : Nat) (m : Matrix Nat)
    (hd : HasDims nr nc m) (hN : nr * nc < 4294967296) (hr1 : 1 ≤ row) (hr : row < nr)
    (hc1 : 1 ≤ col) (hc : col < nc) (hra : row - 1 ≤ a.length) (hcb : col - 1 ≤ b.length) :
    kLCS_cell_checked a b row m col = some (kLCS_cell a b row m col) := by
  unfold kLCS_cell_checked kLCS_cell c_str_at
  rw [if_pos hra, if_pos hcb]
  simp only [Option.some_bind]
  rw [get_checked_eq m nr nc (row - 1) (col - 1) hd (by omega) (by omega) hN,
    get_checked_eq m nr nc row (col - 1) hd hr (by omega) hN,
    get_checked_eq m nr nc (row - 1) col hd (by omega) hc hN]
  by_cases hs : strncmp_eq K (a.drop (row - 1)) (b.drop (col - 1)) = true
  · simp only [hs, if_true, Option.map_some', Option.some_bind]
    exact set_checked_eq m nr nc row col _ hd hr hc hN
  · simp only [hs, Bool.false_eq_true, if_false, Option.map_some', Option.some_bind]
    exact set_checked_eq m nr nc row col _ hd hr hc hN

theorem kLCS_cell_dims (a b : List Char) (nr nc row col : Nat) (m : Matrix Nat)
    (hd : HasDims nr nc m) : HasDims nr nc (kLCS_cell a b row m col) := by
  unfold kLCS_cell
  exact set_dims nr nc m _ _ _ hd

theorem backtrack_checked_eq (a b : List Char) (nr nc : Nat) (m : Matrix Nat)
    (hd : HasDims nr nc m) (hN : nr * nc < 4294967296) (hra : nr ≤ a.length + 2)
    (hcb : nc ≤ b.length + 2) :
    ∀ (fuel row col : Nat) (result : List kLCSPair), row < nr → col < nc →
      _kLCSBacktrack_checked m a b fuel row col result
        = some (_kLCSBacktrack m a b fuel row col result) := by
  intro fuel
  induction fuel with
  | zero => intro row col result _ _; rfl
  | succ fuel ih =>
    intro row col result hr hc
    unfold _kLCSBacktrack_checked _kLCSBacktrack
    by_cases h0 : row = 0 ∨ col = 0
    · rw [if_pos h0, if_pos h0]
    · rw [if_neg h0, if_neg h0]
      have hr0 : row ≠ 0 := fun e => h0 (Or.inl e)
      have hc0 : col ≠ 0 := fun e => h0 (Or.inr e)
      unfold c_str_at
      rw [if_pos (by omega), if_pos (by omega)]
      simp only [Option.some_bind]
      by_cases hs : strncmp_eq K (a.drop (row - 1)) (b.drop (col - 1)) = true
      · simp only [hs, if_true]
        exact ih _ _ _ (by omega) (by omega)
      · simp only [hs, Bool.false_eq_true, if_false]
        rw [get_checked_eq m nr nc (row - 1) col hd (by omega) hc hN,
          get_checked_eq m nr nc row (col - 1) hd hr (by omega) hN]
        simp only [Option.some_bind]
        by_cases hg : get m (row - 1) col > get m row (col - 1)
        · rw [if_pos hg, if_pos hg]
          exact ih _ _ _ (by omega) hc
        · rw [if_neg hg, if_neg hg]
          exact ih _ _ _ hr (by omega)

theorem kLCS_counts (s : List Char) (h : K ≤ s.length) (h2 : s.length < 4294967296) :
    u32 ((s.length : Int) - K + 1) = s.length - K + 1 ∧
    u32 (((s.length - K + 1 : Nat) : Int) + 1) = s.length - K + 1 + 1 ∧
    u32 (((s.length - K + 1 + 1 : Nat) : Int) - 1) = s.length - K + 1 := by
  simp only [K] at h ⊢
  unfold u32
  refine ⟨by omega, by omega, by omega⟩

/-- On two strings of at least `K` bytes whose matrix has fewer than `2^32` cells, every access
of `kLCS` lies in the matrix and in the strings, and the function is `kLCS`. -/
theorem kLCS_checked_eq (a b : List Char) (ha : K ≤ a.length) (hb : K ≤ b.length)
    (hN : (a.length - K + 1 + 1) * (b.length - K + 1 + 1) < 4294967296) :
    kLCS_checked a b = some (kLCS a b) := by
  have h2a : a.length - K + 1 + 1 < 2147483649 := by
    have : (a.length - K + 1 + 1) * 2 ≤ (a.length - K + 1 + 1) * (b.length - K + 1 + 1) :=
      Nat.mul_le_mul_left _ (by omega)
    omega
  have h2b : b.length - K + 1 + 1 < 2147483649 := by
    have : 2 * (b.length - K + 1 + 1) ≤ (a.length - K + 1 + 1) * (b.length - K + 1 + 1) :=
      Nat.mul_le_mul_right _ (by omega)
    omega
  obtain ⟨a1, a2, a3⟩ := kLCS_counts a ha (by simp only [K] at ha h2a ⊢; omega)
  obtain ⟨b1, b2, b3⟩ := kLCS_counts b hb (by simp only [K] at hb h2b ⊢; omega)
  have hd0 : HasDims (a.length - K + 1 + 1) (b.length - K + 1 + 1)
      (allocate_matrix (0 : Nat) (a.length - K + 1 + 1) (b.length - K + 1 + 1)) := ⟨rfl, rfl⟩
  obtain ⟨f1, d1⟩ := foldlM_eq_some_foldl
    (HasDims (a.length - K + 1 + 1) (b.length - K + 1 + 1))
    (fun (m : Matrix Nat) row => set_checked m row 0 0) (fun m row => set m row 0 0)
    (List.range (a.length - K + 1 + 1)) _
    (fun s x hx hs => ⟨set_checked_eq s _ _ x 0 0 hs (List.mem_range.mp hx) (by omega) hN,
      set_dims _ _ s _ _ _ hs⟩) hd0
  obtain ⟨f2, d2⟩ := foldlM_eq_some_foldl
    (HasDims (a.length - K + 1 + 1) (b.length - K + 1 + 1))
    (fun (m : Matrix Nat) col => set_checked m 0 col 0) (fun m col => set m 0 col 0)
    (List.range (b.length - K + 1 + 1)) _
    (fun s x hx hs => ⟨set_checked_eq s _ _ 0 x 0 hs (by omega) (List.mem_range.mp hx) hN,
      set_dims _ _ s _ _ _ hs⟩) d1
  obtain ⟨f3, d3⟩ := foldlM_eq_some_foldl
    (HasDims (a.length - K + 1 + 1) (b.length - K + 1 + 1))
    (fun (m : Matrix Nat) row => (loop_range 1 m.n_cols).foldlM (kLCS_cell_checked a b row) m)
    (fun m row => (loop_range 1 m.n_cols).foldl (kLCS_cell a b row) m)
    (loop_range 1 (a.length - K + 1 + 1)) _
    (fun s row hrow hs => by
      rw [mem_loop_range] at hrow
      have := foldlM_eq_some_foldl (HasDims (a.length - K + 1 + 1) (b.length - K + 1 + 1))
        (kLCS_cell_checked a b row) (kLCS_cell a b row) (loop_range 1 s.n_cols) s
        (fun s' col hcol hs' => by
          rw [hs.2, mem_loop_range] at hcol
          exact ⟨kLCS_cell_checked_eq a b _ _ row col s' hs' hN hrow.1 hrow.2 hcol.1 hcol.2
            (by omega) (by omega), kLCS_cell_dims a b _ _ row col s' hs'⟩) hs
      exact this) d2
  have f4 := backtrack_checked_eq a b _ _ _ d3 hN (by omega) (by omega)
    ((a.length - K + 1) + (b.length - K + 1)) (a.length - K + 1) (b.length - K + 1) []
    (by omega) (by omega)
  unfold kLCS_checked
  simp only [a1, a2, a3, b1, b2, b3]
  have e1 : (allocate_matrix (0 : Nat) (a.length - K + 1 + 1) (b.length - K + 1 + 1)).n_rows
      = a.length - K + 1 + 1 := rfl
  have e2 : (allocate_matrix (0 : Nat) (a.length - K + 1 + 1) (b.length - K + 1 + 1)).n_cols
      = b.length - K + 1 + 1 := rfl
  rw [e1, e2, f1, Option.some_bind, f2, Option.some_bind, f3, Option.some_bind, f4,
    Option.map_some']
  obtain ⟨hd, _⟩ := kLCS_matrix_spec a b
  have hr : (kLCS_matrix a b).n_rows - 1 = a.length - K + 1 := by rw [hd.1]; omega
  have hc : (kLCS_matrix a b).n_cols - 1 = b.length - K + 1 := by rw [hd.2]; omega
  have hk : kLCS a b = (_kLCSBacktrack (kLCS_matrix a b) a b
      ((a.length - K + 1) + (b.length - K + 1)) (a.length - K + 1) (b.length - K + 1)
      []).reverse := by
    unfold kLCS
    simp only [hr, hc]
  rw [hk]
  rfl

theorem backtrack_checked_col_zero (m : Matrix Nat) (a b : List Char) (fuel row : Nat)
    (result : List kLCSPair) :
    _kLCSBacktrack_checked m a b fuel row 0 result = some result := by
  cases fuel with
  | zero => rfl
  | succ f =>
    unfold _kLCSBacktrack_checked
    rw [if_pos (Or.inr rfl)]

/-- For a second string of `K - 1` bytes the count of its k-mers is 0 and `kLCS` returns no
pair. -/
theorem kLCS_checked_four (a b : List Char) (hb : b.length + 1 = K) (l : List kLCSPair)
    (h : kLCS_checked a b = some l) : l = [] := by
  have hc : u32 (((u32 (((u32 ((b.length : Int) - K + 1) : Nat) : Int) + 1) : Nat) : Int) - 1)
      = 0 := by
    simp only [K] at hb ⊢
    unfold u32
    omega
  unfold kLCS_checked at h
  simp only at h
  obtain ⟨m1, _, h⟩ := Option.bind_eq_some.mp h
  obtain ⟨m2, _, h⟩ := Option.bind_eq_some.mp h
  obtain ⟨m3, _, h⟩ := Option.bind_eq_some.mp h
  obtain ⟨r, hr, rfl⟩ := Option.map_eq_some'.mp h
  rw [hc, backtrack_checked_col_zero, Option.some.injEq] at hr
  rw [← hr]
  rfl

theorem kLCS_rows_none (a b : List Char) (nr nc : Nat) (m0 : Matrix Nat)
    (F : Matrix Nat → Option (List kLCSPair)) (hd : HasDims nr nc m0) (row0 : Nat)
    (h1 : row0 < nr)
    (hnone : ∀ s : Matrix Nat, HasDims nr nc s → set_checked s row0 0 0 = none) :
    (((List.range nr).foldlM (fun m row => set_checked m row 0 0) m0).bind fun m1 =>
      ((List.range nc).foldlM (fun m col => set_checked m 0 col 0) m1).bind fun m2 =>
        ((loop_range 1 nr).foldlM
          (fun m row => (loop_range 1 m.n_cols).foldlM (kLCS_cell_checked a b row) m) m2).bind
          F) = none := by
  rw [foldlM_none_of_mem (HasDims nr nc) (fun (m : Matrix Nat) row => set_checked m row 0 0) row0
    (List.range nr) m0 (List.mem_range.mpr h1)
    (fun s x s' hs hf => set_checked_dims s s' nr nc x 0 0 hs hf) hnone hd]
  rfl

theorem kLCS_cols_none (a b : List Char) (nr nc : Nat) (m0 : Matrix Nat)
    (F : Matrix Nat → Option (List kLCSPair)) (hd : HasDims nr nc m0) (col0 : Nat)
    (h1 : col0 < nc)
    (hnone : ∀ s : Matrix Nat, HasDims nr nc s → set_checked s 0 col0 0 = none) :
    (((List.range nr).foldlM (fun m row => set_checked m row 0 0) m0).bind fun m1 =>
      ((List.range nc).foldlM (fun m col => set_checked m 0 col 0) m1).bind fun m2 =>
        ((loop_range 1 nr).foldlM
          (fun m row => (loop_range 1 m.n_cols).foldlM (kLCS_cell_checked a b row) m) m2).bind
          F) = none := by
  cases f1 : (List.range nr).foldlM (fun (m : Matrix Nat) row => set_checked m row 0 0) m0 with
  | none => rfl
  | some m1 =>
    have d1 := foldlM_option_invariant (HasDims nr nc)
      (fun (m : Matrix Nat) row => set_checked m row 0 0)
      (fun s x s' hs hf => set_checked_dims s s' nr nc x 0 0 hs hf) _ _ _ hd f1
    rw [Option.some_bind,
      foldlM_none_of_mem (HasDims nr nc) (fun (m : Matrix Nat) col => set_checked m 0 col 0) col0
        (List.range nc) m1 (List.mem_range.mpr h1)
        (fun s x s' hs hf => set_checked_dims s s' nr nc 0 x 0 hs hf) hnone d1]
    rfl

theorem kLCS_fill_none (a b : List Char) (nr nc : Nat) (m0 : Matrix Nat)
    (F : Matrix Nat → Option (List kLCSPair)) (hd : HasDims nr nc m0) (row0 col0 : Nat)
    (h1 : 1 ≤ row0) (h2 : row0 < nr) (h3 : 1 ≤ col0) (h4 : col0 < nc)
    (hnone : ∀ s : Matrix Nat, HasDims nr nc s → kLCS_cell_checked a b row0 s col0 = none) :
    (((List.range nr).foldlM (fun m row => set_checked m row 0 0) m0).bind fun m1 =>
      ((List.range nc).foldlM (fun m col => set_checked m 0 col 0) m1).bind fun m2 =>
        ((loop_range 1 nr).foldlM
          (fun m row => (loop_range 1 m.n_cols).foldlM (kLCS_cell_checked a b row) m) m2).bind
          F) = none := by
  cases f1 : (List.range nr).foldlM (fun (m : Matrix Nat) row => set_checked m row 0 0) m0 with
  | none => rfl
  | some m1 =>
    have d1 := foldlM_option_invariant (HasDims nr nc)
      (fun (m : Matrix Nat) row => set_checked m row 0 0)
      (fun s x s' hs hf => set_checked_dims s s' nr nc x 0 0 hs hf) _ _ _ hd f1
    rw [Option.some_bind]
    cases f2 : (List.range nc).foldlM (fun (m : Matrix Nat) col => set_checked m 0 col 0) m1 with
    | none => rfl
    | some m2 =>
      have d2 := foldlM_option_invariant (HasDims nr nc)
        (fun (m : Matrix Nat) col => set_checked m 0 col 0)
        (fun s x s' hs hf => set_checked_dims s s' nr nc 0 x 0 hs hf) _ _ _ d1 f2
      rw [Option.some_bind,
        foldlM_none_of_mem (HasDims nr nc)
          (fun (m : Matrix Nat) row =>
            (loop_range 1 m.n_cols).foldlM (kLCS_cell_checked a b row) m) row0
          (loop_range 1 nr) m2 ((mem_loop_range _ _ _).mpr ⟨h1, h2⟩)
          (fun s x s' hs hf => kLCS_row_checked_dims a b nr nc x s s' hs hf)
          (fun s hs => foldlM_none_of_mem (HasDims nr nc) (kLCS_cell_checked a b row0) col0
            (loop_range 1 s.n_cols) s (by rw [hs.2]; exact (mem_loop_range _ _ _).mpr ⟨h3, h4⟩)
            (fun s1 x s' hs1 hf => kLCS_cell_checked_dims a b nr nc row0 x s1 s' hs1 hf)
            hnone hs) d2]
      rfl

/-- For a second string of fewer than `K - 1` bytes the 32-bit count `size() - K + 1` wraps,
and `kLCS` leaves its matrix or reads behind the end of the string. -/
theorem kLCS_checked_short (a b : List Char) (ha : K ≤ a.length)
    (ha2 : a.length < 4294967296) (hb : b.length + 1 < K) : kLCS_checked a b = none := by
  obtain ⟨a1, a2, _⟩ := kLCS_counts a ha ha2
  have hd0 : ∀ nc, HasDims (a.length - K + 1 + 1) nc
      (allocate_matrix (0 : Nat) (a.length - K + 1 + 1) nc) := fun _ => ⟨rfl, rfl⟩
  have e1 : ∀ nc, (allocate_matrix (0 : Nat) (a.length - K + 1 + 1) nc).n_rows
      = a.length - K + 1 + 1 := fun _ => rfl
  have e2 : ∀ nc, (allocate_matrix (0 : Nat) (a.length - K + 1 + 1) nc).n_cols = nc :=
    fun _ => rfl
  unfold kLCS_checked
  simp only [a1, a2, e1, e2]
  by_cases h3 : b.length = 3
  · have hnc : u32 (((u32 ((b.length : Int) - K + 1) : Nat) : Int) + 1) = 0 := by
      simp only [K]
      unfold u32
      omega
    rw [hnc]
    apply kLCS_rows_none a b _ _ _ _ (hd0 0) 0 (by omega)
    intro s hs
    unfold set_checked allocated_cells
    rw [hs.2, Nat.mul_zero, if_neg (by simp)]
  · have hnc : u32 (((u32 ((b.length : Int) - K + 1) : Nat) : Int) + 1)
        = b.length + 4294967293 := by
      simp only [K] at hb ⊢
      unfold u32
      omega
    rw [hnc]
    apply kLCS_fill_none a b _ _ _ _ (hd0 _) 1 (b.length + 2) (le_refl 1) (by omega) (by omega)
      (by omega)
    intro s _
    unfold kLCS_cell_checked
    apply bind_none_of_forall
    intro ka
    have hn : c_str_at b (b.length + 2 - 1) = none := by
      unfold c_str_at
      rw [if_neg (by omega)]
    rw [hn]
    rfl

/-- When the matrix of `kLCS` has `2^32` cells or more, the 32-bit size of the allocation wraps
and a cell of the matrix lies outside the allocation. -/
theorem kLCS_checked_wrap (a b : List Char) (ha : K ≤ a.length) (hb : K ≤ b.length)
    (ha2 : a.length < 4294967296) (hb2 : b.length < 4294967296)
    (hN : 4294967296 ≤ (a.length - K + 1 + 1) * (b.length - K + 1 + 1)) :
    kLCS_checked a b = none := by
  obtain ⟨a1, a2, _⟩ := kLCS_counts a ha ha2
  obtain ⟨b1, b2, _⟩ := kLCS_counts b hb hb2
  have hd0 : HasDims (a.length - K + 1 + 1) (b.length - K + 1 + 1)
      (allocate_matrix (0 : Nat) (a.length - K + 1 + 1) (b.length - K + 1 + 1)) := ⟨rfl, rfl⟩
  have e1 : (allocate_matrix (0 : Nat) (a.length - K + 1 + 1) (b.length - K + 1 + 1)).n_rows
      = a.length - K + 1 + 1 := rfl
  have e2 : (allocate_matrix (0 : Nat) (a.length - K + 1 + 1) (b.length - K + 1 + 1)).n_cols
      = b.length - K + 1 + 1 := rfl
  unfold kLCS_checked
  simp only [a1, a2, b1, b2, e1, e2]
  generalize hnr : a.length - K + 1 + 1 = nr at hN hd0 ⊢
  generalize hnc : b.length - K + 1 + 1 = nc at hN hd0 ⊢
  have hnc0 : 0 < nc := by omega
  have hcol : (nr * nc) % 4294967296 % nc < nc := Nat.mod_lt _ hnc0
  have hrow : (nr * nc) % 4294967296 / nc < nr := by
    apply Nat.div_lt_of_lt_mul
    have : (nr * nc) % 4294967296 < 4294967296 := Nat.mod_lt _ (by omega)
    rw [Nat.mul_comm nc nr]
    omega
  have hset : ∀ (s : Matrix Nat) (v : Nat), HasDims nr nc s →
      set_checked s ((nr * nc) % 4294967296 / nc) ((nr * nc) % 4294967296 % nc) v = none := by
    intro s v hs
    unfold set_checked cell32 allocated_cells
    rw [hs.1, hs.2, Nat.mul_comm _ nc, Nat.div_add_mod, Nat.mod_mod, if_neg (lt_irrefl _)]
  by_cases hc0 : (nr * nc) % 4294967296 % nc = 0
  · apply kLCS_rows_none a b nr nc _ _ hd0 _ hrow
    intro s hs
    have := hset s 0 hs
    rw [hc0] at this
    exact this
  · by_cases hr0 : (nr * nc) % 4294967296 / nc = 0
    · apply kLCS_cols_none a b nr nc _ _ hd0 _ hcol
      intro s hs
      have := hset s 0 hs
      rw [hr0] at this
      exact this
    · apply kLCS_fill_none a b nr nc _ _ hd0 _ _ (Nat.pos_of_ne_zero hr0) hrow
        (Nat.pos_of_ne_zero hc0) hcol
      intro s hs
      unfold kLCS_cell_checked
      apply bind_none_of_forall
      intro ka
      apply bind_none_of_forall
      intro kb
      apply bind_none_of_forall
      intro score
      exact hset s score hs

/-- What a call of `kLCS` that returns has computed, for a first string of at least `K` bytes:
no pair, or the pairs of `kLCS` on two strings of at least `K` bytes. -/
theorem kLCS_checked_some (a b : List Char) (l : List kLCSPair) (ha : K ≤ a.length)
    (ha2 : a.length < 4294967296) (hb2 : b.length < 4294967296)
    (h : kLCS_checked a b = some l) : l = [] ∨ (K ≤ b.length ∧ l = kLCS a b) := by
  by_cases h1 : b.length + 1 < K
  · rw [kLCS_checked_short a b ha ha2 h1] at h
    exact absurd h (by simp)
  · by_cases h2 : b.length + 1 = K
    · exact Or.inl (kLCS_checked_four a b h2 l h)
    · have hb : K ≤ b.length := by omega
      by_cases hN : (a.length - K + 1 + 1) * (b.length - K + 1 + 1) < 4294967296
      · rw [kLCS_checked_eq a b ha hb hN, Option.some.injEq] at h
        exact Or.inr ⟨hb, h.symm⟩
      · rw [kLCS_checked_wrap a b ha hb ha2 hb2 (by omega)] at h
        exact absurd h (by simp)

/-! ## Theorems: the ends of the refined sequence -/

theorem score_paths_subset {R : Type} (D : DoubleOps R)
    (score : List Char → HMMConsReadState R → Option R) (p : PathCons R)
    (rest : List (PathCons R)) (read_states : List (HMMConsReadState R))
    (out : List (PathCons R))
    (h : score_paths D score (p :: rest) read_states = some out) :
    ∀ q ∈ out, q.path ∈ (p :: rest).map fun x => x.path := by
  obtain ⟨pre, _, rfl, h0, t0, rfl, _, _, hsub⟩ :=
    score_paths_inv D score p rest read_states out (fun _ => True) (fun _ _ _ => trivial)
      (fun _ _ _ _ _ _ _ => trivial) h
  obtain ⟨_, hmem, _⟩ := dedup_paths_strings D (p :: rest) []
  have hperm := (stable_sort_perm (fun (a b : PathCons R) => D.lt b.score a.score)
    (h0 :: t0)).map (fun q => q.path)
  intro q hq
  have hs : q.path ∈ (stable_sort (fun (a b : PathCons R) => D.lt b.score a.score)
      (h0 :: t0)).map fun q => q.path := List.mem_map_of_mem _ hq
  rw [hperm.mem_iff] at hs
  exact (hmem _ (hsub.subset hs)).1

theorem alt_paths_chars {R : Type} (D : DoubleOps R) (base alt : List Char)
    (hbase2 : base.length < 4294967296) (halt2 : alt.length < 4294967296) :
    ∀ x ∈ alt_paths_of_anchors (PathCons.mk_path D) base alt (kLCS base alt),
      (∀ c ∈ x.path, c ∈ base ∨ c ∈ alt) ∧ x.path.length ≤ base.length + alt.length := by
  obtain ⟨hpw, hmem⟩ := kLCS_matches base alt
  intro x hx
  rw [alt_paths_of_anchors_eq (PathCons.mk_path D) base alt (kLCS base alt) hpw] at hx
  · rw [List.mem_map] at hx
    obtain ⟨pq, hpq, rfl⟩ := hx
    unfold divergent_pairs at hpq
    obtain ⟨⟨hi, _⟩, _, _⟩ := zip_tail_of_pairwise _ _ hpw pq (List.mem_of_mem_filter hpq)
    constructor
    · intro c hc
      simp only [PathCons.mk_path, expected_splice, slice, List.mem_append] at hc
      rcases hc with (hc | hc) | hc
      · exact Or.inl (List.mem_of_mem_take hc)
      · exact Or.inr (List.mem_of_mem_drop (List.mem_of_mem_take hc))
      · exact Or.inl (List.mem_of_mem_drop hc)
    · simp only [PathCons.mk_path, expected_splice, slice, List.length_append, List.length_take,
        List.length_drop]
      omega
  · intro p hp
    obtain ⟨h1, h2, _⟩ := hmem p hp
    omega

theorem generate_alt_paths_checked_spec {R : Type} (D : DoubleOps R) (base : List Char) :
    ∀ (alts : List (List Char)) (paths cands : List (PathCons R)),
      generate_alt_paths_checked D paths base alts = some cands →
      ∃ added, cands = paths ++ added ∧ ∀ x ∈ added, ∃ alt ∈ alts, ∃ l,
        kLCS_checked base alt = some l ∧
          x ∈ alt_paths_of_anchors (PathCons.mk_path D) base alt l := by
  intro alts
  induction alts with
  | nil =>
    intro paths cands h
    simp only [generate_alt_paths_checked, List.foldlM_nil, Option.pure_def,
      Option.some.injEq] at h
    exact ⟨[], by rw [← h, List.append_nil], fun x hx => by simp at hx⟩
  | cons alt alts ih =>
    intro paths cands h
    unfold generate_alt_paths_checked at h
    rw [List.foldlM_cons] at h
    obtain ⟨p1, hp1, h2⟩ := Option.bind_eq_some.mp h
    obtain ⟨l, hl, rfl⟩ := Option.map_eq_some'.mp hp1
    obtain ⟨added, rfl, hadd⟩ := ih _ cands h2
    refine ⟨alt_paths_of_anchors (PathCons.mk_path D) base alt l ++ added,
      by rw [List.append_assoc], ?_⟩
    intro x hx
    rcases List.mem_append.mp hx with hx | hx
    · exact ⟨alt, List.mem_cons_self _ _, l, hl, hx⟩
    · obtain ⟨alt', h1, l', h3, h4⟩ := hadd x hx
      exact ⟨alt', List.mem_cons_of_mem _ h1, l', h3, h4⟩

/-- On a base and alternates of at least `K` bytes whose matrices have fewer than `2^32` cells,
`generate_alt_paths` on all strings is `generate_alt_paths`. -/
theorem generate_alt_paths_checked_eq {R : Type} (D : DoubleOps R) (paths : List (PathCons R))
    (base : List Char) (alts : List (List Char)) (hbase : K ≤ base.length)
    (halts : ∀ alt ∈ alts, K ≤ alt.length ∧
      (base.length - K + 1 + 1) * (alt.length - K + 1 + 1) < 4294967296) :
    generate_alt_paths_checked D paths base alts = some (generate_alt_paths D paths base alts) :=
  (foldlM_eq_some_foldl (fun _ => True)
    (fun (paths : List (PathCons R)) alt => (kLCS_checked base alt).map fun result =>
      paths ++ alt_paths_of_anchors (PathCons.mk_path D) base alt result)
    (fun paths alt =>
      paths ++ alt_paths_of_anchors (PathCons.mk_path D) base alt (kLCS base alt))
    alts paths
    (fun s x hx _ => by
      refine ⟨?_, trivial⟩
      show Option.map _ (kLCS_checked base x) = _
      rw [kLCS_checked_eq base x hbase (halts x hx).1 (halts x hx).2]
      rfl) trivial).1

theorem refine_loop_sameEnds {R : Type} (D : DoubleOps R)
    (score : List Char → HMMConsReadState R → Option R) (alts : List (List Char))
    (read_states : List (HMMConsReadState R)) (A : Nat)
    (halts : ∀ alt ∈ alts, alt.length ≤ A ∧ ∀ c ∈ alt, c ≠ NUL) :
    ∀ (n : Nat) (base base' : List Char), K ≤ base.length → (∀ c ∈ base, c ≠ NUL) →
      base.length + n * A < 4294967296 → A < 4294967296 →
      refine_loop D score alts read_states n base = some base' →
      SameEnds base' base ∧ ∀ c ∈ base', c ≠ NUL := by
  intro n
  induction n with
  | zero =>
    intro base base' _ hnul _ _ h
    simp only [refine_loop, Option.some.injEq] at h
    subst h
    exact ⟨sameEnds_refl _, hnul⟩
  | succ n ih =>
    intro base base' hlen hnul hsize hA h
    unfold refine_loop at h
    have hsz : base.length < 4294967296 := by
      have : 0 ≤ (n + 1) * A := Nat.zero_le _
      omega
    obtain ⟨cands, hc, h⟩ := Option.bind_eq_some.mp h
    obtain ⟨added, rfl, hadd⟩ := generate_alt_paths_checked_spec D base alts _ cands hc
    rw [List.singleton_append] at h
    obtain ⟨paths, hsp, h⟩ := Option.bind_eq_some.mp h
    cases paths with
    | nil => simp at h
    | cons p0 tl =>
      simp only at h
      by_cases hp0 : p0.path = base
      · rw [if_pos hp0, Option.some.injEq] at h
        subst h
        exact ⟨sameEnds_refl _, hnul⟩
      · rw [if_neg hp0] at h
        have hmem := score_paths_subset D score _ _ read_states _ hsp p0
          (List.mem_cons_self _ _)
        rw [List.map_cons, List.mem_cons] at hmem
        rcases hmem with hmem | hmem
        · exact absurd hmem hp0
        · rw [List.mem_map] at hmem
          obtain ⟨x, hx, hxp⟩ := hmem
          obtain ⟨alt, halt, l, hl, hx⟩ := hadd x hx
          obtain ⟨ha2, ha3⟩ := halts alt halt
          rcases kLCS_checked_some base alt l hlen hsz (by omega) hl with rfl | ⟨ha1, rfl⟩
          · simp [alt_paths_of_anchors] at hx
          · have hse := alt_paths_sameEnds D base alt hlen hsz hnul ha1 (by omega) x hx
            obtain ⟨hch, hln⟩ := alt_paths_chars D base alt hsz (by omega) x hx
            rw [hxp] at hse hch hln
            have hnul' : ∀ c ∈ p0.path, c ≠ NUL := by
              intro c hc
              rcases hch c hc with hcb | hca
              · exact hnul c hcb
              · exact ha3 c hca
            have hsize' : p0.path.length + n * A < 4294967296 := by
              have e : (n + 1) * A = n * A + A := by ring
              rw [e] at hsize
              omega
            obtain ⟨r1, r2⟩ := ih p0.path base' (sameEnds_length hse hlen) hnul' hsize' hA h
            exact ⟨sameEnds_trans r1 hse, r2⟩

theorem run_mutation_loop_sameEnds {R : Type} (D : DoubleOps R)
    (score : List Char → HMMConsReadState R → Option R)
    (read_states : List (HMMConsReadState R)) :
    ∀ (n : Nat) (base second_best : List Char) (r : List Char × List Char),
      run_mutation_loop D score read_states n base second_best = some r →
      SameEnds r.1 base := by
  intro n
  induction n with
  | zero =>
    intro base sb r h
    simp only [run_mutation_loop, Option.some.injEq] at h
    subst h
    exact sameEnds_refl _
  | succ n ih =>
    intro base sb r h
    unfold run_mutation_loop at h
    cases hsp : score_paths D score (generate_mutations D base) read_states with
    | none => rw [hsp] at h; simp at h
    | some paths =>
      rw [hsp] at h
      simp only [Option.some_bind] at h
      cases paths with
      | nil => simp at h
      | cons p0 tl =>
        simp only at h
        by_cases hp0 : p0.path = base
        · rw [if_pos hp0, Option.some.injEq] at h
          subst h
          exact sameEnds_refl _
        · rw [if_neg hp0] at h
          have hsp2 := hsp
          unfold generate_mutations at hsp2
          have hmem := score_paths_subset D score _ _ read_states _ hsp2 p0
            (List.mem_cons_self _ _)
          rw [List.mem_map] at hmem
          obtain ⟨x, hx, hxp⟩ := hmem
          have hse := generate_mutations_sameEnds R D base x (by unfold generate_mutations; exact hx)
          rw [hxp] at hse
          exact sameEnds_trans (ih p0.path _ r h) hse

theorem join_sameEnds (a b : List Char) (ha : K ≤ a.length) (hb : K ≤ b.length)
    (hov : a.drop (a.length - K) = b.take K) :
    join_sequences_at_kmer a b = some (a ++ b.drop K) ∧
    (a ++ b.drop K).take K = a.take K ∧
    (a ++ b.drop K).drop ((a ++ b.drop K).length - K) = b.drop (b.length - K) := by
  refine ⟨?_, ?_, ?_⟩
  · unfold join_sequences_at_kmer
    rw [if_neg (by omega)]
    simp only [substr, List.drop_zero]
    rw [if_pos hov]
  · exact List.take_append_of_le_length ha
  · have e : a ++ b.drop K = a.take (a.length - K) ++ b := by
      conv_lhs => rw [← List.take_append_drop (a.length - K) a, hov, List.append_assoc,
        List.take_append_drop]
    rw [e]
    exact drop_of_long_suffix b _ b (List.suffix_refl _) hb

theorem splice_refine_sameEnds {R : Type} (D : DoubleOps R)
    (score : List Char → HMMConsReadState R → Option R) (reads : List (CSquiggleRead R))
    (S M E : HMMAnchoredColumn) (base : List Char) (rs : List (HMMConsReadState R))
    (hS : K ≤ S.base_sequence.length) (hM : K ≤ M.base_sequence.length)
    (hov : S.base_sequence.drop (S.base_sequence.length - K) = M.base_sequence.take K)
    (hnulS : ∀ c ∈ S.base_sequence, c ≠ NUL) (hnulM : ∀ c ∈ M.base_sequence, c ≠ NUL)
    (hsize : S.base_sequence.length + M.base_sequence.length < 536870912)
    (halts : ∀ alt ∈ segment_alts S M, alt.length ≤ 536870912 ∧ ∀ c ∈ alt, c ≠ NUL)
    (h : splice_refine D score reads S M E = some (base, rs)) :
    K ≤ base.length ∧ base.take K = S.base_sequence.take K ∧
    base.drop (base.length - K) = M.base_sequence.drop (M.base_sequence.length - K) := by
  obtain ⟨hj, ht, hd⟩ := join_sameEnds S.base_sequence M.base_sequence hS hM hov
  have horig : K ≤ (S.base_sequence ++ M.base_sequence.drop K).length := by
    rw [List.length_append]; omega
  have hse : SameEnds base (S.base_sequence ++ M.base_sequence.drop K) := by
    unfold splice_refine at h
    rw [hj] at h
    simp only [Option.some_bind] at h
    cases hg : get_read_states_for_columns reads S E with
    | none => rw [hg] at h; simp at h
    | some all =>
      rw [hg] at h
      simp only [Option.some_bind] at h
      cases hf : filter_outlier_read_states D score
          (S.base_sequence ++ M.base_sequence.drop K) all with
      | none => rw [hf] at h; simp at h
      | some kept =>
        rw [hf] at h
        simp only [Option.some_bind] at h
        cases kept with
        | nil =>
          simp only [Option.some.injEq, Prod.mk.injEq] at h
          rw [← h.1]
          exact sameEnds_refl _
        | cons k ks =>
          simp only at h
          obtain ⟨b, hb, hr⟩ := Option.bind_eq_some.mp h
          obtain ⟨r, hr, hrb⟩ := Option.map_eq_some'.mp hr
          simp only [Prod.mk.injEq] at hrb
          have hnul : ∀ c ∈ S.base_sequence ++ M.base_sequence.drop K, c ≠ NUL := by
            intro c hc
            rcases List.mem_append.mp hc with hc | hc
            · exact hnulS c hc
            · exact hnulM c (List.mem_of_mem_drop hc)
          obtain ⟨r1, _⟩ := refine_loop_sameEnds D score (segment_alts S M) (k :: ks) 536870912
            halts 6 _ b horig hnul (by rw [List.length_append, List.length_drop]; omega)
            (by omega) hb
          have r2 := run_mutation_loop_sameEnds D score (k :: ks) 10 b [] r hr
          rw [hrb.1] at r2
          exact sameEnds_trans r2 r1
  exact ⟨sameEnds_length hse horig, hse.1.trans ht, hse.2.trans hd⟩

theorem segment_alts_in_range (S M : HMMAnchoredColumn) (hS : ColumnInRange S)
    (hM : ColumnInRange M) :
    ∀ alt ∈ segment_alts S M, alt.length ≤ 536870912 ∧ ∀ c ∈ alt, c ≠ NUL := by
  intro alt halt
  unfold segment_alts at halt
  simp only at halt
  rcases List.mem_append.mp halt with h | h
  · obtain ⟨x, hx, hxe⟩ := List.mem_filterMap.mp h
    split at hxe
    · rw [Option.some.injEq] at hxe
      subst hxe
      obtain ⟨hx1, hx2⟩ := hS.2.2 x hx
      refine ⟨?_, ?_⟩
      · rw [List.length_append, List.length_drop]
        have := hM.1
        omega
      · intro c hc
        rcases List.mem_append.mp hc with hc | hc
        · exact hx2 c hc
        · exact hM.2.1 c (List.mem_of_mem_drop hc)
    · exact absurd hxe (by simp)
  · obtain ⟨x, hx, hxe⟩ := List.mem_filterMap.mp h
    split at hxe
    · rw [Option.some.injEq] at hxe
      subst hxe
      obtain ⟨hx1, hx2⟩ := hM.2.2 x hx
      refine ⟨?_, ?_⟩
      · rw [List.length_append]
        have : (substr S.base_sequence 0 (S.base_sequence.length - K)).length
            ≤ S.base_sequence.length := by
          unfold substr
          rw [List.length_take, List.drop_zero]
          omega
        have := hS.1
        omega
      · intro c hc
        rcases List.mem_append.mp hc with hc | hc
        · unfold substr at hc
          exact hS.2.1 c (List.mem_of_mem_drop (List.mem_of_mem_take hc))
        · exact hx2 c hc
    · exact absurd hxe (by simp)

theorem run_splice_segment_with_some {R : Type} (D : DoubleOps R)
    (score : List Char → HMMConsReadState R → Option R)
    (decode : List Char → HMMConsReadState R → Option (List (PosteriorState R)))
    (g g' : HmmConsData R) (segment_id : Nat)
    (h : run_splice_segment_with D score decode g segment_id = some g') :
    ∃ S M E base rs anchors, g.g_initialized = true ∧
      g.anchored_columns[segment_id]? = some S ∧
      g.anchored_columns[segment_id + 1]? = some M ∧
      g.anchored_columns[segment_id + 2]? = some E ∧
      splice_refine D score g.reads S M E = some (base, rs) ∧ 5 ≤ base.length ∧
      splice_reanchor decode base ((base.length - 5 + 1) / 2) rs M.anchors = some anchors ∧
      g' = { g with anchored_columns :=
              ((g.anchored_columns.set segment_id
                { S with base_sequence := base.take ((base.length - 5 + 1) / 2 + 5) }).set
                (segment_id + 1)
                { M with base_sequence := base.drop ((base.length - 5 + 1) / 2),
                         anchors := anchors }) } := by
  have h0 := h
  unfold run_splice_segment_with at h
  have hinit : g.g_initialized = true := by
    cases hi : g.g_initialized with
    | false => rw [hi] at h; simp at h
    | true => rfl
  cases hS : g.anchored_columns[segment_id]? with
  | none => rw [hS] at h; simp at h
  | some S =>
    cases hM : g.anchored_columns[segment_id + 1]? with
    | none => rw [hS, hM] at h; simp at h
    | some M =>
      cases hE : g.anchored_columns[segment_id + 2]? with
      | none => rw [hS, hM, hE] at h; simp at h
      | some E =>
        rw [hinit, hS, hM, hE] at h
        simp only [Bool.not_true, Bool.false_eq_true, if_false] at h
        obtain ⟨r, href, h2⟩ := Option.bind_eq_some.mp h
        obtain ⟨fixed, hsplit, _⟩ := Option.bind_eq_some.mp h2
        have hlen : 5 ≤ r.1.length := by
          unfold splice_split at hsplit
          by_contra hlt
          rw [if_neg (by simp only [K]; omega)] at hsplit
          exact absurd hsplit (by simp)
        have hr : splice_refine D score g.reads S M E = some (r.1, r.2) := href
        rw [run_splice_segment_with_eq D score decode g segment_id S M E r.1 r.2 hinit hS hM
          hE hr hlen] at h0
        obtain ⟨anchors, hre, hg⟩ := Option.map_eq_some'.mp h0
        exact ⟨S, M, E, r.1, r.2, anchors, hinit, rfl, rfl, rfl, hr, hlen, hre, hg.symm⟩

theorem set_set_getElem? {α : Type} (cols : List α) (n : Nat) (x y : α)
    (hn : n + 1 < cols.length) :
    ((cols.set n x).set (n + 1) y)[n]? = some x ∧
    ((cols.set n x).set (n + 1) y)[n + 1]? = some y ∧
    ((cols.set n x).set (n + 1) y).length = cols.length ∧
    ∀ i, i ≠ n → i ≠ n + 1 → ((cols.set n x).set (n + 1) y)[i]? = cols[i]? := by
  refine ⟨?_, ?_, by simp, ?_⟩
  · rw [List.getElem?_set_ne (by omega), List.getElem?_set]
    simp; omega
  · rw [List.getElem?_set]
    simp; omega
  · intro i h1 h2
    rw [List.getElem?_set_ne (by omega), List.getElem?_set_ne (by omega)]

theorem getElem?_lt_length {α : Type} (l : List α) (n : Nat) (x : α) (h : l[n]? = some x) :
    n < l.length := by
  by_contra hge
  rw [List.getElem?_eq_none (by omega)] at h
  exact absurd h (by simp)

theorem joins_of_ends {a a' b b' : List Char} (h : Joins a b) (ha : K ≤ a'.length)
    (hb : K ≤ b'.length) (he : a'.drop (a'.length - K) = a.drop (a.length - K))
    (hs : b'.take K = b.take K) : Joins a' b' :=
  ⟨ha, hb, by rw [he, hs]; exact h.2.2⟩

theorem segment_keeps_ends {R : Type} (D : DoubleOps R)
    (score : List Char → HMMConsReadState R → Option R)
    (decode : List Char → HMMConsReadState R → Option (List (PosteriorState R)))
    (g : HmmConsData R) (segment_id : Nat) (S M E : HMMAnchoredColumn)
    (hS : g.anchored_columns[segment_id]? = some S)
    (hM : g.anchored_columns[segment_id + 1]? = some M)
    (hE : g.anchored_columns[segment_id + 2]? = some E)
    (hSM : Joins S.base_sequence M.base_sequence)
    (hrS : ColumnInRange S) (hrM : ColumnInRange M) :
    ∀ g', run_splice_segment_with D score decode g segment_id = some g' →
      ∃ S' M', g'.anchored_columns[segment_id]? = some S' ∧
        g'.anchored_columns[segment_id + 1]? = some M' ∧
        g'.anchored_columns.length = g.anchored_columns.length ∧
        (∀ i, i ≠ segment_id → i ≠ segment_id + 1 →
          g'.anchored_columns[i]? = g.anchored_columns[i]?) ∧
        S'.base_sequence.take 5 = S.base_sequence.take 5 ∧
        M'.base_sequence.drop (M'.base_sequence.length - 5)
          = M.base_sequence.drop (M.base_sequence.length - 5) ∧
        Joins S'.base_sequence M'.base_sequence := by
  intro g' hg'
  obtain ⟨S0, M0, E0, base, rs, anchors, _, hS0, hM0, hE0, href, hlen, _, rfl⟩ :=
    run_splice_segment_with_some D score decode g g' segment_id hg'
  rw [hS] at hS0
  rw [hM] at hM0
  rw [hE] at hE0
  simp only [Option.some.injEq] at hS0 hM0 hE0
  subst hS0 hM0 hE0
  obtain ⟨_, ht, hd⟩ := splice_refine_sameEnds D score g.reads S M E base rs hSM.1 hSM.2.1
    hSM.2.2 hrS.2.1 hrM.2.1 (by have := hrS.1; have := hrM.1; omega)
    (segment_alts_in_range S M hrS hrM) href
  simp only [K] at ht hd
  have hn := getElem?_lt_length _ _ _ hM
  obtain ⟨e1, e2, e3, e4⟩ := set_set_getElem? g.anchored_columns segment_id
    { S with base_sequence := base.take ((base.length - 5 + 1) / 2 + 5) }
    { M with base_sequence := base.drop ((base.length - 5 + 1) / 2), anchors := anchors } hn
  refine ⟨_, _, e1, e2, e3, e4, ?_, ?_, ?_, ?_, ?_⟩
  · simp only
    rw [← ht, List.take_take]
    congr 1
    omega
  · simp only
    rw [← hd, List.length_drop, List.drop_drop]
    congr 1
    omega
  · simp only [K, List.length_take]
    omega
  · simp only [K, List.length_drop]
    omega
  · simp only [K]
    exact split_overlap base hlen

theorem run_splice_step_isSome {R : Type} (D : DoubleOps R)
    (score : List Char → HMMConsReadState R → Option R)
    (decode : List Char → HMMConsReadState R → Option (List (PosteriorState R)))
    (g : HmmConsData R) (segment_id : Nat) (S M E : HMMAnchoredColumn)
    (hS : g.anchored_columns[segment_id]? = some S)
    (hM : g.anchored_columns[segment_id + 1]? = some M)
    (hE : g.anchored_columns[segment_id + 2]? = some E)
    (hSM : Joins S.base_sequence M.base_sequence)
    (hrS : ColumnInRange S) (hrM : ColumnInRange M)
    (uncorrected consensus : List Char)
    (hc : consensus = [] ∨ Joins consensus S.base_sequence) :
    (run_splice_step D score decode (g, uncorrected, consensus) segment_id).isSome
      = (run_splice_segment_with D score decode g segment_id).isSome := by
  unfold run_splice_step
  simp only [hS]
  have hunc : ∃ u, (if uncorrected = [] then some S.base_sequence
      else if S.base_sequence.length < K then none
      else some (uncorrected ++ S.base_sequence.drop K)) = some u := by
    by_cases hu : uncorrected = []
    · exact ⟨_, if_pos hu⟩
    · rw [if_neg hu, if_neg (by have := hSM.1; omega)]
      exact ⟨_, rfl⟩
  obtain ⟨u, hu⟩ := hunc
  rw [hu]
  simp only [Option.some_bind]
  cases hg' : run_splice_segment_with D score decode g segment_id with
  | none => rfl
  | some g' =>
    obtain ⟨S', M', h1, _, _, _, h4, _, h6⟩ :=
      segment_keeps_ends D score decode g segment_id S M E hS hM hE hSM hrS hrM g' hg'
    simp only [Option.some_bind, h1, Option.isSome_some]
    rcases hc with hc | hc
    · rw [if_pos hc]
      rfl
    · have hne : consensus ≠ [] := by
        intro he
        have := hc.1
        rw [he] at this
        simp [K] at this
      rw [if_neg hne, if_neg (by have := hc.1; omega)]
      have hj := joins_of_ends hc hc.1 h6.1 rfl h4
      simp only [substr, List.drop_zero]
      rw [if_pos hj.2.2, if_neg (by have := h6.1; omega)]
      rfl

theorem run_splice_steps_zero {R : Type} (D : DoubleOps R)
    (score : List Char → HMMConsReadState R → Option R)
    (decode : List Char → HMMConsReadState R → Option (List (PosteriorState R)))
    (g : HmmConsData R) : run_splice_steps D score decode g 0 = some (g, [], []) := rfl

/-- The function `run_splice` runs the loop for `num_segments - 2` iterations and writes the
consensus of the last state. -/
theorem run_splice_with_eq_steps {R : Type} (D : DoubleOps R)
    (score : List Char → HMMConsReadState R → Option R)
    (decode : List Char → HMMConsReadState R → Option (List (PosteriorState R)))
    (g : HmmConsData R) :
    run_splice_with D score decode g
      = if !g.g_initialized then none
        else (run_splice_steps D score decode g (g.anchored_columns.length - 2)).map
          fun st => { st.1 with consensus_result := st.2.2 } := rfl

theorem run_splice_steps_succ {R : Type} (D : DoubleOps R)
    (score : List Char → HMMConsReadState R → Option R)
    (decode : List Char → HMMConsReadState R → Option (List (PosteriorState R)))
    (g : HmmConsData R) (k : Nat) :
    run_splice_steps D score decode g (k + 1)
      = (run_splice_steps D score decode g k).bind fun st =>
          run_splice_step D score decode st k := by
  unfold run_splice_steps loop_range
  rw [Nat.sub_zero, Nat.sub_zero, List.range'_concat, List.foldlM_append]
  simp only [Nat.zero_add, Nat.one_mul, List.foldlM_cons, List.foldlM_nil]
  cases (List.range' 0 k).foldlM (run_splice_step D score decode) (g, [], []) with
  | none => rfl
  | some st =>
    show (run_splice_step D score decode st k).bind some = run_splice_step D score decode st k
    cases run_splice_step D score decode st k <;> rfl

theorem run_splice_step_some {R : Type} (D : DoubleOps R)
    (score : List Char → HMMConsReadState R → Option R)
    (decode : List Char → HMMConsReadState R → Option (List (PosteriorState R)))
    (st st1 : HmmConsData R × List Char × List Char) (k : Nat)
    (h : run_splice_step D score decode st k = some st1) :
    run_splice_segment_with D score decode st.1 k = some st1.1 ∧
    ∃ S', st1.1.anchored_columns[k]? = some S' ∧
      st1.2.2 = if st.2.2 = [] then S'.base_sequence
        else st.2.2 ++ S'.base_sequence.drop K := by
  unfold run_splice_step at h
  simp only at h
  cases hcol : st.1.anchored_columns[k]? with
  | none => rw [hcol] at h; simp at h
  | some column =>
    rw [hcol] at h
    simp only at h
    obtain ⟨u2, _, h2⟩ := Option.bind_eq_some.mp h
    obtain ⟨g2, hg2, h3⟩ := Option.bind_eq_some.mp h2
    cases hk : g2.anchored_columns[k]? with
    | none => rw [hk] at h3; simp at h3
    | some column1 =>
      rw [hk] at h3
      simp only at h3
      by_cases hc : st.2.2 = []
      · rw [if_pos hc, Option.some.injEq] at h3
        subst h3
        exact ⟨hg2, column1, hk, by rw [if_pos hc]⟩
      · rw [if_neg hc] at h3
        split at h3
        · simp at h3
        · split at h3
          · split at h3
            · simp at h3
            · rw [Option.some.injEq] at h3
              subst h3
              exact ⟨hg2, column1, hk, by rw [if_neg hc]⟩
          · simp at h3

theorem run_splice_steps_joins {R : Type} (D : DoubleOps R)
    (score : List Char → HMMConsReadState R → Option R)
    (decode : List Char → HMMConsReadState R → Option (List (PosteriorState R)))
    (g : HmmConsData R) (hjoin : ColumnsJoin g.anchored_columns) :
    ∀ (k : Nat) (st : HmmConsData R × List Char × List Char),
      (∀ j, j < k → ∀ st', run_splice_steps D score decode g j = some st' →
        ∀ c ∈ st'.1.anchored_columns, ColumnInRange c) →
      run_splice_steps D score decode g k = some st →
      st.1.anchored_columns.length = g.anchored_columns.length ∧
      ColumnsJoin st.1.anchored_columns ∧
      ((k = 0 ∧ st.2.2 = []) ∨
        (0 < k ∧ ∀ S, st.1.anchored_columns[k]? = some S → Joins st.2.2 S.base_sequence)) := by
  intro k
  induction k with
  | zero =>
    intro st _ h
    rw [run_splice_steps_zero, Option.some.injEq] at h
    subst h
    exact ⟨rfl, hjoin, Or.inl ⟨rfl, rfl⟩⟩
  | succ k ih =>
    intro st hrun h
    rw [run_splice_steps_succ] at h
    obtain ⟨st0, hst0, hstep⟩ := Option.bind_eq_some.mp h
    obtain ⟨hlen0, hj0, hc0⟩ := ih st0 (fun j hj => hrun j (by omega)) hst0
    have hrange := hrun k (by omega) st0 hst0
    obtain ⟨hseg, S1, hS1, hcons⟩ := run_splice_step_some D score decode st0 st k hstep
    obtain ⟨S, M, E, _, _, _, _, hS, hM, hE, _, _, _, _⟩ :=
      run_splice_segment_with_some D score decode st0.1 st.1 k hseg
    have hSM := hj0 k S M hS hM
    obtain ⟨S', M', h1, h2, h3, h4, h5, h6, h7⟩ :=
      segment_keeps_ends D score decode st0.1 k S M E hS hM hE hSM
        (hrange S (List.getElem?_mem hS)) (hrange M (List.getElem?_mem hM)) st.1 hseg
    rw [hS1, Option.some.injEq] at h1
    subst h1
    refine ⟨by rw [h3, hlen0], ?_, Or.inr ⟨by omega, ?_⟩⟩
    · intro i X Y hX hY
      by_cases hik : i = k
      · subst hik
        rw [hS1, Option.some.injEq] at hX
        rw [h2, Option.some.injEq] at hY
        subst hX hY
        exact h7
      · by_cases hik1 : i = k + 1
        · subst hik1
          rw [h2, Option.some.injEq] at hX
          subst hX
          rw [h4 (k + 1 + 1) (by omega) (by omega)] at hY
          have hME := hj0 (k + 1) M Y hM hY
          exact joins_of_ends hME h7.2.1 hME.2.1 h6 rfl
        · rw [h4 i hik hik1] at hX
          by_cases hi1k : i + 1 = k
          · rw [hi1k, hS1, Option.some.injEq] at hY
            subst hY
            have hXS := hj0 i X S hX (by rw [hi1k]; exact hS)
            exact joins_of_ends hXS hXS.1 h7.1 rfl h5
          · rw [h4 (i + 1) hi1k (by omega)] at hY
            exact hj0 i X Y hX hY
    · intro S2 hS2
      rw [h2, Option.some.injEq] at hS2
      subst hS2
      rw [hcons]
      rcases hc0 with ⟨_, hnil⟩ | ⟨_, hcj⟩
      · rw [if_pos hnil]
        exact h7
      · have hcS := hcj S hS
        have hne : st0.2.2 ≠ [] := by
          intro he
          have := hcS.1
          rw [he] at this
          simp [K] at this
        rw [if_neg hne]
        have hcS1 := joins_of_ends hcS hcS.1 h7.1 rfl h5
        obtain ⟨_, _, hd⟩ := join_sameEnds st0.2.2 S1.base_sequence hcS1.1 hcS1.2.1 hcS1.2.2
        refine ⟨?_, h7.2.1, ?_⟩
        · rw [List.length_append]
          have := hcS1.1
          omega
        · rw [hd]
          exact h7.2.2

/-- A start-column alternate of one byte: the guard of the first loop over the alternates tests
the middle base, so the composed alternate `AGG` of 3 bytes reaches `kLCS`, whose 32-bit count
`size() - K + 1` wraps: the matrix is allocated with no cell, the first `set` lies outside it,
and the call of `run_splice_segment` does not return. -/
theorem run_splice_segment_short_alternate :
    segment_alts
        { anchors := [⟨2, false⟩, ⟨-1, false⟩], base_sequence := "AAAAAC".toList,
          alt_sequences := ["A".toList] }
        { anchors := [⟨3, false⟩, ⟨-1, false⟩], base_sequence := "AAAACGG".toList,
          alt_sequences := [] } = ["AGG".toList] ∧
    u32 (("AGG".toList.length : Int) - K + 1) = 4294967295 ∧
    kLCS_checked "AAAAACGG".toList "AGG".toList = none ∧
    run_splice_segment_with intOps example_flat_score example_flat_decode example_data_short 0
      = none := by
  refine ⟨by decide, by decide, ?_, ?_⟩
  · exact kLCS_checked_short _ _ (by decide) (by decide) (by decide)
  · with_unfolding_all rfl

/-- C34: for any scorer, decoder and alternates (C strings in the range of the 32-bit indices),
if `S.base` and `M.base` have at least 5 bases and the last 5 bases of `S.base` are the first 5
bases of `M.base`, then the join of `join_sequences_at_kmer` succeeds and `run_splice_segment`
leaves the first 5 bases of `S.base` and the last 5 bases of `M.base` unchanged, so the join
invariant holds again between the new `S.base`, the new `M.base` and `E.base`, and a step of
`run_splice` aborts only if its call of `run_splice_segment` aborts.  Hence, for columns that
satisfy the join invariant, at every iteration `k` of the loop of `run_splice` the columns
satisfy the join invariant again, the growing consensus is empty or ends with the first 5 bases
of the base of column `k`, and the iteration aborts only if its call of `run_splice_segment`
aborts: the assertions of `join_sequences_at_kmer` and of `run_splice` never fail. -/
theorem run_splice_segment_keeps_ends {R : Type} (D : DoubleOps R)
    (score : List Char → HMMConsReadState R → Option R)
    (decode : List Char → HMMConsReadState R → Option (List (PosteriorState R)))
    (g : HmmConsData R) (segment_id : Nat) (S M E : HMMAnchoredColumn)
    (g0 : HmmConsData R) (k : Nat) (st : HmmConsData R × List Char × List Char)
    (hS : g.anchored_columns[segment_id]? = some S)
    (hM : g.anchored_columns[segment_id + 1]? = some M)
    (hE : g.anchored_columns[segment_id + 2]? = some E)
    (hSM : Joins S.base_sequence M.base_sequence)
    (hrS : ColumnInRange S) (hrM : ColumnInRange M)
    (hjoin : ColumnsJoin g0.anchored_columns)
    (hrun : ∀ j, j ≤ k → ∀ st', run_splice_steps D score decode g0 j = some st' →
      ∀ c ∈ st'.1.anchored_columns, ColumnInRange c)
    (hst : run_splice_steps D score decode g0 k = some st) :
    join_sequences_at_kmer S.base_sequence M.base_sequence
      = some (S.base_sequence ++ M.base_sequence.drop 5) ∧
    (∀ g', run_splice_segment_with D score decode g segment_id = some g' →
      ∃ S' M', g'.anchored_columns[segment_id]? = some S' ∧
        g'.anchored_columns[segment_id + 1]? = some M' ∧
        g'.anchored_columns[segment_id + 2]? = some E ∧
        S'.base_sequence.take 5 = S.base_sequence.take 5 ∧
        M'.base_sequence.drop (M'.base_sequence.length - 5)
          = M.base_sequence.drop (M.base_sequence.length - 5) ∧
        Joins S'.base_sequence M'.base_sequence ∧
        (Joins M.base_sequence E.base_sequence → Joins M'.base_sequence E.base_sequence) ∧
        ∀ consensus, Joins consensus S.base_sequence → Joins consensus S'.base_sequence) ∧
    (∀ uncorrected consensus, consensus = [] ∨ Joins consensus S.base_sequence →
      (run_splice_step D score decode (g, uncorrected, consensus) segment_id).isSome
        = (run_splice_segment_with D score decode g segment_id).isSome) ∧
    ColumnsJoin st.1.anchored_columns ∧
    ((k = 0 ∧ st.2.2 = []) ∨
      ∀ S1, st.1.anchored_columns[k]? = some S1 → Joins st.2.2 S1.base_sequence) ∧
    (run_splice_step D score decode st k).isSome
      = (run_splice_segment_with D score decode st.1 k).isSome := by
  have hjoinSM := join_sameEnds S.base_sequence M.base_sequence hSM.1 hSM.2.1 hSM.2.2
  obtain ⟨_, hj, hc⟩ := run_splice_steps_joins D score decode g0 hjoin k st
    (fun j hj => hrun j (by omega)) hst
  have hc' : (k = 0 ∧ st.2.2 = []) ∨
      ∀ S1, st.1.anchored_columns[k]? = some S1 → Joins st.2.2 S1.base_sequence := by
    rcases hc with h | h
    · exact Or.inl h
    · exact Or.inr h.2
  refine ⟨hjoinSM.1, ?_, ?_, hj, hc', ?_⟩
  · intro g' hg'
    obtain ⟨S', M', h1, h2, _, h4, h5, h6, h7⟩ :=
      segment_keeps_ends D score decode g segment_id S M E hS hM hE hSM hrS hrM g' hg'
    refine ⟨S', M', h1, h2, by rw [h4 _ (by omega) (by omega)]; exact hE, h5, h6, h7, ?_, ?_⟩
    · intro hME
      exact joins_of_ends hME h7.2.1 hME.2.1 h6 rfl
    · intro consensus hcs
      exact joins_of_ends hcs hcs.1 h7.1 rfl h5
  · intro uncorrected consensus hcs
    exact run_splice_step_isSome D score decode g segment_id S M E hS hM hE hSM hrS hrM
      uncorrected consensus hcs
  · cases hseg : run_splice_segment_with D score decode st.1 k with
    | none =>
      cases hstep : run_splice_step D score decode st k with
      | none => rfl
      | some st1 =>
        have := (run_splice_step_some D score decode st st1 k hstep).1
        rw [hseg] at this
        exact absurd this (by simp)
    | some g' =>
      obtain ⟨S1, M1, E1, _, _, _, _, hS1, hM1, hE1, _, _, _, _⟩ :=
        run_splice_segment_with_some D score decode st.1 g' k hseg
      have hrange := hrun k (le_refl k) st hst
      have h := run_splice_step_isSome D score decode st.1 k S1 M1 E1 hS1 hM1 hE1
        (hj k S1 M1 hS1 hM1) (hrange S1 (List.getElem?_mem hS1))
        (hrange M1 (List.getElem?_mem hM1)) st.2.1 st.2.2
        (by
          rcases hc' with h | h
          · exact Or.inl h.2
          · exact Or.inr (h S1 hS1))
      rw [hseg] at h
      exact h

theorem run_splice_segment_keeps_ends_witness :
    Joins "AAAAAC".toList "AAAACGGGG".toList ∧
    join_sequences_at_kmer "AAAAAC".toList "AAAACGGGG".toList = some "AAAAACGGGG".toList ∧
    (∃ g' S' M', run_splice_segment_with intOps example_flat_score example_flat_decode
        example_data_r 0 = some g' ∧
      g'.anchored_columns[0]? = some S' ∧ g'.anchored_columns[1]? = some M' ∧
      S'.base_sequence.take 5 = "AAAAA".toList ∧
      M'.base_sequence.drop (M'.base_sequence.length - 5) = "CGGGG".toList ∧
      Joins S'.base_sequence M'.base_sequence) ∧
    ∃ st, run_splice_steps intOps example_flat_score example_flat_decode example_data_r4 1
        = some st ∧
      ColumnsJoin st.1.anchored_columns ∧
      (∀ S1, st.1.anchored_columns[1]? = some S1 → Joins st.2.2 S1.base_sequence) ∧
      (run_splice_step intOps example_flat_score example_flat_decode st 1).isSome = true := by
  have hs1 : (run_splice_steps intOps example_flat_score example_flat_decode
      example_data_r4 1).isSome = true := by with_unfolding_all rfl
  obtain ⟨st, hst⟩ := Option.isSome_iff_exists.mp hs1
  have hjoin : ColumnsJoin example_data_r4.anchored_columns := by
    intro i X Y hX hY
    rcases i with _ | _ | _ | i
    · simp only [example_data_r4, example_data_r, example_columns_r, List.cons_append,
        List.nil_append, List.getElem?_cons_zero, List.getElem?_cons_succ, Nat.zero_add,
        Option.some.injEq] at hX hY
      subst hX hY
      decide
    · simp only [example_data_r4, example_data_r, example_columns_r, List.cons_append,
        List.nil_append, List.getElem?_cons_zero, List.getElem?_cons_succ, Nat.zero_add,
        Option.some.injEq] at hX hY
      subst hX hY
      decide
    · simp only [example_data_r4, example_data_r, example_columns_r, List.cons_append,
        List.nil_append, List.getElem?_cons_zero, List.getElem?_cons_succ, Nat.zero_add,
        Option.some.injEq] at hX hY
      subst hX hY
      decide
    · simp [example_data_r4, example_data_r, example_columns_r] at hY
  have hrun : ∀ j, j ≤ 1 → ∀ st', run_splice_steps intOps example_flat_score
      example_flat_decode example_data_r4 j = some st' →
      ∀ c ∈ st'.1.anchored_columns, ColumnInRange c := by
    intro j hj st' h
    have e0 : (run_splice_steps intOps example_flat_score example_flat_decode
        example_data_r4 0).map
          (fun s => decide (∀ c ∈ s.1.anchored_columns, ColumnInRange c)) = some true := by
      with_unfolding_all rfl
    have e1 : (run_splice_steps intOps example_flat_score example_flat_decode
        example_data_r4 1).map
          (fun s => decide (∀ c ∈ s.1.anchored_columns, ColumnInRange c)) = some true := by
      with_unfolding_all rfl
    rcases Nat.le_one_iff_eq_zero_or_eq_one.mp hj with rfl | rfl
    · rw [h, Option.map_some', Option.some.injEq] at e0
      exact of_decide_eq_true e0
    · rw [h, Option.map_some', Option.some.injEq] at e1
      exact of_decide_eq_true e1
  have h := run_splice_segment_keeps_ends intOps example_flat_score example_flat_decode
    example_data_r 0
    { anchors := [⟨2, false⟩, ⟨-1, false⟩], base_sequence := "AAAAAC".toList,
      alt_sequences := ["AAAAATC".toList] }
    { anchors := [⟨3, false⟩, ⟨-1, false⟩], base_sequence := "AAAACGGGG".toList,
      alt_sequences := [] }
    { anchors := [⟨4, false⟩, ⟨-1, false⟩], base_sequence := "CGGGGT".toList,
      alt_sequences := [] }
    example_data_r4 1 st
    rfl rfl rfl (by decide) (by decide) (by decide) hjoin hrun hst
  have hs : (run_splice_segment_with intOps example_flat_score example_flat_decode
      example_data_r 0).isSome = true := by with_unfolding_all rfl
  obtain ⟨g', hg'⟩ := Option.isSome_iff_exists.mp hs
  obtain ⟨S', M', h1, h2, _, h4, h5, h6, _⟩ := h.2.1 g' hg'
  have hs2 : (run_splice_steps intOps example_flat_score example_flat_decode
      example_data_r4 2).isSome = true := by with_unfolding_all rfl
  rw [run_splice_steps_succ, hst, Option.some_bind] at hs2
  refine ⟨by decide, h.1, ⟨g', S', M', hg', h1, h2, h4, h5, h6⟩, st, hst, h.2.2.2.1, ?_, hs2⟩
  rcases h.2.2.2.2.1 with hk | hk
  · exact absurd hk.1 (by decide)
  · exact hk

/-! ## Theorems: the driver loop -/

theorem foldlM_range'_invariant {β : Type} (P : Nat → β → Prop) (f : β → Nat → Option β) :
    ∀ (n s : Nat) (b b' : β),
      (∀ i b b1, s ≤ i → i < s + n → P i b → f b i = some b1 → P (i + 1) b1) → P s b →
      (List.range' s n).foldlM f b = some b' → P (s + n) b' := by
  intro n
  induction n with
  | zero =>
    intro s b b' _ hP h
    simp only [List.range'_zero, List.foldlM_nil, Option.pure_def, Option.some.injEq] at h
    subst h
    exact hP
  | succ n ih =>
    intro s b b' hstep hP h
    rw [List.range'_succ, List.foldlM_cons] at h
    obtain ⟨b1, hb1, h2⟩ := Option.bind_eq_some.mp h
    have := ih (s + 1) b1 b' (fun i b b2 h1 h2 => hstep i b b2 (by omega) (by omega))
      (hstep s b b1 (le_refl _) (by omega) hP hb1) h2
    rw [show s + (n + 1) = s + 1 + n by omega]
    exact this

theorem expected_consensus_append (l : List HMMAnchoredColumn) (x : HMMAnchoredColumn)
    (hne : l ≠ []) :
    expected_consensus (l ++ [x]) = expected_consensus l ++ x.base_sequence.drop K := by
  cases l with
  | nil => exact absurd rfl hne
  | cons c rest =>
    simp only [List.cons_append, expected_consensus, List.flatMap_append, List.flatMap_cons,
      List.flatMap_nil, List.append_nil, List.append_assoc]

theorem run_splice_step_spec {R : Type} (D : DoubleOps R)
    (score : List Char → HMMConsReadState R → Option R)
    (decode : List Char → HMMConsReadState R → Option (List (PosteriorState R)))
    (g g1 : HmmConsData R) (uncorrected consensus u1 c1 : List Char) (k : Nat)
    (h : run_splice_step D score decode (g, uncorrected, consensus) k = some (g1, u1, c1)) :
    ∃ S', g1.anchored_columns.length = g.anchored_columns.length ∧
      g1.anchored_columns.take k = g.anchored_columns.take k ∧
      g1.anchored_columns[k]? = some S' ∧ S'.base_sequence ≠ [] ∧
      c1 = if consensus = [] then S'.base_sequence
        else consensus ++ S'.base_sequence.drop K := by
  unfold run_splice_step at h
  simp only at h
  cases hcol : g.anchored_columns[k]? with
  | none => rw [hcol] at h; simp at h
  | some column =>
    rw [hcol] at h
    simp only at h
    obtain ⟨u2, _, h2⟩ := Option.bind_eq_some.mp h
    obtain ⟨g2, hg2, h3⟩ := Option.bind_eq_some.mp h2
    obtain ⟨S0, M0, E0, base, rs, anchors, _, hS0, hM0, _, _, hlen, _, hg⟩ :=
      run_splice_segment_with_some D score decode g g2 k hg2
    have hn := getElem?_lt_length _ _ _ hM0
    obtain ⟨e1, _, e3, e4⟩ := set_set_getElem? g.anchored_columns k
      { S0 with base_sequence := base.take ((base.length - 5 + 1) / 2 + 5) }
      { M0 with base_sequence := base.drop ((base.length - 5 + 1) / 2), anchors := anchors } hn
    have hk : g2.anchored_columns[k]?
        = some { S0 with base_sequence := base.take ((base.length - 5 + 1) / 2 + 5) } := by
      rw [hg]; exact e1
    rw [hk] at h3
    simp only at h3
    have hres : g1 = g2 ∧ c1 = if consensus = [] then base.take ((base.length - 5 + 1) / 2 + 5)
        else consensus ++ (base.take ((base.length - 5 + 1) / 2 + 5)).drop K := by
      by_cases hc : consensus = []
      · rw [if_pos hc, Option.some.injEq, Prod.mk.injEq, Prod.mk.injEq] at h3
        rw [if_pos hc]
        exact ⟨h3.1.symm, h3.2.2.symm⟩
      · rw [if_neg hc] at h3
        rw [if_neg hc]
        split at h3
        · simp at h3
        · split at h3
          · split at h3
            · simp at h3
            · rw [Option.some.injEq, Prod.mk.injEq, Prod.mk.injEq] at h3
              exact ⟨h3.1.symm, h3.2.2.symm⟩
          · simp at h3
    obtain ⟨hg1, hc1⟩ := hres
    subst hg1
    refine ⟨_, by rw [hg]; exact e3, ?_, hk, ?_, hc1⟩
    · apply List.ext_getElem?
      intro i
      rw [List.getElem?_take, List.getElem?_take]
      by_cases hi : i < k
      · rw [if_pos hi, if_pos hi, hg]
        exact e4 i (by omega) (by omega)
      · rw [if_neg hi, if_neg hi]
    · simp only
      intro he
      have := congrArg List.length he
      rw [List.length_take] at this
      simp only [List.length_nil] at this
      omega

/-- C40: for `n >= 3` columns, the consensus that `run_splice` writes is the final base sequence
of column 0 followed, for the columns `1 .. n - 3` in order, by the final base sequence of that
column without its first 5 bases; the last two columns are never appended. -/
theorem run_splice_consensus {R : Type} (D : DoubleOps R)
    (score : List Char → HMMConsReadState R → Option R)
    (decode : List Char → HMMConsReadState R → Option (List (PosteriorState R)))
    (g g' : HmmConsData R) (hn : 3 ≤ g.anchored_columns.length)
    (h : run_splice_with D score decode g = some g') :
    g'.anchored_columns.length = g.anchored_columns.length ∧
    g'.consensus_result
      = expected_consensus (g'.anchored_columns.take (g.anchored_columns.length - 2)) ∧
    ∃ c0, g'.anchored_columns[0]? = some c0 ∧
      g'.consensus_result = c0.base_sequence ++
        ((g'.anchored_columns.take (g.anchored_columns.length - 2)).drop 1).flatMap
          fun c => c.base_sequence.drop 5 := by
  unfold run_splice_with at h
  split at h
  · simp at h
  · simp only at h
    obtain ⟨st, hst, hg'⟩ := Option.map_eq_some'.mp h
    have hinv := foldlM_range'_invariant
      (fun k (st : HmmConsData R × List Char × List Char) =>
        st.1.anchored_columns.length = g.anchored_columns.length ∧
        (k = 0 → st.2.2 = []) ∧
        (0 < k → st.2.2 ≠ [] ∧ st.2.2 = expected_consensus (st.1.anchored_columns.take k)))
      (run_splice_step D score decode) (g.anchored_columns.length - 2) 0 (g, [], []) st
      (by
        intro i b b1 _ hi hP hb
        obtain ⟨hlen, h0, hpos⟩ := hP
        obtain ⟨S', s1, s2, s3, s4, s5⟩ := run_splice_step_spec D score decode b.1 b1.1 b.2.1
          b.2.2 b1.2.1 b1.2.2 i hb
        refine ⟨by rw [s1, hlen], fun hk => absurd hk (by omega), fun _ => ?_⟩
        have htake : b1.1.anchored_columns.take (i + 1)
            = b.1.anchored_columns.take i ++ [S'] := by
          rw [List.take_succ, s2, s3]
          rfl
        by_cases hi0 : i = 0
        · subst hi0
          rw [if_pos (h0 rfl)] at s5
          rw [s5, htake]
          refine ⟨s4, ?_⟩
          simp only [List.take_zero, List.nil_append, expected_consensus, List.flatMap_nil,
            List.append_nil]
        · obtain ⟨hne, hcons⟩ := hpos (by omega)
          rw [if_neg hne] at s5
          rw [s5, htake]
          refine ⟨by simp [hne], ?_⟩
          rw [expected_consensus_append _ _ (by
            intro he
            have := congrArg List.length he
            rw [List.length_take] at this
            simp only [List.length_nil] at this
            omega), hcons])
      ⟨rfl, fun _ => rfl, fun hk => absurd hk (by omega)⟩
      (by unfold loop_range at hst; exact hst)
    obtain ⟨hlen, _, hpos⟩ := hinv
    obtain ⟨_, hcons⟩ := hpos (by omega)
    rw [Nat.zero_add] at hcons
    have hcols : g'.anchored_columns = st.1.anchored_columns := by rw [← hg']
    have hres : g'.consensus_result = st.2.2 := by rw [← hg']
    refine ⟨by rw [hcols, hlen], by rw [hres, hcols, hcons], ?_⟩
    rw [hres, hcols, hcons]
    cases hc : st.1.anchored_columns with
    | nil => rw [hc] at hlen; simp only [List.length_nil] at hlen; omega
    | cons c0 rest =>
      refine ⟨c0, List.getElem?_cons_zero, ?_⟩
      obtain ⟨m, hm⟩ : ∃ m, g.anchored_columns.length - 2 = m + 1 :=
        ⟨g.anchored_columns.length - 3, by omega⟩
      rw [hm, List.take_succ_cons]
      rfl

theorem run_splice_consensus_witness :
    3 ≤ example_data_r4.anchored_columns.length ∧
    (run_splice_with intOps example_flat_score example_flat_decode example_data_r4).map
        (fun g' => (g'.consensus_result, g'.anchored_columns.map fun c => c.base_sequence))
      = some ("AAAAACGGGG".toList,
          ["AAAAACGG".toList, "AACGGGG".toList, "CGGGGT".toList, "GGGGTAAAAA".toList]) ∧
    ∃ g', run_splice_with intOps example_flat_score example_flat_decode example_data_r4
        = some g' ∧
      g'.consensus_result = expected_consensus (g'.anchored_columns.take 2) := by
  have hs : (run_splice_with intOps example_flat_score example_flat_decode
      example_data_r4).isSome = true := by with_unfolding_all rfl
  obtain ⟨g', hg'⟩ := Option.isSome_iff_exists.mp hs
  have h := run_splice_consensus intOps example_flat_score example_flat_decode example_data_r4
    g' (by decide) hg'
  exact ⟨by decide, by with_unfolding_all rfl, g', hg', h.2.1⟩

/-! ## Theorems: the backward matrix -/

theorem foldl_set_row {T : Type} (n row : Nat) (v : Matrix T → Nat → T)
    (hv : ∀ (m m' : Matrix T) (a : Nat), (∀ r c, r ≠ row → c < n → get m r c = get m' r c) →
      v m a = v m' a) :
    ∀ (l : List Nat) (m : Matrix T), l.Nodup → m.n_cols = n → (∀ a ∈ l, a < n) →
      ((l.foldl (fun m a => set m row a (v m a)) m).n_rows = m.n_rows ∧
        (l.foldl (fun m a => set m row a (v m a)) m).n_cols = n) ∧
      (∀ r c, c < n → ¬ (r = row ∧ c ∈ l) →
        get (l.foldl (fun m a => set m row a (v m a)) m) r c = get m r c) ∧
      ∀ a ∈ l, get (l.foldl (fun m a => set m row a (v m a)) m) row a = v m a := by
  intro l
  induction l with
  | nil =>
    intro m _ hm _
    exact ⟨⟨rfl, hm⟩, fun _ _ _ _ => rfl, fun a ha => absurd ha (List.not_mem_nil _)⟩
  | cons x t ih =>
    intro m hnd hm hlt
    rw [List.nodup_cons] at hnd
    rw [List.foldl_cons]
    have hx : x < m.n_cols := by rw [hm]; exact hlt x (List.mem_cons_self _ _)
    obtain ⟨hd, hframe, hval⟩ := ih (set m row x (v m x)) hnd.2 hm
      (fun a ha => hlt a (List.mem_cons_of_mem _ ha))
    have hvx : ∀ a, v (set m row x (v m x)) a = v m a := by
      intro a
      apply hv
      intro r c hr hc
      exact get_set_ne m row x r c _ hx (by rw [hm]; exact hc) (fun e => hr e.1)
    refine ⟨hd, ?_, ?_⟩
    · intro r c hc hne
      rw [hframe r c hc (fun e => hne ⟨e.1, List.mem_cons_of_mem _ e.2⟩)]
      exact get_set_ne m row x r c _ hx (by rw [hm]; exact hc)
        (fun e => hne ⟨e.1, by rw [e.2]; exact List.mem_cons_self _ _⟩)
    · intro a ha
      rcases List.mem_cons.mp ha with rfl | ha
      · rw [hframe row a (by rw [← hm]; exact hx) (fun e => hnd.1 e.2)]
        exact get_set_eq m row a _
      · rw [hval a ha, hvx]

theorem initialize_backward_khmm_cells {R : Type} (nr nc : Nat) (bm tm : Matrix R)
    (hd : HasDims nr nc bm) :
    HasDims nr nc (initialize_backward_khmm bm tm) ∧
    ∀ r c, c < nc →
      get (initialize_backward_khmm bm tm) r c
        = if r = nr - 1 then get tm c (tm.n_cols - 1) else get bm r c := by
  unfold initialize_backward_khmm
  simp only [hd.1, hd.2]
  obtain ⟨h1, h2, h3⟩ := foldl_set_row nc (nr - 1) (fun _ si => get tm si (tm.n_cols - 1))
    (fun _ _ _ _ => rfl) (List.range nc) bm (List.nodup_range nc) hd.2
    (fun a ha => List.mem_range.mp ha)
  refine ⟨⟨by rw [h1.1, hd.1], h1.2⟩, ?_⟩
  intro r c hc
  by_cases e : r = nr - 1
  · rw [if_pos e, e]
    exact h3 c (List.mem_range.mpr hc)
  · rw [if_neg e]
    exact h2 r c hc (fun h => e h.1)

theorem backward_recurrence_congr {R : Type} (D : DoubleOps R) (tm : Matrix R)
    (sequence : List Char) (state : HMMConsReadState R) (e_start nc : Nat) (b g : Matrix R)
    (r sk : Nat) (h : ∀ sl, sl < nc → get b (r + 1) sl = get g (r + 1) sl) :
    backward_recurrence D tm sequence state e_start nc b r sk
      = backward_recurrence D tm sequence state e_start nc g r sk := by
  unfold backward_recurrence
  apply List.foldl_ext
  intro a sl hsl
  rw [mem_loop_range] at hsl
  rw [h sl (by omega)]

theorem fill_backward_khmm_row {R : Type} (D : DoubleOps R) (tm : Matrix R)
    (sequence : List Char) (state : HMMConsReadState R) (e_start nr nc row : Nat)
    (m : Matrix R) (hd : HasDims nr nc m) :
    HasDims nr nc ((loop_range 1 (nc - 1)).foldl
      (fill_backward_khmm_cell D tm sequence state e_start row) m) ∧
    (∀ r c, c < nc → ¬ (r = row ∧ 1 ≤ c ∧ c < nc - 1) →
      get ((loop_range 1 (nc - 1)).foldl
        (fill_backward_khmm_cell D tm sequence state e_start row) m) r c = get m r c) ∧
    ∀ sk, 1 ≤ sk → sk < nc - 1 →
      get ((loop_range 1 (nc - 1)).foldl
        (fill_backward_khmm_cell D tm sequence state e_start row) m) row sk
        = backward_recurrence D tm sequence state e_start nc m row sk := by
  have hcell : (loop_range 1 (nc - 1)).foldl
        (fill_backward_khmm_cell D tm sequence state e_start row) m
      = (loop_range 1 (nc - 1)).foldl
        (fun m sk => set m row sk
          (backward_recurrence D tm sequence state e_start m.n_cols m row sk)) m := rfl
  rw [hcell]
  have hstep := foldl_set_row nc row
    (fun (m : Matrix R) sk => backward_recurrence D tm sequence state e_start nc m row sk)
    (fun m m' a hmm => backward_recurrence_congr D tm sequence state e_start nc m m' row a
      (fun sl hsl => hmm (row + 1) sl (by omega) hsl))
    (loop_range 1 (nc - 1)) m (List.nodup_range' _ _) hd.2
    (fun a ha => by rw [mem_loop_range] at ha; omega)
  have hsame : (loop_range 1 (nc - 1)).foldl
        (fun m sk => set m row sk
          (backward_recurrence D tm sequence state e_start m.n_cols m row sk)) m
      = (loop_range 1 (nc - 1)).foldl
        (fun m sk => set m row sk
          (backward_recurrence D tm sequence state e_start nc m row sk)) m := by
    have : ∀ (l : List Nat) (m : Matrix R), m.n_cols = nc →
        l.foldl (fun m sk => set m row sk
          (backward_recurrence D tm sequence state e_start m.n_cols m row sk)) m
        = l.foldl (fun m sk => set m row sk
          (backward_recurrence D tm sequence state e_start nc m row sk)) m := by
      intro l
      induction l with
      | nil => intro _ _; rfl
      | cons x t ih =>
        intro m hm
        rw [List.foldl_cons, List.foldl_cons, hm]
        exact ih _ hm
    exact this _ m hd.2
  rw [hsame]
  obtain ⟨h1, h2, h3⟩ := hstep
  refine ⟨⟨by rw [h1.1, hd.1], h1.2⟩, ?_, ?_⟩
  · intro r c hc hne
    exact h2 r c hc (fun e => hne ⟨e.1, by have := (mem_loop_range _ _ _).mp e.2; omega⟩)
  · intro sk h1 h2
    exact h3 sk ((mem_loop_range _ _ _).mpr ⟨h1, h2⟩)

theorem fill_backward_khmm_rows {R : Type} (D : DoubleOps R) (tm : Matrix R)
    (sequence : List Char) (state : HMMConsReadState R) (e_start nr nc : Nat) (bm : Matrix R)
    (hd : HasDims nr nc bm) :
    ∀ (n s : Nat),
      HasDims nr nc ((List.range' s n).foldr (fun row m => (loop_range 1 (nc - 1)).foldl
        (fill_backward_khmm_cell D tm sequence state e_start row) m) bm) ∧
      (∀ r c, c < nc → ¬ (s ≤ r ∧ r < s + n ∧ 1 ≤ c ∧ c < nc - 1) →
        get ((List.range' s n).foldr (fun row m => (loop_range 1 (nc - 1)).foldl
          (fill_backward_khmm_cell D tm sequence state e_start row) m) bm) r c = get bm r c) ∧
      ∀ r sk, s ≤ r → r < s + n → 1 ≤ sk → sk < nc - 1 →
        get ((List.range' s n).foldr (fun row m => (loop_range 1 (nc - 1)).foldl
          (fill_backward_khmm_cell D tm sequence state e_start row) m) bm) r sk
          = backward_recurrence D tm sequence state e_start nc
              ((List.range' s n).foldr (fun row m => (loop_range 1 (nc - 1)).foldl
                (fill_backward_khmm_cell D tm sequence state e_start row) m) bm) r sk := by
  intro n
  induction n with
  | zero =>
    intro s
    exact ⟨hd, fun _ _ _ _ => rfl, fun r sk h1 h2 => by omega⟩
  | succ n ih =>
    intro s
    rw [List.range'_succ, List.foldr_cons]
    obtain ⟨i1, i2, i3⟩ := ih (s + 1)
    generalize (List.range' (s + 1) n).foldr (fun row m => (loop_range 1 (nc - 1)).foldl
      (fill_backward_khmm_cell D tm sequence state e_start row) m) bm = m1 at i1 i2 i3
    obtain ⟨r1, r2, r3⟩ := fill_backward_khmm_row D tm sequence state e_start nr nc s m1 i1
    generalize (loop_range 1 (nc - 1)).foldl
      (fill_backward_khmm_cell D tm sequence state e_start s) m1 = m2 at r1 r2 r3
    refine ⟨r1, ?_, ?_⟩
    · intro r c hc hne
      rw [r2 r c hc (fun e => hne ⟨by omega, by omega, e.2.1, e.2.2⟩)]
      exact i2 r c hc (fun e => hne ⟨by omega, by omega, e.2.2.1, e.2.2.2⟩)
    · intro r sk h1 h2 h3 h4
      have hcong : ∀ r', s ≤ r' → backward_recurrence D tm sequence state e_start nc m2 r' sk
          = backward_recurrence D tm sequence state e_start nc m1 r' sk := by
        intro r' hr'
        apply backward_recurrence_congr
        intro sl hsl
        exact r2 (r' + 1) sl hsl (fun e => by omega)
      rw [hcong r h1]
      by_cases e : r = s
      · rw [e]
        exact r3 sk h3 h4
      · rw [r2 r sk (by omega) (fun h => e h.1)]
        exact i3 r sk (by omega) (by omega) h3 h4

/-- The backward matrix after `fill_backward_khmm`: the cells of the rows `1 .. n_rows - 2` in
the interior columns hold the recurrence on the row below, every other cell is left as it
was. -/
theorem fill_backward_khmm_spec {R : Type} (D : DoubleOps R) (nr nc : Nat) (bm tm : Matrix R)
    (sequence : List Char) (state : HMMConsReadState R) (e_start : Nat) (hd : HasDims nr nc bm) :
    HasDims nr nc (fill_backward_khmm D bm tm sequence state e_start) ∧
    (∀ r c, c < nc → ¬ (1 ≤ r ∧ r < nr - 1 ∧ 1 ≤ c ∧ c < nc - 1) →
      get (fill_backward_khmm D bm tm sequence state e_start) r c = get bm r c) ∧
    ∀ r sk, 1 ≤ r → r < nr - 1 → 1 ≤ sk → sk < nc - 1 →
      get (fill_backward_khmm D bm tm sequence state e_start) r sk
        = backward_recurrence D tm sequence state e_start nc
            (fill_backward_khmm D bm tm sequence state e_start) r sk := by
  have hb : fill_backward_khmm D bm tm sequence state e_start
      = (List.range' 1 (nr - 1 - 1)).foldr (fun row m => (loop_range 1 (nc - 1)).foldl
          (fill_backward_khmm_cell D tm sequence state e_start row) m) bm := by
    unfold fill_backward_khmm loop_range
    rw [List.foldl_reverse, hd.1, hd.2]
  rw [hb]
  obtain ⟨h1, h2, h3⟩ := fill_backward_khmm_rows D tm sequence state e_start nr nc bm hd
    (nr - 1 - 1) 1
  refine ⟨h1, ?_, ?_⟩
  · intro r c hc hne
    exact h2 r c hc (fun e => hne ⟨e.1, by omega, e.2.2.1, e.2.2.2⟩)
  · intro r sk hr1 hr2 hs1 hs2
    exact h3 r sk hr1 (by omega) hs1 hs2

/-! ## Theorems: the tables of the HMM under exact arithmetic -/

theorem log_probability_match_fin (state : HMMConsReadState XReal)
    (hwf : WellFormedInput state) (rank event_idx : Nat) :
    ∃ e : ℝ,
      log_probability_match realOps state.read rank event_idx state.strand = XReal.fin e := by
  obtain ⟨⟨sc, sh, dr, v, hsc, hsh, hdr, hv, hv0⟩, hst, hev, _, _⟩ := hwf
  obtain ⟨mu, sigma, hmu, hsigma, hs0⟩ := hst rank
  obtain ⟨l, t, hl, ht⟩ := hev event_idx
  obtain ⟨l0, t0, _, ht0⟩ := hev 0
  have hpos : 0 < sigma * v := mul_pos hs0 hv0
  have hlogc : XReal.log (XReal.fin ((3989422804014327 / 10000000000000000 : ℚ) : ℝ))
      = XReal.fin (Real.log (3989422804014327 / 10000000000000000)) := by
    rw [xlog_fin_pos _ (by norm_num)]
    norm_num
  have hne : (sigma * v = 0) = False := eq_false (ne_of_gt hpos)
  refine ⟨Real.log (3989422804014327 / 10000000000000000) - Real.log (sigma * v)
    + (-1 / 2 : ℝ) * ((l - (t - t0) * dr - (mu * sc + sh)) / (sigma * v))
      * ((l - (t - t0) * dr - (mu * sc + sh)) / (sigma * v)), ?_⟩
  simp only [log_probability_match, log_normal_pdf, get_drift_corrected_level, realOps,
    hsc, hsh, hdr, hv, hmu, hsigma, hl, ht, ht0, XReal.sub, XReal.neg, XReal.add, XReal.mul,
    XReal.div, hne, if_false, hlogc, xlog_fin_pos _ hpos]
  congr 1
  push_cast
  ring

theorem emission_eq (sequence : List Char) (state : HMMConsReadState XReal)
    (hwf : WellFormedInput state) (r sl : Nat) :
    log_probability_match realOps state.read (get_rank state sequence (sl - 1))
        (event_at state state.event_start_idx (r - 1)) state.strand
      = XReal.fin (emission sequence state r sl) := by
  obtain ⟨e, he⟩ := log_probability_match_fin state hwf (get_rank state sequence (sl - 1))
    (event_at state state.event_start_idx (r - 1))
  unfold emission
  rw [he]
  rfl

theorem khmm_tables (consensus : List Char) (state : HMMConsReadState XReal)
    (hok : ReadStateOk state) (hwf : WellFormedInput state) :
    ∃ tm, khmm_transitions realOps consensus state = some tm ∧
      (khmm_forward realOps tm consensus state).1.n_rows = n_events_of state + 1 ∧
      (khmm_forward realOps tm consensus state).1.n_cols = consensus.length - K + 1 + 2 ∧
      HmmTables (consensus.length - K + 1) (n_events_of state) tm
        (khmm_forward realOps tm consensus state).1 (khmm_backward realOps tm consensus state)
        (emission consensus state) := by
  have hem := emission_eq consensus state hwf
  obtain ⟨_, _, _, ⟨p, hp, hp0, hp1⟩, hq⟩ := hwf
  obtain ⟨tm, htm, htd, hgood⟩ := fill_khmm_transitions_mass consensus state p hp hp0 hp1 hq
    (allocate_matrix (realOps.lit 0) (consensus.length - K + 1 + 2)
      (consensus.length - K + 1 + 2)) rfl rfl
  obtain ⟨_, hframe⟩ := fill_khmm_transitions_frame realOps _ tm consensus state htm
  have hdims := khmm_forward_dims realOps tm consensus state
  have hrows := khmm_forward_n_rows realOps tm consensus state hok
  have hnr : u32 (n_events_of state + 1) = n_events_of state + 1 := by
    rw [← hdims.1, hrows]
  have hE : 1 ≤ n_events_of state := by
    have := (n_events_of_ok state hok).1
    have habs := abs_nonneg ((state.event_stop_idx : Int) - state.event_start_idx)
    omega
  have htm2 : khmm_transitions realOps consensus state = some tm := htm
  generalize hNk : consensus.length - K + 1 = Nk at *
  generalize hEE : n_events_of state = E at *
  have hd := initialize_forward_khmm_dims realOps (E + 1) (Nk + 2)
    (allocate_matrix (realOps.lit 0) (E + 1) (Nk + 2)) ⟨rfl, rfl⟩
  obtain ⟨hkeep, hrec⟩ := fill_forward_khmm_spec realOps (E + 1) (Nk + 2)
    (initialize_forward_khmm realOps (allocate_matrix (realOps.lit 0) (E + 1) (Nk + 2))) tm
    consensus state state.event_start_idx hd
  have hinit := initialize_forward_khmm_cells realOps (E + 1) (Nk + 2)
    (allocate_matrix (realOps.lit 0) (E + 1) (Nk + 2)) ⟨rfl, rfl⟩
  have hfwd : (khmm_forward realOps tm consensus state).1
      = (fill_forward_khmm realOps (initialize_forward_khmm realOps
          (allocate_matrix (realOps.lit 0) (E + 1) (Nk + 2))) tm consensus state
          state.event_start_idx).1 := by
    unfold khmm_forward
    simp only [hNk, hEE, hnr]
  obtain ⟨hbd, hbcell⟩ := initialize_backward_khmm_cells (E + 1) (Nk + 2)
    (allocate_matrix (realOps.lit 0) (E + 1) (Nk + 2)) tm ⟨rfl, rfl⟩
  obtain ⟨_, hbkeep, hbrec⟩ := fill_backward_khmm_spec realOps (E + 1) (Nk + 2)
    (initialize_backward_khmm (allocate_matrix (realOps.lit 0) (E + 1) (Nk + 2)) tm) tm
    consensus state state.event_start_idx hbd
  have hbwd : khmm_backward realOps tm consensus state
      = fill_backward_khmm realOps (initialize_backward_khmm
          (allocate_matrix (realOps.lit 0) (E + 1) (Nk + 2)) tm) tm consensus state
          state.event_start_idx := by
    unfold khmm_backward
    simp only [hNk, hEE, hnr]
  have halloc : ∀ r c, get (allocate_matrix (realOps.lit 0) (E + 1) (Nk + 2)) r c
      = XReal.fin 0 := by
    intro r c
    rw [← realOps_lit_zero]
    rfl
  have hNk1 : 1 ≤ Nk := by omega
  refine ⟨tm, htm2, hrows, hdims.2, ?_⟩
  rw [hfwd, hbwd]
  refine
    { hNk := hNk1
      hE := hE
      tm_log := ?_
      tm_band := ?_
      f_start := ?_
      f_top := ?_
      f_left := ?_
      f_right := ?_
      f_rec := ?_
      b_last := ?_
      b_left := ?_
      b_right := ?_
      b_rec := ?_ }
  · intro r c hr hc
    by_cases hrN : r ≤ Nk
    · exact (isLogLe_isLog _ ((hgood r hrN).1 c hc)).1
    · rw [hframe r c hr hc (fun e => by omega), if_neg (by omega)]
      trivial
  · intro r c hr hc hne
    rw [hframe r c hr hc hne, realOps_lit_zero]
    rfl
  · rw [hkeep 0 0 (by omega) (Or.inl rfl), hinit 0 0 (by omega) (by omega), if_pos ⟨rfl, rfl⟩,
      realOps_lit_zero]
  · intro c hc1 hc2
    rw [hkeep 0 c hc2 (Or.inl rfl), hinit 0 c (by omega) hc2, if_neg (by omega),
      if_pos (Or.inl rfl)]
    rfl
  · intro r hr1 hr2
    rw [hkeep r 0 (by omega) (Or.inr (Or.inl rfl)), hinit r 0 (by omega) (by omega),
      if_neg (by omega), if_pos (Or.inr rfl)]
    rfl
  · intro r hr1 hr2
    rw [hkeep r (Nk + 1) (by omega) (Or.inr (Or.inr (by omega))),
      hinit r (Nk + 1) (by omega) (by omega), if_neg (by omega), if_neg (by omega), halloc]
  · intro r sl hr1 hr2 hs1 hs2
    rw [hrec r sl hr1 (by omega) hs1 (by omega)]
    unfold forward_recurrence
    rw [hem r sl]
    rfl
  · intro c hc
    rw [hbkeep E c hc (fun e => by omega), hbcell E c hc, if_pos (by omega), htd.2]
    rfl
  · intro r hr
    rw [hbkeep r 0 (by omega) (fun e => by omega), hbcell r 0 (by omega), if_neg (by omega),
      halloc]
  · intro r hr
    rw [hbkeep r (Nk + 1) (by omega) (fun e => by omega), hbcell r (Nk + 1) (by omega),
      if_neg (by omega), halloc]
  · intro r sk hr1 hr2 hs1 hs2
    rw [hbrec r sk hr1 (by omega) hs1 (by omega)]
    unfold backward_recurrence
    have hev : ∀ sl, log_probability_match realOps state.read (get_rank state consensus (sl - 1))
        (event_at state state.event_start_idx r) state.strand
        = XReal.fin (emission consensus state (r + 1) sl) := by
      intro sl
      have := hem (r + 1) sl
      rw [Nat.add_sub_cancel] at this
      exact this
    simp only [hev]
    rfl

/-! ## Theorems: the forward and backward tables as probabilities -/

theorem fin_of_prob_pos (x : XReal) (h : XReal.IsLog x) (hp : 0 < XReal.prob x) :
    ∃ v : ℝ, x = XReal.fin v := by
  rcases isLog_cases x h with rfl | ⟨v, rfl⟩
  · exact absurd hp (lt_irrefl _)
  · exact ⟨v, rfl⟩

theorem prob_fin_pos (v : ℝ) : 0 < XReal.prob (XReal.fin v) := Real.exp_pos v

theorem isLog_eq_of_prob (x y : XReal) (hx : XReal.IsLog x) (hy : XReal.IsLog y)
    (h : XReal.prob x = XReal.prob y) : x = y := by
  rcases isLog_cases x hx with rfl | ⟨a, rfl⟩ <;> rcases isLog_cases y hy with rfl | ⟨b, rfl⟩
  · rfl
  · exact absurd h (ne_of_lt (prob_fin_pos b))
  · exact absurd h.symm (ne_of_lt (prob_fin_pos a))
  · have : Real.exp a = Real.exp b := h
    rw [Real.exp_eq_exp.mp this]

theorem list_sum_eq_range_sum (g : Nat → ℝ) (n : Nat) (l : List Nat) (hnd : l.Nodup)
    (hl : ∀ c ∈ l, c < n) (hz : ∀ c, c < n → c ∉ l → g c = 0) :
    (l.map g).sum = Finset.sum (Finset.range n) g := by
  rw [← List.sum_toFinset g hnd]
  apply Finset.sum_subset
  · intro c hc
    rw [List.mem_toFinset] at hc
    exact Finset.mem_range.mpr (hl c hc)
  · intro c hc hnc
    rw [List.mem_toFinset] at hnc
    exact hz c (Finset.mem_range.mp hc) hnc

theorem hmm_tm_zero {Nk E : Nat} {tm f b : Matrix XReal} {em : Nat → Nat → ℝ}
    (h : HmmTables Nk E tm f b em) (r c : Nat) (hr : r < Nk + 2) (hc : c < Nk + 2)
    (hband : ¬ (1 ≤ r ∧ r ≤ c ∧ c ≤ r + 5 ∧ c ≤ Nk)) (h1 : ¬ (r = Nk ∧ c = Nk + 1))
    (h2 : ¬ (r = 0 ∧ c = 1)) :
    get tm r c = XReal.ninf ∧ XReal.prob (get tm r c) = 0 := by
  have := h.tm_band r c hr hc hband
  rw [if_neg (fun e => e.elim h1 h2)] at this
  rw [this]
  exact ⟨rfl, rfl⟩

theorem hmm_forward_log {Nk E : Nat} {tm f b : Matrix XReal} {em : Nat → Nat → ℝ}
    (h : HmmTables Nk E tm f b em) :
    ∀ r, r ≤ E →
      (∀ c, c ≤ Nk + 1 → XReal.IsLog (get f r c)) ∧
      (1 ≤ r → ∀ sl, 1 ≤ sl → sl ≤ Nk →
        XReal.prob (get f r sl) = Real.exp (em r sl) *
          Finset.sum (Finset.range (Nk + 1))
            (fun sk => XReal.prob (get tm sk sl) * XReal.prob (get f (r - 1) sk))) := by
  intro r
  induction r with
  | zero =>
    intro _
    refine ⟨?_, fun h0 => absurd h0 (by omega)⟩
    intro c hc
    by_cases e : c = 0
    · rw [e, h.f_start]; trivial
    · rw [h.f_top c (by omega) (by omega)]; trivial
  | succ r ih =>
    intro hr
    obtain ⟨hlog, _⟩ := ih (by omega)
    have hcell : ∀ sl, 1 ≤ sl → sl ≤ Nk →
        XReal.IsLog (get f (r + 1) sl) ∧
        XReal.prob (get f (r + 1) sl) = Real.exp (em (r + 1) sl) *
          Finset.sum (Finset.range (Nk + 1))
            (fun sk => XReal.prob (get tm sk sl) * XReal.prob (get f r sk)) := by
      intro sl hs1 hs2
      rw [h.f_rec (r + 1) sl (by omega) hr hs1 hs2, Nat.add_sub_cancel]
      have hterm : ∀ sk ∈ loop_range (sl - 5) (sl + 1),
          XReal.IsLog (XReal.add (get tm sk sl) (get f r sk)) := by
        intro sk hsk
        rw [mem_loop_range] at hsk
        exact (add_isLog _ _ (h.tm_log sk sl (by omega) (by omega)) (hlog sk (by omega))).1
      obtain ⟨h1, h2⟩ := add_logs_fold_isLog
        (fun sk => XReal.add (get tm sk sl) (get f r sk)) (loop_range (sl - 5) (sl + 1)) hterm
        XReal.ninf trivial
      obtain ⟨h3, h4⟩ := add_isLog (XReal.fin (em (r + 1) sl)) _ trivial h1
      refine ⟨h3, ?_⟩
      rw [h4, h2]
      congr 1
      have hmap : (loop_range (sl - 5) (sl + 1)).map
            (fun sk => XReal.prob (XReal.add (get tm sk sl) (get f r sk)))
          = (loop_range (sl - 5) (sl + 1)).map
            (fun sk => XReal.prob (get tm sk sl) * XReal.prob (get f r sk)) := by
        apply List.map_congr_left
        intro sk hsk
        rw [mem_loop_range] at hsk
        exact (add_isLog _ _ (h.tm_log sk sl (by omega) (by omega)) (hlog sk (by omega))).2
      rw [hmap]
      have hz : XReal.prob XReal.ninf = 0 := rfl
      rw [hz, zero_add]
      apply list_sum_eq_range_sum _ (Nk + 1) (loop_range (sl - 5) (sl + 1))
        (List.nodup_range' _ _)
      · intro c hc
        rw [mem_loop_range] at hc
        omega
      · intro c hc hnc
        rw [mem_loop_range] at hnc
        rw [(hmm_tm_zero h c sl (by omega) (by omega) (fun e => hnc ⟨by omega, by omega⟩)
          (by omega) (fun e => hnc ⟨by omega, by omega⟩)).2, zero_mul]
    constructor
    · intro c hc
      by_cases e0 : c = 0
      · rw [e0, h.f_left (r + 1) (by omega) hr]; trivial
      · by_cases e1 : c = Nk + 1
        · rw [e1, h.f_right (r + 1) (by omega) hr]; trivial
        · exact (hcell c (by omega) (by omega)).1
    · intro _ sl hs1 hs2
      rw [Nat.add_sub_cancel]
      exact (hcell sl hs1 hs2).2

/-- The sum of `forward_khmm_terminate` over the last row is the cell `f[E, Nk]`. -/
theorem hmm_terminate {Nk E : Nat} {tm f b : Matrix XReal} {em : Nat → Nat → ℝ}
    (h : HmmTables Nk E tm f b em) :
    (List.range (Nk + 1)).foldl (fun sum sk => add_logs realOps sum
      (realOps.add (get tm sk (Nk + 1)) (get f E sk))) realOps.neg_inf = get f E Nk := by
  obtain ⟨hlog, _⟩ := hmm_forward_log h E (le_refl _)
  have hterm : ∀ sk ∈ List.range (Nk + 1),
      XReal.IsLog (XReal.add (get tm sk (Nk + 1)) (get f E sk)) := by
    intro sk hsk
    rw [List.mem_range] at hsk
    exact (add_isLog _ _ (h.tm_log sk (Nk + 1) (by omega) (by omega)) (hlog sk (by omega))).1
  obtain ⟨h1, h2⟩ := add_logs_fold_isLog
    (fun sk => XReal.add (get tm sk (Nk + 1)) (get f E sk)) (List.range (Nk + 1)) hterm
    XReal.ninf trivial
  apply isLog_eq_of_prob _ _ h1 (hlog Nk (by omega))
  rw [h2]
  have hz : XReal.prob XReal.ninf = 0 := rfl
  rw [hz, zero_add]
  have hmap : (List.range (Nk + 1)).map
        (fun sk => XReal.prob (XReal.add (get tm sk (Nk + 1)) (get f E sk)))
      = (List.range (Nk + 1)).map
        (fun sk => if sk = Nk then XReal.prob (get f E Nk) else 0) := by
    apply List.map_congr_left
    intro sk hsk
    rw [List.mem_range] at hsk
    rw [(add_isLog _ _ (h.tm_log sk (Nk + 1) (by omega) (by omega)) (hlog sk (by omega))).2]
    by_cases e : sk = Nk
    · rw [if_pos e, e, h.tm_band Nk (Nk + 1) (by omega) (by omega) (fun e => by omega),
        if_pos (Or.inl ⟨rfl, rfl⟩)]
      show Real.exp 0 * _ = _
      rw [Real.exp_zero, one_mul]
    · have hNk := h.hNk
      rw [if_neg e, (hmm_tm_zero h sk (Nk + 1) (by omega) (by omega) (fun e => by omega)
        (fun e2 => e e2.1) (fun e2 => by omega)).2, zero_mul]
  rw [hmap, list_sum_eq_range_sum _ (Nk + 1) _ (List.nodup_range _)
    (fun c hc => List.mem_range.mp hc) (fun c hc hnc => absurd (List.mem_range.mpr hc) hnc),
    Finset.sum_ite_eq' (Finset.range (Nk + 1)) Nk, if_pos (Finset.mem_range.mpr (by omega))]

/-- C38: the value that `fill_forward_khmm` returns equals `forward_khmm_terminate(fm, tm, last
row)` on the filled matrix, and under exact arithmetic, for every well-formed input, both equal
the cell `f[E, Nk]` of the last event row and the last k-mer state; so `score_khmm_model` under
`AP_GLOBAL` is `f[E, Nk]`. -/
theorem fill_forward_khmm_total (consensus : List Char) (state : HMMConsReadState XReal)
    (hok : ReadStateOk state) (hwf : WellFormedInput state) :
    (∀ (R : Type) (D : DoubleOps R) (fm tm : Matrix R) (sequence : List Char)
      (st : HMMConsReadState R) (e_start : Nat),
      (fill_forward_khmm D fm tm sequence st e_start).2
        = forward_khmm_terminate D (fill_forward_khmm D fm tm sequence st e_start).1 tm
            ((fill_forward_khmm D fm tm sequence st e_start).1.n_rows - 1)) ∧
    ∃ tm, khmm_transitions realOps consensus state = some tm ∧
      (khmm_forward realOps tm consensus state).2
        = get (khmm_forward realOps tm consensus state).1 (n_events_of state)
            (consensus.length - K + 1) ∧
      forward_khmm_terminate realOps (khmm_forward realOps tm consensus state).1 tm
          ((khmm_forward realOps tm consensus state).1.n_rows - 1)
        = get (khmm_forward realOps tm consensus state).1 (n_events_of state)
            (consensus.length - K + 1) ∧
      score_khmm_model realOps consensus state .AP_GLOBAL
        = some (get (khmm_forward realOps tm consensus state).1 (n_events_of state)
            (consensus.length - K + 1)) := by
  have hgen : ∀ (R : Type) (D : DoubleOps R) (fm tm : Matrix R) (sequence : List Char)
      (st : HMMConsReadState R) (e_start : Nat),
      (fill_forward_khmm D fm tm sequence st e_start).2
        = forward_khmm_terminate D (fill_forward_khmm D fm tm sequence st e_start).1 tm
            ((fill_forward_khmm D fm tm sequence st e_start).1.n_rows - 1) := by
    intro R D fm tm sequence st e_start
    have hd := fill_forward_khmm_dims D fm.n_rows fm.n_cols fm tm sequence st e_start ⟨rfl, rfl⟩
    rw [fill_forward_khmm_snd]
    unfold forward_khmm_terminate
    rw [hd.1, hd.2]
  refine ⟨hgen, ?_⟩
  obtain ⟨tm, htm, hrows, hcols, htab⟩ := khmm_tables consensus state hok hwf
  have hterm : forward_khmm_terminate realOps (khmm_forward realOps tm consensus state).1 tm
      ((khmm_forward realOps tm consensus state).1.n_rows - 1)
      = get (khmm_forward realOps tm consensus state).1 (n_events_of state)
          (consensus.length - K + 1) := by
    unfold forward_khmm_terminate
    rw [hrows, hcols]
    exact hmm_terminate htab
  have htot : (khmm_forward realOps tm consensus state).2
      = get (khmm_forward realOps tm consensus state).1 (n_events_of state)
          (consensus.length - K + 1) := by
    rw [← hterm]
    exact hgen _ realOps _ tm consensus state _
  refine ⟨tm, htm, htot, hterm, ?_⟩
  rw [← hterm]
  unfold score_khmm_model
  have htm2 := htm
  unfold khmm_transitions at htm2
  simp only [htm2, Option.map_some']
  rfl

theorem fill_forward_khmm_total_witness :
    ReadStateOk example_state_x ∧
    ∃ tm, khmm_transitions realOps "AAAAA".toList example_state_x = some tm ∧
      (khmm_forward realOps tm "AAAAA".toList example_state_x).2
        = get (khmm_forward realOps tm "AAAAA".toList example_state_x).1 1 1 ∧
      score_khmm_model realOps "AAAAA".toList example_state_x .AP_GLOBAL
        = some (get (khmm_forward realOps tm "AAAAA".toList example_state_x).1 1 1) := by
  obtain ⟨tm, h1, h2, _, h4⟩ := (fill_forward_khmm_total "AAAAA".toList example_state_x
    ⟨by decide, by decide, by decide⟩
    ⟨⟨1, 0, 0, 1, rfl, rfl, rfl, rfl, by norm_num⟩,
      fun _ => ⟨0, 1 / 10, rfl, rfl, by norm_num⟩,
      fun _ => ⟨0, 0, rfl, rfl⟩,
      ⟨1 / 2, rfl, by norm_num, by norm_num⟩,
      fun _ _ => ⟨1 / 2, rfl, by norm_num, by norm_num⟩⟩).2
  exact ⟨⟨by decide, by decide, by decide⟩, tm, h1, h2, h4⟩

theorem hmm_backward_log {Nk E : Nat} {tm f b : Matrix XReal} {em : Nat → Nat → ℝ}
    (h : HmmTables Nk E tm f b em) :
    ∀ j, j < E →
      (∀ c, c ≤ Nk + 1 → XReal.IsLog (get b (E - j) c)) ∧
      (1 ≤ j → ∀ sk, 1 ≤ sk → sk ≤ Nk →
        XReal.prob (get b (E - j) sk) =
          Finset.sum (Finset.range (Nk + 1))
            (fun sl => Real.exp (em (E - j + 1) sl) * XReal.prob (get tm sk sl)
              * XReal.prob (get b (E - j + 1) sl))) := by
  intro j
  induction j with
  | zero =>
    intro _
    refine ⟨?_, fun h0 => absurd h0 (by omega)⟩
    intro c hc
    rw [Nat.sub_zero, h.b_last c (by omega)]
    exact h.tm_log c (Nk + 1) (by omega) (by omega)
  | succ j ih =>
    intro hj
    obtain ⟨hlog, _⟩ := ih (by omega)
    have hrow : E - (j + 1) + 1 = E - j := by omega
    have hcell : ∀ sk, 1 ≤ sk → sk ≤ Nk →
        XReal.IsLog (get b (E - (j + 1)) sk) ∧
        XReal.prob (get b (E - (j + 1)) sk) =
          Finset.sum (Finset.range (Nk + 1))
            (fun sl => Real.exp (em (E - j) sl) * XReal.prob (get tm sk sl)
              * XReal.prob (get b (E - j) sl)) := by
      intro sk hs1 hs2
      rw [h.b_rec (E - (j + 1)) sk (by omega) (by omega) hs1 hs2, hrow]
      have hterm : ∀ sl ∈ loop_range 1 (Nk + 1),
          XReal.IsLog (XReal.add (XReal.add (XReal.fin (em (E - j) sl)) (get tm sk sl))
            (get b (E - j) sl)) ∧
          XReal.prob (XReal.add (XReal.add (XReal.fin (em (E - j) sl)) (get tm sk sl))
            (get b (E - j) sl))
            = Real.exp (em (E - j) sl) * XReal.prob (get tm sk sl)
              * XReal.prob (get b (E - j) sl) := by
        intro sl hsl
        rw [mem_loop_range] at hsl
        obtain ⟨a1, a2⟩ := add_isLog (XReal.fin (em (E - j) sl)) (get tm sk sl) trivial
          (h.tm_log sk sl (by omega) (by omega))
        obtain ⟨a3, a4⟩ := add_isLog _ (get b (E - j) sl) a1 (hlog sl (by omega))
        refine ⟨a3, ?_⟩
        rw [a4, a2]
        rfl
      obtain ⟨h1, h2⟩ := add_logs_fold_isLog
        (fun sl => XReal.add (XReal.add (XReal.fin (em (E - j) sl)) (get tm sk sl))
          (get b (E - j) sl)) (loop_range 1 (Nk + 1)) (fun sl hsl => (hterm sl hsl).1)
        XReal.ninf trivial
      refine ⟨h1, ?_⟩
      rw [h2]
      have hmap : (loop_range 1 (Nk + 1)).map
            (fun sl => XReal.prob (XReal.add (XReal.add (XReal.fin (em (E - j) sl))
              (get tm sk sl)) (get b (E - j) sl)))
          = (loop_range 1 (Nk + 1)).map
            (fun sl => Real.exp (em (E - j) sl) * XReal.prob (get tm sk sl)
              * XReal.prob (get b (E - j) sl)) := by
        apply List.map_congr_left
        intro sl hsl
        exact (hterm sl hsl).2
      rw [hmap]
      have hz : XReal.prob XReal.ninf = 0 := rfl
      rw [hz, zero_add]
      apply list_sum_eq_range_sum _ (Nk + 1) (loop_range 1 (Nk + 1)) (List.nodup_range' _ _)
      · intro c hc
        rw [mem_loop_range] at hc
        omega
      · intro c hc hnc
        rw [mem_loop_range] at hnc
        have hc0 : c = 0 := by omega
        rw [hc0, (hmm_tm_zero h sk 0 (by omega) (by omega) (fun e => by omega)
          (fun e => by omega) (fun e => by omega)).2, mul_zero, zero_mul]
    constructor
    · intro c hc
      by_cases e0 : c = 0
      · rw [e0, h.b_left (E - (j + 1)) (by omega)]; trivial
      · by_cases e1 : c = Nk + 1
        · rw [e1, h.b_right (E - (j + 1)) (by omega)]; trivial
        · exact (hcell c (by omega) (by omega)).1
    · intro _ sk hs1 hs2
      rw [hrow]
      exact (hcell sk hs1 hs2).2

theorem hmm_backward_isLog {Nk E : Nat} {tm f b : Matrix XReal} {em : Nat → Nat → ℝ}
    (h : HmmTables Nk E tm f b em) (r c : Nat) (hr1 : 1 ≤ r) (hr2 : r ≤ E)
    (hc : c ≤ Nk + 1) : XReal.IsLog (get b r c) := by
  have := (hmm_backward_log h (E - r) (by omega)).1 c hc
  rw [show E - (E - r) = r by omega] at this
  exact this

theorem hmm_backward_prob {Nk E : Nat} {tm f b : Matrix XReal} {em : Nat → Nat → ℝ}
    (h : HmmTables Nk E tm f b em) (r sk : Nat) (hr1 : 1 ≤ r) (hr2 : r < E)
    (hs1 : 1 ≤ sk) (hs2 : sk ≤ Nk) :
    XReal.prob (get b r sk) =
      Finset.sum (Finset.range (Nk + 1))
        (fun sl => Real.exp (em (r + 1) sl) * XReal.prob (get tm sk sl)
          * XReal.prob (get b (r + 1) sl)) := by
  have := (hmm_backward_log h (E - r) (by omega)).2 (by omega) sk hs1 hs2
  rw [show E - (E - r) = r by omega] at this
  exact this

theorem khmm_tables_total (consensus : List Char) (state : HMMConsReadState XReal)
    (hok : ReadStateOk state) (hwf : WellFormedInput state) :
    ∃ tm, khmm_transitions realOps consensus state = some tm ∧
      (khmm_forward realOps tm consensus state).1.n_rows = n_events_of state + 1 ∧
      (khmm_forward realOps tm consensus state).1.n_cols = consensus.length - K + 1 + 2 ∧
      HmmTables (consensus.length - K + 1) (n_events_of state) tm
        (khmm_forward realOps tm consensus state).1 (khmm_backward realOps tm consensus state)
        (emission consensus state) ∧
      (khmm_forward realOps tm consensus state).2
        = get (khmm_forward realOps tm consensus state).1 (n_events_of state)
            (consensus.length - K + 1) := by
  obtain ⟨tm, htm, hrows, hcols, htab⟩ := khmm_tables consensus state hok hwf
  refine ⟨tm, htm, hrows, hcols, htab, ?_⟩
  have hdi := initialize_forward_khmm_dims realOps (u32 (n_events_of state + 1))
    (consensus.length - K + 1 + 2)
    (allocate_matrix (realOps.lit 0) (u32 (n_events_of state + 1))
      (consensus.length - K + 1 + 2)) ⟨rfl, rfl⟩
  have hd := khmm_forward_dims realOps tm consensus state
  have hnr : u32 (n_events_of state + 1) = n_events_of state + 1 := by
    rw [← hd.1, hrows]
  have hfwd : khmm_forward realOps tm consensus state
      = fill_forward_khmm realOps (initialize_forward_khmm realOps
          (allocate_matrix (realOps.lit 0) (u32 (n_events_of state + 1))
            (consensus.length - K + 1 + 2))) tm consensus state state.event_start_idx := rfl
  have h2 : (khmm_forward realOps tm consensus state).2
      = (List.range (consensus.length - K + 1 + 1)).foldl
          (fun sum sk => add_logs realOps sum (realOps.add
            (get tm sk (consensus.length - K + 1 + 1))
            (get (khmm_forward realOps tm consensus state).1 (n_events_of state) sk)))
          realOps.neg_inf := by
    rw [hfwd, fill_forward_khmm_snd, hdi.1, hdi.2, hnr]
    rfl
  rw [h2]
  exact hmm_terminate htab

theorem scan_fold_live (lp : Nat → XReal) (Live : Nat → Prop) :
    ∀ (l : List Nat) (acc : XReal × Nat),
      (∀ si ∈ l, (Live si ∧ ∃ v : ℝ, lp si = XReal.fin v) ∨ (¬ Live si ∧ lp si = XReal.ninf)) →
      (l.foldl (fun (best : XReal × Nat) si =>
          if realOps.lt best.1 (lp si) then (lp si, si) else best) acc = acc ∨
        ((l.foldl (fun (best : XReal × Nat) si =>
            if realOps.lt best.1 (lp si) then (lp si, si) else best) acc).2 ∈ l ∧
          Live (l.foldl (fun (best : XReal × Nat) si =>
            if realOps.lt best.1 (lp si) then (lp si, si) else best) acc).2)) ∧
      (acc.1 = XReal.ninf → (∃ si ∈ l, Live si) →
        (l.foldl (fun (best : XReal × Nat) si =>
            if realOps.lt best.1 (lp si) then (lp si, si) else best) acc).2 ∈ l ∧
          Live (l.foldl (fun (best : XReal × Nat) si =>
            if realOps.lt best.1 (lp si) then (lp si, si) else best) acc).2) := by
  intro l
  induction l with
  | nil =>
    intro acc _
    exact ⟨Or.inl rfl, fun _ h => by obtain ⟨si, hsi, _⟩ := h; simp at hsi⟩
  | cons x t ih =>
    intro acc hl
    rw [List.foldl_cons]
    have ht : ∀ si ∈ t, (Live si ∧ ∃ v : ℝ, lp si = XReal.fin v) ∨
        (¬ Live si ∧ lp si = XReal.ninf) := fun si hsi => hl si (List.mem_cons_of_mem _ hsi)
    have hstep : (if realOps.lt acc.1 (lp x) then (lp x, x) else acc) = acc ∨
        ((if realOps.lt acc.1 (lp x) then (lp x, x) else acc) = (lp x, x) ∧ Live x) := by
      rcases hl x (List.mem_cons_self _ _) with ⟨hlive, _⟩ | ⟨_, hninf⟩
      · by_cases hlt : realOps.lt acc.1 (lp x) = true
        · rw [if_pos hlt]; exact Or.inr ⟨rfl, hlive⟩
        · rw [if_neg hlt]; exact Or.inl rfl
      · have hlt : realOps.lt acc.1 (lp x) = false := by
          rw [hninf]
          show XReal.lt acc.1 XReal.ninf = false
          cases acc.1 <;> rfl
        rw [hlt]
        exact Or.inl rfl
    constructor
    · rcases hstep with e | ⟨e, hlive⟩
      · rw [e]
        rcases (ih acc ht).1 with e2 | ⟨h1, h2⟩
        · exact Or.inl e2
        · exact Or.inr ⟨List.mem_cons_of_mem _ h1, h2⟩
      · rw [e]
        rcases (ih (lp x, x) ht).1 with e2 | ⟨h1, h2⟩
        · rw [e2]
          exact Or.inr ⟨List.mem_cons_self _ _, hlive⟩
        · exact Or.inr ⟨List.mem_cons_of_mem _ h1, h2⟩
    · intro hacc hex
      rcases hl x (List.mem_cons_self _ _) with ⟨hlive, v, hv⟩ | ⟨hnl, _⟩
      · have hlt : realOps.lt acc.1 (lp x) = true := by
          rw [hacc, hv]
          rfl
        rw [if_pos hlt]
        rcases (ih (lp x, x) ht).1 with e2 | ⟨h1, h2⟩
        · rw [e2]
          exact ⟨List.mem_cons_self _ _, hlive⟩
        · exact ⟨List.mem_cons_of_mem _ h1, h2⟩
      · rcases hstep with e | ⟨_, hlive⟩
        · rw [e]
          obtain ⟨si, hsi, hlive⟩ := hex
          rcases List.mem_cons.mp hsi with rfl | hsi
          · exact absurd hlive hnl
          · obtain ⟨h1, h2⟩ := (ih acc ht).2 hacc ⟨si, hsi, hlive⟩
            exact ⟨List.mem_cons_of_mem _ h1, h2⟩
        · exact absurd hlive hnl

theorem posterior_cases (x y : XReal) (L : ℝ) (hx : XReal.IsLog x) (hy : XReal.IsLog y) :
    ((∃ a c : ℝ, x = XReal.fin a ∧ y = XReal.fin c) ∧
      ∃ v : ℝ, realOps.sub (realOps.add x y) (XReal.fin L) = XReal.fin v) ∨
    (¬ (∃ a c : ℝ, x = XReal.fin a ∧ y = XReal.fin c) ∧
      realOps.sub (realOps.add x y) (XReal.fin L) = XReal.ninf) := by
  rcases isLog_cases x hx with rfl | ⟨a, rfl⟩ <;> rcases isLog_cases y hy with rfl | ⟨c, rfl⟩
  · exact Or.inr ⟨fun ⟨a, c, h, _⟩ => (by cases h), rfl⟩
  · exact Or.inr ⟨fun ⟨a, c, h, _⟩ => (by cases h), rfl⟩
  · exact Or.inr ⟨fun ⟨a, c, _, h⟩ => (by cases h), rfl⟩
  · exact Or.inl ⟨⟨a, c, rfl, rfl⟩, a + c + -L, rfl⟩

/-- A cell of an event row that lies on a path of positive probability: an interior state whose
forward and backward values are real numbers. -/
theorem hmm_live_step {Nk E : Nat} {tm f b : Matrix XReal} {em : Nat → Nat → ℝ}
    (h : HmmTables Nk E tm f b em) (r c : Nat) (hr1 : 1 ≤ r) (hr2 : r + 1 ≤ E)
    (hc1 : 1 ≤ c) (hc2 : c ≤ Nk)
    (hf : ∃ x : ℝ, get f (r + 1) c = XReal.fin x) (hb : ∃ y : ℝ, get b (r + 1) c = XReal.fin y) :
    ∃ s, 1 ≤ s ∧ c ≤ s + 5 ∧ s ≤ c ∧
      (∃ x : ℝ, get f r s = XReal.fin x) ∧ ∃ y : ℝ, get b r s = XReal.fin y := by
  obtain ⟨x, hx⟩ := hf
  obtain ⟨y, hy⟩ := hb
  have hF := (hmm_forward_log h (r + 1) hr2).2 (by omega) c hc1 hc2
  rw [hx, Nat.add_sub_cancel] at hF
  have hpos : 0 < Finset.sum (Finset.range (Nk + 1))
      (fun sk => XReal.prob (get tm sk c) * XReal.prob (get f r sk)) := by
    by_contra hn
    have h0 : Finset.sum (Finset.range (Nk + 1))
        (fun sk => XReal.prob (get tm sk c) * XReal.prob (get f r sk)) = 0 :=
      le_antisymm (not_lt.mp hn)
        (Finset.sum_nonneg (fun sk _ => mul_nonneg (prob_nonneg _) (prob_nonneg _)))
    rw [h0, mul_zero] at hF
    exact absurd hF (ne_of_gt (prob_fin_pos x))
  obtain ⟨s, hs, hsp⟩ := Finset.exists_lt_of_sum_lt (f := fun _ => (0 : ℝ))
    (g := fun sk => XReal.prob (get tm sk c) * XReal.prob (get f r sk))
    (s := Finset.range (Nk + 1)) (by rw [Finset.sum_const_zero]; exact hpos)
  rw [Finset.mem_range] at hs
  have hT : 0 < XReal.prob (get tm s c) := by
    by_contra hn
    have : XReal.prob (get tm s c) = 0 := le_antisymm (not_lt.mp hn) (prob_nonneg _)
    rw [this, zero_mul] at hsp
    exact lt_irrefl _ hsp
  have hFs : 0 < XReal.prob (get f r s) := by
    by_contra hn
    have : XReal.prob (get f r s) = 0 := le_antisymm (not_lt.mp hn) (prob_nonneg _)
    rw [this, mul_zero] at hsp
    exact lt_irrefl _ hsp
  have hs0 : s ≠ 0 := by
    intro e
    rw [e, h.f_left r hr1 (by omega)] at hFs
    exact lt_irrefl _ hFs
  have hband : 1 ≤ s ∧ s ≤ c ∧ c ≤ s + 5 ∧ c ≤ Nk := by
    by_contra hn
    have := (hmm_tm_zero h s c (by omega) (by omega) hn (fun e => by omega)
      (fun e => hs0 e.1)).2
    rw [this] at hT
    exact lt_irrefl _ hT
  refine ⟨s, hband.1, hband.2.2.1, hband.2.1,
    fin_of_prob_pos _ ((hmm_forward_log h r (by omega)).1 s (by omega)) hFs, ?_⟩
  apply fin_of_prob_pos _ (hmm_backward_isLog h r s hr1 (by omega) (by omega))
  rw [hmm_backward_prob h r s hr1 (by omega) hband.1 (by omega)]
  have hterm : 0 < Real.exp (em (r + 1) c) * XReal.prob (get tm s c)
      * XReal.prob (get b (r + 1) c) := by
    rw [hy]
    exact mul_pos (mul_pos (Real.exp_pos _) hT) (prob_fin_pos y)
  exact lt_of_lt_of_le hterm (Finset.single_le_sum
    (f := fun sl => Real.exp (em (r + 1) sl) * XReal.prob (get tm s sl)
      * XReal.prob (get b (r + 1) sl))
    (fun i _ => mul_nonneg (mul_nonneg (le_of_lt (Real.exp_pos _)) (prob_nonneg _))
      (prob_nonneg _)) (Finset.mem_range.mpr (by omega)))

theorem hmm_live_top {Nk E : Nat} {tm f b : Matrix XReal} {em : Nat → Nat → ℝ}
    (h : HmmTables Nk E tm f b em) (s : Nat) (hs : s ≤ Nk + 1)
    (hb : ∃ y : ℝ, get b E s = XReal.fin y) : s = Nk := by
  have hNk := h.hNk
  by_contra hne
  obtain ⟨y, hy⟩ := hb
  rw [h.b_last s (by omega), (hmm_tm_zero h s (Nk + 1) (by omega) (by omega)
    (fun e => by omega) (fun e => hne e.1) (fun e => by omega)).1] at hy
  cases hy

theorem hmm_live_bottom {Nk E : Nat} {tm f b : Matrix XReal} {em : Nat → Nat → ℝ}
    (h : HmmTables Nk E tm f b em) (s : Nat) (hs1 : 1 ≤ s) (hs2 : s ≤ Nk)
    (hf : ∃ x : ℝ, get f 1 s = XReal.fin x) : s = 1 := by
  have hE := h.hE
  by_contra hne
  obtain ⟨x, hx⟩ := hf
  have hF := (hmm_forward_log h 1 hE).2 (le_refl _) s hs1 hs2
  rw [hx] at hF
  have h0 : Finset.sum (Finset.range (Nk + 1))
      (fun sk => XReal.prob (get tm sk s) * XReal.prob (get f (1 - 1) sk)) = 0 := by
    apply Finset.sum_eq_zero
    intro sk hsk
    rw [Finset.mem_range] at hsk
    by_cases e : sk = 0
    · rw [e, (hmm_tm_zero h 0 s (by omega) (by omega) (fun e => by omega)
        (fun e => by omega) (fun e => hne e.2)).2, zero_mul]
    · rw [h.f_top sk (by omega) (by omega)]
      show _ * (0 : ℝ) = 0
      rw [mul_zero]
  rw [h0, mul_zero] at hF
  exact absurd hF (ne_of_gt (prob_fin_pos x))

theorem hmm_scan {Nk E : Nat} {tm f b : Matrix XReal} {em : Nat → Nat → ℝ}
    (h : HmmTables Nk E tm f b em) (L : ℝ) (r col : Nat) (hr1 : 1 ≤ r) (hr2 : r ≤ E)
    (hcol : col ≤ Nk ∨ (r = E ∧ col = Nk + 1))
    (hex : ∃ s, (if col ≥ 5 then col - 5 else 1) ≤ s ∧ s ≤ col ∧ 1 ≤ s ∧ s ≤ Nk ∧
      (∃ x : ℝ, get f r s = XReal.fin x) ∧ ∃ y : ℝ, get b r s = XReal.fin y) :
    (if col ≥ 5 then col - 5 else 1) ≤ (posterior_scan realOps f b (XReal.fin L) r col).2 ∧
    (posterior_scan realOps f b (XReal.fin L) r col).2 ≤ col ∧
    1 ≤ (posterior_scan realOps f b (XReal.fin L) r col).2 ∧
    (posterior_scan realOps f b (XReal.fin L) r col).2 ≤ Nk ∧
    (∃ x : ℝ, get f r (posterior_scan realOps f b (XReal.fin L) r col).2 = XReal.fin x) ∧
    ∃ y : ℝ, get b r (posterior_scan realOps f b (XReal.fin L) r col).2 = XReal.fin y := by
  have hNk := h.hNk
  have hscan : posterior_scan realOps f b (XReal.fin L) r col
      = (loop_range (if col ≥ 5 then col - 5 else 1) (col + 1)).foldl
          (fun (best : XReal × Nat) si =>
            if realOps.lt best.1
              (realOps.sub (realOps.add (get f r si) (get b r si)) (XReal.fin L))
            then (realOps.sub (realOps.add (get f r si) (get b r si)) (XReal.fin L), si)
            else best) (XReal.ninf, 0) := rfl
  rw [hscan]
  have hpre : ∀ si ∈ loop_range (if col ≥ 5 then col - 5 else 1) (col + 1),
      ((1 ≤ si ∧ si ≤ Nk ∧ (∃ x : ℝ, get f r si = XReal.fin x) ∧
          ∃ y : ℝ, get b r si = XReal.fin y) ∧
        ∃ v : ℝ, realOps.sub (realOps.add (get f r si) (get b r si)) (XReal.fin L)
          = XReal.fin v) ∨
      (¬ (1 ≤ si ∧ si ≤ Nk ∧ (∃ x : ℝ, get f r si = XReal.fin x) ∧
          ∃ y : ℝ, get b r si = XReal.fin y) ∧
        realOps.sub (realOps.add (get f r si) (get b r si)) (XReal.fin L) = XReal.ninf) := by
    intro si hsi
    rw [mem_loop_range] at hsi
    have hsi2 : si ≤ Nk + 1 := by omega
    rcases posterior_cases (get f r si) (get b r si) L
      ((hmm_forward_log h r hr2).1 si hsi2) (hmm_backward_isLog h r si hr1 hr2 hsi2)
      with ⟨⟨a, c, ha, hc⟩, hv⟩ | ⟨hn, hv⟩
    · left
      refine ⟨⟨?_, ?_, ⟨a, ha⟩, ⟨c, hc⟩⟩, hv⟩
      · by_contra h0
        have e : si = 0 := by omega
        rw [e, h.f_left r hr1 hr2] at ha
        cases ha
      · by_contra h1
        have e : si = Nk + 1 := by omega
        have hrE : r = E := by
          rcases hcol with hc1 | hc1
          · omega
          · exact hc1.1
        rw [e, hrE, h.b_last (Nk + 1) (by omega), (hmm_tm_zero h (Nk + 1) (Nk + 1) (by omega)
          (by omega) (fun e => by omega) (fun e => by omega) (fun e => by omega)).1] at hc
        cases hc
    · right
      exact ⟨fun hl => hn (by
        obtain ⟨_, _, ⟨x, hx⟩, ⟨y, hy⟩⟩ := hl
        exact ⟨x, y, hx, hy⟩), hv⟩
  obtain ⟨s, hs1, hs2, hs3, hs4, hs5, hs6⟩ := hex
  obtain ⟨hmem, hlive⟩ := (scan_fold_live
    (fun si => realOps.sub (realOps.add (get f r si) (get b r si)) (XReal.fin L))
    (fun si => 1 ≤ si ∧ si ≤ Nk ∧ (∃ x : ℝ, get f r si = XReal.fin x) ∧
      ∃ y : ℝ, get b r si = XReal.fin y)
    (loop_range (if col ≥ 5 then col - 5 else 1) (col + 1)) (XReal.ninf, 0) hpre).2 rfl
    ⟨s, (mem_loop_range _ _ _).mpr ⟨hs1, by omega⟩, hs3, hs4, hs5, hs6⟩
  rw [mem_loop_range] at hmem
  exact ⟨hmem.1, by omega, hlive.1, hlive.2.1, hlive.2.2.1, hlive.2.2.2⟩

theorem hmm_walk {Nk E : Nat} {tm f b : Matrix XReal} {em : Nat → Nat → ℝ}
    (h : HmmTables Nk E tm f b em) (L : ℝ) (state : HMMConsReadState XReal) (e_start : Nat)
    (hNk32 : Nk + 1 < 4294967296) :
    ∀ r col, r ≤ E → (col ≤ Nk ∨ (r = E ∧ col = Nk + 1)) →
      (1 ≤ r → ∃ s, (if col ≥ 5 then col - 5 else 1) ≤ s ∧ s ≤ col ∧ 1 ≤ s ∧ s ≤ Nk ∧
        (∃ x : ℝ, get f r s = XReal.fin x) ∧ ∃ y : ℝ, get b r s = XReal.fin y) →
      List.Chain (fun a c : Nat => c ≤ a ∧ a ≤ c + 5) (col - 1)
        ((posterior_decode_walk realOps f b (XReal.fin L) state e_start r col).map
          fun p => p.kmer_idx) ∧
      (1 ≤ r → ((posterior_decode_walk realOps f b (XReal.fin L) state e_start r col).map
        fun p => p.kmer_idx).getLast? = some 0) ∧
      (1 ≤ r → r = E →
        ((posterior_decode_walk realOps f b (XReal.fin L) state e_start r col).map
          fun p => p.kmer_idx).head? = some (Nk - 1)) := by
  intro r
  induction r with
  | zero =>
    intro col _ _ _
    exact ⟨List.Chain.nil, fun h0 => absurd h0 (by omega), fun h0 => absurd h0 (by omega)⟩
  | succ r ih =>
    intro col hr hcol hex
    obtain ⟨m1, m2, m3, m4, m5, m6⟩ := hmm_scan h L (r + 1) col (by omega) hr hcol
      (hex (by omega))
    have hwalk : (posterior_decode_walk realOps f b (XReal.fin L) state e_start (r + 1) col).map
          (fun p => p.kmer_idx)
        = u32 (((posterior_scan realOps f b (XReal.fin L) (r + 1) col).2 : Int) - 1)
          :: (posterior_decode_walk realOps f b (XReal.fin L) state e_start r
              (posterior_scan realOps f b (XReal.fin L) (r + 1) col).2).map
              (fun p => p.kmer_idx) := rfl
    rw [hwalk]
    generalize (posterior_scan realOps f b (XReal.fin L) (r + 1) col).2 = ms at *
    have hu : u32 ((ms : Int) - 1) = ms - 1 := by
      unfold u32
      omega
    rw [hu]
    obtain ⟨i1, i2, _⟩ := ih ms (by omega) (Or.inl m4) (fun hr1 => by
      obtain ⟨s, s1, s2, s3, s4, s5⟩ := hmm_live_step h r ms hr1 hr m3 m4 m5 m6
      exact ⟨s, by split <;> omega, s3, s1, by omega, s4, s5⟩)
    refine ⟨List.Chain.cons ⟨by omega, by split at m1 <;> omega⟩ i1, ?_, ?_⟩
    · intro _
      by_cases hr0 : r = 0
      · subst hr0
        have hms : ms = 1 := hmm_live_bottom h ms m3 m4 m5
        rw [hms]
        rfl
      · have hlast := i2 (by omega)
        have hlen := walk_length realOps f b (XReal.fin L) state e_start r ms
        cases hw : posterior_decode_walk realOps f b (XReal.fin L) state e_start r ms with
        | nil => rw [hw] at hlen; simp only [List.length_nil] at hlen; omega
        | cons p rest =>
          rw [hw] at hlast
          rw [List.map_cons] at hlast ⊢
          rw [List.getLast?_cons_cons]
          exact hlast
    · intro _ hrE
      have hms : ms = Nk := hmm_live_top h ms (by omega) (by rw [← hrE]; exact m6)
      rw [hms]
      rfl

theorem decode_output_kmers {R : Type} (D : DoubleOps R) (tm fm bm : Matrix R) (lf : R)
    (state : HMMConsReadState R) (e_start : Nat) (out : List (PosteriorState R))
    (h : posterior_decode_output D tm fm bm lf state e_start = some out) :
    out.map (fun p => p.kmer_idx)
      = ((posterior_decode_walk D fm bm lf state e_start (fm.n_rows - 1)
          (fm.n_cols - 1)).map fun p => p.kmer_idx).reverse := by
  unfold posterior_decode_output at h
  simp only at h
  have hlt := walk_kmer_idx_lt D fm bm lf state e_start (fm.n_rows - 1) (fm.n_cols - 1)
  split at h
  · exact absurd h (by simp)
  · rename_i first rest hout
    obtain ⟨l, hl, rfl⟩ := Option.map_eq_some'.mp h
    have hrest : ∀ q ∈ rest, q.kmer_idx < 4294967296 := by
      intro q hq
      apply hlt q
      rw [← List.mem_reverse, hout]
      exact List.mem_cons_of_mem _ hq
    obtain ⟨_, _, hk⟩ := posterior_label_spec tm rest
      { first with
          state := 'M'
          log_transition_probability := get tm 0 (u32 ((first.kmer_idx : Int) + 1)) } l hrest hl
    rw [← List.map_reverse, hout]
    simp only [List.map_cons, hk]

/-- C37: under exact arithmetic, for a well-formed input (a sequence of at least 5 and fewer than
`2^32` bases) whose total forward log-likelihood is finite, the list of `posterior_decode_khmm`
has exactly `|stop - start| + 1` entries, its first entry is on the k-mer 0, its last entry on
the k-mer `n_kmers - 1`, and from each entry to the next the k-mer index never decreases and
increases by at most 5. -/
theorem posterior_decode_path (consensus : List Char) (state : HMMConsReadState XReal)
    (hok : ReadStateOk state) (hwf : WellFormedInput state) (_h5 : 5 ≤ consensus.length)
    (hlen : consensus.length < 4294967296)
    (hfin : ∃ tm L, khmm_transitions realOps consensus state = some tm ∧
      (khmm_forward realOps tm consensus state).2 = XReal.fin L) :
    ∃ out, posterior_decode_khmm realOps consensus state = some out ∧
      (out.length : Int) = |(state.event_stop_idx : Int) - state.event_start_idx| + 1 ∧
      (out.head?).map (fun p => p.kmer_idx) = some 0 ∧
      (out.getLast?).map (fun p => p.kmer_idx) = some (consensus.length - K + 1 - 1) ∧
      List.Chain' (fun p q : PosteriorState XReal =>
        p.kmer_idx ≤ q.kmer_idx ∧ q.kmer_idx ≤ p.kmer_idx + 5) out := by
  obtain ⟨tm, htm, hrows, hcols, htab, htot⟩ := khmm_tables_total consensus state hok hwf
  obtain ⟨tm0, L, htm0, hL⟩ := hfin
  rw [htm] at htm0
  simp only [Option.some.injEq] at htm0
  subst htm0
  have hdec := posterior_decode_khmm_eq realOps consensus state tm htm
  have hsome := decode_output_isSome realOps tm (khmm_forward realOps tm consensus state).1
    (khmm_backward realOps tm consensus state) (khmm_forward realOps tm consensus state).2 state
    hok hrows
  obtain ⟨out, hout⟩ := Option.isSome_iff_exists.mp hsome
  have hk := decode_output_kmers realOps tm _ _ _ state _ out hout
  rw [hrows, hcols, hL] at hk
  have ecol : consensus.length - K + 1 + 2 - 1 = consensus.length - K + 1 + 1 := by omega
  rw [ecol] at hk
  simp only [Nat.add_sub_cancel] at hk
  have hfL : get (khmm_forward realOps tm consensus state).1 (n_events_of state)
      (consensus.length - K + 1) = XReal.fin L := by rw [← htot, hL]
  have hwl := walk_length realOps (khmm_forward realOps tm consensus state).1
    (khmm_backward realOps tm consensus state) (XReal.fin L) state state.event_start_idx
    (n_events_of state) (consensus.length - K + 1 + 1)
  have hNk := htab.hNk
  have hE := htab.hE
  obtain ⟨w1, w2, w3⟩ := hmm_walk htab L state state.event_start_idx (by
      simp only [K]; omega) (n_events_of state) (consensus.length - K + 1 + 1) (le_refl _)
    (Or.inr ⟨rfl, rfl⟩) (fun _ => ⟨consensus.length - K + 1, by split <;> omega, by omega,
      hNk, le_refl _, ⟨L, hfL⟩, ⟨0, by
        rw [htab.b_last _ (by omega), htab.tm_band _ _ (by omega) (by omega)
          (fun e => by omega), if_pos (Or.inl ⟨rfl, rfl⟩)]⟩⟩)
  have w2 := w2 hE
  have w3 := w3 hE rfl
  have hlenks : ((posterior_decode_walk realOps (khmm_forward realOps tm consensus state).1
      (khmm_backward realOps tm consensus state) (XReal.fin L) state state.event_start_idx
      (n_events_of state) (consensus.length - K + 1 + 1)).map (fun p => p.kmer_idx)).length
      = n_events_of state := by rw [List.length_map, hwl]
  generalize (posterior_decode_walk realOps (khmm_forward realOps tm consensus state).1
    (khmm_backward realOps tm consensus state) (XReal.fin L) state state.event_start_idx
    (n_events_of state) (consensus.length - K + 1 + 1)).map (fun p => p.kmer_idx) = ks
    at hk w1 w2 w3 hlenks
  refine ⟨out, by rw [hdec]; exact hout, ?_, ?_, ?_, ?_⟩
  · have h1 : out.length = n_events_of state := by
      have := congrArg List.length hk
      rw [List.length_map, List.length_reverse, hlenks] at this
      exact this
    rw [h1]
    exact (n_events_of_ok state hok).1
  · rw [← List.head?_map, hk, List.head?_reverse]
    exact w2
  · rw [← List.getLast?_map, hk, List.getLast?_reverse]
    simp only [Nat.add_sub_cancel] at w3
    rw [w3]
    simp only [Nat.add_sub_cancel]
  · have hc : List.Chain' (fun a c : Nat => c ≤ a ∧ a ≤ c + 5) ks := by
      have : List.Chain' (fun a c : Nat => c ≤ a ∧ a ≤ c + 5)
          ((consensus.length - K + 1 + 1 - 1) :: ks) := w1
      exact this.tail
    have hr : List.Chain' (fun a c : Nat => a ≤ c ∧ c ≤ a + 5) ks.reverse := by
      rw [List.chain'_reverse]
      exact hc
    rw [← hk, List.chain'_map] at hr
    exact hr

theorem example_wf_x2 : WellFormedInput example_state_x2 :=
  ⟨⟨1, 0, 0, 1, rfl, rfl, rfl, rfl, by norm_num⟩,
    fun _ => ⟨0, 1 / 10, rfl, rfl, by norm_num⟩,
    fun _ => ⟨0, 0, rfl, rfl⟩,
    ⟨1 / 2, rfl, by norm_num, by norm_num⟩,
    fun _ _ => ⟨1 / 2, rfl, by norm_num, by norm_num⟩⟩

theorem example_total_x2 :
    ∃ tm L, khmm_transitions realOps "AAAAA".toList example_state_x2 = some tm ∧
      (khmm_forward realOps tm "AAAAA".toList example_state_x2).2 = XReal.fin L := by
  obtain ⟨tm, htm, _, _, htab, htot⟩ := khmm_tables_total "AAAAA".toList example_state_x2
    ⟨by decide, by decide, by decide⟩ example_wf_x2
  have hNk : "AAAAA".toList.length - K + 1 = 1 := by decide
  have hE : n_events_of example_state_x2 = 2 := by decide
  have h11 : (khmm_transitions realOps "AAAAA".toList example_state_x2).map
      (fun tm => get tm 1 1) = some (XReal.log (XReal.fin (1 / 2))) := rfl
  rw [htm, Option.map_some', Option.some.injEq, xlog_fin_pos _ (by norm_num)] at h11
  rw [hNk, hE] at htab htot
  generalize (khmm_forward realOps tm "AAAAA".toList example_state_x2).1 = f at htab htot
  have hT01 : get tm 0 1 = XReal.fin 0 := by
    rw [htab.tm_band 0 1 (by omega) (by omega) (fun e => by omega), if_pos (Or.inr ⟨rfl, rfl⟩)]
  have hF1 : 0 < XReal.prob (get f 1 1) := by
    rw [(hmm_forward_log htab 1 (by omega)).2 (le_refl _) 1 (le_refl _) (le_refl _)]
    apply mul_pos (Real.exp_pos _)
    refine lt_of_lt_of_le ?_ (Finset.single_le_sum
      (f := fun sk => XReal.prob (get tm sk 1) * XReal.prob (get f (1 - 1) sk))
      (fun i _ => mul_nonneg (prob_nonneg _) (prob_nonneg _))
      (Finset.mem_range.mpr (show 0 < 1 + 1 by omega)))
    show 0 < XReal.prob (get tm 0 1) * XReal.prob (get f 0 0)
    rw [hT01, htab.f_start]
    exact mul_pos (prob_fin_pos 0) (prob_fin_pos 0)
  have hF2 : 0 < XReal.prob (get f 2 1) := by
    rw [(hmm_forward_log htab 2 (le_refl _)).2 (by omega) 1 (le_refl _) (le_refl _)]
    apply mul_pos (Real.exp_pos _)
    refine lt_of_lt_of_le ?_ (Finset.single_le_sum
      (f := fun sk => XReal.prob (get tm sk 1) * XReal.prob (get f (2 - 1) sk))
      (fun i _ => mul_nonneg (prob_nonneg _) (prob_nonneg _))
      (Finset.mem_range.mpr (show 1 < 1 + 1 by omega)))
    show 0 < XReal.prob (get tm 1 1) * XReal.prob (get f 1 1)
    rw [h11]
    exact mul_pos (prob_fin_pos _) hF1
  obtain ⟨L, hLf⟩ := fin_of_prob_pos _ ((hmm_forward_log htab 2 (le_refl _)).1 1 (by omega)) hF2
  exact ⟨tm, L, htm, by rw [htot, hLf]⟩

theorem posterior_decode_path_witness :
    ReadStateOk example_state_x2 ∧
    ∃ out, posterior_decode_khmm realOps "AAAAA".toList example_state_x2 = some out ∧
      (out.length : Int) = 2 ∧
      (out.head?).map (fun p => p.kmer_idx) = some 0 ∧
      (out.getLast?).map (fun p => p.kmer_idx) = some 0 := by
  obtain ⟨out, h1, h2, h3, h4, _⟩ := posterior_decode_path "AAAAA".toList example_state_x2
    ⟨by decide, by decide, by decide⟩ example_wf_x2 (by decide) (by decide) example_total_x2
  exact ⟨⟨by decide, by decide, by decide⟩, out, h1, h2, h3, h4⟩

end Hmmcons
